import Mathlib

/-!
# BadgerDB B+ tree index (`src/btree.cpp`)

A shallow embedding of `badgerdb::BTreeIndex`.

* Node arrays (`keyArray`, `ridArray`, `pageNoArray`) are functions from the
  index to the element; their sizes are the index's `leafOccupancy` and
  `nodeOccupancy` (`nodeOccupancy + 1` for `pageNoArray`).  Every access whose
  index is not bounded by the surrounding loop is checked against the size and
  yields `Exn.outOfBounds` when it falls outside.
* A `Page*` is the number of the page it points to; the buffer pool never
  evicts, so a pointer read gives the current contents of that page.  Pages are
  typed by the node that was last written through a cast; a freshly allocated
  page is zero-filled and casts to the all-zero node of any type.
* C++ exceptions and the behaviours the embedding does not follow (out of
  bounds accesses, casts between node types, descents that never end) are the
  constructors of `Exn`; an operation returns its outcome together with the
  state it leaves behind.
* `int` keys are integers: keys are only copied and compared.  `double` keys
  are the rationals with the two infinities and NaN, under the comparisons of
  the C++ operators.
* String keys are the byte strings of their buffers.  The one comparison of two
  `char*` by address (line 827) takes its outcome from the member `addrLess` of
  the state, of which nothing is assumed.
-/

namespace badgerdb

/-- The attribute types of `btree.h`. -/
inductive Datatype
  | INTEGER
  | DOUBLE
  | STRING
deriving DecidableEq

/-- The scan operators of `btree.h`. -/
inductive Operator
  | LT
  | LTE
  | GTE
  | GT
deriving DecidableEq

/-- Record identifier: `page_number == 0` marks an empty leaf slot. -/
structure RecordId where
  page_number : Nat
  slot_number : Nat
deriving DecidableEq

/-- Outcomes other than a normal return: the exceptions thrown by `btree.cpp`
and by its collaborators, followed by the behaviours outside the embedding. -/
inductive Exn
  | BadOpcodes
  | BadScanrange
  | ScanNotInitialized
  | IndexScanCompleted
  | PageNotPinned
  | InvalidPage
  | outOfBounds
  | badCast
  | danglingPointer
  | nonTermination
deriving DecidableEq

deriving instance DecidableEq for Except

/-- `RIDKeyPair<T>`. -/
structure RIDKeyPair (K : Type) where
  rid : RecordId
  key : K

/-- `PageKeyPair<T>`. -/
structure PageKeyPair (K : Type) where
  pageNo : Nat
  key : K

/-- `LeafNodeInt`, `LeafNodeDouble`, `LeafNodeString`. -/
structure LeafNode (K : Type) where
  keyArray : Nat → K
  ridArray : Nat → RecordId
  rightSibPageNo : Nat

/-- `NonLeafNodeInt`, `NonLeafNodeDouble`, `NonLeafNodeString`. -/
structure NonLeafNode (K : Type) where
  level : Int
  keyArray : Nat → K
  pageNoArray : Nat → Nat

/-- `IndexMetaInfo`, the contents of the header page. -/
structure IndexMetaInfo where
  relationName : List Nat
  attrByteOffset : Int
  attrType : Datatype
  rootPageNo : Nat

/-- A `double` as far as the index looks at it: the index copies doubles and
compares them with `<`, `>`, `<=` and `>=`.  The values are the rationals
(every finite double is one, and the two zeros compare equal), the two
infinities and NaN. -/
inductive Double
  | nan
  | negInf
  | finite (q : Rat)
  | posInf
deriving DecidableEq

/-- The operator `<` on `double`: false as soon as an operand is NaN. -/
def Double.lt : Double → Double → Bool
  | .nan, _ => false
  | _, .nan => false
  | .negInf, .negInf => false
  | .negInf, _ => true
  | _, .negInf => false
  | .posInf, _ => false
  | _, .posInf => true
  | .finite a, .finite b => decide (a < b)

/-- The operator `<=` on `double`: false as soon as an operand is NaN. -/
def Double.le : Double → Double → Bool
  | .nan, _ => false
  | _, .nan => false
  | a, b => Double.lt a b || decide (a = b)

instance : LT Double := ⟨fun a b => Double.lt a b = true⟩

instance : LE Double := ⟨fun a b => Double.le a b = true⟩

instance (a b : Double) : Decidable (a < b) :=
  inferInstanceAs (Decidable (Double.lt a b = true))

instance (a b : Double) : Decidable (a ≤ b) :=
  inferInstanceAs (Decidable (Double.le a b = true))

instance (n : Nat) : OfNat Double n := ⟨.finite n⟩

/-- A page of the index file, typed by the last cast it was written through. -/
inductive Page
  | blank
  | header (m : IndexMetaInfo)
  | leafInt (n : LeafNode Int)
  | nonLeafInt (n : NonLeafNode Int)
  | leafDouble (n : LeafNode Double)
  | nonLeafDouble (n : NonLeafNode Double)
  | leafString (n : LeafNode (List Nat))
  | nonLeafString (n : NonLeafNode (List Nat))

/-- The leaf read from zero-filled memory. -/
def LeafNode.zero {K : Type} (z : K) : LeafNode K :=
  { keyArray := fun _ => z, ridArray := fun _ => ⟨0, 0⟩, rightSibPageNo := 0 }

/-- The internal node read from zero-filled memory. -/
def NonLeafNode.zero {K : Type} (z : K) : NonLeafNode K :=
  { level := 0, keyArray := fun _ => z, pageNoArray := fun _ => 0 }

/-- The template arguments `T`, `LT`, `NT` of the member templates: the key
type with its zero value, `compare<T>`, `operator<`, the key copy done by
`insertID` or `insertS`, and the casts between `Page*` and the node types. -/
structure KeyType (K : Type) where
  zero : K
  compare : K → K → Int
  less : K → K → Except Exn Bool
  assign : K → K
  asLeaf : Page → Except Exn (LeafNode K)
  ofLeaf : LeafNode K → Page
  asNonLeaf : Page → Except Exn (NonLeafNode K)
  ofNonLeaf : NonLeafNode K → Page

/-- The generic `compare<T>` on `int`. -/
def compareInt (a b : Int) : Int :=
  if a > b then 1 else if a < b then -1 else 0

/-- The generic `compare<T>` on `double`. -/
def compareDouble (a b : Double) : Int :=
  if a > b then 1 else if a < b then -1 else 0

/-- `strcmp` on strings given without their terminating NUL: the sign of the
first differing byte, the end of a string counting as byte 0. -/
def strcmp : List Nat → List Nat → Int
  | [], [] => 0
  | [], _ :: _ => -1
  | _ :: _, [] => 1
  | a :: as, b :: bs => if a < b then -1 else if a > b then 1 else strcmp as bs

/-- The C string held in a buffer: the bytes before the first NUL. -/
def cstr (buf : List Nat) : List Nat :=
  buf.takeWhile (fun c => c != 0)

/-- `strncmp(a, b, n)`: `strcmp` on the first `n` bytes. -/
def strncmp (a b : List Nat) (n : Nat) : Int :=
  strcmp ((cstr a).take n) ((cstr b).take n)

/-- `STRINGSIZE` of `btree.h`, given by the specification as 10. -/
def STRINGSIZE : Nat := 10

/-- `snprintf(s, STRINGSIZE, "%s", src)`: at most `STRINGSIZE - 1` bytes of the
C string `src`, then the terminator. -/
def snprintfS (src : List Nat) : List Nat :=
  (cstr src).take (STRINGSIZE - 1)

/-- `insertS<char*>`, that is `strncpy(a, b, STRINGSIZE)`, as the string left
in the destination row. -/
def insertS (b : List Nat) : List Nat :=
  (cstr b).take STRINGSIZE

/-- `insertID` on `int` and `double`: plain assignment. -/
def insertID {K : Type} (b : K) : K := b

/-- Instantiation `T = int`, `LT = LeafNodeInt`, `NT = NonLeafNodeInt`. -/
def intKey : KeyType Int :=
  { zero := 0
    compare := compareInt
    less := fun a b => .ok (decide (a < b))
    assign := insertID
    asLeaf := fun p => match p with
      | .blank => .ok (LeafNode.zero 0)
      | .leafInt n => .ok n
      | _ => .error .badCast
    ofLeaf := Page.leafInt
    asNonLeaf := fun p => match p with
      | .blank => .ok (NonLeafNode.zero 0)
      | .nonLeafInt n => .ok n
      | _ => .error .badCast
    ofNonLeaf := Page.nonLeafInt }

/-- Instantiation `T = double`. -/
def doubleKey : KeyType Double :=
  { zero := 0
    compare := compareDouble
    less := fun a b => .ok (decide (a < b))
    assign := insertID
    asLeaf := fun p => match p with
      | .blank => .ok (LeafNode.zero 0)
      | .leafDouble n => .ok n
      | _ => .error .badCast
    ofLeaf := Page.leafDouble
    asNonLeaf := fun p => match p with
      | .blank => .ok (NonLeafNode.zero 0)
      | .nonLeafDouble n => .ok n
      | _ => .error .badCast
    ofNonLeaf := Page.nonLeafDouble }

/-- Instantiation `T = char*`: `compare<char*>` is `strcmp`; `operator<` on
`char*` (line 827) compares the addresses of the two key buffers and yields the
outcome `addrLess` gives, whatever the strings are. -/
def stringKey (addrLess : List Nat → List Nat → Bool) : KeyType (List Nat) :=
  { zero := []
    compare := strcmp
    less := fun a b => .ok (addrLess a b)
    assign := insertS
    asLeaf := fun p => match p with
      | .blank => .ok (LeafNode.zero [])
      | .leafString n => .ok n
      | _ => .error .badCast
    ofLeaf := Page.leafString
    asNonLeaf := fun p => match p with
      | .blank => .ok (NonLeafNode.zero [])
      | .nonLeafString n => .ok n
      | _ => .error .badCast
    ofNonLeaf := Page.nonLeafString }

/-- A `const void*` argument of `insertEntry` and `startScan`: the value it
points to, read at the type the index casts it to. -/
inductive KeyArg
  | int (v : Int)
  | double (v : Double)
  | string (buf : List Nat)

/-- The members of `BTreeIndex` with the file and the buffer manager it works
on: `pages` and `numPages` are the file (pages `1 .. numPages` exist),
`pinCnt` is the buffer manager's pin count of each page, and `addrLess a b`
tells whether the buffer holding the string key `a` lies at a lower address
than the buffer holding `b`, which the placement of the frames in the buffer
pool decides and no member function changes. -/
structure BTreeIndex where
  pages : Nat → Page
  numPages : Nat
  pinCnt : Nat → Nat
  addrLess : List Nat → List Nat → Bool
  attributeType : Datatype
  attrByteOffset : Int
  leafOccupancy : Nat
  nodeOccupancy : Nat
  headerPageNum : Nat
  rootPageNum : Nat
  onlyRoot : Bool
  scanExecuting : Bool
  nextEntry : Int
  currentPageNum : Nat
  currentPageData : Option Nat
  lowValInt : Int
  highValInt : Int
  lowValDouble : Double
  highValDouble : Double
  lowValString : List Nat
  highValString : List Nat
  lowOp : Operator
  highOp : Operator

/-- A member function: from the state before the call to the outcome and the
state after it (also after a throw). -/
def M (α : Type) : Type := BTreeIndex → Except Exn α × BTreeIndex

/-- Sequencing of member-function steps; a throw ends the sequence and keeps
the state reached. -/
def M.bind {α β : Type} (m : M α) (f : α → M β) : M β := fun s =>
  match m s with
  | (.ok a, s') => f a s'
  | (.error e, s') => (.error e, s')

instance : Monad M where
  pure a := fun s => (.ok a, s)
  bind := M.bind

/-- The statement `throw e`. -/
def raise {α : Type} (e : Exn) : M α := fun s => (.error e, s)

/-- Read of the members (`this`). -/
def getThis : M BTreeIndex := fun s => (.ok s, s)

/-- Assignment to members. -/
def setThis (f : BTreeIndex → BTreeIndex) : M Unit := fun s => (.ok (), f s)

/-- Use of a node-level result inside a member function. -/
def liftE {α : Type} (r : Except Exn α) : M α := fun s => (r, s)

/-- The block `try { m } catch (PageNotPinnedException e) { }`. -/
def catchPageNotPinned (m : M Unit) : M Unit := fun s =>
  match m s with
  | (.error .PageNotPinned, s') => (.ok (), s')
  | r => r

/-- Modelled from the spec: `BufMgr::readPage` and `File::readPage` are not in
src.  The page is pinned (section 6) and the pointer to its frame returned; a
page number outside the file (0 is reserved, pages are allocated in sequence)
raises `InvalidPage`. -/
def readPage (pageNo : Nat) : M Nat := fun s =>
  if pageNo = 0 ∨ s.numPages < pageNo then (.error .InvalidPage, s)
  else (.ok pageNo, { s with pinCnt := Function.update s.pinCnt pageNo (s.pinCnt pageNo + 1) })

/-- Modelled from the spec: `BufMgr::unPinPage` is not in src.  It releases one
pin and raises `PageNotPinned` (section 6) when the page has none; the dirty
flag has no effect without eviction. -/
def unPinPage (pageNo : Nat) (_dirty : Bool) : M Unit := fun s =>
  if s.pinCnt pageNo = 0 then (.error .PageNotPinned, s)
  else (.ok (), { s with pinCnt := Function.update s.pinCnt pageNo (s.pinCnt pageNo - 1) })

/-- Modelled from the spec: `BufMgr::allocPage` and `File::allocatePage` are
not in src.  The next page number of the file is returned (section 6: pages 1,
2, then on demand), the page is zero-filled and pinned. -/
def allocPage : M Nat := fun s =>
  let pageNo := s.numPages + 1
  (.ok pageNo, { s with
    numPages := pageNo
    pages := Function.update s.pages pageNo Page.blank
    pinCnt := Function.update s.pinCnt pageNo (s.pinCnt pageNo + 1) })

/-- Read through `(LT*) page`. -/
def derefLeaf {K : Type} (kt : KeyType K) (ptr : Nat) : M (LeafNode K) := fun s =>
  (kt.asLeaf (s.pages ptr), s)

/-- Read through `(NT*) page`. -/
def derefNonLeaf {K : Type} (kt : KeyType K) (ptr : Nat) : M (NonLeafNode K) := fun s =>
  (kt.asNonLeaf (s.pages ptr), s)

/-- Writes through `(LT*) page`, collected into the node they leave. -/
def storeLeaf {K : Type} (kt : KeyType K) (ptr : Nat) (n : LeafNode K) : M Unit :=
  setThis fun s => { s with pages := Function.update s.pages ptr (kt.ofLeaf n) }

/-- Writes through `(NT*) page`, collected into the node they leave. -/
def storeNonLeaf {K : Type} (kt : KeyType K) (ptr : Nat) (n : NonLeafNode K) : M Unit :=
  setThis fun s => { s with pages := Function.update s.pages ptr (kt.ofNonLeaf n) }

/-- Read through `(IndexMetaInfo*) page`. -/
def derefMeta (ptr : Nat) : M IndexMetaInfo := fun s =>
  match s.pages ptr with
  | .blank => (.ok ⟨[], 0, .INTEGER, 0⟩, s)
  | .header m => (.ok m, s)
  | _ => (.error .badCast, s)

/-! ## Node operations -/

/-- The search loop of `insertLeaf` (lines 679-686), entered with `pos` and
`leafOccupancy - pos` iterations left: the first slot that is empty or whose
key compares `>=` the new key. -/
def insertLeafPos {K : Type} (kt : KeyType K) (node : LeafNode K) (key : K) : Nat → Nat → Nat
  | 0, pos => pos
  | left + 1, pos =>
    if (node.ridArray pos).page_number = 0 then pos
    else if kt.compare (node.keyArray pos) key ≥ 0 then pos
    else insertLeafPos kt node key left (pos + 1)

/-- The shift loop of `insertLeaf` (lines 689-697), entered with loop variable
`i`: slots `pos .. i-1` move one to the right, from the right end. -/
def insertLeafShift {K : Type} (kt : KeyType K) (pos : Nat) : Nat → LeafNode K → LeafNode K
  | 0, node => node
  | i + 1, node =>
    if i + 1 > pos then
      insertLeafShift kt pos i { node with
        ridArray := Function.update node.ridArray (i + 1) (node.ridArray i)
        keyArray := Function.update node.keyArray (i + 1) (kt.assign (node.keyArray i)) }
    else node

/-- `BTreeIndex::insertLeaf` on a leaf of `leafOccupancy = L` slots.  The final
write is past the arrays when no slot was found. -/
def insertLeaf {K : Type} (kt : KeyType K) (L : Nat) (node : LeafNode K) (pair : RIDKeyPair K) :
    Except Exn (LeafNode K) :=
  let pos := insertLeafPos kt node pair.key L 0
  let node := insertLeafShift kt pos (L - 1) node
  if pos < L then
    .ok { node with
      ridArray := Function.update node.ridArray pos pair.rid
      keyArray := Function.update node.keyArray pos (kt.assign pair.key) }
  else .error .outOfBounds

/-- The search loop shared verbatim by `insertNonLeaf` (lines 719-726) and
`start` (lines 893-899), bounded by `leafOccupancy` (`left` iterations remain):
the first `pos` whose child pointer is 0 or whose key compares `>=` the key.
`pageNoArray` has `N + 1` slots and `keyArray` has `N`. -/
def insertNonLeafPos {K : Type} (kt : KeyType K) (N : Nat) (node : NonLeafNode K) (key : K) :
    Nat → Nat → Except Exn Nat
  | 0, pos => .ok pos
  | left + 1, pos =>
    if N < pos then .error .outOfBounds
    else if node.pageNoArray pos = 0 then .ok pos
    else if N ≤ pos then .error .outOfBounds
    else if kt.compare (node.keyArray pos) key ≥ 0 then .ok pos
    else insertNonLeafPos kt N node key left (pos + 1)

/-- The shift loop of `insertNonLeaf` (lines 729-737), entered with loop
variable `i`: keys `pos .. i-1` and pointers `pos+1 .. i` move one to the right. -/
def insertNonLeafShift {K : Type} (kt : KeyType K) (pos : Nat) : Nat → NonLeafNode K → NonLeafNode K
  | 0, node => node
  | i + 1, node =>
    if i + 1 > pos then
      insertNonLeafShift kt pos i { node with
        keyArray := Function.update node.keyArray (i + 1) (kt.assign (node.keyArray i))
        pageNoArray := Function.update node.pageNoArray (i + 2) (node.pageNoArray (i + 1)) }
    else node

/-- `BTreeIndex::insertNonLeaf` with `leafOccupancy = L`, `nodeOccupancy = N`. -/
def insertNonLeaf {K : Type} (kt : KeyType K) (L N : Nat) (node : NonLeafNode K)
    (pair : PageKeyPair K) : Except Exn (NonLeafNode K) := do
  let pos ← insertNonLeafPos kt N node pair.key L 0
  let node := insertNonLeafShift kt pos (N - 1) node
  if N < pos then throw .outOfBounds
  let empty := node.pageNoArray pos = 0
  if empty ∧ pos = 0 then throw .outOfBounds
  let key_pos := if empty then pos - 1 else pos
  let pn_pos := if empty then pos else pos + 1
  if N < pn_pos ∨ N ≤ key_pos then throw .outOfBounds
  return { node with
    pageNoArray := Function.update node.pageNoArray pn_pos pair.pageNo
    keyArray := Function.update node.keyArray key_pos (kt.assign pair.key) }

/-- The move loop of `splitLeaf` (lines 770-779), entered with loop variable `i`
and `leafOccupancy - i` iterations left: entry `i` is copied to slot `i - half`
of the new leaf and its `page_number` in the old leaf is set to 0. -/
def splitLeafMove {K : Type} (kt : KeyType K) (half : Nat) :
    Nat → Nat → LeafNode K → LeafNode K → LeafNode K × LeafNode K
  | 0, _, leafNode, newLeafNode => (leafNode, newLeafNode)
  | left + 1, i, leafNode, newLeafNode =>
    splitLeafMove kt half left (i + 1)
      { leafNode with
        ridArray := Function.update leafNode.ridArray i
          { leafNode.ridArray i with page_number := 0 } }
      { newLeafNode with
        ridArray := Function.update newLeafNode.ridArray (i - half) (leafNode.ridArray i)
        keyArray := Function.update newLeafNode.keyArray (i - half)
          (kt.assign (leafNode.keyArray i)) }

/-- The node-level part of `BTreeIndex::splitLeaf` (lines 766, 770-790): from
the full leaf, the page just allocated as `newPageNo` and the incoming pair to
the two leaves and the pair returned in `newPair`. -/
def splitLeafNodes {K : Type} (kt : KeyType K) (L : Nat) (leafNode newLeafNode : LeafNode K)
    (newPageNo : Nat) (RIDPair : RIDKeyPair K) :
    Except Exn (LeafNode K × LeafNode K × PageKeyPair K) := do
  let half := L / 2 + 1
  let (leafNode, newLeafNode) := splitLeafMove kt half (L - half) half leafNode newLeafNode
  let newLeafNode := { newLeafNode with rightSibPageNo := leafNode.rightSibPageNo }
  let leafNode := { leafNode with rightSibPageNo := newPageNo }
  if L = 0 then throw .outOfBounds
  let newPair : PageKeyPair K := ⟨newPageNo, newLeafNode.keyArray 0⟩
  if kt.compare RIDPair.key newPair.key < 0 then
    let leafNode ← insertLeaf kt L leafNode RIDPair
    return (leafNode, newLeafNode, newPair)
  else
    let newLeafNode ← insertLeaf kt L newLeafNode RIDPair
    return (leafNode, newLeafNode, newPair)

/-- `BTreeIndex::splitLeaf`; the result is the value left in `newPair`. -/
def splitLeaf {K : Type} (kt : KeyType K) (leafNode : Nat) (RIDPair : RIDKeyPair K) :
    M (PageKeyPair K) := do
  let newPageNo ← allocPage
  let this ← getThis
  let leaf ← derefLeaf kt leafNode
  let newLeaf ← derefLeaf kt newPageNo
  let (leaf, newLeaf, newPair) ←
    liftE (splitLeafNodes kt this.leafOccupancy leaf newLeaf newPageNo RIDPair)
  storeLeaf kt leafNode leaf
  storeLeaf kt newPageNo newLeaf
  unPinPage newPageNo true
  return newPair

/-- The move loop of `splitNonLeaf` (lines 811-821), entered with loop variable
`i` and `nodeOccupancy - i` iterations left: pointer `i` and key `i` are copied
to slot `i - mid` of the new node and pointer `i` is cleared unless `i == mid`. -/
def splitNonLeafMove {K : Type} (kt : KeyType K) (mid : Nat) :
    Nat → Nat → NonLeafNode K → NonLeafNode K → NonLeafNode K × NonLeafNode K
  | 0, _, nonLeafNode, newNonLeafNode => (nonLeafNode, newNonLeafNode)
  | left + 1, i, nonLeafNode, newNonLeafNode =>
    splitNonLeafMove kt mid left (i + 1)
      { nonLeafNode with
        pageNoArray :=
          if i ≠ mid then Function.update nonLeafNode.pageNoArray i 0
          else nonLeafNode.pageNoArray }
      { newNonLeafNode with
        pageNoArray := Function.update newNonLeafNode.pageNoArray (i - mid)
          (nonLeafNode.pageNoArray i)
        keyArray := Function.update newNonLeafNode.keyArray (i - mid)
          (kt.assign (nonLeafNode.keyArray i)) }

/-- The node-level part of `BTreeIndex::splitNonLeaf` (lines 804, 809-832). -/
def splitNonLeafNodes {K : Type} (kt : KeyType K) (L N : Nat)
    (nonLeafNode newNonLeafNode : NonLeafNode K) (newPageNo : Nat) (returnP : PageKeyPair K) :
    Except Exn (NonLeafNode K × NonLeafNode K × PageKeyPair K) := do
  let mid := N / 2 + 1
  let newNonLeafNode := { newNonLeafNode with level := nonLeafNode.level }
  let (nonLeafNode, newNonLeafNode) :=
    splitNonLeafMove kt mid (N - mid) mid nonLeafNode newNonLeafNode
  if N < mid then throw .outOfBounds
  let newNonLeafNode := { newNonLeafNode with
    pageNoArray := Function.update newNonLeafNode.pageNoArray (N - mid)
      (nonLeafNode.pageNoArray N) }
  let nonLeafNode := { nonLeafNode with
    pageNoArray := Function.update nonLeafNode.pageNoArray N 0 }
  let newPKPair : PageKeyPair K := ⟨newPageNo, newNonLeafNode.keyArray 0⟩
  if (← kt.less returnP.key newPKPair.key) then
    let nonLeafNode ← insertNonLeaf kt L N nonLeafNode returnP
    return (nonLeafNode, newNonLeafNode, newPKPair)
  else
    let newNonLeafNode ← insertNonLeaf kt L N newNonLeafNode returnP
    return (nonLeafNode, newNonLeafNode, newPKPair)

/-- `BTreeIndex::splitNonLeaf`; the result is the value left in `newPKPair`. -/
def splitNonLeaf {K : Type} (kt : KeyType K) (nonLeafNode : Nat) (returnP : PageKeyPair K) :
    M (PageKeyPair K) := do
  let newPageNo ← allocPage
  let this ← getThis
  let node ← derefNonLeaf kt nonLeafNode
  let newNode ← derefNonLeaf kt newPageNo
  let (node, newNode, newPKPair) ← liftE
    (splitNonLeafNodes kt this.leafOccupancy this.nodeOccupancy node newNode newPageNo returnP)
  storeNonLeaf kt nonLeafNode node
  storeNonLeaf kt newPageNo newNode
  unPinPage newPageNo true
  return newPKPair

/-- `BTreeIndex::createNewRoot`. -/
def createNewRoot {K : Type} (kt : KeyType K) (oldNo : Nat) (newPair : PageKeyPair K)
    (level : Int) : M Unit := do
  let newRootPageNo ← allocPage
  let newRootNode ← derefNonLeaf kt newRootPageNo
  let this ← getThis
  if this.nodeOccupancy = 0 then raise .outOfBounds
  setThis fun s => { s with onlyRoot := false }
  storeNonLeaf kt newRootPageNo
    { level := level
      pageNoArray :=
        Function.update (Function.update newRootNode.pageNoArray 0 oldNo) 1 newPair.pageNo
      keyArray := Function.update newRootNode.keyArray 0 (kt.assign newPair.key) }
  setThis fun s => { s with rootPageNum := newRootPageNo }
  unPinPage newRootPageNo true
  let this ← getThis
  let headerPage ← readPage this.headerPageNum
  let metaInfo ← derefMeta headerPage
  setThis fun s => { s with
    pages := Function.update s.pages headerPage
      (Page.header { metaInfo with rootPageNo := this.rootPageNum }) }
  unPinPage this.headerPageNum true

/-- The absorption of a split of the child into `currNode`, shared verbatim by
the two branches of `start` (lines 916-923 and 940-948): insert the returned
pair when the last pointer slot is free, else split the node and pass its pair
up.  The result is the value left in `newPPair`. -/
def startAbsorb {K : Type} (kt : KeyType K) (currPage : Nat) (returnPPair newPPair : PageKeyPair K) :
    M (PageKeyPair K) := do
  let this ← getThis
  let currNode ← derefNonLeaf kt currPage
  if currNode.pageNoArray this.nodeOccupancy = 0 then
    let node ← liftE
      (insertNonLeaf kt this.leafOccupancy this.nodeOccupancy currNode returnPPair)
    storeNonLeaf kt currPage node
    return newPPair
  else
    let newPKPair ← splitNonLeaf kt currPage returnPPair
    return newPKPair

/-- The choice of the child in `start` (lines 892-903): the search loop bounded
by `leafOccupancy = L`, then one step back when it stopped at a zero pointer
past index 0.  The result indexes `pageNoArray`. -/
def startChildPos {K : Type} (kt : KeyType K) (L N : Nat) (currNode : NonLeafNode K) (key : K) :
    Except Exn Nat := do
  let pos ← insertNonLeafPos kt N currNode key L 0
  if N < pos then throw .outOfBounds
  return (if currNode.pageNoArray pos = 0 ∧ pos > 0 then pos - 1 else pos)

/-- `BTreeIndex::start`, with the depth of the recursion bounded by `fuel`; the
result is the value left in the reference argument `newPPair`.  A
default-constructed `PageKeyPair` (line 929) is taken to hold `pageNo == 0`. -/
def start {K : Type} (kt : KeyType K) :
    Nat → Nat → PageKeyPair K → RIDKeyPair K → M (PageKeyPair K)
  | 0, _, _, _ => raise .nonTermination
  | fuel + 1, currPageNo, newPPair, newRPair => do
    let this ← getThis
    let currPage ← readPage currPageNo
    let currNode ← derefNonLeaf kt currPage
    let pos ← liftE
      (startChildPos kt this.leafOccupancy this.nodeOccupancy currNode newRPair.key)
    let childPageNo := currNode.pageNoArray pos
    if currNode.level = 1 then
      let childPage ← readPage childPageNo
      let childLeafNode ← derefLeaf kt childPage
      if this.leafOccupancy = 0 then raise .outOfBounds
      let newPPair ←
        if (childLeafNode.ridArray (this.leafOccupancy - 1)).page_number = 0 then do
          let leaf ← liftE (insertLeaf kt this.leafOccupancy childLeafNode newRPair)
          storeLeaf kt childPage leaf
          pure newPPair
        else do
          let returnPPair ← splitLeaf kt childPage newRPair
          startAbsorb kt currPage returnPPair newPPair
      unPinPage childPageNo true
      unPinPage currPageNo true
      return newPPair
    else
      unPinPage currPageNo false
      let newChildPPair ← start kt fuel childPageNo ⟨0, kt.zero⟩ newRPair
      let _ ← readPage currPageNo
      let newPPair ←
        if newChildPPair.pageNo ≠ 0 then
          startAbsorb kt currPage ⟨newChildPPair.pageNo, newChildPPair.key⟩ newPPair
        else pure newPPair
      unPinPage currPageNo (newChildPPair.pageNo != 0)
      return newPPair

/-- One branch of `BTreeIndex::insertEntry` (lines 150-195, 199-238, 244-282):
the three branches run the same statements on their key type. -/
def insertEntryT {K : Type} (kt : KeyType K) (key : K) (rid : RecordId) : M Unit := do
  let newPair : RIDKeyPair K := ⟨rid, key⟩
  let this ← getThis
  if this.onlyRoot then
    let leafPage ← readPage this.rootPageNum
    let rootNo := this.rootPageNum
    let leafNode ← derefLeaf kt leafPage
    if this.leafOccupancy = 0 then raise .outOfBounds
    if (leafNode.ridArray (this.leafOccupancy - 1)).page_number = 0 then
      let leaf ← liftE (insertLeaf kt this.leafOccupancy leafNode newPair)
      storeLeaf kt leafPage leaf
    else
      let splitPage ← splitLeaf kt leafPage newPair
      createNewRoot kt this.rootPageNum splitPage 1
    unPinPage rootNo true
  else
    let newPagePair ← start kt this.numPages this.rootPageNum ⟨0, newPair.key⟩ newPair
    let this ← getThis
    let rootNo := this.rootPageNum
    let _ ← readPage this.rootPageNum
    if newPagePair.pageNo ≠ 0 then
      createNewRoot kt this.rootPageNum newPagePair 0
    unPinPage rootNo true

/-- `BTreeIndex::insertEntry`.  The recursion of `start` is given one level per
page of the file: a longer descent visits a page twice and does not end. -/
def insertEntry (key : KeyArg) (rid : RecordId) : M Unit := do
  let this ← getThis
  match this.attributeType, key with
  | .INTEGER, .int k => insertEntryT intKey k rid
  | .DOUBLE, .double k => insertEntryT doubleKey k rid
  | .STRING, .string buf => insertEntryT (stringKey this.addrLess) (snprintfS buf) rid
  | _, _ => raise .badCast

/-! ## Scan -/

/-- The loop of `leafPos` (lines 562-593), entered with `pos` and
`leafOccupancy - pos` iterations left.  The flag tells whether the loop
returned `pos` from inside (an entry satisfying the low bound was found) or was
left with `pos` at its exit value. -/
def leafPosLoop {K : Type} (kt : KeyType K) (lowOp : Operator) (currNode : LeafNode K)
    (lowVal : K) : Nat → Nat → Bool × Nat
  | 0, pos => (false, pos)
  | left + 1, pos =>
    if (currNode.ridArray pos).page_number ≠ 0 then
      let curr := currNode.keyArray pos
      if lowOp = .GT then
        if kt.compare curr lowVal > 0 then (true, pos)
        else leafPosLoop kt lowOp currNode lowVal left (pos + 1)
      else if lowOp = .GTE then
        if kt.compare curr lowVal ≥ 0 then (true, pos)
        else leafPosLoop kt lowOp currNode lowVal left (pos + 1)
      else leafPosLoop kt lowOp currNode lowVal left (pos + 1)
    else (false, pos)

/-- `BTreeIndex::leafPos`. -/
def leafPos {K : Type} (kt : KeyType K) (currNo : Nat) (lowVal : K) : M Int := do
  let currPage ← readPage currNo
  let currNode ← derefLeaf kt currPage
  let this ← getThis
  let (found, pos) := leafPosLoop kt this.lowOp currNode lowVal this.leafOccupancy 0
  unPinPage currNo false
  if found then return (pos : Int)
  else if pos = this.leafOccupancy ∨ (currNode.ridArray pos).page_number = 0 then
    return (pos : Int) - 1
  else return (pos : Int)

/-- The loop of `nonLeafPos` (lines 614-629), entered with `pos` and
`nodeOccupancy - pos` iterations left; the flag is as in `leafPosLoop`. -/
def nonLeafPosLoop {K : Type} (kt : KeyType K) (currNode : NonLeafNode K) (lowVal : K) :
    Nat → Nat → Bool × Nat
  | 0, pos => (false, pos)
  | left + 1, pos =>
    if currNode.pageNoArray pos ≠ 0 then
      let curr := currNode.keyArray pos
      if kt.compare curr lowVal > 0 then (true, pos)
      else nonLeafPosLoop kt currNode lowVal left (pos + 1)
    else (false, pos)

/-- The value `nonLeafPos` returns for the node it reads (lines 608, 614-635):
the index at which the loop returned, or its exit index stepped back by one when
the pointer there is 0. -/
def nonLeafPosNode {K : Type} (kt : KeyType K) (N : Nat) (currNode : NonLeafNode K)
    (lowVal : K) : Int :=
  let (found, pos) := nonLeafPosLoop kt currNode lowVal N 0
  if found then (pos : Int)
  else if currNode.pageNoArray pos = 0 then (pos : Int) - 1
  else (pos : Int)

/-- `BTreeIndex::nonLeafPos`. -/
def nonLeafPos {K : Type} (kt : KeyType K) (currNo : Nat) (lowVal : K) : M Int := do
  let currPage ← readPage currNo
  let currNode ← derefNonLeaf kt currPage
  let this ← getThis
  let (found, pos) := nonLeafPosLoop kt currNode lowVal this.nodeOccupancy 0
  unPinPage currNo false
  if found then return (pos : Int)
  else if currNode.pageNoArray pos = 0 then return (pos : Int) - 1
  else return (pos : Int)

/-- The `while (currNode->level != 1)` loop of `search` (lines 379-385), bounded
by `fuel` iterations; the result is the final `currNo`, whose page `currNode`
points to. -/
def searchDescend {K : Type} (kt : KeyType K) (lowVal : K) : Nat → Nat → M Nat
  | 0, _ => raise .nonTermination
  | fuel + 1, currNo => do
    let currNode ← derefNonLeaf kt currNo
    if currNode.level ≠ 1 then
      let pos ← nonLeafPos kt currNo lowVal
      if pos < 0 then raise .outOfBounds
      let currNo := currNode.pageNoArray pos.toNat
      let _ ← readPage currNo
      unPinPage currNo false
      searchDescend kt lowVal fuel currNo
    else return currNo

/-- `BTreeIndex::search`.  The descent is given one iteration per page of the
file: a longer one visits a page twice and does not end. -/
def search {K : Type} (kt : KeyType K) (lowVal : K) : M Unit := do
  let this ← getThis
  if this.onlyRoot then
    setThis fun s => { s with currentPageNum := s.rootPageNum }
    let page ← readPage this.rootPageNum
    setThis fun s => { s with currentPageData := some page }
    let pos ← leafPos kt this.rootPageNum lowVal
    setThis fun s => { s with nextEntry := pos }
    if pos = -1 then raise .IndexScanCompleted
    return
  else
    let currNo := this.rootPageNum
    let _ ← readPage currNo
    unPinPage currNo false
    let currNo ← searchDescend kt lowVal (this.numPages + 1) currNo
    let currNode ← derefNonLeaf kt currNo
    let pos ← nonLeafPos kt currNo lowVal
    if pos = -1 then raise .IndexScanCompleted
    if pos < 0 then raise .outOfBounds
    setThis fun s => { s with currentPageNum := currNode.pageNoArray pos.toNat }
    let this ← getThis
    let entry ← leafPos kt this.currentPageNum lowVal
    setThis fun s => { s with nextEntry := entry }
    if entry = -1 then raise .IndexScanCompleted
    let page ← readPage this.currentPageNum
    setThis fun s => { s with currentPageData := some page }
    unPinPage this.currentPageNum false

/-- `BTreeIndex::endScan`. -/
def endScan : M Unit := do
  let this ← getThis
  if !this.scanExecuting then raise .ScanNotInitialized
  catchPageNotPinned (do
    if this.currentPageNum ≠ 0 then
      unPinPage this.currentPageNum false)
  catchPageNotPinned (unPinPage this.rootPageNum true)
  setThis fun s => { s with scanExecuting := false }

/-- The statements every branch of `startScan` runs after its range check
(lines 306-311, 321-326, 336-341). -/
def startScanBegin (lowOpParm highOpParm : Operator) : M Unit := do
  let this ← getThis
  if this.scanExecuting then
    endScan
  setThis fun s => { s with scanExecuting := true, lowOp := lowOpParm, highOp := highOpParm }

/-- The first `STRINGSIZE` bytes behind a `char*`, as `std::string(p, STRINGSIZE)`
reads them. -/
def stringOfBuf (buf : List Nat) : Except Exn (List Nat) :=
  if buf.length < STRINGSIZE then .error .outOfBounds else .ok (buf.take STRINGSIZE)

/-- The cast `*((int*) p)` of a `const void*` argument. -/
def KeyArg.asInt : KeyArg → Except Exn Int
  | .int v => .ok v
  | _ => .error .badCast

/-- The cast `*((double*) p)` of a `const void*` argument. -/
def KeyArg.asDouble : KeyArg → Except Exn Double
  | .double v => .ok v
  | _ => .error .badCast

/-- The cast `(char*) p` of a `const void*` argument. -/
def KeyArg.asString : KeyArg → Except Exn (List Nat)
  | .string buf => .ok buf
  | _ => .error .badCast

/-- `BTreeIndex::startScan`. -/
def startScan (lowValParm : KeyArg) (lowOpParm : Operator) (highValParm : KeyArg)
    (highOpParm : Operator) : M Unit := do
  if (lowOpParm ≠ .GT ∧ lowOpParm ≠ .GTE) ∨ (highOpParm ≠ .LT ∧ highOpParm ≠ .LTE) then
    raise .BadOpcodes
  let this ← getThis
  match this.attributeType with
  | .INTEGER =>
    let low ← liftE lowValParm.asInt
    let high ← liftE highValParm.asInt
    if low > high then raise .BadScanrange
    startScanBegin lowOpParm highOpParm
    setThis fun s => { s with lowValInt := low, highValInt := high }
    search intKey low
  | .DOUBLE =>
    let low ← liftE lowValParm.asDouble
    let high ← liftE highValParm.asDouble
    if low > high then raise .BadScanrange
    startScanBegin lowOpParm highOpParm
    setThis fun s => { s with lowValDouble := low, highValDouble := high }
    search doubleKey low
  | .STRING =>
    if strncmp this.lowValString this.highValString STRINGSIZE > 0 then raise .BadScanrange
    startScanBegin lowOpParm highOpParm
    let lowS ← liftE (lowValParm.asString >>= stringOfBuf)
    setThis fun s => { s with lowValString := lowS }
    let highS ← liftE (highValParm.asString >>= stringOfBuf)
    setThis fun s => { s with highValString := highS }
    search (stringKey this.addrLess) (snprintfS lowS)

/-- The statements of `scanNext` after the high-bound test, the same in every
branch (lines 422-438, 448-464, 478-494): emit the current entry and advance. -/
def scanNextAdvance {K : Type} (curr : LeafNode K) : M RecordId := do
  let this ← getThis
  if this.nextEntry < 0 ∨ (this.leafOccupancy : Int) ≤ this.nextEntry then raise .outOfBounds
  let outRid := curr.ridArray this.nextEntry.toNat
  if this.nextEntry = (this.leafOccupancy : Int) - 1
      ∨ (curr.ridArray (this.nextEntry.toNat + 1)).page_number = 0 then
    if curr.rightSibPageNo = 0 then
      setThis fun s => { s with currentPageNum := 0 }
    else
      setThis fun s => { s with currentPageNum := curr.rightSibPageNo }
      let page ← readPage curr.rightSibPageNo
      setThis fun s => { s with currentPageData := some page, nextEntry := 0 }
      unPinPage curr.rightSibPageNo false
  else
    setThis fun s => { s with nextEntry := s.nextEntry + 1 }
  return outRid

/-- One branch of `BTreeIndex::scanNext`: `gtHigh k` and `geHigh k` are the
tests `k > highVal` and `k >= highVal` of that branch. -/
def scanNextT {K : Type} (kt : KeyType K) (gtHigh geHigh : K → Bool) : M RecordId := do
  let this ← getThis
  match this.currentPageData with
  | none => raise .danglingPointer
  | some page =>
    let curr ← derefLeaf kt page
    if this.nextEntry < 0 ∨ (this.leafOccupancy : Int) ≤ this.nextEntry then raise .outOfBounds
    let key := curr.keyArray this.nextEntry.toNat
    if this.highOp = .LTE ∧ gtHigh key then raise .IndexScanCompleted
    if this.highOp = .LT ∧ geHigh key then raise .IndexScanCompleted
    scanNextAdvance curr

/-- `BTreeIndex::scanNext`; the result is the value left in `outRid`. -/
def scanNext : M RecordId := do
  let this ← getThis
  if !this.scanExecuting then raise .ScanNotInitialized
  if this.currentPageNum = 0 then raise .IndexScanCompleted
  match this.attributeType with
  | .INTEGER =>
    scanNextT intKey (fun k => decide (k > this.highValInt)) (fun k => decide (k ≥ this.highValInt))
  | .DOUBLE =>
    scanNextT doubleKey (fun k => decide (k > this.highValDouble))
      (fun k => decide (k ≥ this.highValDouble))
  | .STRING =>
    scanNextT (stringKey this.addrLess)
      (fun k => decide (strcmp k (snprintfS this.highValString) > 0))
      (fun k => decide (strcmp k (snprintfS this.highValString) ≥ 0))

/-! ## Construction -/

/-- The members and the empty file before the constructor body runs; members
the constructor does not set hold placeholders that no member function reads
before `startScan` sets them. -/
def BTreeIndex.initial (attrType : Datatype) (attrByteOffset : Int) (L N : Nat) : BTreeIndex :=
  { pages := fun _ => Page.blank
    numPages := 0
    pinCnt := fun _ => 0
    addrLess := fun _ _ => false
    attributeType := attrType
    attrByteOffset := attrByteOffset
    leafOccupancy := L
    nodeOccupancy := N
    headerPageNum := 0
    rootPageNum := 0
    onlyRoot := false
    scanExecuting := false
    nextEntry := 0
    currentPageNum := 0
    currentPageData := none
    lowValInt := 0
    highValInt := 0
    lowValDouble := 0
    highValDouble := 0
    lowValString := []
    highValString := []
    lowOp := .GT
    highOp := .LT }

/-- The bulk-load loop of the constructor (lines 107-122) over the records the
relation scan yields, each with the pointer to its attribute. -/
def insertAll : List (KeyArg × RecordId) → M Unit
  | [] => pure ()
  | (key, rid) :: rest => do
    insertEntry key rid
    insertAll rest

/-- The branch of the constructor that creates the index file (lines 80-126). -/
def createIndex (relationName : List Nat) (records : List (KeyArg × RecordId)) : M Unit := do
  setThis fun s => { s with onlyRoot := true }
  let headerPageNum ← allocPage
  setThis fun s => { s with headerPageNum := headerPageNum }
  let rootPageNum ← allocPage
  setThis fun s => { s with rootPageNum := rootPageNum }
  let this ← getThis
  setThis fun s => { s with
    pages := Function.update s.pages headerPageNum
      (Page.header ⟨relationName, this.attrByteOffset, this.attributeType, rootPageNum⟩) }
  match this.attributeType with
  | .INTEGER => do
    let root ← derefLeaf intKey rootPageNum
    storeLeaf intKey rootPageNum { root with rightSibPageNo := 0 }
  | .DOUBLE => do
    let root ← derefLeaf doubleKey rootPageNum
    storeLeaf doubleKey rootPageNum { root with rightSibPageNo := 0 }
  | .STRING => do
    let root ← derefLeaf (stringKey this.addrLess) rootPageNum
    storeLeaf (stringKey this.addrLess) rootPageNum { root with rightSibPageNo := 0 }
  unPinPage headerPageNum true
  unPinPage rootPageNum true
  insertAll records

/-- The branch of the constructor that opens an existing index file (lines
69-77), run on members initialised over that file and buffer pool. -/
def openIndex : M Unit := do
  let headerPageNum := 1
  setThis fun s => { s with headerPageNum := headerPageNum }
  let metaPage ← readPage headerPageNum
  let metaInfo ← derefMeta metaPage
  setThis fun s => { s with
    rootPageNum := metaInfo.rootPageNo
    onlyRoot := decide (metaInfo.rootPageNo = 2) }
  unPinPage headerPageNum false

/-- The index right after construction over an empty relation. -/
def newIndex (attrType : Datatype) (L N : Nat) : BTreeIndex :=
  (createIndex [] [] (BTreeIndex.initial attrType 0 L N)).2

/-! ## Observations -/

/-- The live entries of a leaf in index order: the slots before the first one
whose `page_number` is 0, at most `L` of them (`left` slots remain from `i`). -/
def liveEntries {K : Type} (node : LeafNode K) : Nat → Nat → List (K × RecordId)
  | 0, _ => []
  | left + 1, i =>
    if (node.ridArray i).page_number = 0 then []
    else (node.keyArray i, node.ridArray i) :: liveEntries node left (i + 1)

/-- The keys met when following `rightSibPageNo` from leaf page `pageNo` of an
INTEGER index to the leaf whose `rightSibPageNo` is 0, visiting at most `fuel`
leaves; `none` when a page on the way is not an INTEGER leaf. -/
def leafChainKeys (s : BTreeIndex) : Nat → Nat → Option (List Int)
  | 0, _ => none
  | fuel + 1, pageNo =>
    match s.pages pageNo with
    | .leafInt node =>
      let keys := (liveEntries node s.leafOccupancy 0).map Prod.fst
      if node.rightSibPageNo = 0 then some keys
      else (leafChainKeys s fuel node.rightSibPageNo).map (keys ++ ·)
    | _ => none

/-- The record identifiers returned by successive `scanNext` calls up to the
first call that does not return one, with the outcome of that call; at most
`fuel` calls are made. -/
def scanAll : Nat → BTreeIndex → List RecordId × Option Exn
  | 0, _ => ([], none)
  | fuel + 1, s =>
    match scanNext s with
    | (.ok rid, s') => let r := scanAll fuel s'; (rid :: r.1, r.2)
    | (.error e, _) => ([], some e)

/-- The `insertEntry` arguments for the integer keys `keys` in list order, the
key at position `i` with the record identifier `(page_number, slot_number) =
(i + 1, 0)`. -/
def numbered (keys : List Int) : List (KeyArg × RecordId) :=
  (List.range keys.length).zipWith (fun i k => (KeyArg.int k, ⟨i + 1, 0⟩)) keys

/-- A buffer of `STRINGSIZE` bytes all equal to `c`. -/
def str10 (c : Nat) : List Nat := List.replicate STRINGSIZE c

/-- Outcome and state of building an INTEGER index of occupancies `L`, `N` over
a relation whose records carry `keys`, by `insertEntry` calls in list order on
the freshly created index. -/
def buildInt (L N : Nat) (keys : List Int) : Except Exn Unit × BTreeIndex :=
  insertAll (numbered keys) (newIndex .INTEGER L N)

/-- The member function `m` never ends with exception `e`. -/
def M.Avoids {α : Type} (e : Exn) (m : M α) : Prop :=
  ∀ s, (m s).1 ≠ .error e

/-- The casts of a key type fail with `badCast` only. -/
def KeyType.CastsOnly {K : Type} (kt : KeyType K) : Prop :=
  (∀ p e, kt.asLeaf p = .error e → e = .badCast) ∧
  (∀ p e, kt.asNonLeaf p = .error e → e = .badCast)

/-- The exceptions of the scan interface that only its entry checks throw. -/
def Exn.IsEntryCheck (e : Exn) : Prop :=
  e = .BadOpcodes ∨ e = .ScanNotInitialized

/-- The leaf holds exactly `c` live entries, dense from index 0: the slots
below `c` have a nonzero `page_number`, the slots from `c` on have 0. -/
def LeafNode.Dense {K : Type} (node : LeafNode K) (c : Nat) : Prop :=
  (∀ i, i < c → (node.ridArray i).page_number ≠ 0) ∧
  (∀ i, c ≤ i → (node.ridArray i).page_number = 0)

/-- The arguments of the `insertEntry` calls that insert the given integer keys
with the given record identifiers. -/
def intRecords (recs : List (Int × RecordId)) : List (KeyArg × RecordId) :=
  recs.map fun r => (KeyArg.int r.1, r.2)

/-- The exceptions `btree.cpp` itself throws. -/
def Exn.IsScanApi (e : Exn) : Prop :=
  e = .BadOpcodes ∨ e = .ScanNotInitialized ∨ e = .IndexScanCompleted ∨ e = .BadScanrange

/-- The member function `m` leaves the state as it found it. -/
def M.ReadOnly {α : Type} (m : M α) : Prop :=
  ∀ s, (m s).2 = s

/-- When the member function `m` ends with exception `e`, the state is the one
it was called in. -/
def M.Keeps {α : Type} (e : Exn) (m : M α) : Prop :=
  ∀ s, (m s).1 = .error e → (m s).2 = s

/-- The live keys of each leaf met when following `rightSibPageNo` from leaf
page `pageNo` of an INTEGER index, one list per leaf, visiting at most `fuel`
leaves; `none` when a page on the way is not an INTEGER leaf. -/
def leafChainLeaves (s : BTreeIndex) : Nat → Nat → Option (List (List Int))
  | 0, _ => none
  | fuel + 1, pageNo =>
    match s.pages pageNo with
    | .leafInt node =>
      let keys := (liveEntries node s.leafOccupancy 0).map Prod.fst
      if node.rightSibPageNo = 0 then some [keys]
      else (leafChainLeaves s fuel node.rightSibPageNo).map (keys :: ·)
    | _ => none

/-- The root of an INTEGER index read as an internal node: its level, its
first `n` key slots and its first `n + 1` pointer slots; `none` when the root
page is not an INTEGER internal node. -/
def rootView (s : BTreeIndex) (n : Nat) : Option (Int × List Int × List Nat) :=
  match s.pages s.rootPageNum with
  | .nonLeafInt node =>
    some (node.level, (List.range n).map node.keyArray, (List.range (n + 1)).map node.pageNoArray)
  | _ => none

/-- The internal node of the given level whose leading key slots hold `keys`
and whose leading pointer slots hold `ptrs`, all other slots zero. -/
def mkNonLeaf (level : Int) (keys : List Int) (ptrs : List Nat) : NonLeafNode Int :=
  { level := level
    keyArray := fun i => keys.getD i 0
    pageNoArray := fun i => ptrs.getD i 0 }

/-- The first `n` key slots and the first `n + 1` pointer slots of a node. -/
def nodeView (node : NonLeafNode Int) (n : Nat) : List Int × List Nat :=
  ((List.range n).map node.keyArray, (List.range (n + 1)).map node.pageNoArray)

/-- The leaf of `L` slots holds exactly the entries `es`, in index order: slot
`i` below `es.length` carries entry `i` and is live, the other slots are empty. -/
def LeafNode.Holds {K : Type} (L : Nat) (node : LeafNode K) (es : List (K × RecordId)) : Prop :=
  es.length ≤ L ∧
  (∀ i, i < es.length →
    es[i]? = some (node.keyArray i, node.ridArray i) ∧ (node.ridArray i).page_number ≠ 0) ∧
  (∀ i, es.length ≤ i → i < L → (node.ridArray i).page_number = 0)

/-- The order of leaf entries: by key. -/
def keyLE (a b : Int × RecordId) : Prop := a.1 ≤ b.1

instance : DecidableRel keyLE := fun a b => inferInstanceAs (Decidable (a.1 ≤ b.1))

instance : IsTotal (Int × RecordId) keyLE := ⟨fun a b => Int.le_total a.1 b.1⟩

instance : IsTrans (Int × RecordId) keyLE := ⟨fun _ _ _ h1 h2 => Int.le_trans h1 h2⟩

/-- An INTEGER index state of four pages whose page 4 is the given internal
node and whose other pages are blank. -/
def stateWithNode (L N : Nat) (node : NonLeafNode Int) : BTreeIndex :=
  { BTreeIndex.initial .INTEGER 0 L N with
    numPages := 4
    pages := fun p => if p = 4 then .nonLeafInt node else .blank }

/-- The state of an INTEGER index of occupancies `L`, `N` whose root is still
the leaf on page 2, without a right sibling, holding exactly the entries `es`. -/
def RootLeafHolds (L N : Nat) (es : List (Int × RecordId)) (s : BTreeIndex) : Prop :=
  s.attributeType = .INTEGER ∧ s.leafOccupancy = L ∧ s.nodeOccupancy = N ∧
  s.onlyRoot = true ∧ s.rootPageNum = 2 ∧ s.headerPageNum = 1 ∧ s.numPages = 2 ∧
  (∃ m, s.pages 1 = .header m) ∧
  ∃ leaf, s.pages 2 = .leafInt leaf ∧ leaf.Holds L es ∧ leaf.rightSibPageNo = 0

/-- The state of a scan of an INTEGER index with high bound `<= k` that stands
on entry `i` of the leaf on page 2. -/
def ScanOnRootLeaf (L : Nat) (leaf : LeafNode Int) (k : Int) (i : Nat) (t : BTreeIndex) : Prop :=
  t.attributeType = .INTEGER ∧ t.leafOccupancy = L ∧ t.scanExecuting = true ∧
  t.currentPageNum = 2 ∧ t.currentPageData = some 2 ∧ t.pages 2 = .leafInt leaf ∧
  t.nextEntry = (i : Int) ∧ t.highValInt = k ∧ t.highOp = .LTE

/-- The pin counts `f` after one more pin of page `p`. -/
def bump (f : Nat → Nat) (p : Nat) : Nat → Nat := Function.update f p (f p + 1)

/-- Run from pin counts `f`, the member function `m` never ends with
`PageNotPinned`, and when it returns `a` the pin counts are `g a`. -/
def M.Pins {α : Type} (f : Nat → Nat) (m : M α) (g : α → Nat → Nat) : Prop :=
  ∀ s, s.pinCnt = f →
    (m s).1 ≠ .error .PageNotPinned ∧ ∀ a, (m s).1 = .ok a → (m s).2.pinCnt = g a

/-- The casts and the comparison of a key type never fail with `PageNotPinned`. -/
def KeyType.NeverUnpinned {K : Type} (kt : KeyType K) : Prop :=
  (∀ p, kt.asLeaf p ≠ .error .PageNotPinned) ∧
  (∀ p, kt.asNonLeaf p ≠ .error .PageNotPinned) ∧
  (∀ a b, kt.less a b ≠ .error .PageNotPinned)

/-- The header page is page 1 of a file of at least two pages, its
`rootPageNo` is the member `rootPageNum`, and `onlyRoot` holds exactly when the
root is page 2. -/
def HeaderRoot (s : BTreeIndex) : Prop :=
  s.headerPageNum = 1 ∧ 2 ≤ s.numPages ∧
  (∃ m, s.pages 1 = .header m ∧ m.rootPageNo = s.rootPageNum) ∧
  (s.onlyRoot = true ↔ s.rootPageNum = 2)

/-- The scan members hold the values a new instance starts with. -/
def ScanMembersFresh (s : BTreeIndex) : Prop :=
  s.scanExecuting = false ∧ s.nextEntry = 0 ∧ s.currentPageNum = 0 ∧
  s.currentPageData = none ∧ s.lowValInt = 0 ∧ s.highValInt = 0 ∧
  s.lowValDouble = 0 ∧ s.highValDouble = 0 ∧ s.lowValString = [] ∧ s.highValString = [] ∧
  s.lowOp = .GT ∧ s.highOp = .LT

/-- The invariant of the states reached by `insertEntry` calls on a new index. -/
def InsertInv (s : BTreeIndex) : Prop := HeaderRoot s ∧ ScanMembersFresh s

/-- The state after the given `insertEntry` calls in list order, each run in
the state the previous one left, whether it returned or threw. -/
def afterCalls (calls : List (KeyArg × RecordId)) (s : BTreeIndex) : BTreeIndex :=
  calls.foldl (fun s c => (insertEntry c.1 c.2 s).2) s

/-- Re-opening the index file of state `s`: the constructor's open branch run
on a new instance of the same attribute type, offset and occupancies over the
file and buffer pool of `s`. -/
def reopen (s : BTreeIndex) : Except Exn Unit × BTreeIndex :=
  openIndex { BTreeIndex.initial s.attributeType s.attrByteOffset s.leafOccupancy
      s.nodeOccupancy with
    pages := s.pages
    numPages := s.numPages
    pinCnt := s.pinCnt
    addrLess := s.addrLess }

/-- The member function `m` keeps the invariant `I`, also when it throws, and
its results satisfy `Q`. -/
def M.Inv {α : Type} (I : BTreeIndex → Prop) (m : M α) (Q : α → Prop) : Prop :=
  ∀ s, I s → I (m s).2 ∧ ∀ a, (m s).1 = .ok a → Q a

/-- No cast of the header page to a node succeeds. -/
def KeyType.NoHeaderCast {K : Type} (kt : KeyType K) : Prop :=
  (∀ m n, kt.asLeaf (.header m) ≠ .ok n) ∧ (∀ m n, kt.asNonLeaf (.header m) ≠ .ok n)

/-- The low-bound predicate of a scan on a key: `k > low` for `GT`, `k >= low`
for `GTE`. -/
def satisfiesLow (op : Operator) (low k : Int) : Bool :=
  match op with
  | .GT => decide (k > low)
  | .GTE => decide (k ≥ low)
  | _ => false

/-- The high-bound predicate of a scan on a key: `k < high` for `LT`,
`k <= high` for `LTE`. -/
def satisfiesHigh (op : Operator) (high k : Int) : Bool :=
  match op with
  | .LT => decide (k < high)
  | .LTE => decide (k ≤ high)
  | _ => false

/-- The state of a scan of an INTEGER index with high bound `high` under
`hop` that stands on entry `i` of the leaf on page 2. -/
def ScanOnLeaf (L : Nat) (leaf : LeafNode Int) (high : Int) (hop : Operator) (i : Nat)
    (t : BTreeIndex) : Prop :=
  t.attributeType = .INTEGER ∧ t.leafOccupancy = L ∧ t.scanExecuting = true ∧
  t.currentPageNum = 2 ∧ t.currentPageData = some 2 ∧ t.pages 2 = .leafInt leaf ∧
  t.nextEntry = (i : Int) ∧ t.highValInt = high ∧ t.highOp = hop

/-- The live children of an internal node of `N + 1` pointer slots form a
prefix: after a zero pointer every pointer up to slot `N` is zero. -/
def NonLeafNode.DensePtrs {K : Type} (N : Nat) (node : NonLeafNode K) : Prop :=
  ∀ i j, i ≤ j → j ≤ N → node.pageNoArray i = 0 → node.pageNoArray j = 0

/-- The internal node of `N + 1` pointer slots has exactly the children `ps`,
in index order: slot `i` below `ps.length` holds child `i`, which is nonzero,
and the other slots are zero. -/
def NonLeafNode.Kids {K : Type} (N : Nat) (node : NonLeafNode K) (ps : List Nat) : Prop :=
  ps.length ≤ N + 1 ∧
  (∀ i, i < ps.length → ps[i]? = some (node.pageNoArray i) ∧ node.pageNoArray i ≠ 0) ∧
  (∀ i, ps.length ≤ i → i ≤ N → node.pageNoArray i = 0)

/-- The two nodes `splitNonLeaf` holds after its move loop and the hand-over of
the last pointer (lines 804, 809-825), before it inserts the incoming pair. -/
def splitNonLeafParts {K : Type} (kt : KeyType K) (N : Nat) (node new : NonLeafNode K) :
    NonLeafNode K × NonLeafNode K :=
  let mid := N / 2 + 1
  let r := splitNonLeafMove kt mid (N - mid) mid node { new with level := node.level }
  ({ r.1 with pageNoArray := Function.update r.1.pageNoArray N 0 },
    { r.2 with pageNoArray := Function.update r.2.pageNoArray (N - mid) (r.1.pageNoArray N) })

/-- The first `n` key slots and the first `n + 1` pointer slots of the internal
node on page `p` of an INTEGER index; `none` when the page is not one. -/
def nodeViewAt (s : BTreeIndex) (p n : Nat) : Option (List Int × List Nat) :=
  match s.pages p with
  | .nonLeafInt node => some (nodeView node n)
  | _ => none

/-- The invariant of an INTEGER index with `nodeOccupancy = N`: the root page
number is not 0 and on every internal node the live children form a prefix of
`pageNoArray`. -/
def NodesDense (N : Nat) (s : BTreeIndex) : Prop :=
  s.attributeType = .INTEGER ∧ s.nodeOccupancy = N ∧ s.rootPageNum ≠ 0 ∧
  ∀ p node, s.pages p = .nonLeafInt node → node.DensePtrs N

/-- The state `s` over a buffer pool in which the buffers of string keys are
ordered as `f` tells. -/
def withAddrLess (f : List Nat → List Nat → Bool) (s : BTreeIndex) : BTreeIndex :=
  { s with addrLess := f }

/-- The `insertEntry` arguments for the string keys `keys` in list order, the
key at position `i` with the record identifier `(page_number, slot_number) =
(i + 1, 0)`. -/
def numberedS (keys : List (List Nat)) : List (KeyArg × RecordId) :=
  (List.range keys.length).zipWith (fun i k => (KeyArg.string k, ⟨i + 1, 0⟩)) keys

/-- The STRING index of occupancies 3 and 3 after the nine one-byte keys "a",
"b", ..., "i" were inserted in this order into the new index, over a buffer
pool in which every comparison of key addresses yields `lt`: a root with four
leaves, no slot free in the root and none in the last leaf. -/
def nineStrings (lt : Bool) : BTreeIndex :=
  (insertAll (numberedS [[97], [98], [99], [100], [101], [102], [103], [104], [105]])
    (withAddrLess (fun _ _ => lt) (newIndex .STRING 3 3))).2

/-- The internal node of the given level whose leading key slots hold `keys`
and whose leading pointer slots hold `ptrs`; the other key slots hold `z` and
the other pointer slots 0. -/
def mkNode {K : Type} (z : K) (level : Int) (keys : List K) (ptrs : List Nat) : NonLeafNode K :=
  { level := level
    keyArray := fun i => keys.getD i z
    pageNoArray := fun i => ptrs.getD i 0 }

/-- The leaf whose leading slots hold `entries`, with the given right sibling;
the other slots hold the key `z` and the record identifier (0, 0). -/
def mkLeafOf {K : Type} (z : K) (entries : List (K × RecordId)) (sib : Nat) : LeafNode K :=
  { keyArray := fun i => (entries.getD i (z, ⟨0, 0⟩)).1
    ridArray := fun i => (entries.getD i (z, ⟨0, 0⟩)).2
    rightSibPageNo := sib }

/-- An index state of attribute type `ty` with four pages, page 4 holding
`page` and the other pages blank. -/
def stateWithPage (ty : Datatype) (L N : Nat) (page : Page) : BTreeIndex :=
  { BTreeIndex.initial ty 0 L N with
    numPages := 4
    pages := fun p => if p = 4 then page else .blank }

/-- The live entries of the leaf on page `p` of a DOUBLE index; `none` when the
page is not a DOUBLE leaf. -/
def leafViewD (s : BTreeIndex) (p : Nat) : Option (List (Double × RecordId)) :=
  match s.pages p with
  | .leafDouble leaf => some (liveEntries leaf s.leafOccupancy 0)
  | _ => none

/-- The first `n` key slots and the first `n + 1` pointer slots of the internal
node on page `p` of a DOUBLE index; `none` when the page is not one. -/
def nodeViewD (s : BTreeIndex) (p n : Nat) : Option (List Double × List Nat) :=
  match s.pages p with
  | .nonLeafDouble node =>
    some ((List.range n).map node.keyArray, (List.range (n + 1)).map node.pageNoArray)
  | _ => none

/-- The `insertEntry` arguments for the double keys `keys` in list order, the
key at position `i` with the record identifier `(page_number, slot_number) =
(i + 1, 0)`. -/
def numberedD (keys : List Double) : List (KeyArg × RecordId) :=
  (List.range keys.length).zipWith (fun i k => (KeyArg.double k, ⟨i + 1, 0⟩)) keys

/-! ## Ordered keys of any type -/

/-- On the keys in `V`, `compare` is a total order and the key copy is the
identity. -/
structure KeyType.OrderedOn {K : Type} (kt : KeyType K) (V : K → Prop) : Prop where
  assign_eq : ∀ a, V a → kt.assign a = a
  swap : ∀ a b, V a → V b → (kt.compare a b < 0 ↔ 0 < kt.compare b a)
  trans : ∀ a b c, V a → V b → V c →
    kt.compare a b ≤ 0 → kt.compare b c ≤ 0 → kt.compare a c ≤ 0
  eq_of_zero : ∀ a b, V a → V b → kt.compare a b = 0 → a = b

/-- A string key as a row of a STRING node holds it: fewer than `STRINGSIZE`
bytes, none of them NUL, the terminator following within the row. -/
def IsRow (a : List Nat) : Prop := a.length < STRINGSIZE ∧ ∀ c ∈ a, c ≠ 0

/-- The rank of a double that is not NaN in the order of the extended rationals. -/
def Double.rank : Double → WithBot (WithTop Rat)
  | .nan => ⊥
  | .negInf => ⊥
  | .finite q => ((q : WithTop Rat) : WithBot (WithTop Rat))
  | .posInf => ((⊤ : WithTop Rat) : WithBot (WithTop Rat))

/-- The casts of the key type read back the node that was written through
them, and read the all-zero node from a zero-filled page. -/
structure KeyType.Casts {K : Type} (kt : KeyType K) : Prop where
  asLeaf_blank : kt.asLeaf .blank = .ok (LeafNode.zero kt.zero)
  asLeaf_ofLeaf : ∀ n, kt.asLeaf (kt.ofLeaf n) = .ok n
  asNonLeaf_blank : kt.asNonLeaf .blank = .ok (NonLeafNode.zero kt.zero)
  asNonLeaf_ofNonLeaf : ∀ n, kt.asNonLeaf (kt.ofNonLeaf n) = .ok n

/-- The index has occupancies `L` and `N` and its root is still the initial
leaf (page 2, header on page 1, no other page allocated), a leaf of key type
`kt` holding exactly the entries `es`, whose keys lie in `V` and are sorted. -/
def RootLeafOf {K : Type} (kt : KeyType K) (V : K → Prop) (L N : Nat)
    (es : List (K × RecordId)) (s : BTreeIndex) : Prop :=
  s.leafOccupancy = L ∧ s.nodeOccupancy = N ∧
  s.onlyRoot = true ∧ s.rootPageNum = 2 ∧ s.headerPageNum = 1 ∧ s.numPages = 2 ∧
  (∃ m, s.pages 1 = .header m) ∧ (∀ e ∈ es, V e.1) ∧
  List.Pairwise (fun a b : K × RecordId => kt.compare a.1 b.1 ≤ 0) es ∧
  ∃ leaf, s.pages 2 = kt.ofLeaf leaf ∧ leaf.Holds L es ∧ leaf.Dense es.length

/-- The key argument suits an index of attribute type `ty` and is a value the
comparison orders: an `int` on an INTEGER index, a `double` other than NaN on a
DOUBLE index, a string on a STRING index. -/
def KeyArg.Fits (ty : Datatype) : KeyArg → Prop
  | .int _ => ty = .INTEGER
  | .double v => ty = .DOUBLE ∧ v ≠ .nan
  | .string _ => ty = .STRING

/-- Slot `i` of the leaf on a page, whatever its key type; `none` when the page
is not a stored leaf. -/
def Page.leafEntry : Page → Nat → Option (KeyArg × RecordId)
  | .leafInt n, i => some (.int (n.keyArray i), n.ridArray i)
  | .leafDouble n, i => some (.double (n.keyArray i), n.ridArray i)
  | .leafString n, i => some (.string (n.keyArray i), n.ridArray i)
  | _, _ => none

/-- The `level` of the internal node on a page, whatever its key type; `none`
when the page is not a stored internal node. -/
def Page.nodeLevel : Page → Option Int
  | .nonLeafInt n => some n.level
  | .nonLeafDouble n => some n.level
  | .nonLeafString n => some n.level
  | _ => none

/-- Entry `i` of the `pageNoArray` of the internal node on a page. -/
def Page.nodePtr : Page → Nat → Option Nat
  | .nonLeafInt n, i => some (n.pageNoArray i)
  | .nonLeafDouble n, i => some (n.pageNoArray i)
  | .nonLeafString n, i => some (n.pageNoArray i)
  | _, _ => none

/-- Entry `i` of the `keyArray` of the internal node on a page. -/
def Page.nodeKey : Page → Nat → Option KeyArg
  | .nonLeafInt n, i => some (.int (n.keyArray i))
  | .nonLeafDouble n, i => some (.double (n.keyArray i))
  | .nonLeafString n, i => some (.string (n.keyArray i))
  | _, _ => none

end badgerdb

namespace badgerdb

/-! ## Running member functions -/

theorem M.run_bind {α β : Type} (m : M α) (f : α → M β) (s : BTreeIndex) :
    (m >>= f) s = match m s with
      | (.ok a, s') => f a s'
      | (.error e, s') => (.error e, s') := rfl

theorem M.run_pure {α : Type} (a : α) (s : BTreeIndex) : (pure a : M α) s = (.ok a, s) := rfl

theorem M.bind_of_ok {α β : Type} {m : M α} {f : α → M β} {s s' : BTreeIndex} {a : α}
    (h : m s = (.ok a, s')) : (m >>= f) s = f a s' := by
  rw [M.run_bind, h]

/-- C5: on an INTEGER index, in every state, `startScan` with valid operators
and `lowVal > highVal` fails with `BadScanrange` and returns the state it was
called in, so the scan members and the pin counts are unchanged. -/
theorem startScan_badScanrange_int (s : BTreeIndex) (low high : Int) (lowOp highOp : Operator)
    (hty : s.attributeType = .INTEGER)
    (hlow : lowOp = .GT ∨ lowOp = .GTE) (hhigh : highOp = .LT ∨ highOp = .LTE)
    (hrange : low > high) :
    startScan (.int low) lowOp (.int high) highOp s = (.error .BadScanrange, s) := by
  have hops : ¬ ((lowOp ≠ .GT ∧ lowOp ≠ .GTE) ∨ (highOp ≠ .LT ∧ highOp ≠ .LTE)) := by
    rcases hlow with h | h <;> rcases hhigh with h' | h' <;> simp [h, h']
  simp [startScan, M.run_bind, M.run_pure, hops, getThis, hty, liftE, KeyArg.asInt, hrange, raise]

/-! ## Exceptions a member function cannot end with -/

theorem avoids_bind {α β : Type} {e : Exn} {m : M α} {f : α → M β}
    (hm : M.Avoids e m) (hf : ∀ a, M.Avoids e (f a)) : M.Avoids e (m >>= f) := by
  intro s
  rw [M.run_bind]
  have := hm s
  split
  · next a s' h => exact hf a s'
  · next e' s' h =>
    rw [h] at this
    intro hc
    apply this
    simp only [Except.error.injEq] at hc ⊢
    exact hc

theorem avoids_pure {α : Type} {e : Exn} (a : α) : M.Avoids e (pure a : M α) := by
  intro s; simp [M.run_pure]

theorem avoids_raise {α : Type} {e e' : Exn} (h : e' ≠ e) : M.Avoids e (raise e' : M α) := by
  intro s; simp [badgerdb.raise, h]

theorem avoids_getThis {e : Exn} : M.Avoids e getThis := by
  intro s; simp [badgerdb.getThis]

theorem avoids_setThis {e : Exn} (f : BTreeIndex → BTreeIndex) : M.Avoids e (setThis f) := by
  intro s; simp [badgerdb.setThis]

theorem avoids_liftE {α : Type} {e : Exn} {r : Except Exn α} (h : r ≠ .error e) :
    M.Avoids e (liftE r) := by
  intro s; simpa [badgerdb.liftE] using h

theorem Exn.IsEntryCheck.api {e : Exn} (he : e.IsEntryCheck) : e.IsScanApi := by
  rcases he with rfl | rfl
  · exact Or.inl rfl
  · exact Or.inr (Or.inl rfl)

theorem avoids_readPage {e : Exn} (he : e.IsScanApi) (pageNo : Nat) :
    M.Avoids e (readPage pageNo) := by
  intro s
  rcases he with rfl | rfl | rfl | rfl <;> (unfold badgerdb.readPage; split <;> simp)

theorem avoids_unPinPage {e : Exn} (he : e.IsScanApi) (pageNo : Nat) (d : Bool) :
    M.Avoids e (unPinPage pageNo d) := by
  intro s
  rcases he with rfl | rfl | rfl | rfl <;> (unfold badgerdb.unPinPage; split <;> simp)

theorem avoids_derefLeaf {K : Type} {kt : KeyType K} {e : Exn} (hk : kt.CastsOnly)
    (he : e.IsScanApi) (ptr : Nat) : M.Avoids e (derefLeaf kt ptr) := by
  intro s h
  have := hk.1 _ _ h
  rcases he with rfl | rfl | rfl | rfl <;> simp at this

theorem avoids_derefNonLeaf {K : Type} {kt : KeyType K} {e : Exn} (hk : kt.CastsOnly)
    (he : e.IsScanApi) (ptr : Nat) : M.Avoids e (derefNonLeaf kt ptr) := by
  intro s h
  have := hk.2 _ _ h
  rcases he with rfl | rfl | rfl | rfl <;> simp at this

theorem avoids_catchPageNotPinned {e : Exn} {m : M Unit}
    (hm : M.Avoids e m) : M.Avoids e (catchPageNotPinned m) := by
  intro s
  have := hm s
  unfold badgerdb.catchPageNotPinned
  split
  · simp
  · exact this

theorem intKey_castsOnly : intKey.CastsOnly := by
  constructor <;> intro p e h <;> cases p <;> simp [intKey] at h <;> exact h.symm

theorem doubleKey_castsOnly : doubleKey.CastsOnly := by
  constructor <;> intro p e h <;> cases p <;> simp [doubleKey] at h <;> exact h.symm

theorem stringKey_castsOnly (f : List Nat → List Nat → Bool) : (stringKey f).CastsOnly := by
  constructor <;> intro p e h <;> cases p <;> simp [stringKey] at h <;> exact h.symm

theorem leafPos_avoids {K : Type} {kt : KeyType K} {e : Exn} (hk : kt.CastsOnly)
    (he : e.IsEntryCheck) (currNo : Nat) (lowVal : K) : M.Avoids e (leafPos kt currNo lowVal) := by
  unfold leafPos
  refine avoids_bind (avoids_readPage he.api _) fun _ =>
    avoids_bind (avoids_derefLeaf hk he.api _) fun _ => avoids_bind avoids_getThis fun _ => ?_
  split
  refine avoids_bind (avoids_unPinPage he.api _ _) fun _ => ?_
  split
  · exact avoids_pure _
  · split <;> exact avoids_pure _

theorem nonLeafPos_avoids {K : Type} {kt : KeyType K} {e : Exn} (hk : kt.CastsOnly)
    (he : e.IsEntryCheck) (currNo : Nat) (lowVal : K) :
    M.Avoids e (nonLeafPos kt currNo lowVal) := by
  unfold nonLeafPos
  repeat' with_reducible first
    | exact avoids_pure _
    | exact avoids_getThis
    | exact avoids_readPage he.api _
    | exact avoids_unPinPage he.api _ _
    | exact avoids_derefNonLeaf hk he.api _
    | refine avoids_bind ?_ (fun _ => ?_)
    | split

theorem searchDescend_avoids {K : Type} {kt : KeyType K} {e : Exn} (hk : kt.CastsOnly)
    (he : e.IsEntryCheck) (lowVal : K) (fuel currNo : Nat) :
    M.Avoids e (searchDescend kt lowVal fuel currNo) := by
  induction fuel generalizing currNo with
  | zero =>
    unfold searchDescend
    exact avoids_raise (by rcases he with rfl | rfl <;> decide)
  | succ fuel ih =>
    have h1 : Exn.outOfBounds ≠ e := by rcases he with rfl | rfl <;> decide
    unfold searchDescend
    repeat' with_reducible first
      | exact avoids_pure _
      | exact ih _
      | exact nonLeafPos_avoids hk he _ _
      | exact avoids_readPage he.api _
      | exact avoids_unPinPage he.api _ _
      | exact avoids_derefNonLeaf hk he.api _
      | exact avoids_raise h1
      | refine avoids_bind ?_ (fun _ => ?_)
      | split

theorem search_avoids {K : Type} {kt : KeyType K} {e : Exn} (hk : kt.CastsOnly)
    (he : e.IsEntryCheck) (lowVal : K) : M.Avoids e (search kt lowVal) := by
  have h1 : Exn.outOfBounds ≠ e := by rcases he with rfl | rfl <;> decide
  have h2 : Exn.IndexScanCompleted ≠ e := by rcases he with rfl | rfl <;> decide
  unfold search
  repeat' with_reducible first
    | exact avoids_pure _
    | exact avoids_getThis
    | exact avoids_setThis _
    | exact searchDescend_avoids hk he _ _ _
    | exact nonLeafPos_avoids hk he _ _
    | exact leafPos_avoids hk he _ _
    | exact avoids_readPage he.api _
    | exact avoids_unPinPage he.api _ _
    | exact avoids_derefNonLeaf hk he.api _
    | exact avoids_raise h1
    | exact avoids_raise h2
    | refine avoids_bind ?_ (fun _ => ?_)
    | split

theorem endScan_avoids_badOpcodes : M.Avoids .BadOpcodes endScan := by
  have he : Exn.IsEntryCheck .BadOpcodes := Or.inl rfl
  have h1 : Exn.ScanNotInitialized ≠ Exn.BadOpcodes := by decide
  unfold endScan
  repeat' with_reducible first
    | exact avoids_pure _
    | exact avoids_getThis
    | exact avoids_setThis _
    | exact avoids_unPinPage he.api _ _
    | exact avoids_raise h1
    | refine avoids_catchPageNotPinned ?_
    | refine avoids_bind ?_ (fun _ => ?_)
    | split

theorem startScanBegin_avoids_badOpcodes (lowOp highOp : Operator) :
    M.Avoids .BadOpcodes (startScanBegin lowOp highOp) := by
  unfold startScanBegin
  repeat' with_reducible first
    | exact avoids_pure _
    | exact avoids_getThis
    | exact avoids_setThis _
    | exact endScan_avoids_badOpcodes
    | refine avoids_bind ?_ (fun _ => ?_)
    | split

theorem KeyArg.asInt_ne (a : KeyArg) : a.asInt ≠ .error .BadOpcodes := by
  cases a <;> simp [KeyArg.asInt]

theorem KeyArg.asDouble_ne (a : KeyArg) : a.asDouble ≠ .error .BadOpcodes := by
  cases a <;> simp [KeyArg.asDouble]

theorem KeyArg.asStringBuf_ne (a : KeyArg) :
    (a.asString >>= stringOfBuf) ≠ .error .BadOpcodes := by
  cases a <;> simp [KeyArg.asString, bind, Except.bind, stringOfBuf]
  split <;> simp

/-- C7: for every key type, state and arguments, `startScan` fails with
`BadOpcodes` exactly when `lowOp` is not GT or GTE or `highOp` is not LT or LTE,
whatever the range; and a call with such operators returns the state it was
called in, so an active scan stays active. -/
theorem startScan_badOpcodes_iff (s : BTreeIndex) (lowVal highVal : KeyArg)
    (lowOp highOp : Operator) :
    ((startScan lowVal lowOp highVal highOp s).1 = .error .BadOpcodes ↔
      ((lowOp ≠ .GT ∧ lowOp ≠ .GTE) ∨ (highOp ≠ .LT ∧ highOp ≠ .LTE))) ∧
    (((lowOp ≠ .GT ∧ lowOp ≠ .GTE) ∨ (highOp ≠ .LT ∧ highOp ≠ .LTE)) →
      startScan lowVal lowOp highVal highOp s = (.error .BadOpcodes, s)) := by
  have he : Exn.IsEntryCheck .BadOpcodes := Or.inl rfl
  have hbad : ((lowOp ≠ .GT ∧ lowOp ≠ .GTE) ∨ (highOp ≠ .LT ∧ highOp ≠ .LTE)) →
      startScan lowVal lowOp highVal highOp s = (.error .BadOpcodes, s) := by
    intro h
    simp [startScan, M.run_bind, h, raise]
  refine ⟨⟨fun hres => ?_, fun h => by rw [hbad h]⟩, hbad⟩
  by_contra hops
  have hav : M.Avoids .BadOpcodes (startScan lowVal lowOp highVal highOp) := by
    have hr : Exn.BadScanrange ≠ Exn.BadOpcodes := by decide
    unfold startScan
    rw [if_neg hops]
    repeat' with_reducible first
      | exact avoids_pure _
      | exact avoids_getThis
      | exact avoids_setThis _
      | exact search_avoids intKey_castsOnly he _
      | exact search_avoids doubleKey_castsOnly he _
      | exact search_avoids (stringKey_castsOnly _) he _
      | exact startScanBegin_avoids_badOpcodes _ _
      | exact avoids_liftE (KeyArg.asInt_ne _)
      | exact avoids_liftE (KeyArg.asDouble_ne _)
      | exact avoids_liftE (KeyArg.asStringBuf_ne _)
      | exact avoids_raise hr
      | refine avoids_bind ?_ (fun _ => ?_)
      | split
  exact hav s hres

theorem scanNextAdvance_avoids {K : Type} {e : Exn} (he : e.IsScanApi) (curr : LeafNode K) :
    M.Avoids e (scanNextAdvance curr) := by
  have h1 : Exn.outOfBounds ≠ e := by rcases he with rfl | rfl | rfl | rfl <;> decide
  unfold scanNextAdvance
  repeat' with_reducible first
    | exact avoids_pure _
    | exact avoids_getThis
    | exact avoids_setThis _
    | exact avoids_readPage he _
    | exact avoids_unPinPage he _ _
    | exact avoids_raise h1
    | refine avoids_bind ?_ (fun _ => ?_)
    | split

theorem scanNextT_avoids {K : Type} {kt : KeyType K} {e : Exn} (hk : kt.CastsOnly)
    (he : e.IsEntryCheck) (gtHigh geHigh : K → Bool) :
    M.Avoids e (scanNextT kt gtHigh geHigh) := by
  have h1 : Exn.outOfBounds ≠ e := by rcases he with rfl | rfl <;> decide
  have h2 : Exn.IndexScanCompleted ≠ e := by rcases he with rfl | rfl <;> decide
  have h3 : Exn.danglingPointer ≠ e := by rcases he with rfl | rfl <;> decide
  unfold scanNextT
  repeat' with_reducible first
    | exact avoids_pure _
    | exact avoids_getThis
    | exact scanNextAdvance_avoids he.api _
    | exact avoids_derefLeaf hk he.api _
    | exact avoids_raise h1
    | exact avoids_raise h2
    | exact avoids_raise h3
    | refine avoids_bind ?_ (fun _ => ?_)
    | split
    | dsimp only

theorem scanNext_of_not_executing (s : BTreeIndex) (h : s.scanExecuting = false) :
    scanNext s = (.error .ScanNotInitialized, s) := by
  simp [scanNext, M.run_bind, getThis, h, raise]

theorem endScan_of_not_executing (s : BTreeIndex) (h : s.scanExecuting = false) :
    endScan s = (.error .ScanNotInitialized, s) := by
  simp [endScan, M.run_bind, getThis, h, raise]

theorem scanNext_of_executing (s : BTreeIndex) (h : s.scanExecuting = true) :
    (scanNext s).1 ≠ .error .ScanNotInitialized := by
  have he : Exn.IsEntryCheck .ScanNotInitialized := Or.inr rfl
  have h2 : Exn.IndexScanCompleted ≠ Exn.ScanNotInitialized := by decide
  have hav : M.Avoids .ScanNotInitialized
      (do
        if s.currentPageNum = 0 then raise .IndexScanCompleted
        match s.attributeType with
        | .INTEGER =>
          scanNextT intKey (fun k => decide (k > s.highValInt))
            (fun k => decide (k ≥ s.highValInt))
        | .DOUBLE =>
          scanNextT doubleKey (fun k => decide (k > s.highValDouble))
            (fun k => decide (k ≥ s.highValDouble))
        | .STRING =>
          scanNextT (stringKey s.addrLess)
            (fun k => decide (strcmp k (snprintfS s.highValString) > 0))
            (fun k => decide (strcmp k (snprintfS s.highValString) ≥ 0))) := by
    repeat' with_reducible first
      | exact avoids_pure _
      | exact scanNextT_avoids intKey_castsOnly he _ _
      | exact scanNextT_avoids doubleKey_castsOnly he _ _
      | exact scanNextT_avoids (stringKey_castsOnly _) he _ _
      | exact avoids_raise h2
      | refine avoids_bind ?_ (fun _ => ?_)
      | split
  have := hav s
  simpa [scanNext, M.run_bind, getThis, h, M.run_pure] using this

theorem catch_unPinPage_run (pageNo : Nat) (d : Bool) (s : BTreeIndex) :
    ∃ s', catchPageNotPinned (unPinPage pageNo d) s = (.ok (), s') ∧
      s' = { s with pinCnt := s'.pinCnt } := by
  unfold catchPageNotPinned unPinPage
  by_cases h : s.pinCnt pageNo = 0
  · exact ⟨s, by simp [h], rfl⟩
  · exact ⟨{ s with pinCnt := Function.update s.pinCnt pageNo (s.pinCnt pageNo - 1) },
      by simp [h], rfl⟩

theorem endScan_of_executing (s : BTreeIndex) (h : s.scanExecuting = true) :
    (endScan s).1 = .ok () ∧ (endScan s).2.scanExecuting = false := by
  obtain ⟨s1, h1, e1⟩ := catch_unPinPage_run s.currentPageNum false s
  have h1' : ∃ s1', catchPageNotPinned (do
      if s.currentPageNum ≠ 0 then
        unPinPage s.currentPageNum false) s = (.ok (), s1') := by
    by_cases hc : s.currentPageNum = 0
    · exact ⟨s, by simp [hc, catchPageNotPinned, M.run_pure]⟩
    · exact ⟨s1, by simpa [hc] using h1⟩
  obtain ⟨s1', h1'⟩ := h1'
  obtain ⟨s2, h2, e2⟩ := catch_unPinPage_run s.rootPageNum true s1'
  have : endScan s = (.ok (), { s2 with scanExecuting := false }) := by
    unfold endScan
    rw [M.run_bind]
    simp only [getThis, h, Bool.not_true, Bool.false_eq_true, if_false]
    rw [M.run_bind, M.run_pure]
    simp only []
    rw [M.run_bind, h1']
    simp only []
    rw [M.run_bind, h2]
    rfl
  rw [this]
  exact ⟨rfl, rfl⟩

theorem newIndex_scanExecuting (ty : Datatype) (L N : Nat) :
    (newIndex ty L N).scanExecuting = false := by
  cases ty <;> simp [newIndex, createIndex, M.run_bind, M.run_pure, setThis, allocPage, getThis,
    derefLeaf, storeLeaf, unPinPage, insertAll, BTreeIndex.initial, intKey, doubleKey, stringKey]

/-- C8: `scanNext` and `endScan` each fail with `ScanNotInitialized` exactly
when `scanExecuting` is false, and then return the state they were called in; a
freshly constructed index has `scanExecuting` false; an `endScan` that succeeds
leaves `scanExecuting` false, so the `endScan` after it fails with
`ScanNotInitialized`. -/
theorem scanNotInitialized_iff (s : BTreeIndex) :
    ((scanNext s).1 = .error .ScanNotInitialized ↔ s.scanExecuting = false) ∧
    (s.scanExecuting = false → scanNext s = (.error .ScanNotInitialized, s)) ∧
    ((endScan s).1 = .error .ScanNotInitialized ↔ s.scanExecuting = false) ∧
    (s.scanExecuting = false → endScan s = (.error .ScanNotInitialized, s)) ∧
    ((endScan s).1 = .ok () →
      (endScan s).2.scanExecuting = false ∧
      endScan (endScan s).2 = (.error .ScanNotInitialized, (endScan s).2)) ∧
    (∀ ty L N, (newIndex ty L N).scanExecuting = false) := by
  refine ⟨⟨fun h => ?_, fun h => by rw [scanNext_of_not_executing s h]⟩,
    scanNext_of_not_executing s,
    ⟨fun h => ?_, fun h => by rw [endScan_of_not_executing s h]⟩,
    endScan_of_not_executing s, fun h => ?_, newIndex_scanExecuting⟩
  · by_contra hs
    exact scanNext_of_executing s (by simpa using hs) h
  · by_contra hs
    have := (endScan_of_executing s (by simpa using hs)).1
    rw [this] at h
    simp at h
  · have hs : s.scanExecuting = true := by
      by_contra hs
      rw [endScan_of_not_executing s (by simpa using hs)] at h
      simp at h
    have h2 := (endScan_of_executing s hs).2
    exact ⟨h2, endScan_of_not_executing _ h2⟩

/-! ## States kept by a throw -/

theorem keeps_of_avoids {α : Type} {e : Exn} {m : M α} (h : M.Avoids e m) : M.Keeps e m :=
  fun s hs => absurd hs (h s)

theorem keeps_raise {α : Type} {e e' : Exn} : M.Keeps e (raise e' : M α) :=
  fun _ _ => rfl

theorem keeps_bind {α β : Type} {e : Exn} {m : M α} {f : α → M β}
    (hm : M.ReadOnly m) (hf : ∀ a, M.Keeps e (f a)) : M.Keeps e (m >>= f) := by
  intro s
  have h2 := hm s
  rw [M.run_bind]
  split
  · next a s' h =>
    rw [h] at h2
    simp only at h2
    subst h2
    exact hf a s'
  · next e' s' h =>
    rw [h] at h2
    intro _
    exact h2

theorem readOnly_getThis : M.ReadOnly getThis := fun _ => rfl

theorem readOnly_pure {α : Type} (a : α) : M.ReadOnly (pure a : M α) := fun _ => rfl

theorem readOnly_raise {α : Type} (e : Exn) : M.ReadOnly (raise e : M α) := fun _ => rfl

theorem readOnly_derefLeaf {K : Type} (kt : KeyType K) (ptr : Nat) :
    M.ReadOnly (derefLeaf kt ptr) := fun _ => rfl

theorem scanNextT_keeps {K : Type} {kt : KeyType K}
    (gtHigh geHigh : K → Bool) : M.Keeps .IndexScanCompleted (scanNextT kt gtHigh geHigh) := by
  have he : Exn.IsScanApi .IndexScanCompleted := Or.inr (Or.inr (Or.inl rfl))
  unfold scanNextT
  repeat' with_reducible first
    | exact keeps_raise
    | exact keeps_of_avoids (scanNextAdvance_avoids he _)
    | refine keeps_bind readOnly_getThis (fun _ => ?_)
    | refine keeps_bind (readOnly_derefLeaf _ _) (fun _ => ?_)
    | refine keeps_bind (readOnly_raise _) (fun _ => ?_)
    | refine keeps_bind (readOnly_pure _) (fun _ => ?_)
    | split
    | dsimp only

theorem scanNext_keeps : M.Keeps .IndexScanCompleted scanNext := by
  unfold scanNext
  repeat' with_reducible first
    | exact keeps_raise
    | exact scanNextT_keeps _ _
    | refine keeps_bind readOnly_getThis (fun _ => ?_)
    | refine keeps_bind (readOnly_raise _) (fun _ => ?_)
    | refine keeps_bind (readOnly_pure _) (fun _ => ?_)
    | split

/-- C9: a `scanNext` call that fails with `IndexScanCompleted` returns the
state it was called in (scan position, bounds and `scanExecuting` included), so
however many further `scanNext` calls follow, each fails with
`IndexScanCompleted` in that same state and yields no record identifier. -/
theorem scanNext_completed_persists (s : BTreeIndex)
    (h : (scanNext s).1 = .error .IndexScanCompleted) :
    (scanNext s).2 = s ∧
    ∀ n : Nat, scanNext ((fun t => (scanNext t).2)^[n] s) = (.error .IndexScanCompleted, s) := by
  have hs : (scanNext s).2 = s := scanNext_keeps s h
  refine ⟨hs, fun n => ?_⟩
  have hit : (fun t => (scanNext t).2)^[n] s = s := by
    induction n with
    | zero => rfl
    | succ n ih => rw [Function.iterate_succ_apply, hs, ih]
  rw [hit]
  exact Prod.ext h hs

/-! ## Leaf operations -/

theorem insertLeafPos_le {K : Type} (kt : KeyType K) (node : LeafNode K) (key : K) (c : Nat)
    (hc : (node.ridArray c).page_number = 0) (left pos : Nat) (hpos : pos ≤ c) :
    insertLeafPos kt node key left pos ≤ c := by
  induction left generalizing pos with
  | zero => simpa [insertLeafPos] using hpos
  | succ left ih =>
    unfold insertLeafPos
    split
    · exact hpos
    · next h0 =>
      split
      · exact hpos
      · apply ih
        rcases Nat.lt_or_eq_of_le hpos with h | h
        · exact h
        · subst h; exact absurd hc h0

theorem insertLeafPos_zero_iff {K : Type} (kt : KeyType K) (node : LeafNode K) (key : K)
    (left : Nat) (h0 : (node.ridArray 0).page_number ≠ 0)
    (hpos : insertLeafPos kt node key (left + 1) 0 = 0) :
    kt.compare (node.keyArray 0) key ≥ 0 := by
  unfold insertLeafPos at hpos
  rw [if_neg h0] at hpos
  by_contra hcmp
  rw [if_neg hcmp] at hpos
  have : ∀ l p, p ≤ insertLeafPos kt node key l p := by
    intro l
    induction l with
    | zero => intro p; simp [insertLeafPos]
    | succ l ih =>
      intro p
      unfold insertLeafPos
      split
      · exact le_rfl
      · split
        · exact le_rfl
        · exact Nat.le_of_succ_le (ih (p + 1))
  have := this left 1
  simp only [Nat.zero_add] at hpos
  omega

theorem insertLeafShift_ridArray {K : Type} (kt : KeyType K) (pos i : Nat) (node : LeafNode K)
    (j : Nat) :
    (insertLeafShift kt pos i node).ridArray j =
      if pos < j ∧ j ≤ i then node.ridArray (j - 1) else node.ridArray j := by
  induction i generalizing node with
  | zero =>
    have : ¬ (pos < j ∧ j ≤ 0) := by omega
    simp only [insertLeafShift]
    rw [if_neg this]
  | succ i ih =>
    unfold insertLeafShift
    split
    · next hi =>
      rw [ih]
      by_cases h1 : pos < j ∧ j ≤ i
      · have h2 : pos < j ∧ j ≤ i + 1 := ⟨h1.1, by omega⟩
        have h3 : j - 1 ≠ i + 1 := by omega
        simp [h1, h2, Function.update_apply, h3]
      · by_cases h4 : j = i + 1
        · subst h4
          have h2 : pos < i + 1 ∧ i + 1 ≤ i + 1 := ⟨hi, le_rfl⟩
          simp [h1, h2]
        · have h2 : ¬ (pos < j ∧ j ≤ i + 1) := by omega
          simp [h1, h2, Function.update_apply, h4]
    · next hi =>
      have h2 : ¬ (pos < j ∧ j ≤ i + 1) := by omega
      simp [h2]

theorem insertLeafShift_keyArray {K : Type} (kt : KeyType K) (pos i : Nat) (node : LeafNode K)
    (j : Nat) :
    (insertLeafShift kt pos i node).keyArray j =
      if pos < j ∧ j ≤ i then kt.assign (node.keyArray (j - 1)) else node.keyArray j := by
  induction i generalizing node with
  | zero =>
    have : ¬ (pos < j ∧ j ≤ 0) := by omega
    simp only [insertLeafShift]
    rw [if_neg this]
  | succ i ih =>
    unfold insertLeafShift
    split
    · next hi =>
      rw [ih]
      by_cases h1 : pos < j ∧ j ≤ i
      · have h2 : pos < j ∧ j ≤ i + 1 := ⟨h1.1, by omega⟩
        have h3 : j - 1 ≠ i + 1 := by omega
        simp [h1, h2, Function.update_apply, h3]
      · by_cases h4 : j = i + 1
        · subst h4
          have h2 : pos < i + 1 ∧ i + 1 ≤ i + 1 := ⟨hi, le_rfl⟩
          simp [h1, h2]
        · have h2 : ¬ (pos < j ∧ j ≤ i + 1) := by omega
          simp [h1, h2, Function.update_apply, h4]
    · next hi =>
      have h2 : ¬ (pos < j ∧ j ≤ i + 1) := by omega
      simp [h2]

theorem insertLeafShift_rightSib {K : Type} (kt : KeyType K) (pos i : Nat) (node : LeafNode K) :
    (insertLeafShift kt pos i node).rightSibPageNo = node.rightSibPageNo := by
  induction i generalizing node with
  | zero => simp [insertLeafShift]
  | succ i ih =>
    unfold insertLeafShift
    split
    · rw [ih]
    · rfl

/-- On a leaf with `c < L` dense live entries `insertLeaf` returns a leaf with
`c + 1` dense live entries, the same right sibling, and slot 0 either kept or
taken by the new pair when slot 0 compared `>=` the new key. -/
theorem insertLeaf_dense {K : Type} (kt : KeyType K) (L c : Nat) (node : LeafNode K)
    (pair : RIDKeyPair K) (hd : node.Dense c) (hc : c < L) :
    ∃ node', insertLeaf kt L node pair = .ok node' ∧
      (pair.rid.page_number ≠ 0 → node'.Dense (c + 1)) ∧
      node'.rightSibPageNo = node.rightSibPageNo ∧
      (node'.keyArray 0 = node.keyArray 0 ∨
        (node'.keyArray 0 = kt.assign pair.key ∧
          (0 < c → kt.compare (node.keyArray 0) pair.key ≥ 0))) := by
  have hpos : insertLeafPos kt node pair.key L 0 ≤ c :=
    insertLeafPos_le kt node pair.key c (hd.2 c le_rfl) L 0 (Nat.zero_le _)
  have hlt : insertLeafPos kt node pair.key L 0 < L := lt_of_le_of_lt hpos hc
  have heq : insertLeaf kt L node pair = .ok
      { insertLeafShift kt (insertLeafPos kt node pair.key L 0) (L - 1) node with
        ridArray := Function.update
          (insertLeafShift kt (insertLeafPos kt node pair.key L 0) (L - 1) node).ridArray
          (insertLeafPos kt node pair.key L 0) pair.rid
        keyArray := Function.update
          (insertLeafShift kt (insertLeafPos kt node pair.key L 0) (L - 1) node).keyArray
          (insertLeafPos kt node pair.key L 0) (kt.assign pair.key) } := by
    simp only [insertLeaf, if_pos hlt]
  refine ⟨_, heq, fun hr => ⟨?_, ?_⟩, ?_, ?_⟩
  · intro i hi
    simp only [Function.update_apply, insertLeafShift_ridArray]
    split
    · exact hr
    · split
      · exact hd.1 _ (by omega)
      · exact hd.1 _ (by omega)
  · intro i hi
    simp only [Function.update_apply, insertLeafShift_ridArray]
    have : i ≠ insertLeafPos kt node pair.key L 0 := by omega
    rw [if_neg this]
    split
    · exact hd.2 _ (by omega)
    · exact hd.2 _ (by omega)
  · simp only [insertLeafShift_rightSib]
  · by_cases h0 : insertLeafPos kt node pair.key L 0 = 0
    · right
      refine ⟨by simp [Function.update_apply, h0], fun hc0 => ?_⟩
      obtain ⟨l, rfl⟩ : ∃ l, L = l + 1 := ⟨L - 1, by omega⟩
      exact insertLeafPos_zero_iff kt node pair.key l (hd.1 0 hc0) h0
    · left
      have : (0 : Nat) ≠ insertLeafPos kt node pair.key L 0 := fun h => h0 h.symm
      simp [Function.update_apply, this, insertLeafShift_keyArray]

theorem splitLeafMove_spec {K : Type} (kt : KeyType K) (half left i : Nat)
    (leaf new : LeafNode K) (hi : half ≤ i) :
    (∀ j, (splitLeafMove kt half left i leaf new).1.ridArray j =
      if i ≤ j ∧ j < i + left then { leaf.ridArray j with page_number := 0 }
      else leaf.ridArray j) ∧
    (splitLeafMove kt half left i leaf new).1.keyArray = leaf.keyArray ∧
    (splitLeafMove kt half left i leaf new).1.rightSibPageNo = leaf.rightSibPageNo ∧
    (∀ j, (splitLeafMove kt half left i leaf new).2.ridArray j =
      if i - half ≤ j ∧ j < i - half + left then leaf.ridArray (j + half)
      else new.ridArray j) ∧
    (∀ j, (splitLeafMove kt half left i leaf new).2.keyArray j =
      if i - half ≤ j ∧ j < i - half + left then kt.assign (leaf.keyArray (j + half))
      else new.keyArray j) ∧
    (splitLeafMove kt half left i leaf new).2.rightSibPageNo = new.rightSibPageNo := by
  induction left generalizing i leaf new with
  | zero =>
    have h1 : ∀ j, ¬ (i ≤ j ∧ j < i + 0) := by intro j; omega
    have h2 : ∀ j, ¬ (i - half ≤ j ∧ j < i - half + 0) := by intro j; omega
    refine ⟨fun j => by rw [if_neg (h1 j)]; rfl, rfl, rfl, fun j => by rw [if_neg (h2 j)]; rfl,
      fun j => by rw [if_neg (h2 j)]; rfl, rfl⟩
  | succ left ih =>
    unfold splitLeafMove
    obtain ⟨a1, a2, a3, a4, a5, a6⟩ := ih (i + 1)
      { leaf with
        ridArray := Function.update leaf.ridArray i { leaf.ridArray i with page_number := 0 } }
      { new with
        ridArray := Function.update new.ridArray (i - half) (leaf.ridArray i)
        keyArray := Function.update new.keyArray (i - half) (kt.assign (leaf.keyArray i)) }
      (by omega)
    refine ⟨fun j => ?_, a2, a3, fun j => ?_, fun j => ?_, a6⟩
    · rw [a1 j]
      by_cases hj : j = i
      · subst hj
        have c1 : ¬ (j + 1 ≤ j ∧ j < j + 1 + left) := by omega
        have c2 : j ≤ j ∧ j < j + (left + 1) := by omega
        simp only [if_neg c1, if_pos c2, Function.update_same]
      · by_cases c1 : i + 1 ≤ j ∧ j < i + 1 + left
        · have c2 : i ≤ j ∧ j < i + (left + 1) := by omega
          simp only [if_pos c1, if_pos c2, Function.update_noteq hj]
        · have c2 : ¬ (i ≤ j ∧ j < i + (left + 1)) := by omega
          simp only [if_neg c1, if_neg c2, Function.update_noteq hj]
    · rw [a4 j]
      by_cases c1 : i + 1 - half ≤ j ∧ j < i + 1 - half + left
      · have c2 : i - half ≤ j ∧ j < i - half + (left + 1) := by omega
        have c3 : j + half ≠ i := by omega
        simp only [if_pos c1, if_pos c2, Function.update_noteq c3]
      · by_cases hj : j = i - half
        · subst hj
          have c2 : i - half ≤ i - half ∧ i - half < i - half + (left + 1) := by omega
          simp only [if_neg c1, if_pos c2, Function.update_same, Nat.sub_add_cancel hi]
        · have c2 : ¬ (i - half ≤ j ∧ j < i - half + (left + 1)) := by omega
          simp only [if_neg c1, if_neg c2, Function.update_noteq hj]
    · rw [a5 j]
      by_cases c1 : i + 1 - half ≤ j ∧ j < i + 1 - half + left
      · have c2 : i - half ≤ j ∧ j < i - half + (left + 1) := by omega
        simp only [if_pos c1, if_pos c2]
      · by_cases hj : j = i - half
        · subst hj
          have c2 : i - half ≤ i - half ∧ i - half < i - half + (left + 1) := by omega
          simp only [if_neg c1, if_pos c2, Function.update_same, Nat.sub_add_cancel hi]
        · have c2 : ¬ (i - half ≤ j ∧ j < i - half + (left + 1)) := by omega
          simp only [if_neg c1, if_neg c2, Function.update_noteq hj]

/-- On a full leaf of `L >= 3` slots and a zero-filled new page `splitLeafNodes`
returns normally; the key it returns for the parent is slot 0 of the new leaf,
or slot 0 holds the incoming key and the two compare equal both ways. -/
theorem splitLeafNodes_full {K : Type} (kt : KeyType K) (L : Nat) (hL : 3 ≤ L)
    (leaf new : LeafNode K) (hd : leaf.Dense L) (hn : new.Dense 0) (newPageNo : Nat)
    (pair : RIDKeyPair K) :
    ∃ leaf' new' pk,
      splitLeafNodes kt L leaf new newPageNo pair = .ok (leaf', new', ⟨newPageNo, pk⟩) ∧
      (new'.keyArray 0 = pk ∨
        (new'.keyArray 0 = kt.assign pair.key ∧ kt.compare pk pair.key ≥ 0 ∧
          ¬ kt.compare pair.key pk < 0)) := by
  have hhalf : L / 2 + 1 < L := by omega
  obtain ⟨a1, -, -, a4, a5, -⟩ :=
    splitLeafMove_spec kt (L / 2 + 1) (L - (L / 2 + 1)) (L / 2 + 1) leaf new le_rfl
  have hL0 : L ≠ 0 := by omega
  have hd1 : ∀ r, LeafNode.Dense
      { (splitLeafMove kt (L / 2 + 1) (L - (L / 2 + 1)) (L / 2 + 1) leaf new).1 with
        rightSibPageNo := r } (L / 2 + 1) := by
    intro r
    constructor
    · intro i hi
      have c : ¬ (L / 2 + 1 ≤ i ∧ i < L / 2 + 1 + (L - (L / 2 + 1))) := by omega
      simp only [a1 i, if_neg c]
      exact hd.1 i (by omega)
    · intro i hi
      simp only [a1 i]
      split
      · rfl
      · exact hd.2 i (by omega)
  have hd2 : ∀ r, LeafNode.Dense
      { (splitLeafMove kt (L / 2 + 1) (L - (L / 2 + 1)) (L / 2 + 1) leaf new).2 with
        rightSibPageNo := r } (L - (L / 2 + 1)) := by
    intro r
    constructor
    · intro i hi
      have c : L / 2 + 1 - (L / 2 + 1) ≤ i ∧
          i < L / 2 + 1 - (L / 2 + 1) + (L - (L / 2 + 1)) := by omega
      simp only [a4 i, if_pos c]
      exact hd.1 _ (by omega)
    · intro i hi
      have c : ¬ (L / 2 + 1 - (L / 2 + 1) ≤ i ∧
          i < L / 2 + 1 - (L / 2 + 1) + (L - (L / 2 + 1))) := by omega
      simp only [a4 i, if_neg c]
      exact hn.2 i (Nat.zero_le _)
  by_cases hcmp : kt.compare pair.key
      ((splitLeafMove kt (L / 2 + 1) (L - (L / 2 + 1)) (L / 2 + 1) leaf new).2.keyArray 0) < 0
  · obtain ⟨leaf', hins, -⟩ := insertLeaf_dense kt L (L / 2 + 1) _ pair (hd1 newPageNo) hhalf
    refine ⟨leaf',
      { (splitLeafMove kt (L / 2 + 1) (L - (L / 2 + 1)) (L / 2 + 1) leaf new).2 with
        rightSibPageNo :=
          (splitLeafMove kt (L / 2 + 1) (L - (L / 2 + 1)) (L / 2 + 1) leaf new).1.rightSibPageNo },
      (splitLeafMove kt (L / 2 + 1) (L - (L / 2 + 1)) (L / 2 + 1) leaf new).2.keyArray 0,
      ?_, Or.inl rfl⟩
    simp only [splitLeafNodes, hL0, if_false, if_pos hcmp, hins, bind, Except.bind, pure,
      Except.pure]
  · obtain ⟨new', hins, -, -, hk⟩ := insertLeaf_dense kt L (L - (L / 2 + 1)) _ pair
      (hd2 (splitLeafMove kt (L / 2 + 1) (L - (L / 2 + 1)) (L / 2 + 1) leaf new).1.rightSibPageNo)
      (by omega)
    refine ⟨{ (splitLeafMove kt (L / 2 + 1) (L - (L / 2 + 1)) (L / 2 + 1) leaf new).1 with
        rightSibPageNo := newPageNo }, new',
      (splitLeafMove kt (L / 2 + 1) (L - (L / 2 + 1)) (L / 2 + 1) leaf new).2.keyArray 0,
      ?_, ?_⟩
    · simp only [splitLeafNodes, hL0, if_false, if_neg hcmp, hins, bind, Except.bind, pure,
        Except.pure]
    · rcases hk with hk | ⟨hk1, hk2⟩
      · exact Or.inl hk
      · exact Or.inr ⟨hk1, hk2 (by omega), hcmp⟩

/-! ## Insertion while the root is the only leaf -/

theorem intKey_ofLeaf (n : LeafNode Int) : intKey.ofLeaf n = Page.leafInt n := rfl

theorem intKey_ofNonLeaf (n : NonLeafNode Int) : intKey.ofNonLeaf n = Page.nonLeafInt n := rfl

theorem intKey_asLeaf_leafInt (n : LeafNode Int) : intKey.asLeaf (Page.leafInt n) = .ok n := rfl

theorem intKey_asLeaf_blank : intKey.asLeaf Page.blank = .ok (LeafNode.zero 0) := rfl

theorem intKey_asNonLeaf_blank : intKey.asNonLeaf Page.blank = .ok (NonLeafNode.zero 0) := rfl

theorem intKey_assign (k : Int) : intKey.assign k = k := rfl

theorem intKey_compare (a b : Int) : intKey.compare a b = compareInt a b := rfl

theorem compareInt_nonneg_iff (a b : Int) : compareInt a b ≥ 0 ↔ b ≤ a := by
  unfold compareInt
  split
  · simp; omega
  · split
    · simp; omega
    · simp; omega

theorem compareInt_neg_iff (a b : Int) : compareInt a b < 0 ↔ a < b := by
  unfold compareInt
  split
  · simp; omega
  · split
    · simp; omega
    · simp; omega

theorem zeroLeaf_dense {K : Type} (z : K) : (LeafNode.zero z).Dense 0 :=
  ⟨fun _ h => absurd h (Nat.not_lt_zero _), fun _ _ => rfl⟩

theorem newIndex_int_eq (L N : Nat) :
    newIndex .INTEGER L N = { BTreeIndex.initial .INTEGER 0 L N with
      onlyRoot := true
      headerPageNum := 1
      rootPageNum := 2
      numPages := 2
      pages := Function.update (Function.update (fun _ => Page.blank) 1
        (Page.header ⟨[], 0, .INTEGER, 2⟩)) 2 (Page.leafInt (LeafNode.zero 0))
      pinCnt := fun _ => 0 } := by
  simp [newIndex, createIndex, M.run_bind, M.run_pure, setThis, allocPage, getThis,
      derefLeaf, storeLeaf, unPinPage, insertAll, BTreeIndex.initial, Function.update_apply,
      intKey_asLeaf_blank, intKey_ofLeaf]
  refine ⟨rfl, ?_⟩
  funext x
  simp only [Function.update_apply]
  split_ifs <;> rfl

/-! ## Runs on concrete indexes -/

/-- C1: with `leafOccupancy = nodeOccupancy = 3`, after inserting keys 1, 2,
3, 4 and then key 3 again with record identifier (5, 0), every call returns
normally and the leaves hold 1, 2, 3 | 3, 4; `startScan(3, GTE, 3, LTE)`
succeeds and the `scanNext` calls return only (3, 0) before
`IndexScanCompleted`: the pair (3, (5, 0)) was inserted once and is returned
zero times. -/
theorem scan_misses_duplicate_of_separator :
    (buildInt 3 3 [1, 2, 3, 4, 3]).1 = .ok () ∧
    leafChainKeys (buildInt 3 3 [1, 2, 3, 4, 3]).2 10 2 = some [1, 2, 3, 3, 4] ∧
    (startScan (.int 3) .GTE (.int 3) .LTE (buildInt 3 3 [1, 2, 3, 4, 3]).2).1 = .ok () ∧
    scanAll 10 (startScan (.int 3) .GTE (.int 3) .LTE (buildInt 3 3 [1, 2, 3, 4, 3]).2).2
      = ([⟨3, 0⟩], some .IndexScanCompleted) := by
  decide!

/-- C2: with `leafOccupancy = nodeOccupancy = 3`, after inserting keys 1, 2,
3, 4 (record identifiers (1, 0) .. (4, 0)), `startScan(2, GT, 4, LTE)` succeeds
and the `scanNext` calls return (2, 0), (3, 0), (4, 0): the first belongs to key
2, which does not satisfy `k > 2`. -/
theorem scan_returns_key_failing_low_bound :
    (buildInt 3 3 [1, 2, 3, 4]).1 = .ok () ∧
    leafChainKeys (buildInt 3 3 [1, 2, 3, 4]).2 10 2 = some [1, 2, 3, 4] ∧
    (startScan (.int 2) .GT (.int 4) .LTE (buildInt 3 3 [1, 2, 3, 4]).2).1 = .ok () ∧
    scanAll 10 (startScan (.int 2) .GT (.int 4) .LTE (buildInt 3 3 [1, 2, 3, 4]).2).2
      = ([⟨2, 0⟩, ⟨3, 0⟩, ⟨4, 0⟩], some .IndexScanCompleted) := by
  decide!

/-- C3: with `leafOccupancy = 3` and `nodeOccupancy = 4`, after inserting keys
1 .. 11 in ascending order every call returns normally and the keys read along
the leaf list from the initial root leaf (page 2) are 1 .. 8, 11, 9, 10: not in
non-decreasing order. -/
theorem leaf_list_unsorted_when_node_wider_than_leaf :
    (buildInt 3 4 [1, 2, 3, 4, 5, 6, 7, 8, 9, 10, 11]).1 = .ok () ∧
    leafChainKeys (buildInt 3 4 [1, 2, 3, 4, 5, 6, 7, 8, 9, 10, 11]).2 10 2
      = some [1, 2, 3, 4, 5, 6, 7, 8, 11, 9, 10] := by
  decide!

/-- C4: with `leafOccupancy = nodeOccupancy = 4`, after inserting keys 100 and
200, `startScan(300, GTE, 400, LTE)` returns normally instead of failing with
`IndexScanCompleted`, and the next `scanNext` returns (2, 0), the record of key
200. -/
theorem startScan_above_largest_key_succeeds :
    (buildInt 4 4 [100, 200]).1 = .ok () ∧
    (startScan (.int 300) .GTE (.int 400) .LTE (buildInt 4 4 [100, 200]).2).1 = .ok () ∧
    scanAll 10 (startScan (.int 300) .GTE (.int 400) .LTE (buildInt 4 4 [100, 200]).2).2
      = ([⟨2, 0⟩], some .IndexScanCompleted) := by
  decide!

/-- C6: on a STRING index holding one key, the first `startScan`, called with
`lowVal = "zzzzzzzzzz"` and `highVal = "aaaaaaaaaa"`, returns normally instead
of failing with `BadScanrange`; the following `startScan`, called with
`lowVal = "aaaaaaaaaa"` and `highVal = "zzzzzzzzzz"`, fails with
`BadScanrange`. -/
theorem string_range_check_uses_previous_bounds :
    (insertEntry (.string (str10 109 ++ [0])) ⟨1, 0⟩ (newIndex .STRING 4 4)).1 = .ok () ∧
    (startScan (.string (str10 122)) .GTE (.string (str10 97)) .LTE
      (insertEntry (.string (str10 109 ++ [0])) ⟨1, 0⟩ (newIndex .STRING 4 4)).2).1 = .ok () ∧
    (startScan (.string (str10 97)) .GTE (.string (str10 122)) .LTE
      (startScan (.string (str10 122)) .GTE (.string (str10 97)) .LTE
        (insertEntry (.string (str10 109 ++ [0])) ⟨1, 0⟩ (newIndex .STRING 4 4)).2).2).1
      = .error .BadScanrange := by
  decide!

/-! ## Instances of the theorems with hypotheses -/

/-- Instance of `startScan_badScanrange_int`: `startScan(5, GT, 1, LT)` on a
fresh INTEGER index. -/
theorem startScan_badScanrange_int_witness :
    ((newIndex .INTEGER 3 3).attributeType = .INTEGER ∧ (5 : Int) > 1) ∧
    startScan (.int 5) .GT (.int 1) .LT (newIndex .INTEGER 3 3)
      = (.error .BadScanrange, newIndex .INTEGER 3 3) :=
  ⟨⟨by decide!, by decide⟩,
    startScan_badScanrange_int (newIndex .INTEGER 3 3) 5 1 .GT .LT (by decide!)
      (Or.inl rfl) (Or.inl rfl) (by decide)⟩

/-- Instance of `scanNext_completed_persists`: keys 10 and 20, scan `[10, 15]`,
at the state after the first `scanNext`, where the next call meets key 20. -/
theorem scanNext_completed_persists_witness :
    (scanNext (scanNext (startScan (.int 10) .GTE (.int 15) .LTE
      (buildInt 4 4 [10, 20]).2).2).2).1 = .error .IndexScanCompleted ∧
    ((scanNext (scanNext (startScan (.int 10) .GTE (.int 15) .LTE
        (buildInt 4 4 [10, 20]).2).2).2).2
      = (scanNext (startScan (.int 10) .GTE (.int 15) .LTE (buildInt 4 4 [10, 20]).2).2).2 ∧
    ∀ n : Nat, scanNext ((fun t => (scanNext t).2)^[n]
        (scanNext (startScan (.int 10) .GTE (.int 15) .LTE (buildInt 4 4 [10, 20]).2).2).2)
      = (.error .IndexScanCompleted,
        (scanNext (startScan (.int 10) .GTE (.int 15) .LTE (buildInt 4 4 [10, 20]).2).2).2)) :=
  ⟨by decide!, scanNext_completed_persists _ (by decide!)⟩

/-! ## Runs on concrete indexes and nodes, continued -/

/-- C15: on a STRING index, after inserting the 10-byte keys `a = "aaaaaaaaaa"`
with record identifier (1, 0) and `b = "aaaaaaaaab"` with (2, 0), which differ
only in their tenth byte, the scan `[a, a]` with GTE/LTE returns (2, 0) and
(1, 0): the record of `b` is returned as well, the two keys being stored as the
same 9 bytes. -/
theorem string_keys_compared_on_nine_bytes :
    (insertAll [(.string (str10 97), ⟨1, 0⟩), (.string (List.replicate 9 97 ++ [98]), ⟨2, 0⟩)]
      (newIndex .STRING 4 4)).1 = .ok () ∧
    (startScan (.string (str10 97)) .GTE (.string (str10 97)) .LTE
      (insertAll [(.string (str10 97), ⟨1, 0⟩), (.string (List.replicate 9 97 ++ [98]), ⟨2, 0⟩)]
        (newIndex .STRING 4 4)).2).1 = .ok () ∧
    scanAll 10 (startScan (.string (str10 97)) .GTE (.string (str10 97)) .LTE
      (insertAll [(.string (str10 97), ⟨1, 0⟩), (.string (List.replicate 9 97 ++ [98]), ⟨2, 0⟩)]
        (newIndex .STRING 4 4)).2).2
      = ([⟨2, 0⟩, ⟨1, 0⟩], some .IndexScanCompleted) := by
  decide!

/-- C18: with `leafOccupancy = 3` and `nodeOccupancy = 6`, on the non-full node
with the 5 sorted keys 10, 20, 30, 40, 50 and children 11 .. 16, `insertNonLeaf`
of (99, 45) writes key 45 at index 3 and pointer 99 at index 4, leaving the keys
10, 20, 30, 45, 40, 50, which are not sorted; the smallest index with a key
`>= 45` is 4. -/
theorem insertNonLeaf_misplaces_beyond_leafOccupancy :
    (insertNonLeaf intKey 3 6 (mkNonLeaf 1 [10, 20, 30, 40, 50] [11, 12, 13, 14, 15, 16])
      ⟨99, 45⟩).map (fun node => nodeView node 6)
      = .ok ([10, 20, 30, 45, 40, 50], [11, 12, 13, 14, 99, 15, 16]) := by
  decide!

/-- C20: with `leafOccupancy = nodeOccupancy = 3`, on the node with the one key
3 and the children 2 and 3, the insertion descent for key 3 takes child index 0
(page 2) while `nonLeafPos` for key 3 returns index 1 (page 3). -/
theorem start_and_nonLeafPos_choose_different_children :
    startChildPos intKey 3 3 (mkNonLeaf 1 [3] [2, 3]) 3 = .ok 0 ∧
    nonLeafPosNode intKey 3 (mkNonLeaf 1 [3] [2, 3]) 3 = 1 ∧
    (mkNonLeaf 1 [3] [2, 3]).pageNoArray 0 = 2 ∧
    (mkNonLeaf 1 [3] [2, 3]).pageNoArray 1 = 3 := by
  decide!

/-- C11 as stated fails: with `leafOccupancy = nodeOccupancy = 4`, after
inserting 1, 2, 3, 4 and then 5 it is not the case that the root's first key is
3 with leaves holding 1, 2 and 3, 4, 5. -/
theorem root_split_of_four_not_two_three :
    ¬ (rootView (buildInt 4 4 [1, 2, 3, 4, 5]).2 1 = some (1, [3], [2, 3]) ∧
      leafChainLeaves (buildInt 4 4 [1, 2, 3, 4, 5]).2 10 2 = some [[1, 2], [3, 4, 5]]) := by
  decide!

/-! ## The scan navigator on one node -/

theorem compareInt_pos_iff (a b : Int) : compareInt a b > 0 ↔ b < a := by
  unfold compareInt
  split
  · simp; omega
  · split
    · simp; omega
    · simp; omega

theorem compareDouble_pos_iff (a b : Double) : compareDouble a b > 0 ↔ a > b := by
  unfold compareDouble
  split
  · simp; assumption
  · split
    · simp; assumption
    · simp; assumption

theorem nonLeafPosLoop_spec {K : Type} (kt : KeyType K) (node : NonLeafNode K) (k : K)
    (n N : Nat) (hnN : n ≤ N)
    (hlive : ∀ i, i ≤ n → node.pageNoArray i ≠ 0)
    (hzero : ∀ i, n < i → i ≤ N → node.pageNoArray i = 0)
    (left pos : Nat) (hsum : pos + left = N) (hpos : pos ≤ n + 1)
    (hbefore : ∀ i, i < pos → i < N → ¬ kt.compare (node.keyArray i) k > 0) :
    ((nonLeafPosLoop kt node k left pos).1 = true →
      (nonLeafPosLoop kt node k left pos).2 ≤ n ∧
      (nonLeafPosLoop kt node k left pos).2 < N ∧
      kt.compare (node.keyArray (nonLeafPosLoop kt node k left pos).2) k > 0 ∧
      ∀ i, i < (nonLeafPosLoop kt node k left pos).2 → ¬ kt.compare (node.keyArray i) k > 0) ∧
    ((nonLeafPosLoop kt node k left pos).1 = false →
      (((nonLeafPosLoop kt node k left pos).2 = n + 1 ∧ n < N) ∨
        ((nonLeafPosLoop kt node k left pos).2 = N ∧ n = N)) ∧
      ∀ i, i < (nonLeafPosLoop kt node k left pos).2 → i < N →
        ¬ kt.compare (node.keyArray i) k > 0) := by
  induction left generalizing pos with
  | zero =>
    simp only [nonLeafPosLoop]
    refine ⟨fun h => by simp at h, fun _ => ⟨?_, hbefore⟩⟩
    have : pos = N := by omega
    subst this
    rcases Nat.lt_or_eq_of_le hpos with h | h
    · exact Or.inr ⟨rfl, by omega⟩
    · exact Or.inl ⟨h, by omega⟩
  | succ left ih =>
    unfold nonLeafPosLoop
    by_cases hp : node.pageNoArray pos ≠ 0
    · have hpn : pos ≤ n := by
        by_contra hc
        exact hp (hzero pos (by omega) (by omega))
      rw [if_pos hp]
      by_cases hcmp : kt.compare (node.keyArray pos) k > 0
      · simp only [if_pos hcmp]
        exact ⟨fun _ => ⟨hpn, by omega, hcmp, fun i hi => hbefore i hi (by omega)⟩,
          fun h => by simp at h⟩
      · simp only [if_neg hcmp]
        apply ih (pos + 1) (by omega) (by omega)
        intro i hi hiN
        rcases Nat.lt_or_eq_of_le (Nat.le_of_lt_succ hi) with h | h
        · exact hbefore i h hiN
        · subst h
          exact hcmp
    · rw [if_neg hp]
      have hp0 : node.pageNoArray pos = 0 := by simpa using hp
      have hpn : n < pos := by
        by_contra hc
        exact hlive pos (by omega) hp0
      refine ⟨fun h => by simp at h, fun _ => ⟨Or.inl ⟨by omega, by omega⟩, hbefore⟩⟩

/-- The value `nonLeafPos` computes on a node with `n` live keys and `n + 1`
live children is the least index below `n` whose key exceeds `k`, or `n`. -/
theorem nonLeafPosNode_spec {K : Type} (kt : KeyType K) (node : NonLeafNode K) (k : K)
    (n N : Nat) (hnN : n ≤ N)
    (hlive : ∀ i, i ≤ n → node.pageNoArray i ≠ 0)
    (hzero : ∀ i, n < i → i ≤ N → node.pageNoArray i = 0) :
    ∃ pos : Nat, nonLeafPosNode kt N node k = (pos : Int) ∧ pos ≤ n ∧
      node.pageNoArray pos ≠ 0 ∧ (∀ i, i < pos → ¬ kt.compare (node.keyArray i) k > 0) ∧
      (pos < n → kt.compare (node.keyArray pos) k > 0) := by
  obtain ⟨h1, h2⟩ := nonLeafPosLoop_spec kt node k n N hnN hlive hzero N 0 (by omega) (by omega)
    (fun i hi => absurd hi (Nat.not_lt_zero _))
  unfold nonLeafPosNode
  rcases hr : nonLeafPosLoop kt node k N 0 with ⟨found, pos⟩
  rw [hr] at h1 h2
  cases found with
  | true =>
    obtain ⟨a1, _, a3, a4⟩ := h1 rfl
    exact ⟨pos, by simp, a1, hlive pos a1, a4, fun _ => a3⟩
  | false =>
    obtain ⟨a1, a2⟩ := h2 rfl
    simp only at a1 a2
    rcases a1 with ⟨hp, hn⟩ | ⟨hp, hn⟩
    · have hz : node.pageNoArray pos = 0 := hzero pos (by omega) (by omega)
      subst hp
      refine ⟨n, ?_, le_rfl, hlive n le_rfl, fun i hi => a2 i (by omega) (by omega),
        fun h => absurd h (Nat.lt_irrefl _)⟩
      simp [hz]
    · have hz : node.pageNoArray pos ≠ 0 := hlive pos (by omega)
      subst hp
      subst hn
      refine ⟨n, ?_, le_rfl, hlive n le_rfl, fun i hi => a2 i (by omega) (by omega),
        fun h => absurd h (Nat.lt_irrefl _)⟩
      simp [hz]

theorem intKey_asNonLeaf_nonLeafInt (n : NonLeafNode Int) :
    intKey.asNonLeaf (Page.nonLeafInt n) = .ok n := rfl

theorem nonLeafPos_run {K : Type} (kt : KeyType K) (s : BTreeIndex) (currNo : Nat)
    (node : NonLeafNode K) (k : K)
    (h0 : currNo ≠ 0) (h1 : currNo ≤ s.numPages) (hpage : kt.asNonLeaf (s.pages currNo) = .ok node) :
    (nonLeafPos kt currNo k s).1 = .ok (nonLeafPosNode kt s.nodeOccupancy node k) := by
  have h1' : ¬ s.numPages < currNo := by omega
  unfold nonLeafPosNode
  rcases hr : nonLeafPosLoop kt node k s.nodeOccupancy 0 with ⟨found, pos⟩
  cases found <;>
    by_cases hz : node.pageNoArray pos = 0 <;>
    simp [nonLeafPos, M.run_bind, M.run_pure, readPage, h0, h1', derefNonLeaf, hpage,
      getThis, unPinPage, hr, hz]

/-- C19: for each of the three key types (`kt` is `intKey`, `doubleKey` or
`stringKey f`; the proof looks at no property of the key type), with
`nodeOccupancy = N`, for every internal node of that key type stored on a page
of the file with `n` live keys (`1 <= n <= N`), `pageNoArray[0..n]` nonzero and
`pageNoArray[n+1..N]` zero, whatever the unused key slots hold, and every key
`k`: `nonLeafPos` returns normally a position `pos` with `0 <= pos <= n` and
`pageNoArray[pos] != 0` such that no key before `pos` exceeds `k` and, when
`pos < n`, `keyArray[pos]` exceeds `k`; that is, the least index below `n`
whose key exceeds `k`, or `n` when there is none.  A key `a` exceeds `k` when
`compare(a, k) > 0`, the test of the source: `a > k` on `int` and `double`
(`compareInt_pos_iff`, `compareDouble_pos_iff`), `strcmp(a, k) > 0` on strings.
The keys need not be sorted. -/
theorem nonLeafPos_least_exceeding {K : Type} (kt : KeyType K) (s : BTreeIndex)
    (currNo n : Nat) (node : NonLeafNode K)
    (k : K) (h0 : currNo ≠ 0) (h1 : currNo ≤ s.numPages)
    (hpage : kt.asNonLeaf (s.pages currNo) = .ok node) (hn1 : 1 ≤ n) (hnN : n ≤ s.nodeOccupancy)
    (hlive : ∀ i, i ≤ n → node.pageNoArray i ≠ 0)
    (hzero : ∀ i, n < i → i ≤ s.nodeOccupancy → node.pageNoArray i = 0) :
    ∃ pos : Nat, (nonLeafPos kt currNo k s).1 = .ok (pos : Int) ∧ pos ≤ n ∧
      node.pageNoArray pos ≠ 0 ∧
      (∀ i, i < pos → ¬ kt.compare (node.keyArray i) k > 0) ∧
      (pos < n → kt.compare (node.keyArray pos) k > 0) ∧
      (pos = n → ∀ i, i < n → ¬ kt.compare (node.keyArray i) k > 0) := by
  obtain ⟨pos, hp, a1, a2, a3, a4⟩ :=
    nonLeafPosNode_spec kt node k n s.nodeOccupancy hnN hlive hzero
  refine ⟨pos, ?_, a1, a2, a3, a4, fun h i hi => ?_⟩
  · rw [nonLeafPos_run kt s currNo node k h0 h1 hpage, hp]
  · subst h
    exact a3 i hi

/-! ## Leaves as lists of entries -/

theorem liveEntries_of_holds_aux {K : Type} (L : Nat) (node : LeafNode K)
    (es : List (K × RecordId)) (h : node.Holds L es) (left i : Nat) (hsum : i + left = L)
    (hi : i ≤ es.length) : liveEntries node left i = es.drop i := by
  induction left generalizing i with
  | zero =>
    have : es.length ≤ i := by have := h.1; omega
    simp [liveEntries, List.drop_eq_nil_of_le this]
  | succ left ih =>
    unfold liveEntries
    rcases Nat.lt_or_eq_of_le hi with hlt | heq
    · obtain ⟨hget, hne⟩ := h.2.1 i hlt
      rw [if_neg hne, ih (i + 1) (by omega) hlt]
      have hg : es[i] = (node.keyArray i, node.ridArray i) := by
        have := List.getElem?_eq_getElem hlt
        rw [this] at hget
        exact Option.some.inj hget
      rw [← hg]
      exact (List.drop_eq_getElem_cons hlt).symm
    · have hz := h.2.2 i (by omega) (by omega)
      rw [if_pos hz, heq, List.drop_length]

theorem liveEntries_of_holds {K : Type} (L : Nat) (node : LeafNode K)
    (es : List (K × RecordId)) (h : node.Holds L es) : liveEntries node L 0 = es := by
  rw [liveEntries_of_holds_aux L node es h L 0 (by omega) (Nat.zero_le _), List.drop_zero]

theorem holds_of_dense {K : Type} (L c : Nat) (node : LeafNode K) (hc : c ≤ L)
    (hlive : ∀ i, i < c → (node.ridArray i).page_number ≠ 0)
    (hfree : ∀ i, c ≤ i → i < L → (node.ridArray i).page_number = 0) :
    node.Holds L ((List.range c).map fun i => (node.keyArray i, node.ridArray i)) := by
  refine ⟨by simpa using hc, fun i hi => ?_, fun i hi hiL => hfree i (by simpa using hi) hiL⟩
  have hic : i < c := by simpa using hi
  refine ⟨?_, hlive i hic⟩
  rw [List.getElem?_map, List.getElem?_range hic]
  rfl

theorem insertLeafPos_eq_takeWhile (L : Nat) (node : LeafNode Int) (es : List (Int × RecordId))
    (h : node.Holds L es) (hlt : es.length < L) (key : Int) (rid : RecordId)
    (left pos : Nat) (hsum : pos + left = L) (hpos : pos ≤ es.length) :
    insertLeafPos intKey node key left pos =
      pos + ((es.drop pos).takeWhile fun e => decide (¬ keyLE (key, rid) e)).length := by
  induction left generalizing pos with
  | zero => omega
  | succ left ih =>
    unfold insertLeafPos
    rcases Nat.lt_or_eq_of_le hpos with hl | heq
    · obtain ⟨hget, hne⟩ := h.2.1 pos hl
      have hg : es[pos] = (node.keyArray pos, node.ridArray pos) := by
        have := List.getElem?_eq_getElem hl
        rw [this] at hget
        exact Option.some.inj hget
      rw [if_neg hne, List.drop_eq_getElem_cons hl, hg, List.takeWhile_cons]
      by_cases hcmp : intKey.compare (node.keyArray pos) key ≥ 0
      · have hle : key ≤ node.keyArray pos := by
          rwa [intKey_compare, compareInt_nonneg_iff] at hcmp
        have : decide (¬ keyLE (key, rid) (node.keyArray pos, node.ridArray pos)) = false := by
          simpa [keyLE] using hle
        rw [if_pos hcmp, this]
        simp
      · have hle : ¬ key ≤ node.keyArray pos := by
          rwa [intKey_compare, compareInt_nonneg_iff] at hcmp
        have : decide (¬ keyLE (key, rid) (node.keyArray pos, node.ridArray pos)) = true := by
          simpa [keyLE] using hle
        rw [if_neg hcmp, this, ih (pos + 1) (by omega) hl]
        simp
        omega
    · have hz := h.2.2 pos (by omega) (by omega)
      rw [if_pos hz, heq, List.drop_length]
      simp

/-- On a leaf holding the entries `es`, fewer than `L`, `insertLeaf` returns
the leaf holding `es` with the new pair put in at `pos`, the number of leading
entries whose key is smaller than the new key; the right sibling is kept. -/
theorem insertLeaf_holds (L : Nat) (node : LeafNode Int) (es : List (Int × RecordId))
    (h : node.Holds L es) (hlt : es.length < L) (key : Int) (rid : RecordId)
    (hr : rid.page_number ≠ 0) :
    ∃ node',
      insertLeaf intKey L node ⟨rid, key⟩ = .ok node' ∧
      node'.Holds L
        (es.take (es.takeWhile fun e => decide (¬ keyLE (key, rid) e)).length ++
          (key, rid) :: es.drop (es.takeWhile fun e => decide (¬ keyLE (key, rid) e)).length) ∧
      node'.keyArray (es.takeWhile fun e => decide (¬ keyLE (key, rid) e)).length = key ∧
      node'.ridArray (es.takeWhile fun e => decide (¬ keyLE (key, rid) e)).length = rid ∧
      node'.rightSibPageNo = node.rightSibPageNo := by
  have hposeq := insertLeafPos_eq_takeWhile L node es h hlt key rid L 0 (by omega) (Nat.zero_le _)
  rw [List.drop_zero, Nat.zero_add] at hposeq
  generalize hp : (es.takeWhile fun e => decide (¬ keyLE (key, rid) e)).length = pos at hposeq ⊢
  have hple : pos ≤ es.length := by
    rw [← hp]
    exact (List.takeWhile_sublist _).length_le
  have hposL : pos < L := by omega
  have heq : insertLeaf intKey L node ⟨rid, key⟩ = .ok
      { insertLeafShift intKey pos (L - 1) node with
        ridArray := Function.update (insertLeafShift intKey pos (L - 1) node).ridArray pos rid
        keyArray := Function.update (insertLeafShift intKey pos (L - 1) node).keyArray pos
          key } := by
    simp only [insertLeaf, hposeq, if_pos hposL, intKey_assign]
  refine ⟨_, heq, ⟨?_, ?_, ?_⟩, ?_, ?_, ?_⟩
  · simp [List.length_take, Nat.min_eq_left hple]
    omega
  · intro i hi
    have hi' : i < es.length + 1 := by
      simp [List.length_take, Nat.min_eq_left hple] at hi
      omega
    simp only [Function.update_apply, insertLeafShift_ridArray,
      insertLeafShift_keyArray, intKey_assign]
    rcases Nat.lt_trichotomy i pos with hlt' | heq | hgt
    · have c1 : i ≠ pos := by omega
      have c2 : ¬ (pos < i ∧ i ≤ L - 1) := by omega
      obtain ⟨hget, hne⟩ := h.2.1 i (by omega)
      rw [if_neg c1, if_neg c1, if_neg c2, if_neg c2]
      refine ⟨?_, hne⟩
      rw [List.getElem?_append_left (by simp [List.length_take]; omega),
        List.getElem?_take_of_lt hlt']
      exact hget
    · subst heq
      rw [if_pos rfl, if_pos rfl]
      refine ⟨?_, hr⟩
      rw [List.getElem?_append_right (by simp [List.length_take])]
      simp [List.length_take, Nat.min_eq_left hple]
    · have c1 : i ≠ pos := by omega
      have c2 : pos < i ∧ i ≤ L - 1 := by omega
      obtain ⟨hget, hne⟩ := h.2.1 (i - 1) (by omega)
      rw [if_neg c1, if_neg c1, if_pos c2, if_pos c2]
      refine ⟨?_, hne⟩
      rw [List.getElem?_append_right (by simp [List.length_take]; omega)]
      have e1 : i - (List.take pos es).length = (i - pos - 1) + 1 := by
        simp [List.length_take, Nat.min_eq_left hple]
        omega
      rw [e1, List.getElem?_cons_succ, List.getElem?_drop]
      have e2 : pos + (i - pos - 1) = i - 1 := by omega
      rw [e2]
      exact hget
  · intro i hi hiL
    have hi' : es.length + 1 ≤ i := by
      simp [List.length_take, Nat.min_eq_left hple] at hi
      omega
    simp only [Function.update_apply, insertLeafShift_ridArray]
    have c1 : i ≠ pos := by omega
    have c2 : pos < i ∧ i ≤ L - 1 := by omega
    rw [if_neg c1, if_pos c2]
    exact h.2.2 (i - 1) (by omega) (by omega)
  · simp
  · simp
  · simp only [insertLeafShift_rightSib]

theorem take_drop_takeWhile {α : Type} (p : α → Bool) (es : List α) :
    es.take (es.takeWhile p).length = es.takeWhile p ∧
    es.drop (es.takeWhile p).length = es.dropWhile p := by
  have h := List.takeWhile_append_dropWhile p es
  constructor
  · have h1 := List.take_left (es.takeWhile p) (es.dropWhile p)
    rwa [h] at h1
  · have h1 := List.drop_left (es.takeWhile p) (es.dropWhile p)
    rwa [h] at h1

theorem sorted_keys_iff (es : List (Int × RecordId)) :
    List.Sorted (· ≤ ·) (es.map Prod.fst) ↔ List.Sorted keyLE es := by
  unfold List.Sorted
  rw [List.pairwise_map]
  rfl

theorem insertLeafPos_before {K : Type} (kt : KeyType K) (node : LeafNode K) (key : K)
    (left pos i : Nat) (hpi : pos ≤ i) (hi : i < insertLeafPos kt node key left pos) :
    (node.ridArray i).page_number ≠ 0 ∧ ¬ kt.compare (node.keyArray i) key ≥ 0 := by
  induction left generalizing pos with
  | zero => simp [insertLeafPos] at hi; omega
  | succ left ih =>
    unfold insertLeafPos at hi
    split at hi
    · omega
    · next h0 =>
      split at hi
      · omega
      · next hcmp =>
        rcases Nat.lt_or_eq_of_le hpi with h | h
        · exact ih (pos + 1) h hi
        · subst h; exact ⟨h0, hcmp⟩

theorem insertLeafPos_at {K : Type} (kt : KeyType K) (node : LeafNode K) (key : K)
    (left pos : Nat) (h : insertLeafPos kt node key left pos < pos + left) :
    (node.ridArray (insertLeafPos kt node key left pos)).page_number = 0 ∨
      kt.compare (node.keyArray (insertLeafPos kt node key left pos)) key ≥ 0 := by
  induction left generalizing pos with
  | zero => simp [insertLeafPos] at h
  | succ left ih =>
    unfold insertLeafPos at h ⊢
    split
    · next h0 => exact Or.inl h0
    · split
      · next hcmp => exact Or.inr hcmp
      · next h0 hcmp =>
        rw [if_neg h0, if_neg hcmp] at h
        exact ih (pos + 1) (by omega)

/-- Instance of `nonLeafPos_least_exceeding` on a DOUBLE index: the node with
the two keys 1 and 3 and the children 2, 3 and 5, stored on page 4, queried
with key 2. -/
theorem nonLeafPos_least_exceeding_witness :
    ((4 : Nat) ≠ 0 ∧
      4 ≤ (stateWithPage .DOUBLE 3 3 (.nonLeafDouble (mkNode 0 1 [1, 3] [2, 3, 5]))).numPages ∧
      2 ≤ (stateWithPage .DOUBLE 3 3
        (.nonLeafDouble (mkNode 0 1 [1, 3] [2, 3, 5]))).nodeOccupancy) ∧
    ∃ pos : Nat,
      (nonLeafPos doubleKey 4 2
        (stateWithPage .DOUBLE 3 3 (.nonLeafDouble (mkNode 0 1 [1, 3] [2, 3, 5])))).1
          = .ok (pos : Int) ∧
      pos ≤ 2 ∧ (mkNode (0 : Double) 1 [1, 3] [2, 3, 5]).pageNoArray pos ≠ 0 ∧
      (∀ i, i < pos →
        ¬ doubleKey.compare ((mkNode (0 : Double) 1 [1, 3] [2, 3, 5]).keyArray i) 2 > 0) ∧
      (pos < 2 →
        doubleKey.compare ((mkNode (0 : Double) 1 [1, 3] [2, 3, 5]).keyArray pos) 2 > 0) ∧
      (pos = 2 → ∀ i, i < 2 →
        ¬ doubleKey.compare ((mkNode (0 : Double) 1 [1, 3] [2, 3, 5]).keyArray i) 2 > 0) :=
  ⟨⟨by decide, by decide, by decide⟩,
    nonLeafPos_least_exceeding doubleKey
      (stateWithPage .DOUBLE 3 3 (.nonLeafDouble (mkNode 0 1 [1, 3] [2, 3, 5]))) 4 2
      (mkNode 0 1 [1, 3] [2, 3, 5]) 2 (by decide) (by decide) rfl (by decide) (by decide)
      (by intro i h; interval_cases i <;> decide)
      (by intro i h1 h2
          have h3 : i ≤ 3 := h2
          interval_cases i
          rfl)⟩

/-! ## Splitting a leaf, on lists of entries -/

theorem insertLeaf_holds_ordered (L : Nat) (node : LeafNode Int) (es : List (Int × RecordId))
    (h : node.Holds L es) (hlt : es.length < L) (key : Int) (rid : RecordId)
    (hr : rid.page_number ≠ 0) :
    ∃ node',
      insertLeaf intKey L node ⟨rid, key⟩ = .ok node' ∧
      node'.Holds L (List.orderedInsert keyLE (key, rid) es) ∧
      node'.rightSibPageNo = node.rightSibPageNo := by
  obtain ⟨node', h1, h2, -, -, h3⟩ := insertLeaf_holds L node es h hlt key rid hr
  refine ⟨node', h1, ?_, h3⟩
  rw [(take_drop_takeWhile _ _).1, (take_drop_takeWhile _ _).2,
    ← List.orderedInsert_eq_take_drop keyLE (key, rid)] at h2
  exact h2

theorem splitLeafMove_holds (L half : Nat) (leaf new : LeafNode Int)
    (es : List (Int × RecordId)) (h : leaf.Holds L es) (hfull : es.length = L)
    (hnew : ∀ i, i < L → (new.ridArray i).page_number = 0) (hhalf : half ≤ L) :
    (splitLeafMove intKey half (L - half) half leaf new).1.Holds L (es.take half) ∧
    (splitLeafMove intKey half (L - half) half leaf new).2.Holds L (es.drop half) ∧
    (∀ j, j < L - half →
      (splitLeafMove intKey half (L - half) half leaf new).2.keyArray j =
        leaf.keyArray (j + half)) ∧
    (splitLeafMove intKey half (L - half) half leaf new).1.rightSibPageNo = leaf.rightSibPageNo ∧
    (splitLeafMove intKey half (L - half) half leaf new).2.rightSibPageNo = new.rightSibPageNo := by
  obtain ⟨a1, a2, a3, a4, a5, a6⟩ :=
    splitLeafMove_spec intKey half (L - half) half leaf new le_rfl
  have hk : ∀ j, j < L - half →
      (splitLeafMove intKey half (L - half) half leaf new).2.keyArray j =
        leaf.keyArray (j + half) := by
    intro j hj
    have c : half - half ≤ j ∧ j < half - half + (L - half) := by omega
    rw [a5 j, if_pos c, intKey_assign]
  refine ⟨⟨?_, ?_, ?_⟩, ⟨?_, ?_, ?_⟩, hk, a3, a6⟩
  · simp [List.length_take]; omega
  · intro i hi
    have hi' : i < half := by
      have := hi; simp [List.length_take] at this; omega
    have c : ¬ (half ≤ i ∧ i < half + (L - half)) := by omega
    rw [a1 i, if_neg c, a2, List.getElem?_take_of_lt hi']
    exact h.2.1 i (by omega)
  · intro i hi hiL
    have hi' : half ≤ i := by
      have := hi; simp [List.length_take] at this; omega
    have c : half ≤ i ∧ i < half + (L - half) := by omega
    rw [a1 i, if_pos c]
  · simp; omega
  · intro i hi
    have hi' : i < L - half := by
      have := hi; simp at this; omega
    have c : half - half ≤ i ∧ i < half - half + (L - half) := by omega
    rw [a4 i, if_pos c, hk i hi', List.getElem?_drop, Nat.add_comm half i]
    exact h.2.1 (i + half) (by omega)
  · intro i hi hiL
    have hi' : L - half ≤ i := by
      have := hi; simp at this; omega
    have c : ¬ (half - half ≤ i ∧ i < half - half + (L - half)) := by omega
    rw [a4 i, if_neg c]
    exact hnew i hiL

theorem splitLeafNodes_partition (L : Nat) (hL : 3 ≤ L) (leaf new : LeafNode Int)
    (newPageNo : Nat) (key : Int) (rid : RecordId)
    (hfull : ∀ i, i < L → (leaf.ridArray i).page_number ≠ 0)
    (hsorted : List.Sorted (· ≤ ·) ((liveEntries leaf L 0).map Prod.fst))
    (hnew : ∀ i, i < L → (new.ridArray i).page_number = 0)
    (hr : rid.page_number ≠ 0) :
    ∃ leaf' new' pk,
      splitLeafNodes intKey L leaf new newPageNo ⟨rid, key⟩ = .ok (leaf', new', ⟨newPageNo, pk⟩) ∧
      (pk = leaf.keyArray (L / 2 + 1) ∧
        liveEntries leaf' L 0 =
          (if key < pk then List.orderedInsert keyLE (key, rid) ((liveEntries leaf L 0).take (L / 2 + 1))
            else (liveEntries leaf L 0).take (L / 2 + 1)) ∧
        liveEntries new' L 0 =
          (if key < pk then (liveEntries leaf L 0).drop (L / 2 + 1)
            else List.orderedInsert keyLE (key, rid) ((liveEntries leaf L 0).drop (L / 2 + 1)))) ∧
      leaf'.Holds L (liveEntries leaf' L 0) ∧ new'.Holds L (liveEntries new' L 0) ∧
      (liveEntries leaf L 0).length = L ∧
      List.Sorted (· ≤ ·) ((liveEntries leaf' L 0 ++ liveEntries new' L 0).map Prod.fst) ∧
      (liveEntries leaf' L 0 ++ liveEntries new' L 0).Perm ((key, rid) :: liveEntries leaf L 0) ∧
      (liveEntries leaf' L 0).length ≤ L ∧ (liveEntries new' L 0).length ≤ L ∧
      1 ≤ (liveEntries new' L 0).length ∧
      pk = new'.keyArray 0 ∧
      (∀ e ∈ liveEntries leaf' L 0, e.1 ≤ pk) ∧ (∀ e ∈ liveEntries new' L 0, pk ≤ e.1) ∧
      new'.rightSibPageNo = leaf.rightSibPageNo ∧ leaf'.rightSibPageNo = newPageNo := by
  have hholds := holds_of_dense L L leaf le_rfl hfull (fun i h1 h2 => absurd h2 (by omega))
  have hes := liveEntries_of_holds L leaf _ hholds
  rw [← hes] at hholds
  have hlen : (liveEntries leaf L 0).length = L := by rw [hes]; simp
  generalize liveEntries leaf L 0 = es at hholds hlen hsorted ⊢
  clear hes
  have hhalf : L / 2 + 1 < L := by omega
  have hL0 : L ≠ 0 := by omega
  obtain ⟨m1, m2, mk, ms1, ms2⟩ :=
    splitLeafMove_holds L (L / 2 + 1) leaf new es hholds hlen hnew (Nat.le_of_lt hhalf)
  have hpk : (splitLeafMove intKey (L / 2 + 1) (L - (L / 2 + 1)) (L / 2 + 1) leaf new).2.keyArray 0 = leaf.keyArray (L / 2 + 1) := by
    rw [mk 0 (by omega), Nat.zero_add]
  have hS : List.Sorted keyLE es := (sorted_keys_iff es).1 hsorted
  have hdrop : es.drop (L / 2 + 1) =
      (leaf.keyArray (L / 2 + 1), leaf.ridArray (L / 2 + 1)) :: es.drop (L / 2 + 1 + 1) := by
    have h1 := (hholds.2.1 (L / 2 + 1) (by omega)).1
    rw [List.getElem?_eq_getElem (by omega)] at h1
    rw [List.drop_eq_getElem_cons (by omega), Option.some.inj h1]
  have hS2 : List.Sorted keyLE (es.take (L / 2 + 1) ++ es.drop (L / 2 + 1)) := by
    rw [List.take_append_drop]; exact hS
  obtain ⟨hT, hD, hTD⟩ := List.pairwise_append.1 hS2
  have hle_take : ∀ e ∈ es.take (L / 2 + 1), e.1 ≤ leaf.keyArray (L / 2 + 1) := by
    intro e he
    exact hTD e he (leaf.keyArray (L / 2 + 1), leaf.ridArray (L / 2 + 1)) (by rw [hdrop]; simp)
  have hge_drop : ∀ e ∈ es.drop (L / 2 + 1), leaf.keyArray (L / 2 + 1) ≤ e.1 := by
    intro e he
    rw [hdrop] at he hD
    rcases List.mem_cons.1 he with h | h
    · rw [h]
    · exact (List.pairwise_cons.1 hD).1 e h
  have hlt : (es.take (L / 2 + 1)).length = L / 2 + 1 := by simp [List.length_take]; omega
  have hld : (es.drop (L / 2 + 1)).length = L - (L / 2 + 1) := by simp [hlen]
  by_cases hcmp : intKey.compare key ((splitLeafMove intKey (L / 2 + 1) (L - (L / 2 + 1)) (L / 2 + 1) leaf new).2.keyArray 0) < 0
  · have hkey : key < leaf.keyArray (L / 2 + 1) := by
      rwa [intKey_compare, compareInt_neg_iff, hpk] at hcmp
    obtain ⟨leaf', hins, hH, hsib⟩ := insertLeaf_holds_ordered L
      { (splitLeafMove intKey (L / 2 + 1) (L - (L / 2 + 1)) (L / 2 + 1) leaf new).1 with rightSibPageNo := newPageNo } (es.take (L / 2 + 1)) m1 (by omega) key rid hr
    have e1 := liveEntries_of_holds L leaf' _ hH
    have e2 := liveEntries_of_holds L
      { (splitLeafMove intKey (L / 2 + 1) (L - (L / 2 + 1)) (L / 2 + 1) leaf new).2 with rightSibPageNo := (splitLeafMove intKey (L / 2 + 1) (L - (L / 2 + 1)) (L / 2 + 1) leaf new).1.rightSibPageNo } _ m2
    refine ⟨leaf', { (splitLeafMove intKey (L / 2 + 1) (L - (L / 2 + 1)) (L / 2 + 1) leaf new).2 with rightSibPageNo := (splitLeafMove intKey (L / 2 + 1) (L - (L / 2 + 1)) (L / 2 + 1) leaf new).1.rightSibPageNo }, (splitLeafMove intKey (L / 2 + 1) (L - (L / 2 + 1)) (L / 2 + 1) leaf new).2.keyArray 0,
      ?_, ⟨hpk, ?_, ?_⟩, ?_, ?_, hlen, ?_, ?_, ?_, ?_, ?_, rfl, ?_, ?_, ms1, hsib⟩
    · simp only [splitLeafNodes, hL0, if_false, if_pos hcmp, hins, bind, Except.bind, pure,
        Except.pure]
    · rw [e1, hpk, if_pos hkey]
    · rw [e2, hpk, if_pos hkey]
    · rw [e1]; exact hH
    · rw [e2]; exact m2
    · rw [e1, e2, sorted_keys_iff]
      refine List.pairwise_append.2 ⟨List.Sorted.orderedInsert _ _ hT, hD, fun a ha b hb => ?_⟩
      have hb' := hge_drop b hb
      rcases (List.mem_orderedInsert keyLE).1 ha with h | h
      · rw [h]; exact Int.le_trans (Int.le_of_lt hkey) hb'
      · exact hTD a h b hb
    · rw [e1, e2]
      refine ((List.perm_orderedInsert keyLE _ _).append_right _).trans ?_
      rw [List.cons_append, List.take_append_drop]
    · rw [e1, List.orderedInsert_length, hlt]; omega
    · rw [e2, hld]; omega
    · rw [e2, hld]; omega
    · intro e he
      rw [e1] at he
      rw [hpk]
      rcases (List.mem_orderedInsert keyLE).1 he with h | h
      · rw [h]; exact Int.le_of_lt hkey
      · exact hle_take e h
    · intro e he
      rw [e2] at he
      rw [hpk]
      exact hge_drop e he
  · have hkey : leaf.keyArray (L / 2 + 1) ≤ key := by
      rw [intKey_compare, compareInt_neg_iff, hpk] at hcmp
      exact Int.not_lt.1 hcmp
    obtain ⟨new', hins, hH, hsib⟩ := insertLeaf_holds_ordered L
      { (splitLeafMove intKey (L / 2 + 1) (L - (L / 2 + 1)) (L / 2 + 1) leaf new).2 with rightSibPageNo := (splitLeafMove intKey (L / 2 + 1) (L - (L / 2 + 1)) (L / 2 + 1) leaf new).1.rightSibPageNo } (es.drop (L / 2 + 1)) m2
      (by omega) key rid hr
    have e1 := liveEntries_of_holds L { (splitLeafMove intKey (L / 2 + 1) (L - (L / 2 + 1)) (L / 2 + 1) leaf new).1 with rightSibPageNo := newPageNo } _ m1
    have e2 := liveEntries_of_holds L new' _ hH
    have hhead : new'.keyArray 0 = leaf.keyArray (L / 2 + 1) := by
      have h0 := (hH.2.1 0 (by rw [List.orderedInsert_length]; omega)).1
      rw [hdrop] at h0
      simp only [List.orderedInsert] at h0
      split at h0
      · next hle =>
        have hle' : key ≤ leaf.keyArray (L / 2 + 1) := hle
        simp at h0
        rw [← h0.1]
        exact Int.le_antisymm hle' hkey
      · simp at h0
        exact h0.1.symm
    refine ⟨{ (splitLeafMove intKey (L / 2 + 1) (L - (L / 2 + 1)) (L / 2 + 1) leaf new).1 with rightSibPageNo := newPageNo }, new', (splitLeafMove intKey (L / 2 + 1) (L - (L / 2 + 1)) (L / 2 + 1) leaf new).2.keyArray 0,
      ?_, ⟨hpk, ?_, ?_⟩, ?_, ?_, hlen, ?_, ?_, ?_, ?_, ?_, ?_, ?_, ?_, ?_, rfl⟩
    · simp only [splitLeafNodes, hL0, if_false, if_neg hcmp, hins, bind, Except.bind, pure,
        Except.pure]
    · rw [e1, hpk, if_neg (Int.not_lt.2 hkey)]
    · rw [e2, hpk, if_neg (Int.not_lt.2 hkey)]
    · rw [e1]; exact m1
    · rw [e2]; exact hH
    · rw [e1, e2, sorted_keys_iff]
      refine List.pairwise_append.2 ⟨hT, List.Sorted.orderedInsert _ _ hD, fun a ha b hb => ?_⟩
      have ha' := hle_take a ha
      rcases (List.mem_orderedInsert keyLE).1 hb with h | h
      · rw [h]; exact Int.le_trans ha' hkey
      · exact hTD a ha b h
    · rw [e1, e2]
      refine ((List.perm_orderedInsert keyLE _ _).append_left _).trans ?_
      refine List.perm_middle.trans ?_
      rw [List.take_append_drop]
    · rw [e1, hlt]; omega
    · rw [e2, List.orderedInsert_length, hld]; omega
    · rw [e2, List.orderedInsert_length, hld]; omega
    · rw [hpk, hhead]
    · intro e he
      rw [e1] at he
      rw [hpk]
      exact hle_take e he
    · intro e he
      rw [e2] at he
      rw [hpk]
      rcases (List.mem_orderedInsert keyLE).1 he with h | h
      · rw [h]; exact hkey
      · exact hge_drop e h
    · rw [hsib]; exact ms1

/-! ## The root leaf as a list of entries -/

theorem newIndex_rootLeafHolds (L N : Nat) : RootLeafHolds L N [] (newIndex .INTEGER L N) := by
  rw [newIndex_int_eq]
  exact ⟨rfl, rfl, rfl, rfl, rfl, rfl, rfl, ⟨⟨[], 0, .INTEGER, 2⟩, rfl⟩,
    LeafNode.zero 0, rfl, ⟨Nat.zero_le _, fun _ h => absurd h (Nat.not_lt_zero _), fun _ _ _ => rfl⟩,
    rfl⟩

theorem insertEntry_rootLeafHolds_step (L N : Nat) (es : List (Int × RecordId)) (s : BTreeIndex)
    (k : Int) (rid : RecordId) (hs : RootLeafHolds L N es s) (hc : es.length < L)
    (hr : rid.page_number ≠ 0) :
    ∃ s', insertEntry (.int k) rid s = (.ok (), s') ∧
      RootLeafHolds L N (List.orderedInsert keyLE (k, rid) es) s' ∧ s'.pinCnt = s.pinCnt ∧
      s'.scanExecuting = s.scanExecuting := by
  obtain ⟨hty, hL, hN, honly, hroot, hhead, hnum, ⟨m, hm⟩, leaf, hleaf, hh, hsib⟩ := hs
  obtain ⟨leaf', hins, hh', hsib'⟩ := insertLeaf_holds_ordered L leaf es hh hc k rid hr
  have hL0 : L ≠ 0 := by omega
  have hfree : (leaf.ridArray (L - 1)).page_number = 0 := hh.2.2 _ (by omega) (by omega)
  have hcast : intKey.asLeaf (Page.leafInt leaf) = .ok leaf := rfl
  have heq : insertEntry (.int k) rid s = (.ok (), { s with
      pinCnt := Function.update (Function.update s.pinCnt 2 (s.pinCnt 2 + 1)) 2
        (Function.update s.pinCnt 2 (s.pinCnt 2 + 1) 2 - 1)
      pages := Function.update s.pages 2 (Page.leafInt leaf') }) := by
    simp [insertEntry, insertEntryT, M.run_bind, M.run_pure, getThis, hty, honly, hroot,
      readPage, hnum, derefLeaf, hleaf, hcast, hL, hL0, hfree, liftE, hins, storeLeaf, setThis,
      unPinPage, raise, intKey_ofLeaf]
  refine ⟨_, heq, ⟨hty, hL, hN, honly, hroot, hhead, hnum, ⟨m, ?_⟩, leaf', ?_, hh', ?_⟩, ?_, rfl⟩
  · simp [Function.update_apply, hm]
  · simp
  · rw [hsib', hsib]
  · funext p
    simp only [Function.update_apply]
    by_cases hp : p = 2
    · simp [hp]
    · simp [hp]

theorem insertAll_rootLeafHolds (L N : Nat) (recs es : List (Int × RecordId)) (s : BTreeIndex)
    (hs : RootLeafHolds L N es s) (hlen : es.length + recs.length ≤ L)
    (hrid : ∀ r ∈ recs, r.2.page_number ≠ 0) :
    ∃ s', insertAll (intRecords recs) s = (.ok (), s') ∧
      RootLeafHolds L N (recs.foldl (fun acc r => List.orderedInsert keyLE r acc) es) s' ∧
      s'.pinCnt = s.pinCnt ∧ s'.scanExecuting = s.scanExecuting := by
  induction recs generalizing es s with
  | nil => exact ⟨s, rfl, hs, rfl, rfl⟩
  | cons r recs ih =>
    have hc : es.length < L := by simp at hlen; omega
    obtain ⟨s1, h1, hs1, hp1, hx1⟩ := insertEntry_rootLeafHolds_step L N es s r.1 r.2 hs hc
      (hrid r (List.mem_cons_self _ _))
    obtain ⟨s2, h2, hs2, hp2, hx2⟩ := ih (List.orderedInsert keyLE (r.1, r.2) es) s1 hs1
      (by rw [List.orderedInsert_length]; simp at hlen ⊢; omega)
      (fun x hx => hrid x (List.mem_cons_of_mem _ hx))
    refine ⟨s2, ?_, hs2, by rw [hp2, hp1], by rw [hx2, hx1]⟩
    show (insertEntry (KeyArg.int r.1) r.2 >>= fun _ => insertAll (intRecords recs)) s = _
    rw [M.bind_of_ok h1]
    exact h2

theorem insertEntry_rootLeafHolds_split (L N : Nat) (hL3 : 3 ≤ L) (hN1 : 1 ≤ N) (s : BTreeIndex)
    (k : Int) (rid : RecordId) (es : List (Int × RecordId)) (hs : RootLeafHolds L N es s)
    (hfull : es.length = L) (hsorted : List.Sorted keyLE es) (hr : rid.page_number ≠ 0) :
    ∃ root leaf' new' pk,
      (insertEntry (.int k) rid s).1 = .ok () ∧
      (insertEntry (.int k) rid s).2.onlyRoot = false ∧
      (insertEntry (.int k) rid s).2.rootPageNum = 4 ∧
      (insertEntry (.int k) rid s).2.numPages = 4 ∧
      (insertEntry (.int k) rid s).2.leafOccupancy = L ∧
      (insertEntry (.int k) rid s).2.pages 4 = .nonLeafInt root ∧
      (insertEntry (.int k) rid s).2.pages 2 = .leafInt leaf' ∧
      (insertEntry (.int k) rid s).2.pages 3 = .leafInt new' ∧
      root.level = 1 ∧ root.keyArray 0 = pk ∧ root.pageNoArray 0 = 2 ∧ root.pageNoArray 1 = 3 ∧
      (∃ r, es[L / 2 + 1]? = some (pk, r)) ∧
      liveEntries leaf' L 0 =
        (if k < pk then List.orderedInsert keyLE (k, rid) (es.take (L / 2 + 1))
          else es.take (L / 2 + 1)) ∧
      liveEntries new' L 0 =
        (if k < pk then es.drop (L / 2 + 1)
          else List.orderedInsert keyLE (k, rid) (es.drop (L / 2 + 1))) ∧
      leaf'.rightSibPageNo = 3 ∧ new'.rightSibPageNo = 0 := by
  obtain ⟨hty, hL, hN, honly, hroot, hhead, hnum, ⟨m, hm⟩, leaf, hleaf, hh, hsib⟩ := hs
  have hes := liveEntries_of_holds L leaf es hh
  have hlive : ∀ i, i < L → (leaf.ridArray i).page_number ≠ 0 :=
    fun i hi => (hh.2.1 i (by omega)).2
  obtain ⟨leaf', new', pk, hsplit, ⟨hpk, hl1, hl2⟩, -, -, -, -, -, -, -, -, -, -, -, hs2, hs1⟩ :=
    splitLeafNodes_partition L hL3 leaf (LeafNode.zero 0) 3 k rid hlive
      (by rw [hes]; exact (sorted_keys_iff es).2 hsorted) (fun _ _ => rfl) hr
  rw [hes] at hl1 hl2
  have hL0 : L ≠ 0 := by omega
  have hN0 : N ≠ 0 := by omega
  have hfull1 : (leaf.ridArray (L - 1)).page_number ≠ 0 := hlive _ (by omega)
  have hrun : insertEntry (.int k) rid s = (.ok (), { s with
      pages :=
        Function.update
          (Function.update
            (Function.update
              (Function.update (Function.update s.pages 3 Page.blank) 2 (Page.leafInt leaf')) 3
              (Page.leafInt new'))
            4
            (Page.nonLeafInt
              { level := 1
                keyArray := Function.update (NonLeafNode.zero 0).keyArray 0 pk
                pageNoArray :=
                  Function.update (Function.update (NonLeafNode.zero 0).pageNoArray 0 2) 1 3 }))
          1 (Page.header { m with rootPageNo := 4 })
      numPages := 4
      pinCnt :=
        Function.update
          (Function.update
            (Function.update
              (Function.update (Function.update s.pinCnt 2 (s.pinCnt 2 + 1)) 3 (s.pinCnt 3)) 4
              (s.pinCnt 4))
            1 (s.pinCnt 1))
          2 (s.pinCnt 2)
      rootPageNum := 4
      onlyRoot := false }) := by
    simp [insertEntry, insertEntryT, M.run_bind, M.run_pure, getThis, hty, honly, hroot,
      readPage, hnum, derefLeaf, hleaf, hL, hL0, hfull1, liftE, storeLeaf, setThis,
      unPinPage, raise, intKey_ofLeaf, splitLeaf, allocPage, createNewRoot, derefNonLeaf,
      storeNonLeaf, derefMeta, hN, hN0, hhead, hm, hsplit, intKey_asLeaf_leafInt,
      intKey_asLeaf_blank, intKey_asNonLeaf_blank, intKey_ofNonLeaf, Function.update_apply,
      intKey_assign]
    rfl
  rw [hrun]
  refine ⟨{ level := 1
            keyArray := Function.update (NonLeafNode.zero 0).keyArray 0 pk
            pageNoArray :=
              Function.update (Function.update (NonLeafNode.zero 0).pageNoArray 0 2) 1 3 },
    leaf', new', pk, rfl, rfl, rfl, rfl, hL, ?_, ?_, ?_, rfl, ?_, ?_, ?_, ⟨leaf.ridArray (L / 2 + 1), ?_⟩,
    hl1, hl2, hs1, ?_⟩
  · simp [Function.update_apply]
  · simp [Function.update_apply]
  · simp [Function.update_apply]
  · simp [Function.update_apply]
  · simp [Function.update_apply]
  · simp [Function.update_apply]
  · rw [hpk]
    exact (hh.2.1 _ (by omega)).1
  · rw [hs2, hsib]

theorem insertAll_append_of_ok (a b : List (KeyArg × RecordId)) (s s' : BTreeIndex)
    (h : insertAll a s = (.ok (), s')) : insertAll (a ++ b) s = insertAll b s' := by
  induction a generalizing s with
  | nil =>
    have h1 : s = s' := (Prod.mk.inj h).2
    rw [h1]; rfl
  | cons x a ih =>
    obtain ⟨key, rid⟩ := x
    have hunf : ∀ l, insertAll ((key, rid) :: l) s =
        (insertEntry key rid >>= fun _ => insertAll l) s := fun _ => rfl
    rw [List.cons_append, hunf, M.run_bind]
    rw [hunf, M.run_bind] at h
    rcases hrun : insertEntry key rid s with ⟨r, s1⟩
    rw [hrun] at h
    cases r with
    | error e => simp at h
    | ok u => exact ih s1 h

theorem insertAll_singleton (key : KeyArg) (rid : RecordId) (s : BTreeIndex) :
    insertAll [(key, rid)] s = insertEntry key rid s := by
  have hunf : insertAll [(key, rid)] s = (insertEntry key rid >>= fun _ => insertAll []) s := rfl
  rw [hunf, M.run_bind]
  rcases insertEntry key rid s with ⟨r, s1⟩
  cases r with
  | error e => rfl
  | ok u => rfl

/-- C11, amended: with `leafOccupancy = 4` and any `nodeOccupancy >= 1` on a
fresh INTEGER index, inserting keys 1, 2, 3, 4 and then 5 succeeds and leaves a
root that is an internal node of level 1 with `keyArray[0] = 4` and the
children 2 and 3, the leaves with keys `[1, 2, 3]` and `[4, 5]`, the first
leaf's `rightSibPageNo` naming the second, which ends the chain. -/
theorem root_split_of_four_is_three_two (N : Nat) (hN : 1 ≤ N) :
    (buildInt 4 N [1, 2, 3, 4, 5]).1 = .ok () ∧
    rootView (buildInt 4 N [1, 2, 3, 4, 5]).2 1 = some (1, [4], [2, 3]) ∧
    leafChainLeaves (buildInt 4 N [1, 2, 3, 4, 5]).2 10 2 = some [[1, 2, 3], [4, 5]] := by
  obtain ⟨s4, h4, hs4, -⟩ := insertAll_rootLeafHolds 4 N
    [(1, ⟨1, 0⟩), (2, ⟨2, 0⟩), (3, ⟨3, 0⟩), (4, ⟨4, 0⟩)] [] (newIndex .INTEGER 4 N)
    (newIndex_rootLeafHolds 4 N) (by decide) (by decide)
  have hes : List.foldl (fun acc r => List.orderedInsert keyLE r acc) []
      [((1 : Int), (⟨1, 0⟩ : RecordId)), (2, ⟨2, 0⟩), (3, ⟨3, 0⟩), (4, ⟨4, 0⟩)] =
      [(1, ⟨1, 0⟩), (2, ⟨2, 0⟩), (3, ⟨3, 0⟩), (4, ⟨4, 0⟩)] := by decide
  rw [hes] at hs4
  obtain ⟨root, leaf', new', pk, a1, -, a3, -, a5, a6, a7, a8, b1, b2, b3, b4, ⟨r, b5⟩,
      c1, c2, c3, c4⟩ :=
    insertEntry_rootLeafHolds_split 4 N (by decide) hN s4 5 ⟨5, 0⟩ _ hs4 rfl (by decide)
      (by decide)
  have hpk : pk = 4 := by
    have := Option.some.inj b5
    exact (congrArg Prod.fst this).symm
  subst hpk
  have hbuild : buildInt 4 N [1, 2, 3, 4, 5] = insertEntry (.int 5) ⟨5, 0⟩ s4 := by
    have h5 := insertAll_append_of_ok
      (intRecords [(1, ⟨1, 0⟩), (2, ⟨2, 0⟩), (3, ⟨3, 0⟩), (4, ⟨4, 0⟩)])
      [(KeyArg.int 5, ⟨5, 0⟩)] _ _ h4
    rw [insertAll_singleton] at h5
    exact h5
  rw [hbuild]
  have d1 : liveEntries leaf' 4 0 = [(1, ⟨1, 0⟩), (2, ⟨2, 0⟩), (3, ⟨3, 0⟩)] := by
    rw [c1]; decide
  have d2 : liveEntries new' 4 0 = [(4, ⟨4, 0⟩), (5, ⟨5, 0⟩)] := by
    rw [c2]; decide
  refine ⟨a1, ?_, ?_⟩
  · have r1 : List.range 1 = [0] := rfl
    have r2 : List.range (1 + 1) = [0, 1] := rfl
    simp only [rootView, a3, a6, r1, r2, List.map, b1, b2, b3, b4]
  · simp [leafChainLeaves, a7, a8, a5, c3, c4, d1, d2]

/-- Instance of `root_split_of_four_is_three_two` at `nodeOccupancy = 4`. -/
theorem root_split_of_four_is_three_two_witness :
    1 ≤ 4 ∧
    (buildInt 4 4 [1, 2, 3, 4, 5]).1 = .ok () ∧
    rootView (buildInt 4 4 [1, 2, 3, 4, 5]).2 1 = some (1, [4], [2, 3]) ∧
    leafChainLeaves (buildInt 4 4 [1, 2, 3, 4, 5]).2 10 2 = some [[1, 2, 3], [4, 5]] :=
  ⟨by decide, root_split_of_four_is_three_two 4 (by decide)⟩

/-! ## Scanning a root leaf -/

theorem startScan_on_rootLeaf (L : Nat) (s : BTreeIndex) (leaf : LeafNode Int) (k : Int)
    (hty : s.attributeType = .INTEGER) (hL : s.leafOccupancy = L + 1) (honly : s.onlyRoot = true)
    (hroot : s.rootPageNum = 2) (hnum : s.numPages = 2) (hscan : s.scanExecuting = false)
    (hleaf : s.pages 2 = .leafInt leaf) (hlive : (leaf.ridArray 0).page_number ≠ 0)
    (hkey : k ≤ leaf.keyArray 0) :
    ∃ t, startScan (.int k) .GTE (.int k) .LTE s = (.ok (), t) ∧
      ScanOnRootLeaf (L + 1) leaf k 0 t := by
  have hcmp : intKey.compare (leaf.keyArray 0) k ≥ 0 := by
    rw [intKey_compare, compareInt_nonneg_iff]; exact hkey
  have hloop : leafPosLoop intKey .GTE leaf k (L + 1) 0 = (true, 0) := by
    simp [leafPosLoop, hlive, hcmp]
  have heq : startScan (.int k) .GTE (.int k) .LTE s = (.ok (), { s with
      scanExecuting := true
      lowOp := .GTE
      highOp := .LTE
      lowValInt := k
      highValInt := k
      currentPageNum := 2
      currentPageData := some 2
      nextEntry := 0
      pinCnt := Function.update s.pinCnt 2 (s.pinCnt 2 + 1) }) := by
    simp [startScan, M.run_bind, M.run_pure, getThis, hty, liftE, KeyArg.asInt, startScanBegin,
      hscan, setThis, search, honly, hroot, readPage, hnum, leafPos, derefLeaf, hleaf,
      intKey_asLeaf_leafInt, hL, hloop, unPinPage, raise, Function.update_apply]
  exact ⟨_, heq, hty, hL, rfl, rfl, rfl, hleaf, rfl, rfl, rfl⟩

theorem scanNext_on_rootLeaf (L : Nat) (leaf : LeafNode Int) (es : List (Int × RecordId))
    (k : Int) (i : Nat) (t : BTreeIndex) (ht : ScanOnRootLeaf L leaf k i t)
    (hh : leaf.Holds L es) (hsib : leaf.rightSibPageNo = 0) (hi : i < es.length)
    (hk : leaf.keyArray i ≤ k) :
    scanNext t = (.ok (leaf.ridArray i),
      if i + 1 < es.length then { t with nextEntry := t.nextEntry + 1 }
      else { t with currentPageNum := 0 }) := by
  obtain ⟨hty, hL, hscan, hcur, hdata, hleaf, hnext, hhigh, hop⟩ := ht
  have hlen : es.length ≤ L := hh.1
  have hiL : i < L := lt_of_lt_of_le hi hh.1
  have c1 : ¬ ((i : Int) < 0 ∨ (L : Int) ≤ (i : Int)) := by omega
  have c1a : ¬ L ≤ i := by omega
  have c1b : ¬ (i : Int) < 0 := by omega
  have c2 : ¬ (leaf.keyArray i > k) := by omega
  by_cases hlast : i + 1 < es.length
  · have c3 : ¬ ((i : Int) = (L : Int) - 1) := by omega
    have c4 : ¬ (leaf.ridArray (i + 1)).page_number = 0 := (hh.2.1 (i + 1) hlast).2
    simp [scanNext, scanNextT, scanNextAdvance, M.run_bind, M.run_pure, getThis, hty, hscan,
      hcur, hdata, derefLeaf, hleaf, intKey_asLeaf_leafInt, hnext, hL, c1, c1a, c1b, c2, c3, c4, hhigh,
      hop, raise, setThis, hlast]
  · have c3 : (i : Int) = (L : Int) - 1 ∨ (leaf.ridArray (i + 1)).page_number = 0 := by
      by_cases h : i + 1 < L
      · exact Or.inr (hh.2.2 (i + 1) (by omega) h)
      · exact Or.inl (by omega)
    simp [scanNext, scanNextT, scanNextAdvance, M.run_bind, M.run_pure, getThis, hty, hscan,
      hcur, hdata, derefLeaf, hleaf, intKey_asLeaf_leafInt, hnext, hL, c1, c1a, c1b, c2, c3, hhigh,
      hop, raise, setThis, hlast, hsib]

theorem scanNext_after_last (t : BTreeIndex) (hscan : t.scanExecuting = true)
    (hcur : t.currentPageNum = 0) : scanNext t = (.error .IndexScanCompleted, t) := by
  simp [scanNext, M.run_bind, getThis, hscan, hcur, raise]

theorem scanAll_on_rootLeaf (L : Nat) (leaf : LeafNode Int) (es : List (Int × RecordId))
    (k : Int) (hh : leaf.Holds L es) (hsib : leaf.rightSibPageNo = 0)
    (hk : ∀ j, j < es.length → leaf.keyArray j ≤ k) (n i fuel : Nat) (t : BTreeIndex)
    (ht : ScanOnRootLeaf L leaf k i t) (hi : i + n + 1 = es.length) (hfuel : n + 2 ≤ fuel) :
    scanAll fuel t = ((es.drop i).map Prod.snd, some .IndexScanCompleted) := by
  induction n generalizing i fuel t with
  | zero =>
    obtain ⟨f, rfl⟩ : ∃ f, fuel = f + 2 := ⟨fuel - 2, by omega⟩
    have hstep := scanNext_on_rootLeaf L leaf es k i t ht hh hsib (by omega) (hk i (by omega))
    rw [if_neg (by omega)] at hstep
    have hend := scanNext_after_last { t with currentPageNum := 0 } ht.2.2.1 rfl
    have hd : es.drop i = [(leaf.keyArray i, leaf.ridArray i)] := by
      have h1 := (hh.2.1 i (by omega)).1
      rw [List.getElem?_eq_getElem (by omega)] at h1
      rw [List.drop_eq_getElem_cons (by omega), Option.some.inj h1,
        List.drop_of_length_le (by omega)]
    simp only [scanAll, hstep, hend, hd, List.map]
  | succ n ih =>
    obtain ⟨f, rfl⟩ : ∃ f, fuel = f + 1 := ⟨fuel - 1, by omega⟩
    have hstep := scanNext_on_rootLeaf L leaf es k i t ht hh hsib (by omega) (hk i (by omega))
    rw [if_pos (by omega)] at hstep
    obtain ⟨hty, hL, hscan, hcur, hdata, hleaf, hnext, hhigh, hop⟩ := ht
    have ht' : ScanOnRootLeaf L leaf k (i + 1) { t with nextEntry := t.nextEntry + 1 } :=
      ⟨hty, hL, hscan, hcur, hdata, hleaf, by simp [hnext], hhigh, hop⟩
    have hrec := ih (i + 1) f _ ht' (by omega) (by omega)
    have hd : es.drop i = (leaf.keyArray i, leaf.ridArray i) :: es.drop (i + 1) := by
      have h1 := (hh.2.1 i (by omega)).1
      rw [List.getElem?_eq_getElem (by omega)] at h1
      rw [List.drop_eq_getElem_cons (by omega), Option.some.inj h1]
    simp only [scanAll, hstep, hrec, hd, List.map]

/-- C12 as stated fails: with `leafOccupancy = nodeOccupancy = 4`, after three
records with key 7 and the record identifiers `(1,0)`, `(2,0)`, `(3,0)` are
inserted in that order into a fresh INTEGER index, the scan
`startScan(7, GTE, 7, LTE)` does not return them in insertion order. -/
theorem equal_keys_not_scanned_in_insertion_order :
    ¬ (scanAll 10 (startScan (.int 7) .GTE (.int 7) .LTE
        (insertAll (intRecords [(7, ⟨1, 0⟩), (7, ⟨2, 0⟩), (7, ⟨3, 0⟩)])
          (newIndex .INTEGER 4 4)).2).2).1 = [⟨1, 0⟩, ⟨2, 0⟩, ⟨3, 0⟩] := by
  decide!

/-! ## Pin counts across a member function -/

theorem pins_bind {α β : Type} {f : Nat → Nat} {m : M α} {k : α → M β} {g : α → Nat → Nat}
    {h : β → Nat → Nat} (hm : M.Pins f m g) (hk : ∀ a, M.Pins (g a) (k a) h) :
    M.Pins f (m >>= k) h := by
  intro s hs
  rw [M.run_bind]
  have h1 := hm s hs
  rcases hrun : m s with ⟨r, s'⟩
  rw [hrun] at h1
  cases r with
  | error e =>
    have h2 : e ≠ .PageNotPinned := fun h => h1.1 (by rw [h])
    show (Except.error e, s').1 ≠ _ ∧ ∀ a, (Except.error e, s').1 = .ok a → _
    exact ⟨by simpa using h2, fun a ha => by simp at ha⟩
  | ok a => exact hk a s' (h1.2 a rfl)

theorem pins_pure {α : Type} {f : Nat → Nat} (a : α) : M.Pins f (pure a : M α) (fun _ => f) := by
  intro s hs
  exact ⟨by simp [M.run_pure], fun _ _ => hs⟩

theorem pins_raise {α : Type} {f : Nat → Nat} {g : α → Nat → Nat} {e : Exn}
    (h : e ≠ .PageNotPinned) : M.Pins f (raise e : M α) g := by
  intro s _
  exact ⟨by simp [badgerdb.raise, h], fun a ha => by simp [badgerdb.raise] at ha⟩

theorem pins_getThis {f : Nat → Nat} : M.Pins f getThis (fun _ => f) := by
  intro s hs
  exact ⟨by simp [badgerdb.getThis], fun _ _ => hs⟩

theorem pins_setThis {f : Nat → Nat} (u : BTreeIndex → BTreeIndex)
    (hu : ∀ s, (u s).pinCnt = s.pinCnt) : M.Pins f (setThis u) (fun _ => f) := by
  intro s hs
  exact ⟨by simp [badgerdb.setThis], fun _ _ => by simp [badgerdb.setThis, hu, hs]⟩

theorem pins_liftE {α : Type} {f : Nat → Nat} {r : Except Exn α}
    (h : r ≠ .error .PageNotPinned) : M.Pins f (liftE r) (fun _ => f) := by
  intro s hs
  exact ⟨by simpa [badgerdb.liftE] using h, fun _ _ => hs⟩

theorem pins_readPage {f : Nat → Nat} (p : Nat) : M.Pins f (readPage p) (fun _ => bump f p) := by
  intro s hs
  unfold badgerdb.readPage
  split
  · exact ⟨by simp, fun a ha => by simp at ha⟩
  · exact ⟨by simp, fun a _ => by simp [bump, hs]⟩

theorem pins_allocPage {f : Nat → Nat} : M.Pins f allocPage (fun p => bump f p) := by
  intro s hs
  refine ⟨by simp [badgerdb.allocPage], fun a ha => ?_⟩
  simp only [badgerdb.allocPage, Except.ok.injEq] at ha
  subst ha
  simp [badgerdb.allocPage, bump, hs]

theorem pins_unPinPage {g : Nat → Nat} (p : Nat) (d : Bool) :
    M.Pins (bump g p) (unPinPage p d) (fun _ => g) := by
  intro s hs
  have h1 : s.pinCnt p ≠ 0 := by rw [hs]; simp [bump]
  unfold badgerdb.unPinPage
  rw [if_neg h1]
  refine ⟨by simp, fun _ _ => ?_⟩
  funext q
  simp only [hs, bump, Function.update_apply]
  by_cases hq : q = p
  · simp [hq]
  · simp [hq]

theorem pins_derefLeaf {K : Type} {kt : KeyType K} {f : Nat → Nat} (hk : kt.NeverUnpinned)
    (ptr : Nat) : M.Pins f (derefLeaf kt ptr) (fun _ => f) := by
  intro s hs
  exact ⟨hk.1 _, fun _ _ => hs⟩

theorem pins_derefNonLeaf {K : Type} {kt : KeyType K} {f : Nat → Nat} (hk : kt.NeverUnpinned)
    (ptr : Nat) : M.Pins f (derefNonLeaf kt ptr) (fun _ => f) := by
  intro s hs
  exact ⟨hk.2.1 _, fun _ _ => hs⟩

theorem pins_derefMeta {f : Nat → Nat} (ptr : Nat) : M.Pins f (derefMeta ptr) (fun _ => f) := by
  intro s hs
  unfold badgerdb.derefMeta
  split <;> exact ⟨by simp, fun _ _ => hs⟩

theorem pins_storeLeaf {K : Type} {kt : KeyType K} {f : Nat → Nat} (ptr : Nat)
    (n : LeafNode K) : M.Pins f (storeLeaf kt ptr n) (fun _ => f) :=
  pins_setThis _ (fun _ => rfl)

theorem pins_storeNonLeaf {K : Type} {kt : KeyType K} {f : Nat → Nat} (ptr : Nat)
    (n : NonLeafNode K) : M.Pins f (storeNonLeaf kt ptr n) (fun _ => f) :=
  pins_setThis _ (fun _ => rfl)

/-! ## Node-level results never fail with PageNotPinned -/

theorem except_bind_ne {α β : Type} {e : Exn} {x : Except Exn α} {f : α → Except Exn β}
    (hx : x ≠ .error e) (hf : ∀ a, f a ≠ .error e) : (x >>= f) ≠ .error e := by
  cases x with
  | error e' =>
    intro h
    apply hx
    simpa [bind, Except.bind] using h
  | ok a => exact hf a

theorem except_pure_ne {α : Type} {e : Exn} (a : α) : (pure a : Except Exn α) ≠ .error e := by
  simp [pure, Except.pure]

theorem except_throw_ne {α : Type} {e e' : Exn} (h : e' ≠ e) :
    (throw e' : Except Exn α) ≠ .error e := by
  simpa [throw, throwThe, MonadExceptOf.throw] using h

theorem insertLeaf_ne_unpinned {K : Type} (kt : KeyType K) (L : Nat) (node : LeafNode K)
    (pair : RIDKeyPair K) : insertLeaf kt L node pair ≠ .error .PageNotPinned := by
  unfold insertLeaf
  dsimp only
  split <;> simp

theorem insertNonLeafPos_ne_unpinned {K : Type} (kt : KeyType K) (N : Nat)
    (node : NonLeafNode K) (key : K) (left pos : Nat) :
    insertNonLeafPos kt N node key left pos ≠ .error .PageNotPinned := by
  induction left generalizing pos with
  | zero => simp [insertNonLeafPos]
  | succ left ih =>
    unfold insertNonLeafPos
    repeat' first
      | exact ih _
      | split
      | simp

theorem insertNonLeaf_ne_unpinned {K : Type} (kt : KeyType K) (L N : Nat)
    (node : NonLeafNode K) (pair : PageKeyPair K) :
    insertNonLeaf kt L N node pair ≠ .error .PageNotPinned := by
  have h1 : Exn.outOfBounds ≠ Exn.PageNotPinned := by decide
  unfold insertNonLeaf
  repeat' with_reducible first
    | exact except_pure_ne _
    | exact except_throw_ne h1
    | exact insertNonLeafPos_ne_unpinned _ _ _ _ _ _
    | refine except_bind_ne ?_ (fun _ => ?_)
    | split
    | dsimp only

theorem startChildPos_ne_unpinned {K : Type} (kt : KeyType K) (L N : Nat)
    (node : NonLeafNode K) (key : K) :
    startChildPos kt L N node key ≠ .error .PageNotPinned := by
  have h1 : Exn.outOfBounds ≠ Exn.PageNotPinned := by decide
  unfold startChildPos
  repeat' with_reducible first
    | exact except_pure_ne _
    | exact except_throw_ne h1
    | exact insertNonLeafPos_ne_unpinned _ _ _ _ _ _
    | refine except_bind_ne ?_ (fun _ => ?_)
    | split

theorem splitLeafNodes_ne_unpinned {K : Type} (kt : KeyType K) (L : Nat)
    (leaf new : LeafNode K) (newPageNo : Nat) (pair : RIDKeyPair K) :
    splitLeafNodes kt L leaf new newPageNo pair ≠ .error .PageNotPinned := by
  have h1 : Exn.outOfBounds ≠ Exn.PageNotPinned := by decide
  unfold splitLeafNodes
  repeat' with_reducible first
    | exact except_pure_ne _
    | exact except_throw_ne h1
    | exact insertLeaf_ne_unpinned _ _ _ _
    | refine except_bind_ne ?_ (fun _ => ?_)
    | split
    | dsimp only

theorem splitNonLeafNodes_ne_unpinned {K : Type} (kt : KeyType K) (hk : kt.NeverUnpinned)
    (L N : Nat) (node new : NonLeafNode K) (newPageNo : Nat) (pair : PageKeyPair K) :
    splitNonLeafNodes kt L N node new newPageNo pair ≠ .error .PageNotPinned := by
  have h1 : Exn.outOfBounds ≠ Exn.PageNotPinned := by decide
  have hless := hk.2.2
  unfold splitNonLeafNodes
  repeat' with_reducible first
    | exact except_pure_ne _
    | exact except_throw_ne h1
    | exact insertNonLeaf_ne_unpinned _ _ _ _ _
    | exact hless _ _
    | refine except_bind_ne ?_ (fun _ => ?_)
    | split
    | dsimp only

theorem pins_raise_bind {α β : Type} {f : Nat → Nat} {h : β → Nat → Nat} {e : Exn}
    (k : α → M β) (he : e ≠ .PageNotPinned) : M.Pins f (raise e >>= k) h := by
  intro s _
  exact ⟨by simp [M.run_bind, badgerdb.raise, he],
    fun a ha => by simp [M.run_bind, badgerdb.raise] at ha⟩

theorem splitLeaf_pins {K : Type} {kt : KeyType K} (hk : kt.NeverUnpinned) (f : Nat → Nat)
    (leafNode : Nat) (pair : RIDKeyPair K) :
    M.Pins f (splitLeaf kt leafNode pair) (fun _ => f) := by
  unfold splitLeaf
  repeat' with_reducible first
    | exact pins_pure _
    | exact pins_getThis
    | exact pins_allocPage
    | exact pins_unPinPage _ _
    | exact pins_derefLeaf hk _
    | exact pins_storeLeaf _ _
    | exact pins_liftE (splitLeafNodes_ne_unpinned _ _ _ _ _ _)
    | apply pins_bind
    | intro _

theorem splitNonLeaf_pins {K : Type} {kt : KeyType K} (hk : kt.NeverUnpinned) (f : Nat → Nat)
    (nonLeafNode : Nat) (pair : PageKeyPair K) :
    M.Pins f (splitNonLeaf kt nonLeafNode pair) (fun _ => f) := by
  unfold splitNonLeaf
  repeat' with_reducible first
    | exact pins_pure _
    | exact pins_getThis
    | exact pins_allocPage
    | exact pins_unPinPage _ _
    | exact pins_derefNonLeaf hk _
    | exact pins_storeNonLeaf _ _
    | exact pins_liftE (splitNonLeafNodes_ne_unpinned _ hk _ _ _ _ _ _)
    | apply pins_bind
    | intro _

theorem createNewRoot_pins {K : Type} {kt : KeyType K} (hk : kt.NeverUnpinned) (f : Nat → Nat)
    (oldNo : Nat) (newPair : PageKeyPair K) (level : Int) :
    M.Pins f (createNewRoot kt oldNo newPair level) (fun _ => f) := by
  have h1 : Exn.outOfBounds ≠ Exn.PageNotPinned := by decide
  unfold createNewRoot
  repeat' with_reducible first
    | exact pins_pure _
    | exact pins_getThis
    | exact pins_allocPage
    | exact pins_readPage _
    | exact pins_unPinPage _ _
    | exact pins_derefNonLeaf hk _
    | exact pins_derefMeta _
    | exact pins_storeNonLeaf _ _
    | exact pins_setThis _ (fun _ => rfl)
    | exact pins_raise_bind _ h1
    | exact pins_raise h1
    | apply pins_bind
    | intro _
    | split

theorem startAbsorb_pins {K : Type} {kt : KeyType K} (hk : kt.NeverUnpinned) (f : Nat → Nat)
    (currPage : Nat) (returnPPair newPPair : PageKeyPair K) :
    M.Pins f (startAbsorb kt currPage returnPPair newPPair) (fun _ => f) := by
  unfold startAbsorb
  repeat' with_reducible first
    | exact pins_pure _
    | exact pins_getThis
    | exact splitNonLeaf_pins hk _ _ _
    | exact pins_derefNonLeaf hk _
    | exact pins_storeNonLeaf _ _
    | exact pins_liftE (insertNonLeaf_ne_unpinned _ _ _ _ _)
    | apply pins_bind
    | intro _
    | split

theorem start_pins {K : Type} {kt : KeyType K} (hk : kt.NeverUnpinned) (fuel : Nat)
    (f : Nat → Nat) (currPageNo : Nat) (newPPair : PageKeyPair K) (newRPair : RIDKeyPair K) :
    M.Pins f (start kt fuel currPageNo newPPair newRPair) (fun _ => f) := by
  have h1 : Exn.outOfBounds ≠ Exn.PageNotPinned := by decide
  have h2 : Exn.nonTermination ≠ Exn.PageNotPinned := by decide
  induction fuel generalizing f currPageNo newPPair with
  | zero =>
    unfold start
    exact pins_raise h2
  | succ fuel ih =>
    unfold start
    repeat' with_reducible first
      | exact pins_pure _
      | exact pins_getThis
      | exact ih _ _ _
      | exact splitLeaf_pins hk _ _ _
      | exact startAbsorb_pins hk _ _ _ _
      | exact pins_readPage _
      | exact pins_unPinPage _ _
      | exact pins_derefLeaf hk _
      | exact pins_derefNonLeaf hk _
      | exact pins_storeLeaf _ _
      | exact pins_liftE (insertLeaf_ne_unpinned _ _ _ _)
      | exact pins_liftE (startChildPos_ne_unpinned _ _ _ _ _)
      | exact pins_raise_bind _ h1
      | apply pins_bind
      | intro _
      | split
  
theorem insertEntryT_pins {K : Type} {kt : KeyType K} (hk : kt.NeverUnpinned) (f : Nat → Nat)
    (key : K) (rid : RecordId) : M.Pins f (insertEntryT kt key rid) (fun _ => f) := by
  have h1 : Exn.outOfBounds ≠ Exn.PageNotPinned := by decide
  unfold insertEntryT
  repeat' with_reducible first
    | exact pins_pure _
    | exact pins_getThis
    | exact start_pins hk _ _ _ _ _
    | exact splitLeaf_pins hk _ _ _
    | exact createNewRoot_pins hk _ _ _ _
    | exact pins_readPage _
    | exact pins_unPinPage _ _
    | exact pins_derefLeaf hk _
    | exact pins_storeLeaf _ _
    | exact pins_liftE (insertLeaf_ne_unpinned _ _ _ _)
    | exact pins_raise_bind _ h1
    | apply pins_bind
    | intro _
    | split

theorem intKey_neverUnpinned : intKey.NeverUnpinned := by
  refine ⟨fun p => ?_, fun p => ?_, fun a b => ?_⟩
  · cases p <;> simp [intKey]
  · cases p <;> simp [intKey]
  · simp [intKey]

theorem doubleKey_neverUnpinned : doubleKey.NeverUnpinned := by
  refine ⟨fun p => ?_, fun p => ?_, fun a b => ?_⟩
  · cases p <;> simp [doubleKey]
  · cases p <;> simp [doubleKey]
  · simp [doubleKey]

theorem stringKey_neverUnpinned (f : List Nat → List Nat → Bool) :
    (stringKey f).NeverUnpinned := by
  refine ⟨fun p => ?_, fun p => ?_, fun a b => ?_⟩
  · cases p <;> simp [stringKey]
  · cases p <;> simp [stringKey]
  · simp [stringKey]

theorem insertEntry_pins (f : Nat → Nat) (key : KeyArg) (rid : RecordId) :
    M.Pins f (insertEntry key rid) (fun _ => f) := by
  have h1 : Exn.badCast ≠ Exn.PageNotPinned := by decide
  unfold insertEntry
  repeat' with_reducible first
    | exact pins_getThis
    | exact insertEntryT_pins intKey_neverUnpinned _ _ _
    | exact insertEntryT_pins doubleKey_neverUnpinned _ _ _
    | exact insertEntryT_pins (stringKey_neverUnpinned _) _ _ _
    | exact pins_raise h1
    | apply pins_bind
    | intro _
    | split

/-- C14: with the buffer manager a map from page number to pin count
(`readPage` and `allocPage` add one, `unPinPage` takes one off and fails with
`PageNotPinned` at count 0), in every state and for every key and record
identifier, `insertEntry` never ends with `PageNotPinned`, that is, it never
unpins a page whose pin count is 0; and when the call returns, whichever case
it took, every page's pin count equals its value before the call, so that a
page allocated by the call, whose count was 0 before, ends at 0. -/
theorem insertEntry_pin_counts_balanced (s : BTreeIndex) (key : KeyArg) (rid : RecordId) :
    (insertEntry key rid s).1 ≠ .error .PageNotPinned ∧
    ((insertEntry key rid s).1 = .ok () →
      (insertEntry key rid s).2.pinCnt = s.pinCnt ∧
      ((∀ p, s.numPages < p → s.pinCnt p = 0) →
        ∀ p, s.numPages < p → (insertEntry key rid s).2.pinCnt p = 0)) := by
  have h := insertEntry_pins s.pinCnt key rid s rfl
  refine ⟨h.1, fun hok => ⟨h.2 () hok, fun hz p hp => ?_⟩⟩
  rw [h.2 () hok]
  exact hz p hp

/-- Instance of `insertEntry_pin_counts_balanced` through a split of an
internal node: on the STRING index `nineStrings lt`, for either outcome `lt` of
the address comparison, inserting the key "j" returns normally after
allocating three pages (the new leaf, the new internal node and the new root),
and the pin counts are those before the call. -/
theorem insertEntry_pin_counts_balanced_witness :
    ((insertEntry (.string [106]) ⟨10, 0⟩ (nineStrings true)).1 = .ok () ∧
      (insertEntry (.string [106]) ⟨10, 0⟩ (nineStrings true)).2.numPages
        = (nineStrings true).numPages + 3 ∧
      (insertEntry (.string [106]) ⟨10, 0⟩ (nineStrings true)).2.pinCnt
        = (nineStrings true).pinCnt) ∧
    ((insertEntry (.string [106]) ⟨10, 0⟩ (nineStrings false)).1 = .ok () ∧
      (insertEntry (.string [106]) ⟨10, 0⟩ (nineStrings false)).2.numPages
        = (nineStrings false).numPages + 3 ∧
      (insertEntry (.string [106]) ⟨10, 0⟩ (nineStrings false)).2.pinCnt
        = (nineStrings false).pinCnt) :=
  ⟨⟨by decide!, by decide!,
      ((insertEntry_pin_counts_balanced (nineStrings true) (.string [106]) ⟨10, 0⟩).2
        (by decide!)).1⟩,
    ⟨by decide!, by decide!,
      ((insertEntry_pin_counts_balanced (nineStrings false) (.string [106]) ⟨10, 0⟩).2
        (by decide!)).1⟩⟩

/-! ## The header page and the root members across insertions -/

theorem inv_bind {α β : Type} {I : BTreeIndex → Prop} {m : M α} {k : α → M β} {Q : α → Prop}
    {R : β → Prop} (hm : M.Inv I m Q) (hk : ∀ a, Q a → M.Inv I (k a) R) :
    M.Inv I (m >>= k) R := by
  intro s hs
  rw [M.run_bind]
  have h1 := hm s hs
  rcases hrun : m s with ⟨r, s'⟩
  rw [hrun] at h1
  cases r with
  | error e =>
    show I (Except.error e, s').2 ∧ ∀ a, (Except.error e, s').1 = .ok a → _
    exact ⟨h1.1, fun a ha => by simp at ha⟩
  | ok a => exact hk a (h1.2 a rfl) s' h1.1

theorem inv_pure {α : Type} {I : BTreeIndex → Prop} (a : α) :
    M.Inv I (pure a : M α) (fun _ => True) := by
  intro s hs
  exact ⟨hs, fun _ _ => trivial⟩

theorem inv_raise {α : Type} {I : BTreeIndex → Prop} {Q : α → Prop} (e : Exn) :
    M.Inv I (raise e : M α) Q := by
  intro s hs
  exact ⟨hs, fun a ha => by simp [badgerdb.raise] at ha⟩

theorem inv_raise_bind {α β : Type} {I : BTreeIndex → Prop} {R : β → Prop} (e : Exn)
    (k : α → M β) : M.Inv I (raise e >>= k) R := by
  intro s hs
  exact ⟨hs, fun a ha => by simp [M.run_bind, badgerdb.raise] at ha⟩

theorem inv_getThis {I : BTreeIndex → Prop} : M.Inv I getThis (fun _ => True) := by
  intro s hs
  exact ⟨hs, fun _ _ => trivial⟩

theorem inv_liftE {α : Type} {I : BTreeIndex → Prop} (r : Except Exn α) :
    M.Inv I (liftE r) (fun _ => True) := by
  intro s hs
  exact ⟨hs, fun _ _ => trivial⟩

theorem inv_readPage (p : Nat) : M.Inv InsertInv (readPage p) (fun _ => True) := by
  intro s hs
  refine ⟨?_, fun _ _ => trivial⟩
  unfold badgerdb.readPage
  split
  · exact hs
  · exact hs

theorem inv_unPinPage (p : Nat) (d : Bool) :
    M.Inv InsertInv (unPinPage p d) (fun _ => True) := by
  intro s hs
  refine ⟨?_, fun _ _ => trivial⟩
  unfold badgerdb.unPinPage
  split
  · exact hs
  · exact hs

theorem inv_allocPage : M.Inv InsertInv allocPage (fun _ => True) := by
  intro s hs
  refine ⟨?_, fun _ _ => trivial⟩
  obtain ⟨⟨h1, h2, ⟨m, h3, h4⟩, h5⟩, h6⟩ := hs
  have hne : (1 : Nat) ≠ s.numPages + 1 := by omega
  refine ⟨⟨h1, ?_, ⟨m, ?_, h4⟩, h5⟩, h6⟩
  · show 2 ≤ s.numPages + 1
    omega
  · show Function.update s.pages (s.numPages + 1) Page.blank 1 = _
    rw [Function.update_noteq hne, h3]

theorem inv_derefLeaf {K : Type} {kt : KeyType K} (hk : kt.NoHeaderCast) (ptr : Nat) :
    M.Inv InsertInv (derefLeaf kt ptr) (fun _ => ptr ≠ 1) := by
  intro s hs
  refine ⟨hs, fun a ha hp => ?_⟩
  obtain ⟨⟨-, -, ⟨m, h3, -⟩, -⟩, -⟩ := hs
  subst hp
  have ha' : kt.asLeaf (s.pages 1) = .ok a := ha
  rw [h3] at ha'
  exact hk.1 m a ha'

theorem inv_derefNonLeaf {K : Type} {kt : KeyType K} (hk : kt.NoHeaderCast) (ptr : Nat) :
    M.Inv InsertInv (derefNonLeaf kt ptr) (fun _ => ptr ≠ 1) := by
  intro s hs
  refine ⟨hs, fun a ha hp => ?_⟩
  obtain ⟨⟨-, -, ⟨m, h3, -⟩, -⟩, -⟩ := hs
  subst hp
  have ha' : kt.asNonLeaf (s.pages 1) = .ok a := ha
  rw [h3] at ha'
  exact hk.2 m a ha'

theorem inv_storeLeaf {K : Type} {kt : KeyType K} {ptr : Nat} (hp : ptr ≠ 1)
    (n : LeafNode K) : M.Inv InsertInv (storeLeaf kt ptr n) (fun _ => True) := by
  intro s hs
  refine ⟨?_, fun _ _ => trivial⟩
  obtain ⟨⟨h1, h2, ⟨m, h3, h4⟩, h5⟩, h6⟩ := hs
  refine ⟨⟨h1, h2, ⟨m, ?_, h4⟩, h5⟩, h6⟩
  show Function.update s.pages ptr (kt.ofLeaf n) 1 = _
  rw [Function.update_noteq (Ne.symm hp), h3]

theorem inv_storeNonLeaf {K : Type} {kt : KeyType K} {ptr : Nat} (hp : ptr ≠ 1)
    (n : NonLeafNode K) : M.Inv InsertInv (storeNonLeaf kt ptr n) (fun _ => True) := by
  intro s hs
  refine ⟨?_, fun _ _ => trivial⟩
  obtain ⟨⟨h1, h2, ⟨m, h3, h4⟩, h5⟩, h6⟩ := hs
  refine ⟨⟨h1, h2, ⟨m, ?_, h4⟩, h5⟩, h6⟩
  show Function.update s.pages ptr (kt.ofNonLeaf n) 1 = _
  rw [Function.update_noteq (Ne.symm hp), h3]

theorem splitLeaf_inv {K : Type} {kt : KeyType K} (hk : kt.NoHeaderCast)
    (leafNode : Nat) (pair : RIDKeyPair K) :
    M.Inv InsertInv (splitLeaf kt leafNode pair) (fun _ => True) := by
  unfold splitLeaf
  repeat' with_reducible first
    | exact inv_pure _
    | exact inv_getThis
    | exact inv_allocPage
    | exact inv_unPinPage _ _
    | exact inv_derefLeaf hk _
    | exact inv_storeLeaf (by assumption) _
    | exact inv_liftE _
    | apply inv_bind
    | intro _

theorem splitNonLeaf_inv {K : Type} {kt : KeyType K} (hk : kt.NoHeaderCast)
    (nonLeafNode : Nat) (pair : PageKeyPair K) :
    M.Inv InsertInv (splitNonLeaf kt nonLeafNode pair) (fun _ => True) := by
  unfold splitNonLeaf
  repeat' with_reducible first
    | exact inv_pure _
    | exact inv_getThis
    | exact inv_allocPage
    | exact inv_unPinPage _ _
    | exact inv_derefNonLeaf hk _
    | exact inv_storeNonLeaf (by assumption) _
    | exact inv_liftE _
    | apply inv_bind
    | intro _

theorem startAbsorb_inv {K : Type} {kt : KeyType K} (hk : kt.NoHeaderCast)
    (currPage : Nat) (returnPPair newPPair : PageKeyPair K) :
    M.Inv InsertInv (startAbsorb kt currPage returnPPair newPPair) (fun _ => True) := by
  unfold startAbsorb
  repeat' with_reducible first
    | exact inv_pure _
    | exact inv_getThis
    | exact splitNonLeaf_inv hk _ _
    | exact inv_derefNonLeaf hk _
    | exact inv_storeNonLeaf (by assumption) _
    | exact inv_liftE _
    | apply inv_bind
    | intro _
    | split

theorem start_inv {K : Type} {kt : KeyType K} (hk : kt.NoHeaderCast) (fuel : Nat)
    (currPageNo : Nat) (newPPair : PageKeyPair K) (newRPair : RIDKeyPair K) :
    M.Inv InsertInv (start kt fuel currPageNo newPPair newRPair) (fun _ => True) := by
  induction fuel generalizing currPageNo newPPair with
  | zero =>
    unfold start
    exact inv_raise _
  | succ fuel ih =>
    unfold start
    repeat' with_reducible first
      | exact inv_pure _
      | exact inv_getThis
      | exact ih _ _
      | exact splitLeaf_inv hk _ _
      | exact startAbsorb_inv hk _ _ _
      | exact inv_readPage _
      | exact inv_unPinPage _ _
      | exact inv_derefLeaf hk _
      | exact inv_derefNonLeaf hk _
      | exact inv_storeLeaf (by assumption) _
      | exact inv_liftE _
      | exact inv_raise_bind _ _
      | apply inv_bind
      | intro _
      | split

theorem createNewRoot_inv {K : Type} (kt : KeyType K) (oldNo : Nat) (newPair : PageKeyPair K)
    (level : Int) : M.Inv InsertInv (createNewRoot kt oldNo newPair level) (fun _ => True) := by
  intro s hs
  refine ⟨?_, fun _ _ => trivial⟩
  obtain ⟨⟨h1, h2, ⟨m, h3, h4⟩, h5⟩, h6⟩ := hs
  have hne : ¬ (1 : Nat) = s.numPages + 1 := by omega
  have hne2 : ¬ s.numPages + 1 = 1 := by omega
  have hne3 : ¬ s.numPages + 1 = 2 := by omega
  have hle : ¬ s.numPages + 1 < 1 := by omega
  have hbase : InsertInv { s with
      numPages := s.numPages + 1
      pages := Function.update s.pages (s.numPages + 1) Page.blank
      pinCnt := Function.update s.pinCnt (s.numPages + 1) (s.pinCnt (s.numPages + 1) + 1) } := by
    refine ⟨⟨h1, ?_, ⟨m, ?_, h4⟩, h5⟩, h6⟩
    · show 2 ≤ s.numPages + 1
      omega
    · show Function.update s.pages (s.numPages + 1) Page.blank 1 = _
      rw [Function.update_noteq hne, h3]
  rcases hcast : kt.asNonLeaf Page.blank with e | node
  · simpa [createNewRoot, M.run_bind, allocPage, derefNonLeaf, hcast] using hbase
  · by_cases hN : s.nodeOccupancy = 0
    · simpa [createNewRoot, M.run_bind, allocPage, derefNonLeaf, hcast, getThis, hN, raise]
        using hbase
    · simp [createNewRoot, M.run_bind, M.run_pure, allocPage, derefNonLeaf, hcast, getThis, hN,
        raise, setThis, storeNonLeaf, unPinPage, readPage, h1, hle, derefMeta, h3, hne, hne2,
        Function.update_apply]
      refine ⟨⟨rfl, ?_, ⟨{ m with rootPageNo := s.numPages + 1 }, ?_, rfl⟩, ?_⟩, h6⟩
      · show 2 ≤ s.numPages + 1
        omega
      · simp [Function.update_apply]
      · simp [hne3]

theorem insertEntryT_inv {K : Type} {kt : KeyType K} (hk : kt.NoHeaderCast)
    (key : K) (rid : RecordId) : M.Inv InsertInv (insertEntryT kt key rid) (fun _ => True) := by
  unfold insertEntryT
  repeat' with_reducible first
    | exact inv_pure _
    | exact inv_getThis
    | exact start_inv hk _ _ _ _
    | exact splitLeaf_inv hk _ _
    | exact createNewRoot_inv _ _ _ _
    | exact inv_readPage _
    | exact inv_unPinPage _ _
    | exact inv_derefLeaf hk _
    | exact inv_storeLeaf (by assumption) _
    | exact inv_liftE _
    | exact inv_raise_bind _ _
    | apply inv_bind
    | intro _
    | split

theorem intKey_noHeaderCast : intKey.NoHeaderCast :=
  ⟨fun _ _ => by simp [intKey], fun _ _ => by simp [intKey]⟩

theorem doubleKey_noHeaderCast : doubleKey.NoHeaderCast :=
  ⟨fun _ _ => by simp [doubleKey], fun _ _ => by simp [doubleKey]⟩

theorem stringKey_noHeaderCast (f : List Nat → List Nat → Bool) :
    (stringKey f).NoHeaderCast :=
  ⟨fun _ _ => by simp [stringKey], fun _ _ => by simp [stringKey]⟩

theorem insertEntry_inv (key : KeyArg) (rid : RecordId) :
    M.Inv InsertInv (insertEntry key rid) (fun _ => True) := by
  unfold insertEntry
  repeat' with_reducible first
    | exact inv_getThis
    | exact insertEntryT_inv intKey_noHeaderCast _ _
    | exact insertEntryT_inv doubleKey_noHeaderCast _ _
    | exact insertEntryT_inv (stringKey_noHeaderCast _) _ _
    | exact inv_raise _
    | apply inv_bind
    | intro _
    | split

theorem newIndex_inv (ty : Datatype) (L N : Nat) : InsertInv (newIndex ty L N) := by
  cases ty <;>
    simp [InsertInv, HeaderRoot, ScanMembersFresh, newIndex, createIndex, M.run_bind, M.run_pure,
      setThis, allocPage, getThis, derefLeaf, storeLeaf, unPinPage, insertAll,
      BTreeIndex.initial, intKey, doubleKey, stringKey, Function.update_apply]

theorem afterCalls_inv (calls : List (KeyArg × RecordId)) (s : BTreeIndex) (hs : InsertInv s) :
    InsertInv (afterCalls calls s) := by
  induction calls generalizing s with
  | nil => exact hs
  | cons c calls ih => exact ih _ (insertEntry_inv c.1 c.2 s hs).1

theorem reopen_of_inv (s : BTreeIndex) (hs : InsertInv s) : reopen s = (.ok (), s) := by
  obtain ⟨⟨h1, h2, ⟨m, h3, h4⟩, h5⟩, a1, a2, a3, a4, a5, a6, a7, a8, a9, a10, a11, a12⟩ := hs
  have hle : ¬ s.numPages < 1 := by omega
  have honly : decide (m.rootPageNo = 2) = s.onlyRoot := by
    rw [h4]
    cases hb : s.onlyRoot with
    | true => simpa using h5.1 hb
    | false =>
      have : ¬ s.rootPageNum = 2 := fun h => by simp [h5.2 h] at hb
      simpa using this
  obtain ⟨pages, numPages, pinCnt, attributeType, attrByteOffset, leafOccupancy, nodeOccupancy,
    headerPageNum, rootPageNum, onlyRoot, scanExecuting, nextEntry, currentPageNum,
    currentPageData, lowValInt, highValInt, lowValDouble, highValDouble, lowValString,
    highValString, lowOp, highOp⟩ := s
  simp only at h1 h2 h3 h4 h5 a1 a2 a3 a4 a5 a6 a7 a8 a9 a10 a11 a12 hle honly
  subst h1 a1 a2 a3 a4 a5 a6 a7 a8 a9 a10 a11 a12
  simp [reopen, openIndex, M.run_bind, M.run_pure, setThis, readPage, hle, derefMeta, h3,
    unPinPage, BTreeIndex.initial, h4, honly]
  rw [h4] at honly
  exact honly

/-- C13: a new index, over a buffer pool with any order `f` of the addresses of
string keys, has its header on page 1 and its root leaf on page 2;
in every state reached from it by a sequence of `insertEntry` calls (returning
or throwing), the header is page 1, the meta page's `rootPageNo` equals the
member `rootPageNum`, and `onlyRoot` is true exactly when `rootPageNo == 2`;
re-opening the file then returns normally in exactly the pre-close state, so
that `rootPageNum` and `onlyRoot` are restored and `startScan` and the
following `scanNext` calls give on the re-opened index the results they give
on the pre-close instance. -/
theorem reopen_restores_root_members (ty : Datatype) (L N : Nat)
    (calls : List (KeyArg × RecordId)) (f : List Nat → List Nat → Bool) :
    ((withAddrLess f (newIndex ty L N)).headerPageNum = 1 ∧
      (withAddrLess f (newIndex ty L N)).rootPageNum = 2) ∧
    ((afterCalls calls (withAddrLess f (newIndex ty L N))).headerPageNum = 1 ∧
      ∃ m, (afterCalls calls (withAddrLess f (newIndex ty L N))).pages 1 = .header m ∧
        m.rootPageNo = (afterCalls calls (withAddrLess f (newIndex ty L N))).rootPageNum ∧
        ((afterCalls calls (withAddrLess f (newIndex ty L N))).onlyRoot = true ↔
          m.rootPageNo = 2)) ∧
    reopen (afterCalls calls (withAddrLess f (newIndex ty L N))) =
      (.ok (), afterCalls calls (withAddrLess f (newIndex ty L N))) ∧
    (reopen (afterCalls calls (withAddrLess f (newIndex ty L N)))).2.rootPageNum =
      (afterCalls calls (withAddrLess f (newIndex ty L N))).rootPageNum ∧
    (reopen (afterCalls calls (withAddrLess f (newIndex ty L N)))).2.onlyRoot =
      (afterCalls calls (withAddrLess f (newIndex ty L N))).onlyRoot ∧
    ∀ (low : KeyArg) (lowOp : Operator) (high : KeyArg) (highOp : Operator) (fuel : Nat),
      (startScan low lowOp high highOp
          (reopen (afterCalls calls (withAddrLess f (newIndex ty L N)))).2).1 =
        (startScan low lowOp high highOp
          (afterCalls calls (withAddrLess f (newIndex ty L N)))).1 ∧
      scanAll fuel (startScan low lowOp high highOp
          (reopen (afterCalls calls (withAddrLess f (newIndex ty L N)))).2).2 =
        scanAll fuel (startScan low lowOp high highOp
          (afterCalls calls (withAddrLess f (newIndex ty L N)))).2 := by
  have hnew0 : (newIndex ty L N).headerPageNum = 1 ∧ (newIndex ty L N).rootPageNum = 2 := by
    cases ty <;>
      simp [newIndex, createIndex, M.run_bind, M.run_pure, setThis, allocPage, getThis,
        derefLeaf, storeLeaf, unPinPage, insertAll, BTreeIndex.initial, intKey, doubleKey,
        stringKey]
  have hnew : (withAddrLess f (newIndex ty L N)).headerPageNum = 1 ∧
      (withAddrLess f (newIndex ty L N)).rootPageNum = 2 := hnew0
  have hinv0 : InsertInv (withAddrLess f (newIndex ty L N)) := newIndex_inv ty L N
  have hinv := afterCalls_inv calls (withAddrLess f (newIndex ty L N)) hinv0
  have hre := reopen_of_inv _ hinv
  obtain ⟨⟨h1, -, ⟨m, h3, h4⟩, h5⟩, -⟩ := hinv
  refine ⟨hnew, ⟨h1, m, h3, h4, by rw [h4]; exact h5⟩, hre, by rw [hre], by rw [hre], ?_⟩
  intro low lowOp high highOp fuel
  rw [hre]
  exact ⟨rfl, rfl⟩

/-- C24: on a new, empty INTEGER index (`leafOccupancy = nodeOccupancy = 3`),
`startScan(1, GTE, 5, LTE)` fails with `IndexScanCompleted` and leaves
`scanExecuting` true, `currentPageNum = 2` and `nextEntry = -1`; the following
`scanNext` call reads `keyArray[-1]`, outside the array. -/
theorem scanNext_reads_before_array_on_empty_index :
    (startScan (.int 1) .GTE (.int 5) .LTE (newIndex .INTEGER 3 3)).1
      = .error .IndexScanCompleted ∧
    (startScan (.int 1) .GTE (.int 5) .LTE (newIndex .INTEGER 3 3)).2.scanExecuting = true ∧
    (startScan (.int 1) .GTE (.int 5) .LTE (newIndex .INTEGER 3 3)).2.currentPageNum = 2 ∧
    (startScan (.int 1) .GTE (.int 5) .LTE (newIndex .INTEGER 3 3)).2.nextEntry = -1 ∧
    (scanNext (startScan (.int 1) .GTE (.int 5) .LTE (newIndex .INTEGER 3 3)).2).1
      = .error .outOfBounds := by
  decide!

/-! ## Range scans of a root leaf -/

theorem leafPosLoop_found (L : Nat) (leaf : LeafNode Int) (es : List (Int × RecordId))
    (h : leaf.Holds L es) (op : Operator) (hop : op = .GT ∨ op = .GTE) (low : Int)
    (left pos : Nat) (hsum : pos + left = L) (hpos : pos ≤ es.length)
    (hex : ∃ e ∈ es.drop pos, satisfiesLow op low e.1 = true) :
    leafPosLoop intKey op leaf low left pos =
      (true, pos + ((es.drop pos).takeWhile fun e => !satisfiesLow op low e.1).length) := by
  induction left generalizing pos with
  | zero =>
    obtain ⟨e, he, -⟩ := hex
    rw [List.drop_of_length_le (by have := h.1; omega)] at he
    exact absurd he (List.not_mem_nil _)
  | succ left ih =>
    have hl : pos < es.length := by
      rcases Nat.lt_or_eq_of_le hpos with hl | heq
      · exact hl
      · obtain ⟨e, he, -⟩ := hex
        rw [List.drop_of_length_le (by omega)] at he
        exact absurd he (List.not_mem_nil _)
    obtain ⟨hget, hne⟩ := h.2.1 pos hl
    have hg : es[pos] = (leaf.keyArray pos, leaf.ridArray pos) := by
      have := List.getElem?_eq_getElem hl
      rw [this] at hget
      exact Option.some.inj hget
    have hd : es.drop pos = (leaf.keyArray pos, leaf.ridArray pos) :: es.drop (pos + 1) := by
      rw [List.drop_eq_getElem_cons hl, hg]
    unfold leafPosLoop
    rw [if_pos hne, hd, List.takeWhile_cons]
    by_cases hsat : satisfiesLow op low (leaf.keyArray pos) = true
    · have hres : (if (!satisfiesLow op low (leaf.keyArray pos)) = true then
          (leaf.keyArray pos, leaf.ridArray pos) ::
            List.takeWhile (fun e => !satisfiesLow op low e.1) (es.drop (pos + 1))
          else []) = [] := by simp [hsat]
      rw [hres]
      rcases hop with rfl | rfl
      · have : intKey.compare (leaf.keyArray pos) low > 0 := by
          rw [intKey_compare, compareInt_pos_iff]
          simpa [satisfiesLow] using hsat
        simp [this]
      · have : intKey.compare (leaf.keyArray pos) low ≥ 0 := by
          rw [intKey_compare, compareInt_nonneg_iff]
          simpa [satisfiesLow] using hsat
        simp [this]
    · have hex' : ∃ e ∈ es.drop (pos + 1), satisfiesLow op low e.1 = true := by
        obtain ⟨e, he, hs⟩ := hex
        rw [hd] at he
        rcases List.mem_cons.1 he with heq | hmem
        · rw [heq] at hs
          exact absurd hs hsat
        · exact ⟨e, hmem, hs⟩
      have hrec := ih (pos + 1) (by omega) hl hex'
      have hres : (if (!satisfiesLow op low (leaf.keyArray pos)) = true then
          (leaf.keyArray pos, leaf.ridArray pos) ::
            List.takeWhile (fun e => !satisfiesLow op low e.1) (es.drop (pos + 1))
          else []) = (leaf.keyArray pos, leaf.ridArray pos) ::
            List.takeWhile (fun e => !satisfiesLow op low e.1) (es.drop (pos + 1)) := by
        simp [hsat]
      rw [hres]
      rcases hop with rfl | rfl
      · have : ¬ intKey.compare (leaf.keyArray pos) low > 0 := by
          rw [intKey_compare, compareInt_pos_iff]
          simpa [satisfiesLow] using hsat
        simp only [if_true, if_neg this, hrec, List.length_cons]
        congr 1
        omega
      · have : ¬ intKey.compare (leaf.keyArray pos) low ≥ 0 := by
          rw [intKey_compare, compareInt_nonneg_iff]
          simpa [satisfiesLow] using hsat
        have hgt : ¬ Operator.GTE = Operator.GT := by decide
        simp only [if_neg hgt, if_true, if_neg this, hrec, List.length_cons]
        congr 1
        omega

set_option maxHeartbeats 1000000 in
theorem startScan_on_leaf (L : Nat) (s : BTreeIndex) (leaf : LeafNode Int)
    (es : List (Int × RecordId)) (low high : Int) (lowOp highOp : Operator)
    (hty : s.attributeType = .INTEGER) (hL : s.leafOccupancy = L) (honly : s.onlyRoot = true)
    (hroot : s.rootPageNum = 2) (hnum : s.numPages = 2) (hscan : s.scanExecuting = false)
    (hleaf : s.pages 2 = .leafInt leaf) (hh : leaf.Holds L es)
    (hlo : lowOp = .GT ∨ lowOp = .GTE) (hhi : highOp = .LT ∨ highOp = .LTE)
    (hrange : low ≤ high) (hex : ∃ e ∈ es, satisfiesLow lowOp low e.1 = true) :
    ∃ t, startScan (.int low) lowOp (.int high) highOp s = (.ok (), t) ∧
      ScanOnLeaf L leaf high highOp
        (es.takeWhile fun e => !satisfiesLow lowOp low e.1).length t := by
  have hloop := leafPosLoop_found L leaf es hh lowOp hlo low L 0 (by omega) (Nat.zero_le _)
    (by simpa using hex)
  rw [List.drop_zero, Nat.zero_add] at hloop
  have hr : ¬ low > high := by omega
  have hneg : ¬ ((((es.takeWhile fun e => !satisfiesLow lowOp low e.1).length : Nat) : Int)
      = -1) := by omega
  generalize (es.takeWhile fun e => !satisfiesLow lowOp low e.1).length = p at hloop hneg ⊢
  have heq : startScan (.int low) lowOp (.int high) highOp s = (.ok (), { s with
      scanExecuting := true
      lowOp := lowOp
      highOp := highOp
      lowValInt := low
      highValInt := high
      currentPageNum := 2
      currentPageData := some 2
      nextEntry := (p : Int)
      pinCnt := Function.update s.pinCnt 2 (s.pinCnt 2 + 1) }) := by
    rcases hlo with rfl | rfl <;> rcases hhi with rfl | rfl <;>
      simp [startScan, M.run_bind, M.run_pure, getThis, hty, liftE, KeyArg.asInt,
        startScanBegin, hscan, setThis, search, honly, hroot, readPage, hnum, leafPos,
        derefLeaf, hleaf, intKey_asLeaf_leafInt, hL, hloop, unPinPage, raise,
        Function.update_apply, hr, hneg]
  exact ⟨_, heq, hty, hL, rfl, rfl, rfl, hleaf, rfl, rfl, rfl⟩

theorem scanNext_on_leaf (L : Nat) (leaf : LeafNode Int) (es : List (Int × RecordId))
    (high : Int) (hop : Operator) (hhi : hop = .LT ∨ hop = .LTE) (i : Nat) (t : BTreeIndex)
    (ht : ScanOnLeaf L leaf high hop i t)
    (hh : leaf.Holds L es) (hsib : leaf.rightSibPageNo = 0) (hi : i < es.length) :
    scanNext t =
      if satisfiesHigh hop high (leaf.keyArray i) = true then
        (.ok (leaf.ridArray i),
          if i + 1 < es.length then { t with nextEntry := t.nextEntry + 1 }
          else { t with currentPageNum := 0 })
      else (.error .IndexScanCompleted, t) := by
  obtain ⟨hty, hL, hscan, hcur, hdata, hleaf, hnext, hhigh, hop'⟩ := ht
  have hlen : es.length ≤ L := hh.1
  have hiL : i < L := lt_of_lt_of_le hi hh.1
  have c1 : ¬ ((i : Int) < 0 ∨ (L : Int) ≤ (i : Int)) := by omega
  have c1a : ¬ L ≤ i := by omega
  have c1b : ¬ (i : Int) < 0 := by omega
  by_cases hsat : satisfiesHigh hop high (leaf.keyArray i) = true
  · rw [if_pos hsat]
    have c2 : ¬ (hop = .LTE ∧ leaf.keyArray i > high) := by
      rintro ⟨rfl, hk⟩
      simp [satisfiesHigh] at hsat
      omega
    have c2' : ¬ (hop = .LT ∧ leaf.keyArray i ≥ high) := by
      rintro ⟨rfl, hk⟩
      simp [satisfiesHigh] at hsat
      omega
    by_cases hlast : i + 1 < es.length
    · have c3 : ¬ ((i : Int) = (L : Int) - 1) := by omega
      have c4 : ¬ (leaf.ridArray (i + 1)).page_number = 0 := (hh.2.1 (i + 1) hlast).2
      rcases hhi with rfl | rfl
      · have c5 : ¬ leaf.keyArray i ≥ high := by
          have : leaf.keyArray i < high := by simpa [satisfiesHigh] using hsat
          omega
        simp [scanNext, scanNextT, scanNextAdvance, M.run_bind, M.run_pure, getThis, hty,
          hscan, hcur, hdata, derefLeaf, hleaf, intKey_asLeaf_leafInt, hnext, hL, c1, c1a, c1b,
          c3, c4, hhigh, hop', raise, setThis, hlast, c5]
      · have c5 : ¬ leaf.keyArray i > high := by
          have : leaf.keyArray i ≤ high := by simpa [satisfiesHigh] using hsat
          omega
        simp [scanNext, scanNextT, scanNextAdvance, M.run_bind, M.run_pure, getThis, hty,
          hscan, hcur, hdata, derefLeaf, hleaf, intKey_asLeaf_leafInt, hnext, hL, c1, c1a, c1b,
          c3, c4, hhigh, hop', raise, setThis, hlast, c5]
    · have c3 : (i : Int) = (L : Int) - 1 ∨ (leaf.ridArray (i + 1)).page_number = 0 := by
        by_cases h : i + 1 < L
        · exact Or.inr (hh.2.2 (i + 1) (by omega) h)
        · exact Or.inl (by omega)
      rcases hhi with rfl | rfl
      · have c5 : ¬ leaf.keyArray i ≥ high := by
          have : leaf.keyArray i < high := by simpa [satisfiesHigh] using hsat
          omega
        simp [scanNext, scanNextT, scanNextAdvance, M.run_bind, M.run_pure, getThis, hty,
          hscan, hcur, hdata, derefLeaf, hleaf, intKey_asLeaf_leafInt, hnext, hL, c1, c1a, c1b,
          c3, hhigh, hop', raise, setThis, hlast, hsib, c5]
      · have c5 : ¬ leaf.keyArray i > high := by
          have : leaf.keyArray i ≤ high := by simpa [satisfiesHigh] using hsat
          omega
        simp [scanNext, scanNextT, scanNextAdvance, M.run_bind, M.run_pure, getThis, hty,
          hscan, hcur, hdata, derefLeaf, hleaf, intKey_asLeaf_leafInt, hnext, hL, c1, c1a, c1b,
          c3, hhigh, hop', raise, setThis, hlast, hsib, c5]
  · rw [if_neg hsat]
    rcases hhi with rfl | rfl
    · have c5 : leaf.keyArray i ≥ high := by simpa [satisfiesHigh] using hsat
      simp [scanNext, scanNextT, M.run_bind, M.run_pure, getThis, hty,
        hscan, hcur, hdata, derefLeaf, hleaf, intKey_asLeaf_leafInt, hnext, hL, c1, c1a, c1b,
        hhigh, hop', raise, c5]
    · have c5 : leaf.keyArray i > high := by simpa [satisfiesHigh] using hsat
      simp [scanNext, scanNextT, M.run_bind, M.run_pure, getThis, hty,
        hscan, hcur, hdata, derefLeaf, hleaf, intKey_asLeaf_leafInt, hnext, hL, c1, c1a, c1b,
        hhigh, hop', raise, c5]

theorem scanAll_on_leaf (L : Nat) (leaf : LeafNode Int) (es : List (Int × RecordId))
    (high : Int) (hop : Operator) (hhi : hop = .LT ∨ hop = .LTE)
    (hh : leaf.Holds L es) (hsib : leaf.rightSibPageNo = 0)
    (n i fuel : Nat) (t : BTreeIndex)
    (ht : ScanOnLeaf L leaf high hop i t) (hi : i + n + 1 = es.length) (hfuel : n + 2 ≤ fuel) :
    scanAll fuel t =
      (((es.drop i).takeWhile fun e => satisfiesHigh hop high e.1).map Prod.snd,
        some .IndexScanCompleted) := by
  induction n generalizing i fuel t with
  | zero =>
    obtain ⟨f, rfl⟩ : ∃ f, fuel = f + 2 := ⟨fuel - 2, by omega⟩
    have hstep := scanNext_on_leaf L leaf es high hop hhi i t ht hh hsib (by omega)
    have hd : es.drop i = [(leaf.keyArray i, leaf.ridArray i)] := by
      have h1 := (hh.2.1 i (by omega)).1
      rw [List.getElem?_eq_getElem (by omega)] at h1
      rw [List.drop_eq_getElem_cons (by omega), Option.some.inj h1,
        List.drop_of_length_le (by omega)]
    rw [hd]
    by_cases hsat : satisfiesHigh hop high (leaf.keyArray i) = true
    · rw [if_pos hsat, if_neg (by omega)] at hstep
      have hend := scanNext_after_last { t with currentPageNum := 0 } ht.2.2.1 rfl
      simp only [scanAll, hstep, hend, List.takeWhile, hsat, List.map]
    · rw [if_neg hsat] at hstep
      have hsat' : satisfiesHigh hop high (leaf.keyArray i) = false := by simpa using hsat
      simp only [scanAll, hstep, List.takeWhile, hsat', List.map]
  | succ n ih =>
    obtain ⟨f, rfl⟩ : ∃ f, fuel = f + 1 := ⟨fuel - 1, by omega⟩
    have hstep := scanNext_on_leaf L leaf es high hop hhi i t ht hh hsib (by omega)
    have hd : es.drop i = (leaf.keyArray i, leaf.ridArray i) :: es.drop (i + 1) := by
      have h1 := (hh.2.1 i (by omega)).1
      rw [List.getElem?_eq_getElem (by omega)] at h1
      rw [List.drop_eq_getElem_cons (by omega), Option.some.inj h1]
    rw [hd]
    by_cases hsat : satisfiesHigh hop high (leaf.keyArray i) = true
    · rw [if_pos hsat, if_pos (by omega)] at hstep
      obtain ⟨hty, hL, hscan, hcur, hdata, hleaf, hnext, hhigh, hop'⟩ := ht
      have ht' : ScanOnLeaf L leaf high hop (i + 1) { t with nextEntry := t.nextEntry + 1 } :=
        ⟨hty, hL, hscan, hcur, hdata, hleaf, by simp [hnext], hhigh, hop'⟩
      have hrec := ih (i + 1) f _ ht' (by omega) (by omega)
      simp only [scanAll, hstep, hrec, List.takeWhile, hsat, List.map]
    · rw [if_neg hsat] at hstep
      have hsat' : satisfiesHigh hop high (leaf.keyArray i) = false := by simpa using hsat
      simp only [scanAll, hstep, List.takeWhile, hsat', List.map]

theorem filter_eq_takeWhile_of_sorted (p : Int × RecordId → Bool) (l : List (Int × RecordId))
    (hs : List.Sorted keyLE l) (hp : ∀ a b, keyLE a b → p b = true → p a = true) :
    l.filter p = l.takeWhile p := by
  induction l with
  | nil => rfl
  | cons a l ih =>
    have hs' := List.sorted_cons.1 hs
    by_cases ha : p a = true
    · rw [List.filter_cons_of_pos ha, List.takeWhile_cons_of_pos ha, ih hs'.2]
    · rw [List.filter_cons_of_neg ha, List.takeWhile_cons_of_neg ha]
      apply List.filter_eq_nil_iff.2
      intro b hb hpb
      exact ha (hp a b (hs'.1 b hb) hpb)

theorem filter_range_of_sorted (lowOp highOp : Operator) (low high : Int)
    (l : List (Int × RecordId)) (hs : List.Sorted keyLE l) :
    l.filter (fun e => satisfiesLow lowOp low e.1 && satisfiesHigh highOp high e.1) =
      (l.drop (l.takeWhile fun e => !satisfiesLow lowOp low e.1).length).takeWhile
        fun e => satisfiesHigh highOp high e.1 := by
  have hlowmono : ∀ a b : Int × RecordId, keyLE a b →
      satisfiesLow lowOp low a.1 = true → satisfiesLow lowOp low b.1 = true := by
    intro a b hab
    have hab' : a.1 ≤ b.1 := hab
    cases lowOp <;> simp [satisfiesLow] <;> omega
  have hhighmono : ∀ a b : Int × RecordId, keyLE a b →
      satisfiesHigh highOp high b.1 = true → satisfiesHigh highOp high a.1 = true := by
    intro a b hab
    have hab' : a.1 ≤ b.1 := hab
    cases highOp <;> simp [satisfiesHigh] <;> omega
  rw [(take_drop_takeWhile _ _).2]
  induction l with
  | nil => rfl
  | cons a l ih =>
    have hs' := List.sorted_cons.1 hs
    by_cases ha : satisfiesLow lowOp low a.1 = true
    · have hall : ∀ b ∈ a :: l, satisfiesLow lowOp low b.1 = true := by
        intro b hb
        rcases List.mem_cons.1 hb with h | h
        · rw [h]; exact ha
        · exact hlowmono a b (hs'.1 b h) ha
      have hdw : (a :: l).dropWhile (fun e => !satisfiesLow lowOp low e.1) = a :: l := by
        rw [List.dropWhile_cons_of_neg (by simp [ha])]
      rw [hdw, ← filter_eq_takeWhile_of_sorted _ _ hs hhighmono]
      apply List.filter_congr
      intro b hb
      simp [hall b hb]
    · have ha' : satisfiesLow lowOp low a.1 = false := by simpa using ha
      rw [List.filter_cons_of_neg (by simp [ha']), List.dropWhile_cons_of_pos (by simp [ha'])]
      exact ih hs'.2
theorem foldl_orderedInsert_sorted_perm (recs acc : List (Int × RecordId))
    (hacc : List.Sorted keyLE acc) :
    List.Sorted keyLE (recs.foldl (fun acc r => List.orderedInsert keyLE r acc) acc) ∧
    (recs.foldl (fun acc r => List.orderedInsert keyLE r acc) acc).Perm (recs ++ acc) := by
  induction recs generalizing acc with
  | nil => exact ⟨hacc, List.Perm.refl _⟩
  | cons r recs ih =>
    obtain ⟨h1, h2⟩ := ih (List.orderedInsert keyLE r acc) (List.Sorted.orderedInsert r acc hacc)
    refine ⟨h1, h2.trans ?_⟩
    refine ((List.perm_orderedInsert keyLE r acc).append_left recs).trans ?_
    exact List.perm_middle

theorem takeWhile_length_lt_of_exists {α : Type} (q : α → Bool) (l : List α)
    (h : ∃ e ∈ l, q e = false) : (l.takeWhile q).length < l.length := by
  induction l with
  | nil =>
    obtain ⟨e, he, -⟩ := h
    exact absurd he (List.not_mem_nil _)
  | cons a l ih =>
    by_cases ha : q a = true
    · rw [List.takeWhile_cons_of_pos ha]
      obtain ⟨e, he, hq⟩ := h
      rcases List.mem_cons.1 he with heq | hmem
      · rw [heq, ha] at hq
        exact absurd hq (by simp)
      · have := ih ⟨e, hmem, hq⟩
        simp only [List.length_cons]
        omega
    · rw [List.takeWhile_cons_of_neg ha]
      simp

/-- C23: for an INTEGER index into which at most `leafOccupancy` pairs with
record identifiers of nonzero page number were inserted since creation, and
every `startScan(low, lowOp, high, highOp)` with valid operators and
`low <= high` such that a stored key satisfies the low bound: every insertion
succeeds and the root is still the only leaf, whose live entries are the
inserted pairs in ascending key order; `startScan` succeeds; the following
`scanNext` calls return the record identifiers of exactly the stored entries
whose keys satisfy both bounds, each once, in the leaf's order; and the next
`scanNext` call fails with `IndexScanCompleted`. -/
theorem rootLeaf_range_scan_returns_matching (L N : Nat) (recs : List (Int × RecordId))
    (low high : Int) (lowOp highOp : Operator)
    (hlen : recs.length ≤ L) (hrid : ∀ r ∈ recs, r.2.page_number ≠ 0)
    (hlo : lowOp = .GT ∨ lowOp = .GTE) (hhi : highOp = .LT ∨ highOp = .LTE)
    (hrange : low ≤ high) (hex : ∃ r ∈ recs, satisfiesLow lowOp low r.1 = true)
    (fuel : Nat) (hfuel : recs.length + 1 ≤ fuel) :
    (insertAll (intRecords recs) (newIndex .INTEGER L N)).1 = .ok () ∧
    (insertAll (intRecords recs) (newIndex .INTEGER L N)).2.onlyRoot = true ∧
    (startScan (.int low) lowOp (.int high) highOp
      (insertAll (intRecords recs) (newIndex .INTEGER L N)).2).1 = .ok () ∧
    ∃ leaf es,
      (insertAll (intRecords recs) (newIndex .INTEGER L N)).2.pages
        (insertAll (intRecords recs) (newIndex .INTEGER L N)).2.rootPageNum = .leafInt leaf ∧
      liveEntries leaf L 0 = es ∧ es.Perm recs ∧ List.Sorted (· ≤ ·) (es.map Prod.fst) ∧
      scanAll fuel (startScan (.int low) lowOp (.int high) highOp
        (insertAll (intRecords recs) (newIndex .INTEGER L N)).2).2 =
        ((es.filter fun e =>
            satisfiesLow lowOp low e.1 && satisfiesHigh highOp high e.1).map Prod.snd,
          some .IndexScanCompleted) := by
  obtain ⟨s, hins, hs, -, hx⟩ := insertAll_rootLeafHolds L N recs []
    (newIndex .INTEGER L N) (newIndex_rootLeafHolds L N) (by simpa using hlen) hrid
  rw [newIndex_scanExecuting] at hx
  obtain ⟨hsorted, hperm⟩ := foldl_orderedInsert_sorted_perm recs [] (List.sorted_nil)
  rw [List.append_nil] at hperm
  generalize recs.foldl (fun acc r => List.orderedInsert keyLE r acc) [] = es at hs hsorted hperm
  obtain ⟨hty, hL, -, honly, hroot, -, hnum, -, leaf, hleaf, hh, hsib⟩ := hs
  have hex' : ∃ e ∈ es, satisfiesLow lowOp low e.1 = true := by
    obtain ⟨r, hr, hsat⟩ := hex
    exact ⟨r, hperm.mem_iff.2 hr, hsat⟩
  obtain ⟨t, hstart, ht⟩ := startScan_on_leaf L s leaf es low high lowOp highOp hty hL honly
    hroot hnum hx hleaf hh hlo hhi hrange hex'
  have hp := takeWhile_length_lt_of_exists (fun e => !satisfiesLow lowOp low e.1) es
    (by
      obtain ⟨e, he, hsat⟩ := hex'
      exact ⟨e, he, by simp [hsat]⟩)
  have hlen' : es.length = recs.length := hperm.length_eq
  have hscan := scanAll_on_leaf L leaf es high highOp hhi hh hsib
    (es.length - (es.takeWhile fun e => !satisfiesLow lowOp low e.1).length - 1)
    (es.takeWhile fun e => !satisfiesLow lowOp low e.1).length fuel t ht (by omega) (by omega)
  rw [hins, hstart]
  refine ⟨rfl, honly, rfl, leaf, es, ?_, liveEntries_of_holds L leaf es hh, hperm,
    (sorted_keys_iff es).2 hsorted, ?_⟩
  · rw [hroot]; exact hleaf
  · rw [hscan, filter_range_of_sorted lowOp highOp low high es hsorted]
/-- Instance of `rootLeaf_range_scan_returns_matching`: keys 5, 3, 7 inserted
with `leafOccupancy = nodeOccupancy = 4`, and the scan `[4, 7)`. -/
theorem rootLeaf_range_scan_returns_matching_witness :
    ([((5 : Int), (⟨1, 0⟩ : RecordId)), (3, ⟨2, 0⟩), (7, ⟨3, 0⟩)].length ≤ 4 ∧ (4 : Int) ≤ 7 ∧
      ∃ r ∈ [((5 : Int), (⟨1, 0⟩ : RecordId)), (3, ⟨2, 0⟩), (7, ⟨3, 0⟩)],
        satisfiesLow .GTE 4 r.1 = true) ∧
    (startScan (.int 4) .GTE (.int 7) .LT
      (insertAll (intRecords [(5, ⟨1, 0⟩), (3, ⟨2, 0⟩), (7, ⟨3, 0⟩)])
        (newIndex .INTEGER 4 4)).2).1 = .ok () ∧
    ∃ es : List (Int × RecordId),
      es.Perm [(5, ⟨1, 0⟩), (3, ⟨2, 0⟩), (7, ⟨3, 0⟩)] ∧
      List.Sorted (· ≤ ·) (es.map Prod.fst) ∧
      scanAll 10 (startScan (.int 4) .GTE (.int 7) .LT
        (insertAll (intRecords [(5, ⟨1, 0⟩), (3, ⟨2, 0⟩), (7, ⟨3, 0⟩)])
          (newIndex .INTEGER 4 4)).2).2 =
        ((es.filter fun e => satisfiesLow .GTE 4 e.1 && satisfiesHigh .LT 7 e.1).map Prod.snd,
          some .IndexScanCompleted) :=
  have h := rootLeaf_range_scan_returns_matching 4 4 [(5, ⟨1, 0⟩), (3, ⟨2, 0⟩), (7, ⟨3, 0⟩)]
    4 7 .GTE .LT (by decide) (by decide) (Or.inr rfl) (Or.inl rfl) (by decide)
    ⟨(5, ⟨1, 0⟩), by simp, by decide⟩ 10 (by decide)
  ⟨⟨by decide, by decide, ⟨(5, ⟨1, 0⟩), by simp, by decide⟩⟩, h.2.2.1,
    h.2.2.2.elim fun _ h1 => h1.elim fun es h2 => ⟨es, h2.2.2.1, h2.2.2.2.1, h2.2.2.2.2⟩⟩

/-! ## Equal keys in a root leaf -/

theorem filter_key_orderedInsert (k : Int) (a : Int × RecordId) (l : List (Int × RecordId)) :
    (List.orderedInsert keyLE a l).filter (fun e => decide (e.1 = k)) =
      if a.1 = k then a :: l.filter (fun e => decide (e.1 = k))
      else l.filter (fun e => decide (e.1 = k)) := by
  induction l with
  | nil =>
    by_cases ha : a.1 = k <;> simp [List.orderedInsert, ha]
  | cons b l ih =>
    by_cases hab : keyLE a b
    · rw [List.orderedInsert, if_pos hab]
      by_cases ha : a.1 = k
      · rw [if_pos ha, List.filter_cons_of_pos (by simpa using ha)]
      · rw [if_neg ha, List.filter_cons_of_neg (by simpa using ha)]
    · rw [List.orderedInsert, if_neg hab]
      have hlt : b.1 < a.1 := by
        have h : ¬ a.1 ≤ b.1 := hab
        omega
      by_cases hb : b.1 = k
      · have ha : ¬ a.1 = k := by omega
        rw [List.filter_cons_of_pos (by simpa using hb), ih, if_neg ha, if_neg ha,
          List.filter_cons_of_pos (by simpa using hb)]
      · rw [List.filter_cons_of_neg (by simpa using hb), ih,
          List.filter_cons_of_neg (by simpa using hb)]

theorem filter_key_foldl_orderedInsert (k : Int) (recs acc : List (Int × RecordId)) :
    (recs.foldl (fun acc r => List.orderedInsert keyLE r acc) acc).filter
        (fun e => decide (e.1 = k)) =
      (recs.filter (fun e => decide (e.1 = k))).reverse ++
        acc.filter (fun e => decide (e.1 = k)) := by
  induction recs generalizing acc with
  | nil => rfl
  | cons r recs ih =>
    rw [List.foldl_cons, ih, filter_key_orderedInsert]
    by_cases hr : r.1 = k
    · rw [if_pos hr, List.filter_cons_of_pos (by simpa using hr)]
      simp
    · rw [if_neg hr, List.filter_cons_of_neg (by simpa using hr)]

theorem rootLeaf_scan_filter (L N : Nat) (recs : List (Int × RecordId))
    (low high : Int) (lowOp highOp : Operator)
    (hlen : recs.length ≤ L) (hrid : ∀ r ∈ recs, r.2.page_number ≠ 0)
    (hlo : lowOp = .GT ∨ lowOp = .GTE) (hhi : highOp = .LT ∨ highOp = .LTE)
    (hrange : low ≤ high) (hex : ∃ r ∈ recs, satisfiesLow lowOp low r.1 = true)
    (fuel : Nat) (hfuel : recs.length + 1 ≤ fuel) :
    (insertAll (intRecords recs) (newIndex .INTEGER L N)).1 = .ok () ∧
    (insertAll (intRecords recs) (newIndex .INTEGER L N)).2.onlyRoot = true ∧
    (startScan (.int low) lowOp (.int high) highOp
      (insertAll (intRecords recs) (newIndex .INTEGER L N)).2).1 = .ok () ∧
    scanAll fuel (startScan (.int low) lowOp (.int high) highOp
        (insertAll (intRecords recs) (newIndex .INTEGER L N)).2).2 =
      (((recs.foldl (fun acc r => List.orderedInsert keyLE r acc) []).filter fun e =>
          satisfiesLow lowOp low e.1 && satisfiesHigh highOp high e.1).map Prod.snd,
        some .IndexScanCompleted) := by
  obtain ⟨s, hins, hs, -, hx⟩ := insertAll_rootLeafHolds L N recs []
    (newIndex .INTEGER L N) (newIndex_rootLeafHolds L N) (by simpa using hlen) hrid
  rw [newIndex_scanExecuting] at hx
  obtain ⟨hsorted, hperm⟩ := foldl_orderedInsert_sorted_perm recs [] (List.sorted_nil)
  rw [List.append_nil] at hperm
  generalize recs.foldl (fun acc r => List.orderedInsert keyLE r acc) [] = es
    at hs hsorted hperm ⊢
  obtain ⟨hty, hL, -, honly, hroot, -, hnum, -, leaf, hleaf, hh, hsib⟩ := hs
  have hex' : ∃ e ∈ es, satisfiesLow lowOp low e.1 = true := by
    obtain ⟨r, hr, hsat⟩ := hex
    exact ⟨r, hperm.mem_iff.2 hr, hsat⟩
  obtain ⟨t, hstart, ht⟩ := startScan_on_leaf L s leaf es low high lowOp highOp hty hL honly
    hroot hnum hx hleaf hh hlo hhi hrange hex'
  have hp := takeWhile_length_lt_of_exists (fun e => !satisfiesLow lowOp low e.1) es
    (by
      obtain ⟨e, he, hsat⟩ := hex'
      exact ⟨e, he, by simp [hsat]⟩)
  have hlen' : es.length = recs.length := hperm.length_eq
  have hscan := scanAll_on_leaf L leaf es high highOp hhi hh hsib
    (es.length - (es.takeWhile fun e => !satisfiesLow lowOp low e.1).length - 1)
    (es.takeWhile fun e => !satisfiesLow lowOp low e.1).length fuel t ht (by omega) (by omega)
  rw [hins, hstart]
  refine ⟨rfl, honly, rfl, ?_⟩
  rw [hscan, filter_range_of_sorted lowOp highOp low high es hsorted]

/-- C12, amended: when at most `leafOccupancy` pairs with record identifiers of
nonzero page number are inserted into a fresh INTEGER index, so that the root
is still the only leaf and holds them all, then for every key `k` that one of
the pairs carries: every insertion succeeds, `startScan(k, GTE, k, LTE)`
succeeds, and the following `scanNext` calls return the record identifiers of
all the pairs with key `k`, in reverse insertion order (the last inserted
first), and then end with `IndexScanCompleted`. -/
theorem equal_keys_scanned_in_reverse_insertion_order (L N : Nat)
    (recs : List (Int × RecordId)) (k : Int)
    (hlen : recs.length ≤ L) (hrid : ∀ r ∈ recs, r.2.page_number ≠ 0)
    (hex : ∃ r ∈ recs, r.1 = k) (fuel : Nat) (hfuel : recs.length + 1 ≤ fuel) :
    (insertAll (intRecords recs) (newIndex .INTEGER L N)).1 = .ok () ∧
    (insertAll (intRecords recs) (newIndex .INTEGER L N)).2.onlyRoot = true ∧
    (startScan (.int k) .GTE (.int k) .LTE
      (insertAll (intRecords recs) (newIndex .INTEGER L N)).2).1 = .ok () ∧
    scanAll fuel (startScan (.int k) .GTE (.int k) .LTE
        (insertAll (intRecords recs) (newIndex .INTEGER L N)).2).2 =
      (((recs.filter fun r => decide (r.1 = k)).map Prod.snd).reverse,
        some .IndexScanCompleted) := by
  obtain ⟨h1, h2, h3, h4⟩ := rootLeaf_scan_filter L N recs k k .GTE .LTE hlen hrid
    (Or.inr rfl) (Or.inr rfl) le_rfl
    (by
      obtain ⟨r, hr, hk⟩ := hex
      exact ⟨r, hr, by simp [satisfiesLow, hk]⟩)
    fuel hfuel
  refine ⟨h1, h2, h3, ?_⟩
  rw [h4]
  have hf : (fun e : Int × RecordId => satisfiesLow .GTE k e.1 && satisfiesHigh .LTE k e.1) =
      fun e => decide (e.1 = k) := by
    funext e
    simp only [satisfiesLow, satisfiesHigh]
    by_cases h : e.1 = k
    · simp [h]
    · have : ¬ (e.1 ≥ k ∧ e.1 ≤ k) := fun hh => h (le_antisymm hh.2 hh.1)
      simp [h]
      omega
  rw [hf, filter_key_foldl_orderedInsert]
  simp [List.map_reverse]

/-- Instance of `equal_keys_scanned_in_reverse_insertion_order`: the keys 7, 5,
7, 9, 7 inserted in this order with the record identifiers (1, 0), ..., (5, 0)
and `leafOccupancy = nodeOccupancy = 5`; the scan `[7, 7]` returns (5, 0),
(3, 0), (1, 0). -/
theorem equal_keys_scanned_in_reverse_insertion_order_witness :
    ([((7 : Int), (⟨1, 0⟩ : RecordId)), (5, ⟨2, 0⟩), (7, ⟨3, 0⟩), (9, ⟨4, 0⟩),
        (7, ⟨5, 0⟩)].length ≤ 5 ∧
      ∃ r ∈ [((7 : Int), (⟨1, 0⟩ : RecordId)), (5, ⟨2, 0⟩), (7, ⟨3, 0⟩), (9, ⟨4, 0⟩),
        (7, ⟨5, 0⟩)], r.1 = 7) ∧
    (startScan (.int 7) .GTE (.int 7) .LTE
      (insertAll (intRecords [(7, ⟨1, 0⟩), (5, ⟨2, 0⟩), (7, ⟨3, 0⟩), (9, ⟨4, 0⟩), (7, ⟨5, 0⟩)])
        (newIndex .INTEGER 5 5)).2).1 = .ok () ∧
    scanAll 10 (startScan (.int 7) .GTE (.int 7) .LTE
      (insertAll (intRecords [(7, ⟨1, 0⟩), (5, ⟨2, 0⟩), (7, ⟨3, 0⟩), (9, ⟨4, 0⟩), (7, ⟨5, 0⟩)])
        (newIndex .INTEGER 5 5)).2).2 =
      ([⟨5, 0⟩, ⟨3, 0⟩, ⟨1, 0⟩], some .IndexScanCompleted) :=
  have h := equal_keys_scanned_in_reverse_insertion_order 5 5
    [(7, ⟨1, 0⟩), (5, ⟨2, 0⟩), (7, ⟨3, 0⟩), (9, ⟨4, 0⟩), (7, ⟨5, 0⟩)] 7 (by decide)
    (by decide) ⟨(7, ⟨1, 0⟩), by simp, rfl⟩ 10 (by decide)
  ⟨⟨by decide, ⟨(7, ⟨1, 0⟩), by simp, rfl⟩⟩, h.2.2.1, h.2.2.2⟩

/-! ## Internal nodes: the shift and the insertion -/

theorem insertNonLeafShift_pageNoArray {K : Type} (kt : KeyType K) (pos i : Nat)
    (node : NonLeafNode K) (j : Nat) :
    (insertNonLeafShift kt pos i node).pageNoArray j =
      if pos + 1 < j ∧ j ≤ i + 1 then node.pageNoArray (j - 1) else node.pageNoArray j := by
  induction i generalizing node with
  | zero =>
    simp only [insertNonLeafShift]
    split
    · next h =>
      have : j = 1 := by omega
      omega
    · rfl
  | succ i ih =>
    unfold insertNonLeafShift
    split
    · next hi =>
      rw [ih]
      by_cases h1 : pos + 1 < j ∧ j ≤ i + 1
      · have h2 : pos + 1 < j ∧ j ≤ i + 1 + 1 := ⟨h1.1, by omega⟩
        have h3 : j - 1 ≠ i + 2 := by omega
        simp [h1, h2, Function.update_apply, h3]
      · by_cases h4 : j = i + 2
        · subst h4
          have h2 : pos + 1 < i + 2 ∧ i + 2 ≤ i + 1 + 1 := ⟨by omega, le_rfl⟩
          simp [h1, h2]
        · have h2 : ¬ (pos + 1 < j ∧ j ≤ i + 1 + 1) := by omega
          simp [h1, h2, Function.update_apply, h4]
    · next hi =>
      have h2 : ¬ (pos + 1 < j ∧ j ≤ i + 1 + 1) := by omega
      simp [h2]

theorem insertNonLeafShift_level {K : Type} (kt : KeyType K) (pos i : Nat)
    (node : NonLeafNode K) : (insertNonLeafShift kt pos i node).level = node.level := by
  induction i generalizing node with
  | zero => rfl
  | succ i ih =>
    unfold insertNonLeafShift
    split
    · rw [ih]
    · rfl

theorem insertNonLeafPos_spec {K : Type} (kt : KeyType K) (N : Nat) (node : NonLeafNode K)
    (key : K) (left pos p : Nat) (h : insertNonLeafPos kt N node key left pos = .ok p)
    (hbefore : ∀ i, i < pos → node.pageNoArray i ≠ 0) :
    pos ≤ p ∧ p ≤ pos + left ∧ (∀ i, i < p → node.pageNoArray i ≠ 0) ∧
      (node.pageNoArray p ≠ 0 → p < N ∨ p = pos + left) ∧ (p < pos + left → p ≤ N) := by
  induction left generalizing pos with
  | zero =>
    simp only [insertNonLeafPos, Except.ok.injEq] at h
    subst h
    exact ⟨le_rfl, le_rfl, hbefore, fun _ => Or.inr rfl, fun h => absurd h (by omega)⟩
  | succ left ih =>
    unfold insertNonLeafPos at h
    split at h
    · simp at h
    · next h1 =>
      split at h
      · next h2 =>
        simp only [Except.ok.injEq] at h
        subst h
        exact ⟨le_rfl, by omega, hbefore, fun hne => absurd h2 hne, fun _ => by omega⟩
      · next h2 =>
        split at h
        · simp at h
        · next h3 =>
          split at h
          · simp only [Except.ok.injEq] at h
            subst h
            exact ⟨le_rfl, by omega, hbefore, fun _ => Or.inl (by omega), fun _ => by omega⟩
          · have := ih (pos + 1) h (by
              intro i hi
              rcases Nat.lt_or_eq_of_le (Nat.le_of_lt_succ hi) with hlt | heq
              · exact hbefore i hlt
              · rw [heq]; exact h2)
            exact ⟨by omega, by omega, this.2.2.1, fun hne => by
              rcases this.2.2.2.1 hne with h | h
              · exact Or.inl h
              · exact Or.inr (by omega), fun hlt => this.2.2.2.2 (by omega)⟩

theorem insertNonLeaf_pageNoArray {K : Type} (kt : KeyType K) (L N : Nat)
    (node node' : NonLeafNode K) (pair : PageKeyPair K)
    (h : insertNonLeaf kt L N node pair = .ok node') :
    ∃ pos q, (∀ i, i < pos → node.pageNoArray i ≠ 0) ∧
      ((node.pageNoArray pos ≠ 0 ∧ q = pos + 1) ∨
        (node.pageNoArray pos = 0 ∧ q = pos ∧ 0 < pos)) ∧
      q ≤ N ∧
      (∀ j, node'.pageNoArray j =
        if j = q then pair.pageNo
        else if pos + 1 < j ∧ j ≤ N then node.pageNoArray (j - 1) else node.pageNoArray j) ∧
      node'.level = node.level := by
  unfold insertNonLeaf at h
  rcases hp : insertNonLeafPos kt N node pair.key L 0 with e | pos
  · rw [hp] at h
    simp [bind, Except.bind] at h
  · rw [hp] at h
    have hbefore := (insertNonLeafPos_spec kt N node pair.key L 0 pos hp
      (fun i hi => absurd hi (Nat.not_lt_zero _))).2.2.1
    have hptr : (insertNonLeafShift kt pos (N - 1) node).pageNoArray pos =
        node.pageNoArray pos := by
      rw [insertNonLeafShift_pageNoArray]
      have : ¬ (pos + 1 < pos ∧ pos ≤ N - 1 + 1) := by omega
      rw [if_neg this]
    simp only [bind, Except.bind, pure, Except.pure, hptr] at h
    by_cases he : node.pageNoArray pos = 0
    · simp only [he, true_and, if_true] at h
      split at h
      · simp at h
      · split at h
        · simp at h
        · split at h
          · simp at h
          · next c1 c2 c3 =>
            have hn := Except.ok.inj h
            subst hn
            have hN : N - 1 + 1 = N := by omega
            refine ⟨pos, pos, hbefore, Or.inr ⟨he, rfl, by omega⟩, by omega, fun j => ?_,
              insertNonLeafShift_level kt pos (N - 1) node⟩
            simp only [Function.update_apply]
            split
            · rfl
            · rw [insertNonLeafShift_pageNoArray, hN]
    · simp only [he, false_and, if_false] at h
      split at h
      · simp at h
      · split at h
        · simp at h
        · next c1 c3 =>
          have hn := Except.ok.inj h
          subst hn
          have hN : N - 1 + 1 = N := by omega
          refine ⟨pos, pos + 1, hbefore, Or.inl ⟨he, rfl⟩, by omega, fun j => ?_,
            insertNonLeafShift_level kt pos (N - 1) node⟩
          simp only [Function.update_apply]
          split
          · rfl
          · rw [insertNonLeafShift_pageNoArray, hN]

theorem insertNonLeaf_dense {K : Type} (kt : KeyType K) (L N : Nat)
    (node node' : NonLeafNode K) (pair : PageKeyPair K) (hd : node.DensePtrs N)
    (hp : pair.pageNo ≠ 0) (h : insertNonLeaf kt L N node pair = .ok node') :
    node'.DensePtrs N := by
  obtain ⟨pos, q, hbefore, hq, hqN, hptr, -⟩ := insertNonLeaf_pageNoArray kt L N node node' pair h
  intro i j hij hjN hi
  rw [hptr i] at hi
  rw [hptr j]
  have hiq : i ≠ q := by
    intro hc
    rw [if_pos hc] at hi
    exact hp hi
  rw [if_neg hiq] at hi
  rcases hq with ⟨hne, rfl⟩ | ⟨he, rfl, hpos⟩
  · -- the pointer at `pos` is live: the new pointer goes to `pos + 1`
    by_cases hi2 : pos + 1 < i ∧ i ≤ N
    · rw [if_pos hi2] at hi
      have hj1 : j ≠ pos + 1 := by omega
      have hj2 : pos + 1 < j ∧ j ≤ N := by omega
      rw [if_neg hj1, if_pos hj2]
      exact hd (i - 1) (j - 1) (by omega) (by omega) hi
    · rw [if_neg hi2] at hi
      have hile : i ≤ pos := by omega
      rcases Nat.lt_or_eq_of_le hile with hlt | heq
      · exact absurd hi (hbefore i hlt)
      · rw [heq] at hi
        exact absurd hi hne
  · -- the pointer at `pos` is zero: the new pointer goes to `pos`
    have hge : q ≤ i := by
      by_contra hc
      by_cases hi2 : q + 1 < i ∧ i ≤ N
      · omega
      · rw [if_neg hi2] at hi
        exact hbefore i (by omega) hi
    have hj1 : j ≠ q := by omega
    rw [if_neg hj1]
    split
    · exact hd q (j - 1) (by omega) (by omega) he
    · exact hd q j (by omega) hjN he

theorem insertNonLeafPos_ok {K : Type} (kt : KeyType K) (N c : Nat) (node : NonLeafNode K)
    (key : K) (hc : c ≤ N) (hzero : node.pageNoArray c = 0) (left pos : Nat) (hpos : pos ≤ c) :
    ∃ p, insertNonLeafPos kt N node key left pos = .ok p ∧ p ≤ c := by
  induction left generalizing pos with
  | zero => exact ⟨pos, rfl, hpos⟩
  | succ left ih =>
    unfold insertNonLeafPos
    have h1 : ¬ N < pos := by omega
    rw [if_neg h1]
    by_cases h2 : node.pageNoArray pos = 0
    · rw [if_pos h2]
      exact ⟨pos, rfl, hpos⟩
    · have hlt : pos < c := by
        rcases Nat.lt_or_eq_of_le hpos with h | h
        · exact h
        · rw [h] at h2
          exact absurd hzero h2
      have h3 : ¬ N ≤ pos := by omega
      rw [if_neg h2, if_neg h3]
      split
      · exact ⟨pos, rfl, hpos⟩
      · exact ih (pos + 1) hlt

theorem kids_dense {K : Type} (N : Nat) (node : NonLeafNode K) (ps : List Nat)
    (h : node.Kids N ps) : node.DensePtrs N := by
  intro i j hij hjN hi
  by_cases hlt : i < ps.length
  · exact absurd hi (h.2.1 i hlt).2
  · exact h.2.2 j (by omega) hjN

/-- On an internal node with the children `ps`, at least one and at most `N`,
`insertNonLeaf` of a pair with a nonzero page number returns the node whose
children are `ps` with the new page number put in at an index `q >= 1`. -/
theorem insertNonLeaf_kids {K : Type} (kt : KeyType K) (L N : Nat) (node : NonLeafNode K)
    (ps : List Nat) (pair : PageKeyPair K) (h : node.Kids N ps) (h1 : 1 ≤ ps.length)
    (hN : ps.length ≤ N) (hp : pair.pageNo ≠ 0) :
    ∃ node' q, insertNonLeaf kt L N node pair = .ok node' ∧ 1 ≤ q ∧ q ≤ ps.length ∧
      node'.Kids N (ps.take q ++ pair.pageNo :: ps.drop q) ∧ node'.level = node.level := by
  have hlive : ∀ i, i < ps.length → node.pageNoArray i ≠ 0 := fun i hi => (h.2.1 i hi).2
  have hzero : ∀ i, ps.length ≤ i → i ≤ N → node.pageNoArray i = 0 := h.2.2
  obtain ⟨p, hpos, hpc⟩ := insertNonLeafPos_ok kt N ps.length node pair.key hN
    (hzero _ le_rfl hN) L 0 (Nat.zero_le _)
  have hempty : node.pageNoArray p = 0 ↔ p = ps.length := by
    constructor
    · intro hz
      rcases Nat.lt_or_eq_of_le hpc with hlt | heq
      · exact absurd hz (hlive p hlt)
      · exact heq
    · intro heq
      rw [heq]
      exact hzero _ le_rfl hN
  have hptr : (insertNonLeafShift kt p (N - 1) node).pageNoArray p = node.pageNoArray p := by
    rw [insertNonLeafShift_pageNoArray]
    have : ¬ (p + 1 < p ∧ p ≤ N - 1 + 1) := by omega
    rw [if_neg this]
  have hok : ∃ node', insertNonLeaf kt L N node pair = .ok node' := by
    unfold insertNonLeaf
    rw [hpos]
    simp only [bind, Except.bind, pure, Except.pure, hptr]
    have c1 : ¬ N < p := by omega
    rw [if_neg c1]
    by_cases he : node.pageNoArray p = 0
    · have hpe := hempty.1 he
      have c2 : ¬ (node.pageNoArray p = 0 ∧ p = 0) := by omega
      have c3 : ¬ ((N < if node.pageNoArray p = 0 then p else p + 1) ∨
          N ≤ if node.pageNoArray p = 0 then p - 1 else p) := by
        rw [if_pos he, if_pos he]
        omega
      rw [if_neg c2, if_neg c3]
      exact ⟨_, rfl⟩
    · have hpl : p < ps.length := by
        rcases Nat.lt_or_eq_of_le hpc with hlt | heq
        · exact hlt
        · exact absurd (hempty.2 heq) he
      have c2 : ¬ (node.pageNoArray p = 0 ∧ p = 0) := fun hc => he hc.1
      have c3 : ¬ ((N < if node.pageNoArray p = 0 then p else p + 1) ∨
          N ≤ if node.pageNoArray p = 0 then p - 1 else p) := by
        rw [if_neg he, if_neg he]
        omega
      rw [if_neg c2, if_neg c3]
      exact ⟨_, rfl⟩
  obtain ⟨node', hins⟩ := hok
  obtain ⟨pos, q, hbefore, hq, hqN, hform, hlevel⟩ :=
    insertNonLeaf_pageNoArray kt L N node node' pair hins
  have hposc : pos ≤ ps.length := by
    by_contra hc
    exact hbefore ps.length (by omega) (hzero _ le_rfl hN)
  have hq1 : 1 ≤ q ∧ q ≤ ps.length ∧ (q = pos + 1 ∨ (q = pos ∧ pos = ps.length)) := by
    rcases hq with ⟨hne, hqe⟩ | ⟨he, hqe, hpos0⟩
    · have hpl : pos < ps.length := by
        by_contra hc
        have : pos = ps.length := by omega
        rw [this] at hne
        exact hne (hzero _ le_rfl hN)
      exact ⟨by omega, by omega, Or.inl hqe⟩
    · have : pos = ps.length := by
        rcases Nat.lt_or_eq_of_le hposc with hlt | heq
        · exact absurd he (hlive pos hlt)
        · exact heq
      exact ⟨by omega, by omega, Or.inr ⟨hqe, this⟩⟩
  obtain ⟨hq1a, hq1b, hq1c⟩ := hq1
  refine ⟨node', q, hins, hq1a, hq1b, ⟨?_, ?_, ?_⟩, hlevel⟩
  · simp [List.length_take, Nat.min_eq_left hq1b]
    omega
  · intro i hi
    have hi' : i < ps.length + 1 := by
      simp [List.length_take, Nat.min_eq_left hq1b] at hi
      omega
    rw [hform i]
    rcases Nat.lt_trichotomy i q with hlt' | heq | hgt
    · have c1 : i ≠ q := by omega
      have c2 : ¬ (pos + 1 < i ∧ i ≤ N) := by omega
      obtain ⟨hget, hne⟩ := h.2.1 i (by omega)
      rw [if_neg c1, if_neg c2]
      refine ⟨?_, hne⟩
      rw [List.getElem?_append_left (by simp [List.length_take]; omega),
        List.getElem?_take_of_lt hlt']
      exact hget
    · subst heq
      rw [if_pos rfl]
      refine ⟨?_, hp⟩
      rw [List.getElem?_append_right (by simp [List.length_take])]
      simp [List.length_take, Nat.min_eq_left hq1b]
    · have c1 : i ≠ q := by omega
      have c2 : pos + 1 < i ∧ i ≤ N := by omega
      obtain ⟨hget, hne⟩ := h.2.1 (i - 1) (by omega)
      rw [if_neg c1, if_pos c2]
      refine ⟨?_, hne⟩
      rw [List.getElem?_append_right (by simp [List.length_take]; omega)]
      have e1 : i - (List.take q ps).length = (i - q - 1) + 1 := by
        simp [List.length_take, Nat.min_eq_left hq1b]
        omega
      rw [e1, List.getElem?_cons_succ, List.getElem?_drop]
      have e2 : q + (i - q - 1) = i - 1 := by omega
      rw [e2]
      exact hget
  · intro i hi hiN
    have hi' : ps.length + 1 ≤ i := by
      simp [List.length_take, Nat.min_eq_left hq1b] at hi
      omega
    rw [hform i]
    have c1 : i ≠ q := by omega
    rw [if_neg c1]
    split
    · exact hzero (i - 1) (by omega) (by omega)
    · exact hzero i (by omega) hiN

theorem splitNonLeafMove_spec {K : Type} (kt : KeyType K) (mid left i : Nat)
    (node new : NonLeafNode K) (hi : mid ≤ i) :
    (∀ j, (splitNonLeafMove kt mid left i node new).1.pageNoArray j =
      if i ≤ j ∧ j < i + left ∧ j ≠ mid then 0 else node.pageNoArray j) ∧
    (splitNonLeafMove kt mid left i node new).1.keyArray = node.keyArray ∧
    (splitNonLeafMove kt mid left i node new).1.level = node.level ∧
    (∀ j, (splitNonLeafMove kt mid left i node new).2.pageNoArray j =
      if i - mid ≤ j ∧ j < i - mid + left then node.pageNoArray (j + mid)
      else new.pageNoArray j) ∧
    (∀ j, (splitNonLeafMove kt mid left i node new).2.keyArray j =
      if i - mid ≤ j ∧ j < i - mid + left then kt.assign (node.keyArray (j + mid))
      else new.keyArray j) ∧
    (splitNonLeafMove kt mid left i node new).2.level = new.level := by
  induction left generalizing i node new with
  | zero =>
    have h1 : ∀ j, ¬ (i ≤ j ∧ j < i + 0 ∧ j ≠ mid) := by intro j; omega
    have h2 : ∀ j, ¬ (i - mid ≤ j ∧ j < i - mid + 0) := by intro j; omega
    refine ⟨fun j => by rw [if_neg (h1 j)]; rfl, rfl, rfl, fun j => by rw [if_neg (h2 j)]; rfl,
      fun j => by rw [if_neg (h2 j)]; rfl, rfl⟩
  | succ left ih =>
    unfold splitNonLeafMove
    obtain ⟨a1, a2, a3, a4, a5, a6⟩ := ih (i + 1)
      { node with
        pageNoArray :=
          if i ≠ mid then Function.update node.pageNoArray i 0 else node.pageNoArray }
      { new with
        pageNoArray := Function.update new.pageNoArray (i - mid) (node.pageNoArray i)
        keyArray := Function.update new.keyArray (i - mid) (kt.assign (node.keyArray i)) }
      (by omega)
    refine ⟨fun j => ?_, a2, a3, fun j => ?_, fun j => ?_, a6⟩
    · rw [a1 j]
      by_cases hm : i ≠ mid
      · simp only [if_pos hm, Function.update_apply]
        by_cases c1 : i + 1 ≤ j ∧ j < i + 1 + left ∧ j ≠ mid
        · have c2 : i ≤ j ∧ j < i + (left + 1) ∧ j ≠ mid := by omega
          rw [if_pos c1, if_pos c2]
        · rw [if_neg c1]
          by_cases c3 : j = i
          · have c2 : i ≤ j ∧ j < i + (left + 1) ∧ j ≠ mid := by omega
            rw [if_pos c3, if_pos c2]
          · have c2 : ¬ (i ≤ j ∧ j < i + (left + 1) ∧ j ≠ mid) := by omega
            rw [if_neg c3, if_neg c2]
      · have hm' : i = mid := by omega
        simp only [if_neg hm]
        by_cases c1 : i + 1 ≤ j ∧ j < i + 1 + left ∧ j ≠ mid
        · have c2 : i ≤ j ∧ j < i + (left + 1) ∧ j ≠ mid := by omega
          rw [if_pos c1, if_pos c2]
        · have c2 : ¬ (i ≤ j ∧ j < i + (left + 1) ∧ j ≠ mid) := by omega
          rw [if_neg c1, if_neg c2]
    · rw [a4 j]
      have hsame : ∀ x, mid ≤ i → i + 1 ≤ x + mid →
          (if i ≠ mid then Function.update node.pageNoArray i 0 else node.pageNoArray) (x + mid)
            = node.pageNoArray (x + mid) := by
        intro x _ hx
        split
        · rw [Function.update_noteq (by omega)]
        · rfl
      by_cases c1 : i + 1 - mid ≤ j ∧ j < i + 1 - mid + left
      · have c2 : i - mid ≤ j ∧ j < i - mid + (left + 1) := by omega
        rw [if_pos c1, if_pos c2]
        exact hsame j hi (by omega)
      · rw [if_neg c1]
        by_cases c3 : j = i - mid
        · have c2 : i - mid ≤ j ∧ j < i - mid + (left + 1) := by omega
          have e : j + mid = i := by omega
          rw [if_pos c2, e]
          subst c3
          simp only [Function.update_same]
        · have c2 : ¬ (i - mid ≤ j ∧ j < i - mid + (left + 1)) := by omega
          rw [if_neg c2]
          simp only [Function.update_noteq c3]
    · rw [a5 j]
      by_cases c1 : i + 1 - mid ≤ j ∧ j < i + 1 - mid + left
      · have c2 : i - mid ≤ j ∧ j < i - mid + (left + 1) := by omega
        rw [if_pos c1, if_pos c2]
      · rw [if_neg c1]
        by_cases c3 : j = i - mid
        · have c2 : i - mid ≤ j ∧ j < i - mid + (left + 1) := by omega
          have e : j + mid = i := by omega
          rw [if_pos c2, e]
          subst c3
          simp only [Function.update_same]
        · have c2 : ¬ (i - mid ≤ j ∧ j < i - mid + (left + 1)) := by omega
          rw [if_neg c2]
          simp only [Function.update_noteq c3]

theorem intKey_less (a b : Int) : intKey.less a b = .ok (decide (a < b)) := rfl

theorem splitNonLeafNodes_int_eq (L N : Nat) (hN : 1 ≤ N) (node new : NonLeafNode Int)
    (newPageNo : Nat) (returnP : PageKeyPair Int) :
    splitNonLeafNodes intKey L N node new newPageNo returnP =
      if returnP.key < (splitNonLeafParts intKey N node new).2.keyArray 0 then
        (insertNonLeaf intKey L N (splitNonLeafParts intKey N node new).1 returnP).map fun n =>
          (n, (splitNonLeafParts intKey N node new).2,
            ⟨newPageNo, (splitNonLeafParts intKey N node new).2.keyArray 0⟩)
      else
        (insertNonLeaf intKey L N (splitNonLeafParts intKey N node new).2 returnP).map fun n =>
          ((splitNonLeafParts intKey N node new).1, n,
            ⟨newPageNo, (splitNonLeafParts intKey N node new).2.keyArray 0⟩) := by
  have hmid : ¬ N < N / 2 + 1 := by omega
  unfold splitNonLeafNodes splitNonLeafParts
  simp only [bind, Except.bind, pure, Except.pure, if_neg hmid, intKey_less]
  by_cases hlt : returnP.key <
      (splitNonLeafMove intKey (N / 2 + 1) (N - (N / 2 + 1)) (N / 2 + 1) node
        { new with level := node.level }).2.keyArray 0
  · rw [if_pos hlt]
    simp only [decide_eq_true hlt, if_true]
    split <;> simp_all [Except.map]
  · rw [if_neg hlt]
    simp only [decide_eq_false hlt]
    split <;> simp_all [Except.map]

theorem splitNonLeafParts_spec {K : Type} (kt : KeyType K) (N : Nat) (hN : 1 ≤ N)
    (node new : NonLeafNode K) :
    (∀ j, (splitNonLeafParts kt N node new).1.pageNoArray j =
      if (N / 2 + 1 < j ∧ j < N) ∨ j = N then 0 else node.pageNoArray j) ∧
    (∀ j, (splitNonLeafParts kt N node new).2.pageNoArray j =
      if j ≤ N - (N / 2 + 1) then node.pageNoArray (j + (N / 2 + 1)) else new.pageNoArray j) ∧
    (splitNonLeafParts kt N node new).1.level = node.level ∧
    (splitNonLeafParts kt N node new).2.level = node.level ∧
    (splitNonLeafParts kt N node new).1.keyArray = node.keyArray := by
  obtain ⟨a1, a2, a3, a4, -, a6⟩ := splitNonLeafMove_spec kt (N / 2 + 1) (N - (N / 2 + 1))
    (N / 2 + 1) node { new with level := node.level } le_rfl
  have hmid : N / 2 + 1 ≤ N := by omega
  refine ⟨fun j => ?_, fun j => ?_, a3, a6, a2⟩
  · show Function.update _ N 0 j = _
    rw [Function.update_apply, a1 j]
    by_cases c1 : j = N
    · rw [if_pos c1, if_pos (Or.inr c1)]
    · rw [if_neg c1]
      by_cases c2 : N / 2 + 1 ≤ j ∧ j < N / 2 + 1 + (N - (N / 2 + 1)) ∧ j ≠ N / 2 + 1
      · have c3 : (N / 2 + 1 < j ∧ j < N) ∨ j = N := Or.inl (by omega)
        rw [if_pos c2, if_pos c3]
      · have c3 : ¬ ((N / 2 + 1 < j ∧ j < N) ∨ j = N) := by omega
        rw [if_neg c2, if_neg c3]
  · show Function.update _ (N - (N / 2 + 1)) _ j = _
    rw [Function.update_apply, a4 j, a1 N]
    have cN : ¬ (N / 2 + 1 ≤ N ∧ N < N / 2 + 1 + (N - (N / 2 + 1)) ∧ N ≠ N / 2 + 1) := by omega
    rw [if_neg cN]
    by_cases c1 : j = N - (N / 2 + 1)
    · have c3 : j ≤ N - (N / 2 + 1) := by omega
      have e : j + (N / 2 + 1) = N := by omega
      rw [if_pos c1, if_pos c3, e]
    · rw [if_neg c1]
      by_cases c2 : N / 2 + 1 - (N / 2 + 1) ≤ j ∧
          j < N / 2 + 1 - (N / 2 + 1) + (N - (N / 2 + 1))
      · have c3 : j ≤ N - (N / 2 + 1) := by omega
        rw [if_pos c2, if_pos c3]
      · have c3 : ¬ j ≤ N - (N / 2 + 1) := by omega
        rw [if_neg c2, if_neg c3]

theorem splitNonLeafParts_dense {K : Type} (kt : KeyType K) (N : Nat) (hN : 1 ≤ N)
    (node new : NonLeafNode K) (hd : node.DensePtrs N)
    (hnew : ∀ j, j ≤ N → new.pageNoArray j = 0) :
    (splitNonLeafParts kt N node new).1.DensePtrs N ∧
    (splitNonLeafParts kt N node new).2.DensePtrs N := by
  obtain ⟨a1, a2, -, -, -⟩ := splitNonLeafParts_spec kt N hN node new
  constructor
  · intro i j hij hjN hi
    rw [a1 i] at hi
    rw [a1 j]
    split
    · rfl
    · next hj =>
      split at hi
      · next hi2 => omega
      · exact hd i j hij hjN hi
  · intro i j hij hjN hi
    rw [a2 i] at hi
    rw [a2 j]
    split
    · next hj =>
      have hi2 : i ≤ N - (N / 2 + 1) := by omega
      rw [if_pos hi2] at hi
      exact hd _ _ (by omega) (by omega) hi
    · exact hnew j hjN

theorem splitNonLeafParts_kids {K : Type} (kt : KeyType K) (N : Nat) (hN : 3 ≤ N)
    (node new : NonLeafNode K) (ps : List Nat) (h : node.Kids N ps)
    (hfull : ps.length = N + 1) (hnew : ∀ j, j ≤ N → new.pageNoArray j = 0) :
    (splitNonLeafParts kt N node new).1.Kids N (ps.take (N / 2 + 1 + 1)) ∧
    (splitNonLeafParts kt N node new).2.Kids N (ps.drop (N / 2 + 1)) := by
  obtain ⟨a1, a2, -, -, -⟩ := splitNonLeafParts_spec kt N (by omega) node new
  refine ⟨⟨?_, ?_, ?_⟩, ⟨?_, ?_, ?_⟩⟩
  · simp [List.length_take]; omega
  · intro i hi
    have hi' : i < N / 2 + 1 + 1 := by
      have := hi; simp [List.length_take] at this; omega
    have c : ¬ ((N / 2 + 1 < i ∧ i < N) ∨ i = N) := by omega
    rw [a1 i, if_neg c, List.getElem?_take_of_lt hi']
    exact h.2.1 i (by omega)
  · intro i hi hiN
    have hi' : N / 2 + 1 + 1 ≤ i := by
      have := hi; simp [List.length_take] at this; omega
    have c : (N / 2 + 1 < i ∧ i < N) ∨ i = N := by omega
    rw [a1 i, if_pos c]
  · simp; omega
  · intro i hi
    have hi' : i < N + 1 - (N / 2 + 1) := by
      have := hi; simp at this; omega
    have c : i ≤ N - (N / 2 + 1) := by omega
    rw [a2 i, if_pos c, List.getElem?_drop, Nat.add_comm (N / 2 + 1) i]
    exact h.2.1 (i + (N / 2 + 1)) (by omega)
  · intro i hi hiN
    have hi' : N + 1 - (N / 2 + 1) ≤ i := by
      have := hi; simp at this; omega
    have c : ¬ i ≤ N - (N / 2 + 1) := by omega
    rw [a2 i, if_neg c]
    exact hnew i hiN

theorem take_succ_append_drop_perm (ps : List Nat) (m x : Nat) (hx : ps[m]? = some x) :
    (ps.take (m + 1) ++ ps.drop m).Perm (x :: ps) ∧ x ∈ ps.take (m + 1) ∧
      (ps.drop m)[0]? = some x := by
  induction m generalizing ps with
  | zero =>
    cases ps with
    | nil => simp at hx
    | cons a l =>
      simp at hx
      subst hx
      simp
  | succ m ih =>
    cases ps with
    | nil => simp at hx
    | cons a l =>
      have hx' : l[m]? = some x := by simpa using hx
      obtain ⟨h1, h2, h3⟩ := ih l hx'
      refine ⟨?_, ?_, ?_⟩
      · simp only [List.take_succ_cons, List.drop_succ_cons, List.cons_append]
        exact (List.Perm.cons a h1).trans (List.Perm.swap x a l)
      · simp only [List.take_succ_cons]
        exact List.mem_cons_of_mem _ h2
      · simpa using h3

theorem mem_of_head_eq (l : List Nat) (x : Nat) (h : l[0]? = some x) : x ∈ l := by
  cases l with
  | nil => simp at h
  | cons a l =>
    simp at h
    subst h
    exact List.mem_cons_self _ _

theorem mem_insert_at (l : List Nat) (q x c : Nat) (h : x ∈ l) :
    x ∈ l.take q ++ c :: l.drop q := by
  rw [← List.take_append_drop q l] at h
  rcases List.mem_append.1 h with h1 | h1
  · exact List.mem_append_left _ h1
  · exact List.mem_append_right _ (List.mem_cons_of_mem _ h1)

theorem splitNonLeafNodes_children (L N : Nat) (hN : 3 ≤ N) (node new : NonLeafNode Int)
    (ps : List Nat) (h : node.Kids N ps) (hfull : ps.length = N + 1)
    (hnew : ∀ j, j ≤ N → new.pageNoArray j = 0) (newPageNo child : Nat) (key : Int)
    (hchild : child ≠ 0) :
    ∃ node' new' pk ps1 ps2,
      splitNonLeafNodes intKey L N node new newPageNo ⟨child, key⟩ =
        .ok (node', new', ⟨newPageNo, pk⟩) ∧
      node'.Kids N ps1 ∧ new'.Kids N ps2 ∧
      node.pageNoArray (N / 2 + 1) ≠ 0 ∧
      node.pageNoArray (N / 2 + 1) ∈ ps1 ∧ node.pageNoArray (N / 2 + 1) ∈ ps2 ∧
      new'.pageNoArray 0 = node.pageNoArray (N / 2 + 1) ∧
      (ps1 ++ ps2).Perm (child :: node.pageNoArray (N / 2 + 1) :: ps) := by
  obtain ⟨hx, hx0⟩ := h.2.1 (N / 2 + 1) (by omega)
  obtain ⟨k1, k2⟩ := splitNonLeafParts_kids intKey N hN node new ps h hfull hnew
  obtain ⟨lp, lmem, lhead⟩ := take_succ_append_drop_perm ps (N / 2 + 1) _ hx
  have hT : (ps.take (N / 2 + 1 + 1)).length = N / 2 + 1 + 1 := by
    simp [List.length_take]; omega
  have hD : (ps.drop (N / 2 + 1)).length = N + 1 - (N / 2 + 1) := by simp [hfull]
  have hp20 : (splitNonLeafParts intKey N node new).2.pageNoArray 0 =
      node.pageNoArray (N / 2 + 1) := by
    have := (k2.2.1 0 (by omega)).1
    rw [lhead] at this
    exact (Option.some.inj this).symm
  rw [splitNonLeafNodes_int_eq L N (by omega)]
  by_cases hlt : key < (splitNonLeafParts intKey N node new).2.keyArray 0
  · obtain ⟨node', q, hins, hq1, hq2, hk, -⟩ := insertNonLeaf_kids intKey L N
      (splitNonLeafParts intKey N node new).1 _ ⟨child, key⟩ k1 (by omega) (by omega) hchild
    rw [if_pos hlt, hins]
    refine ⟨node', (splitNonLeafParts intKey N node new).2,
      (splitNonLeafParts intKey N node new).2.keyArray 0, _, _, rfl, hk, k2, hx0,
      mem_insert_at _ q _ child lmem, mem_of_head_eq _ _ lhead, hp20, ?_⟩
    have p1 : (List.take q (List.take (N / 2 + 1 + 1) ps) ++
        child :: List.drop q (List.take (N / 2 + 1 + 1) ps)).Perm
        (child :: List.take (N / 2 + 1 + 1) ps) := by
      refine List.perm_middle.trans ?_
      rw [List.take_append_drop]
    exact (p1.append_right _).trans (List.Perm.cons child lp)
  · obtain ⟨new', q, hins, hq1, hq2, hk, -⟩ := insertNonLeaf_kids intKey L N
      (splitNonLeafParts intKey N node new).2 _ ⟨child, key⟩ k2 (by omega) (by omega) hchild
    rw [if_neg hlt, hins]
    refine ⟨(splitNonLeafParts intKey N node new).1, new',
      (splitNonLeafParts intKey N node new).2.keyArray 0, _, _, rfl, k1, hk, hx0,
      lmem, mem_insert_at _ q _ child (mem_of_head_eq _ _ lhead), ?_, ?_⟩
    · have h0 := (hk.2.1 0 (by simp)).1
      rw [List.getElem?_append_left (by simp [List.length_take]; omega),
        List.getElem?_take_of_lt (by omega), lhead] at h0
      exact (Option.some.inj h0).symm
    · have p1 : (List.take q (List.drop (N / 2 + 1) ps) ++
          child :: List.drop q (List.drop (N / 2 + 1) ps)).Perm
          (child :: List.drop (N / 2 + 1) ps) := by
        refine List.perm_middle.trans ?_
        rw [List.take_append_drop]
      refine (p1.append_left _).trans ?_
      exact List.perm_middle.trans (List.Perm.cons child lp)

/-- C21 as stated fails: with `leafOccupancy = nodeOccupancy = 3`, `splitNonLeaf`
of the full node on page 4 with keys 10, 20, 30 and children 11, 12, 13, 14 by
the pair (99, 25) leaves the children 11, 12, 13, 99 in the node and 13, 14 in
the new node on page 5: the middle pointer 13 is a live child of both. -/
theorem splitNonLeaf_middle_pointer_not_cleared :
    nodeViewAt (splitNonLeaf intKey 4 ⟨99, 25⟩
      (stateWithNode 3 3 (mkNonLeaf 1 [10, 20, 30] [11, 12, 13, 14]))).2 4 3
      = some ([10, 20, 25], [11, 12, 13, 99]) ∧
    nodeViewAt (splitNonLeaf intKey 4 ⟨99, 25⟩
      (stateWithNode 3 3 (mkNonLeaf 1 [10, 20, 30] [11, 12, 13, 14]))).2 5 3
      = some ([30, 0, 0], [13, 14, 0, 0]) ∧
    ¬ (∀ p ∈ [11, 12, 13, 99], p ≠ 0 → p ∉ [13, 14, 0, 0]) := by
  decide!

/-- C21, amended: on an INTEGER index with `nodeOccupancy = N >= 3`, for every
full internal node stored on a page of the file (`N + 1` live children) and
every incoming pair with a nonzero page number, `splitNonLeaf` returns
normally, the new node being the page just allocated, and with
`mid = N/2 + 1` the middle pointer (the original `pageNoArray[mid]`) is not
cleared from the node: it is still a live child of the node and it is
`pageNoArray[0]` of the new node, a live child of both; the live children of
the node and of the new node together are the original children, the incoming
page number and a second copy of the middle pointer. -/
theorem splitNonLeaf_keeps_middle_pointer (s : BTreeIndex) (nodeNo : Nat)
    (node : NonLeafNode Int) (ps : List Nat) (child : Nat) (key : Int)
    (hN : 3 ≤ s.nodeOccupancy) (hno : nodeNo ≤ s.numPages)
    (hpage : s.pages nodeNo = .nonLeafInt node)
    (hkids : node.Kids s.nodeOccupancy ps) (hfull : ps.length = s.nodeOccupancy + 1)
    (hchild : child ≠ 0) :
    ∃ node' new' pk ps1 ps2,
      (splitNonLeaf intKey nodeNo ⟨child, key⟩ s).1 = .ok ⟨s.numPages + 1, pk⟩ ∧
      (splitNonLeaf intKey nodeNo ⟨child, key⟩ s).2.pages nodeNo = .nonLeafInt node' ∧
      (splitNonLeaf intKey nodeNo ⟨child, key⟩ s).2.pages (s.numPages + 1) =
        .nonLeafInt new' ∧
      node'.Kids s.nodeOccupancy ps1 ∧ new'.Kids s.nodeOccupancy ps2 ∧
      node.pageNoArray (s.nodeOccupancy / 2 + 1) ≠ 0 ∧
      node.pageNoArray (s.nodeOccupancy / 2 + 1) ∈ ps1 ∧
      node.pageNoArray (s.nodeOccupancy / 2 + 1) ∈ ps2 ∧
      new'.pageNoArray 0 = node.pageNoArray (s.nodeOccupancy / 2 + 1) ∧
      (ps1 ++ ps2).Perm (child :: node.pageNoArray (s.nodeOccupancy / 2 + 1) :: ps) := by
  obtain ⟨node', new', pk, ps1, ps2, hsplit, hrest⟩ :=
    splitNonLeafNodes_children s.leafOccupancy s.nodeOccupancy hN node (NonLeafNode.zero 0) ps
      hkids hfull (fun _ _ => rfl) (s.numPages + 1) child key hchild
  have hne : ¬ nodeNo = s.numPages + 1 := by omega
  have hne2 : ¬ s.numPages + 1 = nodeNo := by omega
  refine ⟨node', new', pk, ps1, ps2, ?_, ?_, ?_, hrest⟩
  · simp [splitNonLeaf, M.run_bind, M.run_pure, allocPage, getThis, derefNonLeaf, liftE,
      storeNonLeaf, setThis, unPinPage, hne, hne2, hpage, hsplit, intKey_asNonLeaf_nonLeafInt,
      intKey_asNonLeaf_blank, intKey_ofNonLeaf, Function.update_apply]
  · simp [splitNonLeaf, M.run_bind, M.run_pure, allocPage, getThis, derefNonLeaf, liftE,
      storeNonLeaf, setThis, unPinPage, hne, hne2, hpage, hsplit, intKey_asNonLeaf_nonLeafInt,
      intKey_asNonLeaf_blank, intKey_ofNonLeaf, Function.update_apply]
  · simp [splitNonLeaf, M.run_bind, M.run_pure, allocPage, getThis, derefNonLeaf, liftE,
      storeNonLeaf, setThis, unPinPage, hne, hne2, hpage, hsplit, intKey_asNonLeaf_nonLeafInt,
      intKey_asNonLeaf_blank, intKey_ofNonLeaf, Function.update_apply]

/-- Instance of `splitNonLeaf_keeps_middle_pointer`: the full node with keys
10, 20, 30 and children 11, 12, 13, 14 on page 4, split by the pair (99, 25). -/
theorem splitNonLeaf_keeps_middle_pointer_witness :
    (3 ≤ (stateWithNode 3 3 (mkNonLeaf 1 [10, 20, 30] [11, 12, 13, 14])).nodeOccupancy ∧
      4 ≤ (stateWithNode 3 3 (mkNonLeaf 1 [10, 20, 30] [11, 12, 13, 14])).numPages ∧
      (99 : Nat) ≠ 0) ∧
    ∃ node' new' : NonLeafNode Int, ∃ ps1 ps2 : List Nat,
      (splitNonLeaf intKey 4 ⟨99, 25⟩
        (stateWithNode 3 3 (mkNonLeaf 1 [10, 20, 30] [11, 12, 13, 14]))).2.pages 4 =
        .nonLeafInt node' ∧
      (splitNonLeaf intKey 4 ⟨99, 25⟩
        (stateWithNode 3 3 (mkNonLeaf 1 [10, 20, 30] [11, 12, 13, 14]))).2.pages 5 =
        .nonLeafInt new' ∧
      node'.Kids 3 ps1 ∧ new'.Kids 3 ps2 ∧ 13 ∈ ps1 ∧ 13 ∈ ps2 ∧
      new'.pageNoArray 0 = 13 ∧ (ps1 ++ ps2).Perm [99, 13, 11, 12, 13, 14] :=
  have h := splitNonLeaf_keeps_middle_pointer
    (stateWithNode 3 3 (mkNonLeaf 1 [10, 20, 30] [11, 12, 13, 14])) 4
    (mkNonLeaf 1 [10, 20, 30] [11, 12, 13, 14]) [11, 12, 13, 14] 99 25
    (by decide) (by decide) rfl
    ⟨by decide, by intro i hi; have h4 : i < 4 := hi; interval_cases i <;> decide,
      by intro i h1 h2
         have h3 : i ≤ 3 := h2
         have h5 : 4 ≤ i := h1
         omega⟩
    rfl (by decide)
  ⟨⟨by decide, by decide, by decide⟩,
    h.elim fun node' h => h.elim fun new' h => h.elim fun _ h => h.elim fun ps1 h =>
      h.elim fun ps2 hp =>
        ⟨node', new', ps1, ps2, hp.2.1, hp.2.2.1, hp.2.2.2.1, hp.2.2.2.2.1, hp.2.2.2.2.2.2.1,
          hp.2.2.2.2.2.2.2.1, hp.2.2.2.2.2.2.2.2.1, hp.2.2.2.2.2.2.2.2.2⟩⟩

/-! ## Internal nodes across insertions: the live children form a prefix -/

theorem inv_getThis_self {I : BTreeIndex → Prop} : M.Inv I getThis (fun t => I t) := by
  intro s hs
  refine ⟨hs, fun a ha => ?_⟩
  have : s = a := by simpa [badgerdb.getThis] using ha
  rw [← this]
  exact hs

theorem inv_liftE_eq {α : Type} {I : BTreeIndex → Prop} (r : Except Exn α) :
    M.Inv I (liftE r) (fun a => r = .ok a) := by
  intro s hs
  exact ⟨hs, fun a ha => ha⟩

theorem inv_pure_of {α : Type} {I : BTreeIndex → Prop} {Q : α → Prop} {a : α} (h : Q a) :
    M.Inv I (pure a : M α) Q := by
  intro s hs
  refine ⟨hs, fun b hb => ?_⟩
  have : a = b := by simpa [M.run_pure] using hb
  rw [← this]
  exact h

theorem dense_readPage {N : Nat} (p : Nat) :
    M.Inv (NodesDense N) (readPage p) (fun _ => True) := by
  intro s hs
  refine ⟨?_, fun _ _ => trivial⟩
  unfold badgerdb.readPage
  split
  · exact hs
  · exact hs

theorem dense_unPinPage {N : Nat} (p : Nat) (d : Bool) :
    M.Inv (NodesDense N) (unPinPage p d) (fun _ => True) := by
  intro s hs
  refine ⟨?_, fun _ _ => trivial⟩
  unfold badgerdb.unPinPage
  split
  · exact hs
  · exact hs

theorem dense_allocPage {N : Nat} : M.Inv (NodesDense N) allocPage (fun p => p ≠ 0) := by
  intro s hs
  refine ⟨?_, fun a ha => ?_⟩
  · obtain ⟨h1, h2, h3, h4⟩ := hs
    refine ⟨h1, h2, h3, fun p node hp => ?_⟩
    have hp' : Function.update s.pages (s.numPages + 1) Page.blank p = .nonLeafInt node := hp
    rw [Function.update_apply] at hp'
    split at hp'
    · simp at hp'
    · exact h4 p node hp'
  · simp only [badgerdb.allocPage, Except.ok.injEq] at ha
    omega

theorem dense_derefLeaf {N : Nat} (ptr : Nat) :
    M.Inv (NodesDense N) (derefLeaf intKey ptr) (fun _ => True) := by
  intro s hs
  exact ⟨hs, fun _ _ => trivial⟩

theorem zeroNode_dense {K : Type} (z : K) (N : Nat) : (NonLeafNode.zero z).DensePtrs N :=
  fun _ _ _ _ _ => rfl

theorem dense_derefNonLeaf {N : Nat} (ptr : Nat) :
    M.Inv (NodesDense N) (derefNonLeaf intKey ptr) (fun node => node.DensePtrs N) := by
  intro s hs
  refine ⟨hs, fun a ha => ?_⟩
  have ha' : intKey.asNonLeaf (s.pages ptr) = .ok a := ha
  cases hp : s.pages ptr with
  | blank =>
    rw [hp, intKey_asNonLeaf_blank] at ha'
    rw [← Except.ok.inj ha']
    exact zeroNode_dense 0 N
  | nonLeafInt node =>
    rw [hp, intKey_asNonLeaf_nonLeafInt] at ha'
    rw [← Except.ok.inj ha']
    exact hs.2.2.2 ptr node hp
  | header m => rw [hp] at ha'; simp [intKey] at ha'
  | leafInt n => rw [hp] at ha'; simp [intKey] at ha'
  | leafDouble n => rw [hp] at ha'; simp [intKey] at ha'
  | nonLeafDouble n => rw [hp] at ha'; simp [intKey] at ha'
  | leafString n => rw [hp] at ha'; simp [intKey] at ha'
  | nonLeafString n => rw [hp] at ha'; simp [intKey] at ha'

theorem dense_derefMeta {N : Nat} (ptr : Nat) :
    M.Inv (NodesDense N) (derefMeta ptr) (fun _ => True) := by
  intro s hs
  refine ⟨?_, fun _ _ => trivial⟩
  unfold badgerdb.derefMeta
  split <;> exact hs

theorem dense_storeLeaf {N : Nat} (ptr : Nat) (n : LeafNode Int) :
    M.Inv (NodesDense N) (storeLeaf intKey ptr n) (fun _ => True) := by
  intro s hs
  refine ⟨?_, fun _ _ => trivial⟩
  obtain ⟨h1, h2, h3, h4⟩ := hs
  refine ⟨h1, h2, h3, fun p node hp => ?_⟩
  have hp' : Function.update s.pages ptr (Page.leafInt n) p = .nonLeafInt node := hp
  rw [Function.update_apply] at hp'
  split at hp'
  · simp at hp'
  · exact h4 p node hp'

theorem dense_storeNonLeaf {N : Nat} {n : NonLeafNode Int} (hn : n.DensePtrs N) (ptr : Nat) :
    M.Inv (NodesDense N) (storeNonLeaf intKey ptr n) (fun _ => True) := by
  intro s hs
  refine ⟨?_, fun _ _ => trivial⟩
  obtain ⟨h1, h2, h3, h4⟩ := hs
  refine ⟨h1, h2, h3, fun p node hp => ?_⟩
  have hp' : Function.update s.pages ptr (Page.nonLeafInt n) p = .nonLeafInt node := hp
  rw [Function.update_apply] at hp'
  split at hp'
  · have := Page.nonLeafInt.inj hp'
    rw [← this]
    exact hn
  · exact h4 p node hp'

theorem dense_setThis {N : Nat} (u : BTreeIndex → BTreeIndex)
    (hu : ∀ s, NodesDense N s → NodesDense N (u s)) :
    M.Inv (NodesDense N) (setThis u) (fun _ => True) := by
  intro s hs
  exact ⟨hu s hs, fun _ _ => trivial⟩

theorem splitLeafNodes_pageNo {K : Type} (kt : KeyType K) (L : Nat) (leaf new : LeafNode K)
    (newPageNo : Nat) (pair : RIDKeyPair K) (a : LeafNode K × LeafNode K × PageKeyPair K)
    (hp : newPageNo ≠ 0) (h : splitLeafNodes kt L leaf new newPageNo pair = .ok a) :
    a.2.2.pageNo ≠ 0 := by
  unfold splitLeafNodes at h
  simp only [bind, Except.bind, pure, Except.pure] at h
  repeat' split at h
  all_goals first
    | (simp at h; done)
    | (have h' := Except.ok.inj h; rw [← h']; exact hp)

theorem splitLeaf_dense {N : Nat} (leafNode : Nat) (pair : RIDKeyPair Int) :
    M.Inv (NodesDense N) (splitLeaf intKey leafNode pair) (fun r => r.pageNo ≠ 0) := by
  unfold splitLeaf
  repeat' with_reducible first
    | exact inv_pure_of (splitLeafNodes_pageNo _ _ _ _ _ _ _ (by assumption) (by assumption))
    | exact inv_getThis
    | exact dense_allocPage
    | exact dense_unPinPage _ _
    | exact dense_derefLeaf _
    | exact dense_storeLeaf _ _
    | exact inv_liftE_eq _
    | apply inv_bind
    | intro _

theorem insertNonLeaf_dense_of {N : Nat} {this : BTreeIndex} {currNode node : NonLeafNode Int}
    {pair : PageKeyPair Int} (hthis : NodesDense N this) (hnode : currNode.DensePtrs N)
    (hp : pair.pageNo ≠ 0)
    (hr : insertNonLeaf intKey this.leafOccupancy this.nodeOccupancy currNode pair = .ok node) :
    node.DensePtrs N := by
  rw [hthis.2.1] at hr
  exact insertNonLeaf_dense intKey _ N currNode node pair hnode hp hr

theorem newRoot_dense {N : Nat} {nr : NonLeafNode Int} (hnr : nr.DensePtrs N) {oldNo : Nat}
    (hold : oldNo ≠ 0) {pair : PageKeyPair Int} (hp : pair.pageNo ≠ 0) (level : Int) :
    NonLeafNode.DensePtrs N
      { level := level
        pageNoArray := Function.update (Function.update nr.pageNoArray 0 oldNo) 1 pair.pageNo
        keyArray := Function.update nr.keyArray 0 (intKey.assign pair.key) } := by
  intro i j hij hjN hi
  simp only [Function.update_apply] at hi ⊢
  by_cases h1 : i = 1
  · rw [if_pos h1] at hi
    exact absurd hi hp
  · rw [if_neg h1] at hi
    by_cases h0 : i = 0
    · rw [if_pos h0] at hi
      exact absurd hi hold
    · rw [if_neg h0] at hi
      have hj1 : ¬ j = 1 := by omega
      have hj0 : ¬ j = 0 := by omega
      rw [if_neg hj1, if_neg hj0]
      exact hnr i j hij hjN hi

theorem splitNonLeafNodes_dense (L N : Nat) (node : NonLeafNode Int) (newPageNo : Nat)
    (returnP : PageKeyPair Int) (hd : node.DensePtrs N) (hp : returnP.pageNo ≠ 0)
    (r : NonLeafNode Int × NonLeafNode Int × PageKeyPair Int)
    (h : splitNonLeafNodes intKey L N node (NonLeafNode.zero 0) newPageNo returnP = .ok r) :
    r.1.DensePtrs N ∧ r.2.1.DensePtrs N := by
  by_cases hN : 1 ≤ N
  · obtain ⟨d1, d2⟩ := splitNonLeafParts_dense intKey N hN node (NonLeafNode.zero 0) hd
      (fun _ _ => rfl)
    rw [splitNonLeafNodes_int_eq L N hN] at h
    split at h
    · rcases hins : insertNonLeaf intKey L N (splitNonLeafParts intKey N node
          (NonLeafNode.zero 0)).1 returnP with e | n
      · rw [hins] at h; simp [Except.map] at h
      · rw [hins] at h
        have h' : (n, (splitNonLeafParts intKey N node (NonLeafNode.zero 0)).2,
            (⟨newPageNo, (splitNonLeafParts intKey N node (NonLeafNode.zero 0)).2.keyArray 0⟩ :
              PageKeyPair Int)) = r := Except.ok.inj h
        rw [← h']
        exact ⟨insertNonLeaf_dense intKey L N _ n returnP d1 hp hins, d2⟩
    · rcases hins : insertNonLeaf intKey L N (splitNonLeafParts intKey N node
          (NonLeafNode.zero 0)).2 returnP with e | n
      · rw [hins] at h; simp [Except.map] at h
      · rw [hins] at h
        have h' : ((splitNonLeafParts intKey N node (NonLeafNode.zero 0)).1, n,
            (⟨newPageNo, (splitNonLeafParts intKey N node (NonLeafNode.zero 0)).2.keyArray 0⟩ :
              PageKeyPair Int)) = r := Except.ok.inj h
        rw [← h']
        exact ⟨d1, insertNonLeaf_dense intKey L N _ n returnP d2 hp hins⟩
  · have hN0 : N = 0 := by omega
    subst hN0
    simp [splitNonLeafNodes, bind, Except.bind, throw, throwThe, MonadExceptOf.throw] at h

theorem splitNonLeaf_dense {N : Nat} (nodeNo : Nat) (returnP : PageKeyPair Int)
    (hp : returnP.pageNo ≠ 0) :
    M.Inv (NodesDense N) (splitNonLeaf intKey nodeNo returnP) (fun _ => True) := by
  intro s hs
  refine ⟨?_, fun _ _ => trivial⟩
  have hs1 := (dense_allocPage (N := N) s hs).1
  have hN : s.nodeOccupancy = N := hs.2.1
  rcases h1 : intKey.asNonLeaf
      (Function.update s.pages (s.numPages + 1) Page.blank nodeNo) with e | node
  · have heq : (splitNonLeaf intKey nodeNo returnP s).2 = (allocPage s).2 := by
      simp [splitNonLeaf, M.run_bind, allocPage, getThis, derefNonLeaf, h1]
    rw [heq]
    exact hs1
  · have hnode : node.DensePtrs N := (dense_derefNonLeaf (N := N) nodeNo (allocPage s).2 hs1).2
      node h1
    rcases h3 : splitNonLeafNodes intKey s.leafOccupancy s.nodeOccupancy node
        (NonLeafNode.zero 0) (s.numPages + 1) returnP with e | r
    · have heq : (splitNonLeaf intKey nodeNo returnP s).2 = (allocPage s).2 := by
        simp [splitNonLeaf, M.run_bind, allocPage, getThis, derefNonLeaf, h1, liftE, h3,
          intKey_asNonLeaf_blank]
      rw [heq]
      exact hs1
    · rw [hN] at h3
      obtain ⟨d1, d2⟩ := splitNonLeafNodes_dense _ N node _ returnP hnode hp r h3
      rw [← hN] at h3
      have heq : (splitNonLeaf intKey nodeNo returnP s).2 =
          ((storeNonLeaf intKey nodeNo r.1 >>= fun _ =>
            storeNonLeaf intKey (s.numPages + 1) r.2.1 >>= fun _ =>
            unPinPage (s.numPages + 1) true) (allocPage s).2).2 := by
        simp [splitNonLeaf, M.run_bind, M.run_pure, allocPage, getThis, derefNonLeaf, h1, liftE,
          h3, intKey_asNonLeaf_blank, storeNonLeaf, setThis, unPinPage]
      rw [heq]
      exact (inv_bind (dense_storeNonLeaf d1 nodeNo) (fun _ _ =>
        inv_bind (dense_storeNonLeaf d2 (s.numPages + 1)) (fun _ _ =>
          dense_unPinPage (s.numPages + 1) true)) (allocPage s).2 hs1).1

theorem startAbsorb_dense {N : Nat} (currPage : Nat) (returnPPair newPPair : PageKeyPair Int)
    (hp : returnPPair.pageNo ≠ 0) :
    M.Inv (NodesDense N) (startAbsorb intKey currPage returnPPair newPPair) (fun _ => True) := by
  unfold startAbsorb
  repeat' with_reducible first
    | exact inv_pure _
    | exact inv_getThis_self
    | exact splitNonLeaf_dense _ _ hp
    | exact dense_derefNonLeaf _
    | exact dense_storeNonLeaf
        (insertNonLeaf_dense_of (by assumption) (by assumption) hp (by assumption)) _
    | exact inv_liftE_eq _
    | apply inv_bind
    | intro _
    | split

theorem start_dense {N : Nat} (fuel : Nat) (currPageNo : Nat) (newPPair : PageKeyPair Int)
    (newRPair : RIDKeyPair Int) :
    M.Inv (NodesDense N) (start intKey fuel currPageNo newPPair newRPair) (fun _ => True) := by
  induction fuel generalizing currPageNo newPPair with
  | zero =>
    unfold start
    exact inv_raise _
  | succ fuel ih =>
    unfold start
    repeat' with_reducible first
      | exact inv_pure _
      | exact inv_getThis
      | exact ih _ _
      | exact splitLeaf_dense _ _
      | exact startAbsorb_dense _ _ _ (by assumption)
      | exact dense_readPage _
      | exact dense_unPinPage _ _
      | exact dense_derefLeaf _
      | exact dense_derefNonLeaf _
      | exact dense_storeLeaf _ _
      | exact inv_liftE _
      | exact inv_raise_bind _ _
      | apply inv_bind
      | intro _
      | split

theorem dense_set_onlyRoot {N : Nat} (s : BTreeIndex) (hs : NodesDense N s) :
    NodesDense N { s with onlyRoot := false } := hs

theorem dense_set_rootPageNum {N : Nat} {p : Nat} (hp : p ≠ 0) (s : BTreeIndex)
    (hs : NodesDense N s) : NodesDense N { s with rootPageNum := p } :=
  ⟨hs.1, hs.2.1, hp, hs.2.2.2⟩

theorem dense_set_header {N : Nat} (ptr : Nat) (m : IndexMetaInfo) (s : BTreeIndex)
    (hs : NodesDense N s) :
    NodesDense N { s with pages := Function.update s.pages ptr (Page.header m) } := by
  obtain ⟨h1, h2, h3, h4⟩ := hs
  refine ⟨h1, h2, h3, fun p node hp => ?_⟩
  have hp' : Function.update s.pages ptr (Page.header m) p = .nonLeafInt node := hp
  rw [Function.update_apply] at hp'
  split at hp'
  · simp at hp'
  · exact h4 p node hp'

theorem createNewRoot_dense {N : Nat} (oldNo : Nat) (newPair : PageKeyPair Int) (level : Int)
    (hold : oldNo ≠ 0) (hp : newPair.pageNo ≠ 0) :
    M.Inv (NodesDense N) (createNewRoot intKey oldNo newPair level) (fun _ => True) := by
  unfold createNewRoot
  repeat' with_reducible first
    | exact inv_pure _
    | exact inv_getThis
    | exact dense_allocPage
    | exact dense_readPage _
    | exact dense_unPinPage _ _
    | exact dense_derefNonLeaf _
    | exact dense_derefMeta _
    | exact dense_storeNonLeaf (newRoot_dense (by assumption) hold hp _) _
    | exact dense_setThis _ dense_set_onlyRoot
    | exact dense_setThis _ (dense_set_rootPageNum (by assumption))
    | exact dense_setThis _ (dense_set_header _ _)
    | exact inv_raise _
    | exact inv_raise_bind _ _
    | apply inv_bind
    | intro _
    | split

theorem createNewRoot_dense_of {N : Nat} {this : BTreeIndex} (hthis : NodesDense N this)
    {newPair : PageKeyPair Int} (hp : newPair.pageNo ≠ 0) (level : Int) :
    M.Inv (NodesDense N) (createNewRoot intKey this.rootPageNum newPair level)
      (fun _ => True) :=
  createNewRoot_dense _ _ _ hthis.2.2.1 hp

theorem insertEntryT_dense {N : Nat} (key : Int) (rid : RecordId) :
    M.Inv (NodesDense N) (insertEntryT intKey key rid) (fun _ => True) := by
  unfold insertEntryT
  repeat' with_reducible first
    | exact inv_pure _
    | exact inv_getThis_self
    | exact start_dense _ _ _ _
    | exact splitLeaf_dense _ _
    | exact createNewRoot_dense_of (by assumption) (by assumption) _
    | exact dense_readPage _
    | exact dense_unPinPage _ _
    | exact dense_derefLeaf _
    | exact dense_storeLeaf _ _
    | exact inv_liftE _
    | exact inv_raise_bind _ _
    | apply inv_bind
    | intro _
    | split

theorem insertEntry_dense {N : Nat} (key : KeyArg) (rid : RecordId) :
    M.Inv (NodesDense N) (insertEntry key rid) (fun _ => True) := by
  intro s hs
  refine ⟨?_, fun _ _ => trivial⟩
  have hty := hs.1
  cases key with
  | int k =>
    have heq : insertEntry (.int k) rid s = insertEntryT intKey k rid s := by
      simp [insertEntry, M.run_bind, getThis, hty]
    rw [heq]
    exact (insertEntryT_dense k rid s hs).1
  | double k =>
    have heq : insertEntry (.double k) rid s = raise .badCast s := by
      simp [insertEntry, M.run_bind, getThis, hty]
    rw [heq]
    exact hs
  | string buf =>
    have heq : insertEntry (.string buf) rid s = raise .badCast s := by
      simp [insertEntry, M.run_bind, getThis, hty]
    rw [heq]
    exact hs

theorem newIndex_dense (L N : Nat) : NodesDense N (newIndex .INTEGER L N) := by
  rw [newIndex_int_eq]
  refine ⟨rfl, rfl, Nat.succ_ne_zero 1, fun p node hp => ?_⟩
  have hp' : Function.update (Function.update (fun _ => Page.blank) 1
      (Page.header ⟨[], 0, .INTEGER, 2⟩)) 2 (Page.leafInt (LeafNode.zero 0)) p
      = .nonLeafInt node := hp
  simp only [Function.update_apply] at hp'
  split at hp'
  · simp at hp'
  · split at hp'
    · simp at hp'
    · simp at hp'

theorem afterCalls_dense {N : Nat} (calls : List (KeyArg × RecordId)) (s : BTreeIndex)
    (hs : NodesDense N s) : NodesDense N (afterCalls calls s) := by
  induction calls generalizing s with
  | nil => exact hs
  | cons c calls ih => exact ih _ (insertEntry_dense c.1 c.2 s hs).1

/-- Claim C22, counterexample: inserting the keys 1, 2, ..., 10 in this order
into a new INTEGER index with `leafOccupancy = nodeOccupancy = 3` succeeds and
leaves on page 4 an internal node with keys `[3, 5, 7]` and pointers
`[2, 3, 5, 0]`.  The node has three live children, hence `n = 2` live keys, and
`keyArray[2] = 7` is not 0: `splitNonLeaf` moved the key 7 to the new node
without clearing it here. -/
theorem internal_split_leaves_stale_key :
    (buildInt 3 3 [1, 2, 3, 4, 5, 6, 7, 8, 9, 10]).1 = .ok () ∧
    nodeViewAt (buildInt 3 3 [1, 2, 3, 4, 5, 6, 7, 8, 9, 10]).2 4 3
      = some ([3, 5, 7], [2, 3, 5, 0]) := by decide!

/-- Claim C22, amended: after any sequence of `insertEntry` calls on a new
INTEGER index, returning or throwing, the index is still an INTEGER index with
the same `nodeOccupancy = N` and a nonzero root page number, and on every
internal node of the file the live children form a prefix of `pageNoArray`:
once a pointer slot is 0, every later slot up to `N` is 0.  Nothing is said of
the key slots past the live keys. -/
theorem internal_nodes_pointers_dense_after_inserts (L N : Nat)
    (calls : List (KeyArg × RecordId)) :
    NodesDense N (afterCalls calls (newIndex .INTEGER L N)) :=
  afterCalls_dense calls _ (newIndex_dense L N)

/-! ## DOUBLE keys: a NaN key -/

/-- C16 as stated fails on DOUBLE keys: with `leafOccupancy = 3`, on the leaf
holding the sorted keys 1.0 and 2.0, `insertLeaf` of a pair whose key is NaN
writes the pair at index 0 and leaves the keys NaN, 1.0, 2.0.  No existing key
is `>=` NaN, so the smallest index whose slot is empty or whose key is `>=` the
new key is 2, and the resulting keys are not sorted: NaN `<=` 1.0 is false. -/
theorem insertLeaf_nan_key_goes_first :
    (insertLeaf doubleKey 3 (mkLeafOf 0 [(1, ⟨1, 0⟩), (2, ⟨2, 0⟩)] 0) ⟨⟨3, 0⟩, .nan⟩).map
        (fun leaf => liveEntries leaf 3 0)
      = .ok [(.nan, ⟨3, 0⟩), (1, ⟨1, 0⟩), (2, ⟨2, 0⟩)] ∧
    ¬ ((1 : Double) ≥ .nan) ∧ ¬ ((2 : Double) ≥ .nan) ∧ ¬ (Double.nan ≤ 1) := by
  decide!

/-- C17 as stated fails on DOUBLE keys: with `leafOccupancy = 3`, on the full
leaf with the sorted keys 1.0, 2.0, 3.0 stored on page 4, `splitLeaf` of a pair
whose key is NaN returns the new page 5 with the key 3.0 and leaves the keys
1.0, 2.0 in the old leaf and NaN, 3.0 in the new one.  The returned key 3.0 is
not `new.keyArray[0]`, which is NaN, and the sequence 1.0, 2.0, NaN, 3.0 is not
sorted: neither 2.0 `<=` NaN nor NaN `<=` 3.0 holds. -/
theorem splitLeaf_nan_key_not_promoted :
    (splitLeaf doubleKey 4 ⟨⟨4, 0⟩, .nan⟩
        (stateWithPage .DOUBLE 3 3
          (.leafDouble (mkLeafOf 0 [(1, ⟨1, 0⟩), (2, ⟨2, 0⟩), (3, ⟨3, 0⟩)] 0)))).1.map
        (fun r => (r.pageNo, r.key)) = .ok (5, 3) ∧
    leafViewD (splitLeaf doubleKey 4 ⟨⟨4, 0⟩, .nan⟩
        (stateWithPage .DOUBLE 3 3
          (.leafDouble (mkLeafOf 0 [(1, ⟨1, 0⟩), (2, ⟨2, 0⟩), (3, ⟨3, 0⟩)] 0)))).2 4
      = some [(1, ⟨1, 0⟩), (2, ⟨2, 0⟩)] ∧
    leafViewD (splitLeaf doubleKey 4 ⟨⟨4, 0⟩, .nan⟩
        (stateWithPage .DOUBLE 3 3
          (.leafDouble (mkLeafOf 0 [(1, ⟨1, 0⟩), (2, ⟨2, 0⟩), (3, ⟨3, 0⟩)] 0)))).2 5
      = some [(.nan, ⟨4, 0⟩), (3, ⟨3, 0⟩)] ∧
    (3 : Double) ≠ .nan ∧ ¬ ((2 : Double) ≤ .nan) ∧ ¬ (Double.nan ≤ 3) := by
  decide!

/-- C10 as stated fails on a DOUBLE index: with `leafOccupancy = nodeOccupancy
= 3`, after the keys 1.0, 2.0, 3.0 and then NaN are inserted into a freshly
created DOUBLE index, every call has returned, the root is the new internal
node on page 4 with children 2 and 3 and `keyArray[0] = 3.0`, and the new leaf
on page 3 holds the keys NaN, 3.0: `keyArray[0]` of the root is not that
leaf's first key. -/
theorem root_promotion_with_nan_key :
    (insertAll (numberedD [1, 2, 3, .nan]) (newIndex .DOUBLE 3 3)).1 = .ok () ∧
    (insertAll (numberedD [1, 2, 3, .nan]) (newIndex .DOUBLE 3 3)).2.rootPageNum = 4 ∧
    nodeViewD (insertAll (numberedD [1, 2, 3, .nan]) (newIndex .DOUBLE 3 3)).2 4 1
      = some ([3], [2, 3]) ∧
    leafViewD (insertAll (numberedD [1, 2, 3, .nan]) (newIndex .DOUBLE 3 3)).2 3
      = some [(.nan, ⟨4, 0⟩), (3, ⟨3, 0⟩)] ∧
    (3 : Double) ≠ .nan := by
  decide!

/-! ## The order laws of the three key types -/

theorem compareInt_cases (a b : Int) :
    (a < b ∧ compareInt a b = -1) ∨ (a = b ∧ compareInt a b = 0) ∨
      (b < a ∧ compareInt a b = 1) := by
  unfold compareInt
  rcases lt_trichotomy a b with h | h | h
  · exact Or.inl ⟨h, by rw [if_neg (by omega), if_pos h]⟩
  · exact Or.inr (Or.inl ⟨h, by rw [if_neg (by omega), if_neg (by omega)]⟩)
  · exact Or.inr (Or.inr ⟨h, by rw [if_pos h]⟩)

theorem intKey_orderedOn : intKey.OrderedOn (fun _ => True) := by
  refine ⟨fun _ _ => rfl, fun a b _ _ => ?_, fun a b c _ _ _ => ?_, fun a b _ _ => ?_⟩
  · show compareInt a b < 0 ↔ 0 < compareInt b a
    rcases compareInt_cases a b with ⟨h, e⟩ | ⟨h, e⟩ | ⟨h, e⟩ <;>
      rcases compareInt_cases b a with ⟨h', e'⟩ | ⟨h', e'⟩ | ⟨h', e'⟩ <;>
      rw [e, e'] <;> omega
  · show compareInt a b ≤ 0 → compareInt b c ≤ 0 → compareInt a c ≤ 0
    rcases compareInt_cases a b with ⟨h, e⟩ | ⟨h, e⟩ | ⟨h, e⟩ <;>
      rcases compareInt_cases b c with ⟨h', e'⟩ | ⟨h', e'⟩ | ⟨h', e'⟩ <;>
      rcases compareInt_cases a c with ⟨h'', e''⟩ | ⟨h'', e''⟩ | ⟨h'', e''⟩ <;>
      rw [e, e', e''] <;> omega
  · show compareInt a b = 0 → a = b
    rcases compareInt_cases a b with ⟨h, e⟩ | ⟨h, e⟩ | ⟨h, e⟩ <;> rw [e] <;> omega

theorem Double.lt_iff_rank (a b : Double) (ha : a ≠ .nan) (hb : b ≠ .nan) :
    a < b ↔ a.rank < b.rank := by
  show Double.lt a b = true ↔ _
  cases a <;> cases b <;> simp [Double.lt, Double.rank] at ha hb ⊢
  exact WithBot.coe_lt_coe.2 (WithTop.coe_lt_top _)

theorem Double.rank_inj (a b : Double) (ha : a ≠ .nan) (hb : b ≠ .nan)
    (h : a.rank = b.rank) : a = b := by
  cases a <;> cases b <;> simp [Double.rank] at ha hb h ⊢
  exact h

theorem compareDouble_cases (a b : Double) (ha : a ≠ .nan) (hb : b ≠ .nan) :
    (a.rank < b.rank ∧ compareDouble a b = -1) ∨ (a.rank = b.rank ∧ compareDouble a b = 0) ∨
      (b.rank < a.rank ∧ compareDouble a b = 1) := by
  unfold compareDouble
  rcases lt_trichotomy a.rank b.rank with h | h | h
  · have h1 : ¬ a > b := fun h' => lt_asymm h ((Double.lt_iff_rank b a hb ha).1 h')
    have h2 : a < b := (Double.lt_iff_rank a b ha hb).2 h
    exact Or.inl ⟨h, by rw [if_neg h1, if_pos h2]⟩
  · have h1 : ¬ a > b := fun h' => by
      have := (Double.lt_iff_rank b a hb ha).1 h'
      rw [h] at this
      exact lt_irrefl _ this
    have h2 : ¬ a < b := fun h' => by
      have := (Double.lt_iff_rank a b ha hb).1 h'
      rw [h] at this
      exact lt_irrefl _ this
    exact Or.inr (Or.inl ⟨h, by rw [if_neg h1, if_neg h2]⟩)
  · have h1 : a > b := (Double.lt_iff_rank b a hb ha).2 h
    exact Or.inr (Or.inr ⟨h, by rw [if_pos h1]⟩)

theorem doubleKey_orderedOn : doubleKey.OrderedOn (fun a => a ≠ .nan) := by
  refine ⟨fun _ _ => rfl, fun a b ha hb => ?_, fun a b c ha hb hc => ?_, fun a b ha hb => ?_⟩
  · show compareDouble a b < 0 ↔ 0 < compareDouble b a
    rcases compareDouble_cases a b ha hb with ⟨h, e⟩ | ⟨h, e⟩ | ⟨h, e⟩ <;>
      rcases compareDouble_cases b a hb ha with ⟨h', e'⟩ | ⟨h', e'⟩ | ⟨h', e'⟩ <;>
      rw [e, e'] <;> first
        | decide
        | exact absurd (lt_trans h h') (lt_irrefl _)
        | (rw [h'] at h; exact absurd h (lt_irrefl _))
        | (rw [h] at h'; exact absurd h' (lt_irrefl _))
  · show compareDouble a b ≤ 0 → compareDouble b c ≤ 0 → compareDouble a c ≤ 0
    rcases compareDouble_cases a b ha hb with ⟨h, e⟩ | ⟨h, e⟩ | ⟨h, e⟩ <;>
      rcases compareDouble_cases b c hb hc with ⟨h', e'⟩ | ⟨h', e'⟩ | ⟨h', e'⟩ <;>
      rcases compareDouble_cases a c ha hc with ⟨h'', e''⟩ | ⟨h'', e''⟩ | ⟨h'', e''⟩ <;>
      rw [e, e', e''] <;> first
        | decide
        | exact absurd (lt_trans (lt_trans h h') h'') (lt_irrefl _)
        | (rw [h] at h''; exact absurd (lt_trans h' h'') (lt_irrefl _))
        | (rw [← h'] at h''; exact absurd (lt_trans h h'') (lt_irrefl _))
        | (rw [h, h'] at h''; exact absurd h'' (lt_irrefl _))
  · show compareDouble a b = 0 → a = b
    rcases compareDouble_cases a b ha hb with ⟨h, e⟩ | ⟨h, e⟩ | ⟨h, e⟩
    · rw [e]; intro h0; exact absurd h0 (by decide)
    · intro _; exact Double.rank_inj a b ha hb h
    · rw [e]; intro h0; exact absurd h0 (by decide)

theorem strcmp_swap (a b : List Nat) : strcmp a b < 0 ↔ 0 < strcmp b a := by
  induction a generalizing b with
  | nil => cases b <;> simp [strcmp]
  | cons x xs ih =>
    cases b with
    | nil => simp [strcmp]
    | cons y ys =>
      simp only [strcmp]
      rcases Nat.lt_trichotomy x y with h | h | h
      · rw [if_pos h, if_neg (by omega), if_pos h]; decide
      · subst h
        rw [if_neg (by omega), if_neg (by omega), if_neg (by omega), if_neg (by omega)]
        exact ih ys
      · rw [if_neg (by omega), if_pos h, if_pos h]; decide

theorem strcmp_eq_zero (a b : List Nat) (h : strcmp a b = 0) : a = b := by
  induction a generalizing b with
  | nil => cases b <;> simp [strcmp] at h ⊢
  | cons x xs ih =>
    cases b with
    | nil => simp [strcmp] at h
    | cons y ys =>
      simp only [strcmp] at h
      rcases Nat.lt_trichotomy x y with h1 | h1 | h1
      · rw [if_pos h1] at h; exact absurd h (by decide)
      · subst h1
        rw [if_neg (by omega), if_neg (by omega)] at h
        rw [ih ys h]
      · rw [if_neg (by omega), if_pos h1] at h; exact absurd h (by decide)

theorem strcmp_trans (a b c : List Nat) (h1 : strcmp a b ≤ 0) (h2 : strcmp b c ≤ 0) :
    strcmp a c ≤ 0 := by
  induction a generalizing b c with
  | nil => cases c <;> simp [strcmp]
  | cons x xs ih =>
    cases b with
    | nil => simp [strcmp] at h1
    | cons y ys =>
      cases c with
      | nil => simp [strcmp] at h2
      | cons z zs =>
        simp only [strcmp] at h1 h2 ⊢
        rcases Nat.lt_trichotomy x y with hxy | hxy | hxy
        · rcases Nat.lt_trichotomy y z with hyz | hyz | hyz
          · rw [if_pos (by omega)]; decide
          · rw [if_pos (by omega)]; decide
          · rw [if_neg (by omega), if_pos hyz] at h2; exact absurd h2 (by decide)
        · subst hxy
          rw [if_neg (by omega), if_neg (by omega)] at h1
          rcases Nat.lt_trichotomy x z with hyz | hyz | hyz
          · rw [if_pos hyz]; decide
          · subst hyz
            rw [if_neg (by omega), if_neg (by omega)] at h2 ⊢
            exact ih ys zs h1 h2
          · rw [if_neg (by omega), if_pos hyz] at h2; exact absurd h2 (by decide)
        · rw [if_neg (by omega), if_pos hxy] at h1; exact absurd h1 (by decide)

theorem insertS_of_isRow (a : List Nat) (h : IsRow a) : insertS a = a := by
  unfold insertS cstr
  have h1 : a.takeWhile (fun c => c != 0) = a := by
    apply List.takeWhile_eq_self_iff.2
    intro c hc
    simpa using h.2 c hc
  rw [h1, List.take_of_length_le (Nat.le_of_lt h.1)]

theorem stringKey_orderedOn (f : List Nat → List Nat → Bool) : (stringKey f).OrderedOn IsRow :=
  ⟨fun a ha => insertS_of_isRow a ha, fun a b _ _ => strcmp_swap a b,
    fun a b c _ _ _ => strcmp_trans a b c, fun a b _ _ => strcmp_eq_zero a b⟩

theorem snprintfS_isRow (buf : List Nat) : IsRow (snprintfS buf) := by
  unfold snprintfS cstr IsRow
  constructor
  · rw [List.length_take]
    exact Nat.lt_of_le_of_lt (Nat.min_le_left _ _) (by decide)
  · intro c hc
    have h1 := List.mem_of_mem_take hc
    have h2 := List.mem_takeWhile_imp h1
    simpa using h2

/-! ## insertLeaf on ordered keys of any type -/

theorem insertLeafPos_eq_takeWhile_of {K : Type} (kt : KeyType K) (L : Nat) (node : LeafNode K)
    (es : List (K × RecordId)) (h : node.Holds L es) (hlt : es.length < L) (key : K)
    (left pos : Nat) (hsum : pos + left = L) (hpos : pos ≤ es.length) :
    insertLeafPos kt node key left pos =
      pos + ((es.drop pos).takeWhile fun e => decide (kt.compare e.1 key < 0)).length := by
  induction left generalizing pos with
  | zero => omega
  | succ left ih =>
    unfold insertLeafPos
    rcases Nat.lt_or_eq_of_le hpos with hl | heq
    · obtain ⟨hget, hne⟩ := h.2.1 pos hl
      have hg : es[pos] = (node.keyArray pos, node.ridArray pos) := by
        have := List.getElem?_eq_getElem hl
        rw [this] at hget
        exact Option.some.inj hget
      rw [if_neg hne, List.drop_eq_getElem_cons hl, hg, List.takeWhile_cons]
      by_cases hcmp : kt.compare (node.keyArray pos) key ≥ 0
      · have : decide (kt.compare (node.keyArray pos, node.ridArray pos).1 key < 0) = false := by
          simpa using hcmp
        rw [if_pos hcmp, this]
        simp
      · have : decide (kt.compare (node.keyArray pos, node.ridArray pos).1 key < 0) = true := by
          simpa using hcmp
        rw [if_neg hcmp, this, ih (pos + 1) (by omega) hl]
        simp
        omega
    · have hz := h.2.2 pos (by omega) (by omega)
      rw [if_pos hz, heq, List.drop_length]
      simp

/-- On a leaf holding the entries `es`, fewer than `L`, whose keys the key copy
leaves unchanged, `insertLeaf` returns the leaf holding `es` with the new pair
put in at `pos`, the number of leading entries whose key compares below the new
key; the right sibling is kept. -/
theorem insertLeaf_holds_of {K : Type} (kt : KeyType K) (L : Nat) (node : LeafNode K)
    (es : List (K × RecordId))
    (h : node.Holds L es) (hlt : es.length < L) (key : K) (rid : RecordId)
    (hr : rid.page_number ≠ 0) (hes : ∀ e ∈ es, kt.assign e.1 = e.1)
    (hkey : kt.assign key = key) :
    ∃ node',
      insertLeaf kt L node ⟨rid, key⟩ = .ok node' ∧
      node'.Holds L
        (es.take (es.takeWhile fun e => decide (kt.compare e.1 key < 0)).length ++
          (key, rid) :: es.drop (es.takeWhile fun e => decide (kt.compare e.1 key < 0)).length) ∧
      node'.keyArray (es.takeWhile fun e => decide (kt.compare e.1 key < 0)).length = key ∧
      node'.ridArray (es.takeWhile fun e => decide (kt.compare e.1 key < 0)).length = rid ∧
      node'.rightSibPageNo = node.rightSibPageNo := by
  have hposeq := insertLeafPos_eq_takeWhile_of kt L node es h hlt key L 0 (by omega)
    (Nat.zero_le _)
  rw [List.drop_zero, Nat.zero_add] at hposeq
  generalize hp : (es.takeWhile fun e => decide (kt.compare e.1 key < 0)).length = pos
    at hposeq ⊢
  have hple : pos ≤ es.length := by
    rw [← hp]
    exact (List.takeWhile_sublist _).length_le
  have hposL : pos < L := by omega
  have hassign : ∀ i, i < es.length → kt.assign (node.keyArray i) = node.keyArray i := by
    intro i hi
    have h1 := (h.2.1 i hi).1
    have h2 := hes _ (List.mem_iff_getElem?.2 ⟨i, h1⟩)
    exact h2
  have heq : insertLeaf kt L node ⟨rid, key⟩ = .ok
      { insertLeafShift kt pos (L - 1) node with
        ridArray := Function.update (insertLeafShift kt pos (L - 1) node).ridArray pos rid
        keyArray := Function.update (insertLeafShift kt pos (L - 1) node).keyArray pos
          key } := by
    simp only [insertLeaf, hposeq, if_pos hposL, hkey]
  refine ⟨_, heq, ⟨?_, ?_, ?_⟩, ?_, ?_, ?_⟩
  · simp [List.length_take, Nat.min_eq_left hple]
    omega
  · intro i hi
    have hi' : i < es.length + 1 := by
      simp [List.length_take, Nat.min_eq_left hple] at hi
      omega
    simp only [Function.update_apply, insertLeafShift_ridArray,
      insertLeafShift_keyArray]
    rcases Nat.lt_trichotomy i pos with hlt' | heq | hgt
    · have c1 : i ≠ pos := by omega
      have c2 : ¬ (pos < i ∧ i ≤ L - 1) := by omega
      obtain ⟨hget, hne⟩ := h.2.1 i (by omega)
      rw [if_neg c1, if_neg c1, if_neg c2, if_neg c2]
      refine ⟨?_, hne⟩
      rw [List.getElem?_append_left (by simp [List.length_take]; omega),
        List.getElem?_take_of_lt hlt']
      exact hget
    · subst heq
      rw [if_pos rfl, if_pos rfl]
      refine ⟨?_, hr⟩
      rw [List.getElem?_append_right (by simp [List.length_take])]
      simp [List.length_take, Nat.min_eq_left hple]
    · have c1 : i ≠ pos := by omega
      have c2 : pos < i ∧ i ≤ L - 1 := by omega
      obtain ⟨hget, hne⟩ := h.2.1 (i - 1) (by omega)
      rw [if_neg c1, if_neg c1, if_pos c2, if_pos c2, hassign (i - 1) (by omega)]
      refine ⟨?_, hne⟩
      rw [List.getElem?_append_right (by simp [List.length_take]; omega)]
      have e1 : i - (List.take pos es).length = (i - pos - 1) + 1 := by
        simp [List.length_take, Nat.min_eq_left hple]
        omega
      rw [e1, List.getElem?_cons_succ, List.getElem?_drop]
      have e2 : pos + (i - pos - 1) = i - 1 := by omega
      rw [e2]
      exact hget
  · intro i hi hiL
    have hi' : es.length + 1 ≤ i := by
      simp [List.length_take, Nat.min_eq_left hple] at hi
      omega
    simp only [Function.update_apply, insertLeafShift_ridArray]
    have c1 : i ≠ pos := by omega
    have c2 : pos < i ∧ i ≤ L - 1 := by omega
    rw [if_neg c1, if_pos c2]
    exact h.2.2 (i - 1) (by omega) (by omega)
  · simp
  · simp
  · simp only [insertLeafShift_rightSib]

/-- Putting `x` between the leading entries that compare below it and the rest
keeps a list of valid keys sorted. -/
theorem pairwise_insert_takeWhile {K : Type} (kt : KeyType K) (V : K → Prop)
    (hk : kt.OrderedOn V) (es : List (K × RecordId)) (key : K) (rid : RecordId)
    (hV : ∀ e ∈ es, V e.1) (hkey : V key)
    (hs : List.Pairwise (fun a b : K × RecordId => kt.compare a.1 b.1 ≤ 0) es) :
    List.Pairwise (fun a b : K × RecordId => kt.compare a.1 b.1 ≤ 0)
      (es.takeWhile (fun e => decide (kt.compare e.1 key < 0)) ++
        (key, rid) :: es.dropWhile (fun e => decide (kt.compare e.1 key < 0))) := by
  have hsplit := List.takeWhile_append_dropWhile (fun e => decide (kt.compare e.1 key < 0)) es
  have hs' := hs
  rw [← hsplit] at hs'
  obtain ⟨hT, hD, hTD⟩ := List.pairwise_append.1 hs'
  have hbelow : ∀ a ∈ es.takeWhile (fun e => decide (kt.compare e.1 key < 0)),
      kt.compare a.1 key ≤ 0 := by
    intro a ha
    have := List.mem_takeWhile_imp ha
    have h1 : kt.compare a.1 key < 0 := by simpa using this
    omega
  have habove : ∀ b ∈ es.dropWhile (fun e => decide (kt.compare e.1 key < 0)),
      kt.compare key b.1 ≤ 0 := by
    intro b hb
    cases hdw : es.dropWhile (fun e => decide (kt.compare e.1 key < 0)) with
    | nil => rw [hdw] at hb; exact absurd hb (List.not_mem_nil _)
    | cons d l =>
      have hd : ¬ kt.compare d.1 key < 0 := by
        have := List.head_dropWhile_not (fun e => decide (kt.compare e.1 key < 0)) es
          (by rw [hdw]; exact List.cons_ne_nil _ _)
        simp only [hdw, List.head_cons] at this
        simpa using this
      have hdmem : d ∈ es := by
        have : d ∈ es.dropWhile (fun e => decide (kt.compare e.1 key < 0)) := by
          rw [hdw]; exact List.mem_cons_self _ _
        exact (List.dropWhile_sublist _).subset this
      have hVd : V d.1 := hV d hdmem
      have hkd : kt.compare key d.1 ≤ 0 := by
        by_contra hc
        have h1 : 0 < kt.compare key d.1 := by omega
        exact hd ((hk.swap d.1 key hVd hkey).2 h1)
      rw [hdw] at hb hD
      rcases List.mem_cons.1 hb with h | h
      · rw [h]; exact hkd
      · have hbmem : b ∈ es := by
          have : b ∈ es.dropWhile (fun e => decide (kt.compare e.1 key < 0)) := by
            rw [hdw]; exact List.mem_cons_of_mem _ h
          exact (List.dropWhile_sublist _).subset this
        exact hk.trans key d.1 b.1 hkey hVd (hV b hbmem) hkd ((List.pairwise_cons.1 hD).1 b h)
  refine List.pairwise_append.2 ⟨hT, List.pairwise_cons.2 ⟨habove, hD⟩, fun a ha b hb => ?_⟩
  rcases List.mem_cons.1 hb with h | h
  · rw [h]; exact hbelow a ha
  · exact hTD a ha b h

theorem valid_of_dense {K : Type} (V : K → Prop) (L c : Nat) (leaf : LeafNode K) (hc : c ≤ L)
    (hlive : ∀ i, i < c → (leaf.ridArray i).page_number ≠ 0)
    (hfree : ∀ i, c ≤ i → i < L → (leaf.ridArray i).page_number = 0)
    (hV : ∀ i, i < c → V (leaf.keyArray i)) :
    ∀ e ∈ liveEntries leaf L 0, V e.1 := by
  intro e he
  rw [liveEntries_of_holds L leaf _ (holds_of_dense L c leaf hc hlive hfree)] at he
  obtain ⟨i, hi, rfl⟩ := List.mem_map.1 he
  exact hV i (List.mem_range.1 hi)

/-- C16, amended: for every key type on whose values in `V` `compare` is a total
order and the key copy the identity (`intKey` with every `int`, `doubleKey`
with the doubles other than NaN, `stringKey` with the strings of fewer than
`STRINGSIZE` bytes: `intKey_orderedOn`, `doubleKey_orderedOn`,
`stringKey_orderedOn`), every leaf whose live entries are dense from index 0,
number `c < leafOccupancy`, have their keys in `V` and are key-sorted
(`compare(a, b) <= 0` for an earlier key `a` and a later key `b`), and every
pair with its key in `V` and `rid.page_number != 0`: `insertLeaf` returns
normally and writes the pair at `pos`, the smallest index whose slot is empty
or whose key compares `>=` the new key (every slot before `pos` is live with a
smaller key); the resulting leaf has `c + 1` dense live entries, which are the
old entries in their order with the new pair put in at `pos`, and are
key-sorted; `rightSibPageNo` is unchanged. -/
theorem insertLeaf_sorted_insert {K : Type} (kt : KeyType K) (V : K → Prop)
    (hk : kt.OrderedOn V) (L c : Nat) (leaf : LeafNode K) (key : K) (rid : RecordId)
    (hc : c < L)
    (hlive : ∀ i, i < c → (leaf.ridArray i).page_number ≠ 0)
    (hfree : ∀ i, c ≤ i → i < L → (leaf.ridArray i).page_number = 0)
    (hV : ∀ i, i < c → V (leaf.keyArray i)) (hkey : V key)
    (hsorted : List.Pairwise (fun a b => kt.compare a b ≤ 0)
      ((liveEntries leaf L 0).map Prod.fst))
    (hr : rid.page_number ≠ 0) :
    ∃ leaf' pos,
      insertLeaf kt L leaf ⟨rid, key⟩ = .ok leaf' ∧
      pos ≤ c ∧ (∀ i, i < pos → kt.compare (leaf.keyArray i) key < 0) ∧
      (pos < c → kt.compare (leaf.keyArray pos) key ≥ 0) ∧
      leaf'.keyArray pos = key ∧ leaf'.ridArray pos = rid ∧
      (∀ i, i < c + 1 → (leaf'.ridArray i).page_number ≠ 0) ∧
      (∀ i, c + 1 ≤ i → i < L → (leaf'.ridArray i).page_number = 0) ∧
      (liveEntries leaf L 0).length = c ∧
      liveEntries leaf' L 0 =
        (liveEntries leaf L 0).take pos ++ (key, rid) :: (liveEntries leaf L 0).drop pos ∧
      List.Pairwise (fun a b => kt.compare a b ≤ 0) ((liveEntries leaf' L 0).map Prod.fst) ∧
      leaf'.rightSibPageNo = leaf.rightSibPageNo := by
  have hvalid := valid_of_dense V L c leaf (Nat.le_of_lt hc) hlive hfree hV
  have hholds := holds_of_dense L c leaf (Nat.le_of_lt hc) hlive hfree
  have hes := liveEntries_of_holds L leaf _ hholds
  rw [← hes] at hholds
  have hlen : (liveEntries leaf L 0).length = c := by rw [hes]; simp
  obtain ⟨leaf', hins, hholds', hk', hrid, hsib⟩ :=
    insertLeaf_holds_of kt L leaf _ hholds (by omega) key rid hr
      (fun e he => hk.assign_eq _ (hvalid e he)) (hk.assign_eq _ hkey)
  have hposeq := insertLeafPos_eq_takeWhile_of kt L leaf _ hholds (by omega) key L 0 (by omega)
    (Nat.zero_le _)
  rw [List.drop_zero, Nat.zero_add] at hposeq
  have hes' := liveEntries_of_holds L leaf' _ hholds'
  have hlen' : (liveEntries leaf' L 0).length = c + 1 := by
    rw [hes']
    have := (List.takeWhile_sublist
      (fun e => decide (kt.compare e.1 key < 0)) (l := liveEntries leaf L 0)).length_le
    simp [List.length_take]
    omega
  rw [← hes'] at hholds'
  refine ⟨leaf', _, hins, ?_, ?_, ?_, hk', hrid, ?_, ?_, hlen, hes', ?_, hsib⟩
  · rw [← hlen]
    exact (List.takeWhile_sublist _).length_le
  · intro i hi
    rw [← hposeq] at hi
    have := (insertLeafPos_before kt leaf key L 0 i (Nat.zero_le _) hi).2
    omega
  · intro hp
    rw [← hposeq] at hp ⊢
    rcases insertLeafPos_at kt leaf key L 0 (by omega) with h0 | hcmp
    · exact absurd h0 (hlive _ hp)
    · exact hcmp
  · intro i hi
    exact (hholds'.2.1 i (by omega)).2
  · intro i hi hiL
    exact hholds'.2.2 i (by omega) hiL
  · rw [hes', (take_drop_takeWhile _ _).1, (take_drop_takeWhile _ _).2, List.pairwise_map]
    exact pairwise_insert_takeWhile kt V hk _ key rid hvalid hkey (List.pairwise_map.1 hsorted)

/-- Instance of `insertLeaf_sorted_insert` on DOUBLE keys: a leaf of four slots
holding keys 1.0 and 5.0, into which key 3.0 is inserted. -/
theorem insertLeaf_sorted_insert_witness :
    ((2 : Nat) < 4 ∧ (Double.finite 3 ≠ .nan) ∧
      List.Pairwise (fun a b => doubleKey.compare a b ≤ 0)
        ((liveEntries (mkLeafOf (0 : Double) [(1, ⟨1, 0⟩), (5, ⟨2, 0⟩)] 7) 4 0).map Prod.fst)) ∧
    ∃ leaf' pos,
      insertLeaf doubleKey 4 (mkLeafOf 0 [(1, ⟨1, 0⟩), (5, ⟨2, 0⟩)] 7) ⟨⟨9, 0⟩, 3⟩ = .ok leaf' ∧
      pos ≤ 2 ∧ leaf'.keyArray pos = 3 ∧ leaf'.ridArray pos = ⟨9, 0⟩ ∧
      liveEntries leaf' 4 0 =
        (liveEntries (mkLeafOf (0 : Double) [(1, ⟨1, 0⟩), (5, ⟨2, 0⟩)] 7) 4 0).take pos ++
          (3, ⟨9, 0⟩) ::
            (liveEntries (mkLeafOf (0 : Double) [(1, ⟨1, 0⟩), (5, ⟨2, 0⟩)] 7) 4 0).drop pos ∧
      List.Pairwise (fun a b => doubleKey.compare a b ≤ 0)
        ((liveEntries leaf' 4 0).map Prod.fst) ∧
      leaf'.rightSibPageNo = 7 :=
  have h := insertLeaf_sorted_insert doubleKey (fun a => a ≠ .nan) doubleKey_orderedOn 4 2
    (mkLeafOf 0 [(1, ⟨1, 0⟩), (5, ⟨2, 0⟩)] 7) 3 ⟨9, 0⟩
    (by decide) (by decide)
    (by intro i h1 h2; interval_cases i <;> rfl)
    (by intro i h1; interval_cases i <;> decide) (by decide)
    (by decide!) (by decide)
  ⟨⟨by decide, by decide, by decide!⟩,
    h.elim fun leaf' h => h.elim fun pos hp =>
      ⟨leaf', pos, hp.1, hp.2.1, hp.2.2.2.2.1, hp.2.2.2.2.2.1, hp.2.2.2.2.2.2.2.2.2.1,
        hp.2.2.2.2.2.2.2.2.2.2.1, hp.2.2.2.2.2.2.2.2.2.2.2⟩⟩

/-! ## splitLeaf on ordered keys of any type -/

theorem compare_self_of {K : Type} {kt : KeyType K} {V : K → Prop} (hk : kt.OrderedOn V)
    (a : K) (ha : V a) : kt.compare a a = 0 := by
  have := hk.swap a a ha ha
  omega

theorem compare_le_of_not_lt {K : Type} {kt : KeyType K} {V : K → Prop} (hk : kt.OrderedOn V)
    (a b : K) (ha : V a) (hb : V b) (h : ¬ kt.compare a b < 0) : kt.compare b a ≤ 0 := by
  have := hk.swap a b ha hb
  omega

theorem splitLeafMove_holds_of {K : Type} (kt : KeyType K) (L half : Nat) (leaf new : LeafNode K)
    (es : List (K × RecordId)) (h : leaf.Holds L es) (hfull : es.length = L)
    (hnew : ∀ i, i < L → (new.ridArray i).page_number = 0) (hhalf : half ≤ L)
    (hassign : ∀ i, i < L → kt.assign (leaf.keyArray i) = leaf.keyArray i) :
    (splitLeafMove kt half (L - half) half leaf new).1.Holds L (es.take half) ∧
    (splitLeafMove kt half (L - half) half leaf new).2.Holds L (es.drop half) ∧
    (∀ j, j < L - half →
      (splitLeafMove kt half (L - half) half leaf new).2.keyArray j =
        leaf.keyArray (j + half)) ∧
    (splitLeafMove kt half (L - half) half leaf new).1.rightSibPageNo = leaf.rightSibPageNo ∧
    (splitLeafMove kt half (L - half) half leaf new).2.rightSibPageNo = new.rightSibPageNo := by
  obtain ⟨a1, a2, a3, a4, a5, a6⟩ :=
    splitLeafMove_spec kt half (L - half) half leaf new le_rfl
  have hk : ∀ j, j < L - half →
      (splitLeafMove kt half (L - half) half leaf new).2.keyArray j =
        leaf.keyArray (j + half) := by
    intro j hj
    have c : half - half ≤ j ∧ j < half - half + (L - half) := by omega
    rw [a5 j, if_pos c]
    exact hassign (j + half) (by omega)
  refine ⟨⟨?_, ?_, ?_⟩, ⟨?_, ?_, ?_⟩, hk, a3, a6⟩
  · simp [List.length_take]; omega
  · intro i hi
    have hi' : i < half := by
      have := hi; simp [List.length_take] at this; omega
    have c : ¬ (half ≤ i ∧ i < half + (L - half)) := by omega
    rw [a1 i, if_neg c, a2, List.getElem?_take_of_lt hi']
    exact h.2.1 i (by omega)
  · intro i hi hiL
    have hi' : half ≤ i := by
      have := hi; simp [List.length_take] at this; omega
    have c : half ≤ i ∧ i < half + (L - half) := by omega
    rw [a1 i, if_pos c]
  · simp; omega
  · intro i hi
    have hi' : i < L - half := by
      have := hi; simp at this; omega
    have c : half - half ≤ i ∧ i < half - half + (L - half) := by omega
    rw [a4 i, if_pos c, hk i hi', List.getElem?_drop, Nat.add_comm half i]
    exact h.2.1 (i + half) (by omega)
  · intro i hi hiL
    have hi' : L - half ≤ i := by
      have := hi; simp at this; omega
    have c : ¬ (half - half ≤ i ∧ i < half - half + (L - half)) := by omega
    rw [a4 i, if_neg c]
    exact hnew i hiL

theorem insertLeaf_holds_sorted_of {K : Type} (kt : KeyType K) (V : K → Prop)
    (hk : kt.OrderedOn V) (L : Nat) (node : LeafNode K) (es : List (K × RecordId))
    (h : node.Holds L es) (hlt : es.length < L) (key : K) (rid : RecordId)
    (hr : rid.page_number ≠ 0) (hV : ∀ e ∈ es, V e.1) (hkey : V key)
    (hs : List.Pairwise (fun a b : K × RecordId => kt.compare a.1 b.1 ≤ 0) es) :
    ∃ node' es',
      insertLeaf kt L node ⟨rid, key⟩ = .ok node' ∧ node'.Holds L es' ∧
      es'.Perm ((key, rid) :: es) ∧
      List.Pairwise (fun a b : K × RecordId => kt.compare a.1 b.1 ≤ 0) es' ∧
      (∀ e ∈ es', e = (key, rid) ∨ e ∈ es) ∧
      ((es'.head? = some (key, rid) ∧ ∀ e, es.head? = some e → ¬ kt.compare e.1 key < 0) ∨
        (es'.head? = es.head? ∧ es ≠ [] ∧
          ∀ e, es.head? = some e → kt.compare e.1 key < 0)) ∧
      node'.rightSibPageNo = node.rightSibPageNo := by
  obtain ⟨node', h1, h2, -, -, h3⟩ := insertLeaf_holds_of kt L node es h hlt key rid hr
    (fun e he => hk.assign_eq _ (hV e he)) (hk.assign_eq _ hkey)
  refine ⟨node', _, h1, h2, ?_, ?_, ?_, ?_, h3⟩
  · refine List.perm_middle.trans ?_
    rw [List.take_append_drop]
  · rw [(take_drop_takeWhile _ _).1, (take_drop_takeWhile _ _).2]
    exact pairwise_insert_takeWhile kt V hk es key rid hV hkey hs
  · intro e he
    rcases List.mem_append.1 he with h | h
    · exact Or.inr (List.mem_of_mem_take h)
    · rcases List.mem_cons.1 h with h | h
      · exact Or.inl h
      · exact Or.inr (List.mem_of_mem_drop h)
  · cases es with
    | nil => left; exact ⟨rfl, fun e he => by simp at he⟩
    | cons a l =>
      by_cases ha : kt.compare a.1 key < 0
      · right
        refine ⟨?_, List.cons_ne_nil _ _, ?_⟩
        · simp [List.takeWhile_cons, ha]
        · intro e he
          simp at he
          rw [← he]; exact ha
      · left
        refine ⟨by simp [List.takeWhile_cons, ha], ?_⟩
        intro e he
        simp at he
        rw [← he]; exact ha

theorem splitLeafNodes_partition_of {K : Type} (kt : KeyType K) (V : K → Prop)
    (hk : kt.OrderedOn V) (L : Nat) (hL : 3 ≤ L) (leaf new : LeafNode K)
    (newPageNo : Nat) (key : K) (rid : RecordId)
    (hfull : ∀ i, i < L → (leaf.ridArray i).page_number ≠ 0)
    (hV : ∀ i, i < L → V (leaf.keyArray i)) (hkey : V key)
    (hsorted : List.Pairwise (fun a b => kt.compare a b ≤ 0)
      ((liveEntries leaf L 0).map Prod.fst))
    (hnew : ∀ i, i < L → (new.ridArray i).page_number = 0)
    (hr : rid.page_number ≠ 0) :
    ∃ leaf' new' pk,
      splitLeafNodes kt L leaf new newPageNo ⟨rid, key⟩ = .ok (leaf', new', ⟨newPageNo, pk⟩) ∧
      leaf'.Holds L (liveEntries leaf' L 0) ∧ new'.Holds L (liveEntries new' L 0) ∧
      (liveEntries leaf L 0).length = L ∧
      List.Pairwise (fun a b => kt.compare a b ≤ 0)
        ((liveEntries leaf' L 0 ++ liveEntries new' L 0).map Prod.fst) ∧
      (liveEntries leaf' L 0 ++ liveEntries new' L 0).Perm ((key, rid) :: liveEntries leaf L 0) ∧
      (liveEntries leaf' L 0).length ≤ L ∧ (liveEntries new' L 0).length ≤ L ∧
      1 ≤ (liveEntries new' L 0).length ∧
      pk = new'.keyArray 0 ∧
      (∀ e ∈ liveEntries leaf' L 0, kt.compare e.1 pk ≤ 0) ∧
      (∀ e ∈ liveEntries new' L 0, kt.compare pk e.1 ≤ 0) ∧
      new'.rightSibPageNo = leaf.rightSibPageNo ∧ leaf'.rightSibPageNo = newPageNo := by
  have hvalid := valid_of_dense V L L leaf le_rfl hfull (fun i h1 h2 => absurd h2 (by omega)) hV
  have hholds := holds_of_dense L L leaf le_rfl hfull (fun i h1 h2 => absurd h2 (by omega))
  have hes := liveEntries_of_holds L leaf _ hholds
  rw [← hes] at hholds
  have hlen : (liveEntries leaf L 0).length = L := by rw [hes]; simp
  generalize liveEntries leaf L 0 = es at hholds hlen hsorted hvalid ⊢
  clear hes
  have hhalf : L / 2 + 1 < L := by omega
  have hL0 : L ≠ 0 := by omega
  obtain ⟨m1, m2, mk, ms1, ms2⟩ :=
    splitLeafMove_holds_of kt L (L / 2 + 1) leaf new es hholds hlen hnew (Nat.le_of_lt hhalf)
      (fun i hi => hk.assign_eq _ (hV i hi))
  generalize hsm : splitLeafMove kt (L / 2 + 1) (L - (L / 2 + 1)) (L / 2 + 1) leaf new = sm
    at m1 m2 mk ms1 ms2
  obtain ⟨n1, n2⟩ := sm
  simp only at m1 m2 mk ms1 ms2
  have hpk : n2.keyArray 0 = leaf.keyArray (L / 2 + 1) := by
    rw [mk 0 (by omega), Nat.zero_add]
  have hVpk : V (leaf.keyArray (L / 2 + 1)) := hV _ hhalf
  have hS : List.Pairwise (fun a b : K × RecordId => kt.compare a.1 b.1 ≤ 0) es :=
    List.pairwise_map.1 hsorted
  have hdrop : es.drop (L / 2 + 1) =
      (leaf.keyArray (L / 2 + 1), leaf.ridArray (L / 2 + 1)) :: es.drop (L / 2 + 1 + 1) := by
    have h1 := (hholds.2.1 (L / 2 + 1) (by omega)).1
    rw [List.getElem?_eq_getElem (by omega)] at h1
    rw [List.drop_eq_getElem_cons (by omega), Option.some.inj h1]
  have hS2 : List.Pairwise (fun a b : K × RecordId => kt.compare a.1 b.1 ≤ 0)
      (es.take (L / 2 + 1) ++ es.drop (L / 2 + 1)) := by
    rw [List.take_append_drop]; exact hS
  obtain ⟨hT, hD, hTD⟩ := List.pairwise_append.1 hS2
  have hVT : ∀ e ∈ es.take (L / 2 + 1), V e.1 := fun e he => hvalid e (List.mem_of_mem_take he)
  have hVD : ∀ e ∈ es.drop (L / 2 + 1), V e.1 := fun e he => hvalid e (List.mem_of_mem_drop he)
  have hle_take : ∀ e ∈ es.take (L / 2 + 1), kt.compare e.1 (leaf.keyArray (L / 2 + 1)) ≤ 0 := by
    intro e he
    exact hTD e he (leaf.keyArray (L / 2 + 1), leaf.ridArray (L / 2 + 1)) (by rw [hdrop]; simp)
  have hge_drop : ∀ e ∈ es.drop (L / 2 + 1), kt.compare (leaf.keyArray (L / 2 + 1)) e.1 ≤ 0 := by
    intro e he
    rw [hdrop] at he hD
    rcases List.mem_cons.1 he with h | h
    · rw [h]
      exact le_of_eq (compare_self_of hk _ hVpk)
    · exact (List.pairwise_cons.1 hD).1 e h
  have hlt : (es.take (L / 2 + 1)).length = L / 2 + 1 := by simp [List.length_take]; omega
  have hld : (es.drop (L / 2 + 1)).length = L - (L / 2 + 1) := by simp [hlen]
  by_cases hcmp : kt.compare key (n2.keyArray 0) < 0
  · have hkeylt : kt.compare key (leaf.keyArray (L / 2 + 1)) < 0 := by rwa [hpk] at hcmp
    obtain ⟨leaf', es', hins, hH, hperm, hpw, hmem, -, hsib⟩ :=
      insertLeaf_holds_sorted_of kt V hk L { n1 with rightSibPageNo := newPageNo }
        (es.take (L / 2 + 1)) m1 (by omega) key rid hr hVT hkey hT
    have e1 := liveEntries_of_holds L leaf' _ hH
    have e2 := liveEntries_of_holds L { n2 with rightSibPageNo := n1.rightSibPageNo } _ m2
    refine ⟨leaf', { n2 with rightSibPageNo := n1.rightSibPageNo }, n2.keyArray 0,
      ?_, ?_, ?_, hlen, ?_, ?_, ?_, ?_, ?_, rfl, ?_, ?_, ms1, hsib⟩
    · simp only [splitLeafNodes, hsm, hL0, if_false, if_pos hcmp, hins, bind, Except.bind, pure,
        Except.pure]
    · rw [e1]; exact hH
    · rw [e2]; exact m2
    · rw [e1, e2, List.pairwise_map]
      refine List.pairwise_append.2 ⟨hpw, hD, fun a ha b hb => ?_⟩
      have hb' := hge_drop b hb
      rcases hmem a ha with h | h
      · rw [h]
        exact hk.trans key _ b.1 hkey hVpk (hVD b hb) (Int.le_of_lt hkeylt) hb'
      · exact hTD a h b hb
    · rw [e1, e2]
      refine (hperm.append_right _).trans ?_
      rw [List.cons_append, List.take_append_drop]
    · rw [e1, hperm.length_eq, List.length_cons, hlt]; omega
    · rw [e2, hld]; omega
    · rw [e2, hld]; omega
    · intro e he
      rw [e1] at he
      rw [hpk]
      rcases hmem e he with h | h
      · rw [h]
        exact Int.le_of_lt hkeylt
      · exact hle_take e h
    · intro e he
      rw [e2] at he
      rw [hpk]
      exact hge_drop e he
  · have hkeyge : kt.compare (leaf.keyArray (L / 2 + 1)) key ≤ 0 := by
      rw [hpk] at hcmp
      exact compare_le_of_not_lt hk _ _ hkey hVpk hcmp
    obtain ⟨new', es', hins, hH, hperm, hpw, hmem, hhd, hsib⟩ :=
      insertLeaf_holds_sorted_of kt V hk L { n2 with rightSibPageNo := n1.rightSibPageNo }
        (es.drop (L / 2 + 1)) m2 (by omega) key rid hr hVD hkey hD
    have e1 := liveEntries_of_holds L { n1 with rightSibPageNo := newPageNo } _ m1
    have e2 := liveEntries_of_holds L new' _ hH
    have hlen' : es'.length = L - (L / 2 + 1) + 1 := by
      rw [hperm.length_eq, List.length_cons, hld]
    have hhead : new'.keyArray 0 = leaf.keyArray (L / 2 + 1) := by
      have h0 := (hH.2.1 0 (by omega)).1
      rw [← List.head?_eq_getElem?] at h0
      rcases hhd with ⟨h, hnlt⟩ | ⟨h, -, hlt'⟩
      · rw [h] at h0
        have hk0 : key = new'.keyArray 0 := congrArg Prod.fst (Option.some.inj h0)
        rw [← hk0]
        have hcase : ¬ kt.compare (leaf.keyArray (L / 2 + 1)) key < 0 :=
          hnlt _ (by rw [hdrop]; rfl)
        have h1 : kt.compare (leaf.keyArray (L / 2 + 1)) key = 0 := by omega
        exact (hk.eq_of_zero _ _ hVpk hkey h1).symm
      · rw [h, hdrop] at h0
        simp at h0
        exact h0.1.symm
    refine ⟨{ n1 with rightSibPageNo := newPageNo }, new', n2.keyArray 0,
      ?_, ?_, ?_, hlen, ?_, ?_, ?_, ?_, ?_, ?_, ?_, ?_, ?_, rfl⟩
    · simp only [splitLeafNodes, hsm, hL0, if_false, if_neg hcmp, hins, bind, Except.bind, pure,
        Except.pure]
    · rw [e1]; exact m1
    · rw [e2]; exact hH
    · rw [e1, e2, List.pairwise_map]
      refine List.pairwise_append.2 ⟨hT, hpw, fun a ha b hb => ?_⟩
      have ha' := hle_take a ha
      rcases hmem b hb with h | h
      · rw [h]
        exact hk.trans a.1 _ key (hVT a ha) hVpk hkey ha' hkeyge
      · exact hTD a ha b h
    · rw [e1, e2]
      refine (hperm.append_left _).trans ?_
      refine List.perm_middle.trans ?_
      rw [List.take_append_drop]
    · rw [e1, hlt]; omega
    · rw [e2, hlen']; omega
    · rw [e2, hlen']; omega
    · rw [hhead, hpk]
    · intro e he
      rw [e1] at he
      rw [hpk]
      exact hle_take e he
    · intro e he
      rw [e2] at he
      rw [hpk]
      rcases hmem e he with h | h
      · rw [h]; exact hkeyge
      · exact hge_drop e h
    · rw [hsib]; exact ms1

theorem intKey_casts : intKey.Casts := ⟨rfl, fun _ => rfl, rfl, fun _ => rfl⟩

theorem doubleKey_casts : doubleKey.Casts := ⟨rfl, fun _ => rfl, rfl, fun _ => rfl⟩

theorem stringKey_casts (f : List Nat → List Nat → Bool) : (stringKey f).Casts :=
  ⟨rfl, fun _ => rfl, rfl, fun _ => rfl⟩

/-- C17, amended: for every key type on whose values in `V` `compare` is a total
order and the key copy the identity, and whose casts read back what was
written (`intKey`, `doubleKey` without NaN, `stringKey` with the strings of
fewer than `STRINGSIZE` bytes), on an index with `leafOccupancy = L >= 3`, for
every full leaf stored on a page of the file whose keys are in `V` and sorted
(`compare(a, b) <= 0` for an earlier key `a` and a later key `b`) and every
incoming pair with its key in `V` and `rid.page_number != 0`, `splitLeaf`
returns normally, the new leaf being the zero-filled page just allocated, and
leaves two leaves such that: the live entries of `leaf` followed by those of
`new` are key-sorted and a permutation of the original `L` entries plus the
incoming pair; each node's live entries are dense, neither holds more than `L`
and `new` holds at least one; the returned key equals `new.keyArray[0]` after
the insertion, every key in `leaf` compares `<=` it and every key in `new`
compares `>=` it; `new.rightSibPageNo` is the former `leaf.rightSibPageNo` and
`leaf.rightSibPageNo` is the new page number. -/
theorem splitLeaf_sorted_partition {K : Type} (kt : KeyType K) (V : K → Prop)
    (hk : kt.OrderedOn V) (hc : kt.Casts) (s : BTreeIndex) (leafNo : Nat) (leaf : LeafNode K)
    (key : K) (rid : RecordId)
    (hL : 3 ≤ s.leafOccupancy) (hno : leafNo ≤ s.numPages)
    (hpage : s.pages leafNo = kt.ofLeaf leaf)
    (hfull : ∀ i, i < s.leafOccupancy → (leaf.ridArray i).page_number ≠ 0)
    (hV : ∀ i, i < s.leafOccupancy → V (leaf.keyArray i)) (hkey : V key)
    (hsorted : List.Pairwise (fun a b => kt.compare a b ≤ 0)
      ((liveEntries leaf s.leafOccupancy 0).map Prod.fst))
    (hr : rid.page_number ≠ 0) :
    ∃ leaf' new' pk,
      (splitLeaf kt leafNo ⟨rid, key⟩ s).1 = .ok ⟨s.numPages + 1, pk⟩ ∧
      (splitLeaf kt leafNo ⟨rid, key⟩ s).2.pages leafNo = kt.ofLeaf leaf' ∧
      (splitLeaf kt leafNo ⟨rid, key⟩ s).2.pages (s.numPages + 1) = kt.ofLeaf new' ∧
      leaf'.Holds s.leafOccupancy (liveEntries leaf' s.leafOccupancy 0) ∧
      new'.Holds s.leafOccupancy (liveEntries new' s.leafOccupancy 0) ∧
      (liveEntries leaf s.leafOccupancy 0).length = s.leafOccupancy ∧
      List.Pairwise (fun a b => kt.compare a b ≤ 0)
        ((liveEntries leaf' s.leafOccupancy 0 ++ liveEntries new' s.leafOccupancy 0).map
          Prod.fst) ∧
      (liveEntries leaf' s.leafOccupancy 0 ++ liveEntries new' s.leafOccupancy 0).Perm
        ((key, rid) :: liveEntries leaf s.leafOccupancy 0) ∧
      (liveEntries leaf' s.leafOccupancy 0).length ≤ s.leafOccupancy ∧
      (liveEntries new' s.leafOccupancy 0).length ≤ s.leafOccupancy ∧
      1 ≤ (liveEntries new' s.leafOccupancy 0).length ∧
      pk = new'.keyArray 0 ∧
      (∀ e ∈ liveEntries leaf' s.leafOccupancy 0, kt.compare e.1 pk ≤ 0) ∧
      (∀ e ∈ liveEntries new' s.leafOccupancy 0, kt.compare pk e.1 ≤ 0) ∧
      new'.rightSibPageNo = leaf.rightSibPageNo ∧ leaf'.rightSibPageNo = s.numPages + 1 := by
  obtain ⟨leaf', new', pk, hsplit, hrest⟩ :=
    splitLeafNodes_partition_of kt V hk s.leafOccupancy hL leaf (LeafNode.zero kt.zero)
      (s.numPages + 1) key rid hfull hV hkey hsorted (fun _ _ => rfl) hr
  have hne : ¬ leafNo = s.numPages + 1 := by omega
  have hne2 : ¬ s.numPages + 1 = leafNo := by omega
  refine ⟨leaf', new', pk, ?_, ?_, ?_, hrest⟩
  · simp [splitLeaf, M.run_bind, M.run_pure, allocPage, getThis, derefLeaf, liftE, storeLeaf,
      setThis, unPinPage, hne, hne2, hpage, hsplit, hc.asLeaf_ofLeaf, hc.asLeaf_blank,
      Function.update_apply]
  · simp [splitLeaf, M.run_bind, M.run_pure, allocPage, getThis, derefLeaf, liftE, storeLeaf,
      setThis, unPinPage, hne, hne2, hpage, hsplit, hc.asLeaf_ofLeaf, hc.asLeaf_blank,
      Function.update_apply]
  · simp [splitLeaf, M.run_bind, M.run_pure, allocPage, getThis, derefLeaf, liftE, storeLeaf,
      setThis, unPinPage, hne, hne2, hpage, hsplit, hc.asLeaf_ofLeaf, hc.asLeaf_blank,
      Function.update_apply]

/-- Instance of `splitLeaf_sorted_partition` on STRING keys: the full leaf with
keys "a", "b", "c" on page 4 of a four-page file with `leafOccupancy = 3`,
split by key "d". -/
theorem splitLeaf_sorted_partition_witness :
    (3 ≤ (stateWithPage .STRING 3 3 (.leafString
        (mkLeafOf [] [([97], ⟨1, 0⟩), ([98], ⟨2, 0⟩), ([99], ⟨3, 0⟩)] 0))).leafOccupancy ∧
      4 ≤ (stateWithPage .STRING 3 3 (.leafString
        (mkLeafOf [] [([97], ⟨1, 0⟩), ([98], ⟨2, 0⟩), ([99], ⟨3, 0⟩)] 0))).numPages ∧
      IsRow [100] ∧
      List.Pairwise (fun a b => (stringKey fun _ _ => false).compare a b ≤ 0)
        ((liveEntries (mkLeafOf [] [([97], ⟨1, 0⟩), ([98], ⟨2, 0⟩), ([99], ⟨3, 0⟩)] 0)
          3 0).map Prod.fst)) ∧
    ∃ leaf' new' pk,
      (splitLeaf (stringKey fun _ _ => false) 4 ⟨⟨4, 0⟩, [100]⟩
        (stateWithPage .STRING 3 3 (.leafString
          (mkLeafOf [] [([97], ⟨1, 0⟩), ([98], ⟨2, 0⟩), ([99], ⟨3, 0⟩)] 0)))).1
        = .ok ⟨5, pk⟩ ∧
      (splitLeaf (stringKey fun _ _ => false) 4 ⟨⟨4, 0⟩, [100]⟩
        (stateWithPage .STRING 3 3 (.leafString
          (mkLeafOf [] [([97], ⟨1, 0⟩), ([98], ⟨2, 0⟩), ([99], ⟨3, 0⟩)] 0)))).2.pages 4
        = .leafString leaf' ∧
      (splitLeaf (stringKey fun _ _ => false) 4 ⟨⟨4, 0⟩, [100]⟩
        (stateWithPage .STRING 3 3 (.leafString
          (mkLeafOf [] [([97], ⟨1, 0⟩), ([98], ⟨2, 0⟩), ([99], ⟨3, 0⟩)] 0)))).2.pages 5
        = .leafString new' ∧
      List.Pairwise (fun a b => (stringKey fun _ _ => false).compare a b ≤ 0)
        ((liveEntries leaf' 3 0 ++ liveEntries new' 3 0).map Prod.fst) ∧
      (liveEntries leaf' 3 0 ++ liveEntries new' 3 0).Perm
        (([100], ⟨4, 0⟩) ::
          liveEntries (mkLeafOf [] [([97], ⟨1, 0⟩), ([98], ⟨2, 0⟩), ([99], ⟨3, 0⟩)] 0) 3 0) ∧
      pk = new'.keyArray 0 ∧
      new'.rightSibPageNo = 0 ∧ leaf'.rightSibPageNo = 5 :=
  have h := splitLeaf_sorted_partition (stringKey fun _ _ => false) IsRow
    (stringKey_orderedOn _) (stringKey_casts _)
    (stateWithPage .STRING 3 3 (.leafString
      (mkLeafOf [] [([97], ⟨1, 0⟩), ([98], ⟨2, 0⟩), ([99], ⟨3, 0⟩)] 0))) 4
    (mkLeafOf [] [([97], ⟨1, 0⟩), ([98], ⟨2, 0⟩), ([99], ⟨3, 0⟩)] 0) [100] ⟨4, 0⟩
    (by decide) (by decide) rfl
    (by intro i hi
        have h3 : i < 3 := hi
        interval_cases i <;> decide)
    (by intro i hi
        have h3 : i < 3 := hi
        interval_cases i <;> exact ⟨by decide, by decide⟩)
    ⟨by decide, by decide⟩
    (by decide!) (by decide)
  ⟨⟨by decide, by decide, ⟨by decide, by decide⟩, by decide!⟩,
    h.elim fun leaf' h => h.elim fun new' h => h.elim fun pk hp =>
      ⟨leaf', new', pk, hp.1, hp.2.1, hp.2.2.1, hp.2.2.2.2.2.2.1, hp.2.2.2.2.2.2.2.1,
        hp.2.2.2.2.2.2.2.2.2.2.2.1, hp.2.2.2.2.2.2.2.2.2.2.2.2.2.2.1,
        hp.2.2.2.2.2.2.2.2.2.2.2.2.2.2.2⟩⟩

/-! ## Filling the root leaf and promoting the root, any key type -/

theorem splitLeafMove_key0 {K : Type} (kt : KeyType K) (L : Nat) (hL : 3 ≤ L)
    (leaf new : LeafNode K) :
    (splitLeafMove kt (L / 2 + 1) (L - (L / 2 + 1)) (L / 2 + 1) leaf new).2.keyArray 0 =
      kt.assign (leaf.keyArray (L / 2 + 1)) := by
  obtain ⟨-, -, -, -, a5, -⟩ :=
    splitLeafMove_spec kt (L / 2 + 1) (L - (L / 2 + 1)) (L / 2 + 1) leaf new le_rfl
  have c : L / 2 + 1 - (L / 2 + 1) ≤ 0 ∧ 0 < L / 2 + 1 - (L / 2 + 1) + (L - (L / 2 + 1)) := by
    omega
  rw [a5 0, if_pos c, Nat.zero_add]

theorem splitLeafNodes_key {K : Type} (kt : KeyType K) (L : Nat) (hL : 3 ≤ L)
    (leaf new : LeafNode K) (newPageNo : Nat) (pair : RIDKeyPair K)
    (r : LeafNode K × LeafNode K × PageKeyPair K)
    (h : splitLeafNodes kt L leaf new newPageNo pair = .ok r) :
    r.2.2.key = kt.assign (leaf.keyArray (L / 2 + 1)) := by
  have hkey := splitLeafMove_key0 kt L hL leaf new
  unfold splitLeafNodes at h
  simp only [bind, Except.bind, pure, Except.pure] at h
  repeat' split at h
  all_goals first
    | (simp at h; done)
    | (have h' := Except.ok.inj h; rw [← h']; exact hkey)

theorem insertEntryT_rootLeafOf_step {K : Type} (kt : KeyType K) (V : K → Prop)
    (hk : kt.OrderedOn V) (hc : kt.Casts) (L N : Nat) (es : List (K × RecordId))
    (s : BTreeIndex) (key : K) (rid : RecordId) (hs : RootLeafOf kt V L N es s)
    (hlt : es.length < L) (hkey : V key) (hr : rid.page_number ≠ 0) :
    ∃ s' es', insertEntryT kt key rid s = (.ok (), s') ∧ RootLeafOf kt V L N es' s' ∧
      es'.length = es.length + 1 ∧ s'.attributeType = s.attributeType ∧
      s'.addrLess = s.addrLess := by
  obtain ⟨hL, hN, honly, hroot, hhead, hnum, ⟨m, hm⟩, hV, hsorted, leaf, hleaf, hh, hd⟩ := hs
  obtain ⟨leaf', es', hins, hH, hperm, hpw, hmem, -, -⟩ :=
    insertLeaf_holds_sorted_of kt V hk L leaf es hh hlt key rid hr hV hkey hsorted
  obtain ⟨leaf2, hins2, hd2, -, -⟩ := insertLeaf_dense kt L es.length leaf ⟨rid, key⟩ hd hlt
  have hsame : leaf2 = leaf' := by
    rw [hins] at hins2
    exact (Except.ok.inj hins2).symm
  have hlen' : es'.length = es.length + 1 := by rw [hperm.length_eq, List.length_cons]
  have hL0 : L ≠ 0 := by omega
  have hfree : (leaf.ridArray (L - 1)).page_number = 0 := hh.2.2 _ (by omega) (by omega)
  have heq : insertEntryT kt key rid s = (.ok (), { s with
      pinCnt := Function.update (Function.update s.pinCnt 2 (s.pinCnt 2 + 1)) 2
        (Function.update s.pinCnt 2 (s.pinCnt 2 + 1) 2 - 1)
      pages := Function.update s.pages 2 (kt.ofLeaf leaf') }) := by
    simp [insertEntryT, M.run_bind, M.run_pure, getThis, honly, hroot,
      readPage, hnum, derefLeaf, hleaf, hc.asLeaf_ofLeaf, hL, hL0, hfree, liftE, hins, storeLeaf,
      setThis, unPinPage, raise]
  refine ⟨_, es', heq, ⟨hL, hN, honly, hroot, hhead, hnum, ⟨m, ?_⟩, ?_, hpw, leaf', ?_, hH, ?_⟩,
    hlen', rfl, rfl⟩
  · simp [Function.update_apply, hm]
  · intro e he
    rcases hmem e he with h | h
    · rw [h]; exact hkey
    · exact hV e h
  · simp
  · rw [hlen', ← hsame]
    exact hd2 hr

theorem insertEntryT_rootLeafOf_full {K : Type} (kt : KeyType K) (V : K → Prop)
    (hk : kt.OrderedOn V) (hc : kt.Casts) (L N : Nat) (hL3 : 3 ≤ L) (hN1 : 1 ≤ N)
    (es : List (K × RecordId)) (s : BTreeIndex) (key : K) (rid : RecordId)
    (hs : RootLeafOf kt V L N es s) (hfull : es.length = L) (hkey : V key) :
    ∃ root newLeaf m,
      (insertEntryT kt key rid s).1 = .ok () ∧
      (insertEntryT kt key rid s).2.onlyRoot = false ∧
      (insertEntryT kt key rid s).2.rootPageNum = 4 ∧
      (insertEntryT kt key rid s).2.numPages = 4 ∧
      (insertEntryT kt key rid s).2.pages 4 = kt.ofNonLeaf root ∧
      (insertEntryT kt key rid s).2.pages 3 = kt.ofLeaf newLeaf ∧
      (insertEntryT kt key rid s).2.pages 1 = .header m ∧
      m.rootPageNo = 4 ∧
      root.level = 1 ∧ root.pageNoArray 0 = 2 ∧ root.pageNoArray 1 = 3 ∧
      (∀ i, 2 ≤ i → root.pageNoArray i = 0) ∧
      root.keyArray 0 = newLeaf.keyArray 0 := by
  obtain ⟨hL, hN, honly, hroot, hhead, hnum, ⟨m, hm⟩, hV, hsorted, leaf, hleaf, hh, hd⟩ := hs
  rw [hfull] at hd
  obtain ⟨leaf', new', pk, hsplit, hkeys⟩ :=
    splitLeafNodes_full kt L hL3 leaf (LeafNode.zero kt.zero) hd (zeroLeaf_dense kt.zero) 3
      ⟨rid, key⟩
  have hpk : pk = kt.assign (leaf.keyArray (L / 2 + 1)) :=
    splitLeafNodes_key kt L hL3 leaf (LeafNode.zero kt.zero) 3 ⟨rid, key⟩ _ hsplit
  have hVhalf : V (leaf.keyArray (L / 2 + 1)) := by
    have h1 := (hh.2.1 (L / 2 + 1) (by omega)).1
    exact hV _ (List.mem_iff_getElem?.2 ⟨_, h1⟩)
  have hVpk : V pk := by
    rw [hpk, hk.assign_eq _ hVhalf]
    exact hVhalf
  have hL0 : L ≠ 0 := by omega
  have hN0 : N ≠ 0 := by omega
  have hfullL : (leaf.ridArray (L - 1)).page_number ≠ 0 := hd.1 _ (by omega)
  have hrun : insertEntryT kt key rid s = (.ok (), { s with
      pages :=
        Function.update
          (Function.update
            (Function.update
              (Function.update (Function.update s.pages 3 Page.blank) 2 (kt.ofLeaf leaf')) 3
              (kt.ofLeaf new'))
            4
            (kt.ofNonLeaf
              { level := 1
                keyArray := Function.update (NonLeafNode.zero kt.zero).keyArray 0 pk
                pageNoArray :=
                  Function.update (Function.update (NonLeafNode.zero kt.zero).pageNoArray 0 2)
                    1 3 }))
          1 (Page.header { m with rootPageNo := 4 })
      numPages := 4
      pinCnt :=
        Function.update
          (Function.update
            (Function.update
              (Function.update (Function.update s.pinCnt 2 (s.pinCnt 2 + 1)) 3 (s.pinCnt 3)) 4
              (s.pinCnt 4))
            1 (s.pinCnt 1))
          2 (s.pinCnt 2)
      rootPageNum := 4
      onlyRoot := false }) := by
    simp [insertEntryT, M.run_bind, M.run_pure, getThis, honly, hroot,
      readPage, hnum, derefLeaf, hleaf, hL, hL0, hfullL, liftE, storeLeaf, setThis,
      unPinPage, raise, splitLeaf, allocPage, createNewRoot, derefNonLeaf,
      storeNonLeaf, derefMeta, hN, hN0, hhead, hm, hsplit, hc.asLeaf_ofLeaf,
      hc.asLeaf_blank, hc.asNonLeaf_blank, Function.update_apply, hk.assign_eq pk hVpk]
  rw [hrun]
  refine ⟨{ level := 1
            keyArray := Function.update (NonLeafNode.zero kt.zero).keyArray 0 pk
            pageNoArray :=
              Function.update (Function.update (NonLeafNode.zero kt.zero).pageNoArray 0 2) 1 3 },
    new', { m with rootPageNo := 4 }, rfl, rfl, rfl, rfl, ?_, ?_, ?_, rfl, rfl, ?_, ?_,
    ?_, ?_⟩
  · simp [Function.update_apply]
  · simp [Function.update_apply]
  · simp [Function.update_apply]
  · simp [Function.update_apply]
  · simp [Function.update_apply]
  · intro i hi
    have h0 : i ≠ 0 := by omega
    have h1 : i ≠ 1 := by omega
    simp [Function.update_apply, h0, h1, NonLeafNode.zero]
  · simp only [Function.update_same]
    rcases hkeys with h | ⟨h1, h2, h3⟩
    · exact h.symm
    · rw [h1, hk.assign_eq _ hkey]
      have h4 : kt.compare pk key ≤ 0 := compare_le_of_not_lt hk key pk hkey hVpk h3
      have h5 : kt.compare pk key = 0 := by
        have h2' : kt.compare pk key ≥ 0 := h2
        omega
      exact hk.eq_of_zero pk key hVpk hkey h5

theorem insertAll_rootLeafOf {K : Type} (kt : KeyType K) (V : K → Prop)
    (hk : kt.OrderedOn V) (hc : kt.Casts) (ty : Datatype) (f : List Nat → List Nat → Bool)
    (hdisp : ∀ (s : BTreeIndex) (key : KeyArg) (rid : RecordId), s.attributeType = ty →
      s.addrLess = f → key.Fits ty → ∃ k, V k ∧ insertEntry key rid s = insertEntryT kt k rid s)
    (L N : Nat) (recs : List (KeyArg × RecordId)) (es : List (K × RecordId)) (s : BTreeIndex)
    (hs : RootLeafOf kt V L N es s) (hty : s.attributeType = ty) (hf : s.addrLess = f)
    (hlen : es.length + recs.length ≤ L) (hrid : ∀ r ∈ recs, r.2.page_number ≠ 0)
    (hfit : ∀ r ∈ recs, r.1.Fits ty) :
    ∃ s' es', insertAll recs s = (.ok (), s') ∧ RootLeafOf kt V L N es' s' ∧
      es'.length = es.length + recs.length ∧ s'.attributeType = ty ∧ s'.addrLess = f := by
  induction recs generalizing es s with
  | nil => exact ⟨s, es, rfl, hs, rfl, hty, hf⟩
  | cons r recs ih =>
    have hlt : es.length < L := by simp at hlen; omega
    obtain ⟨k, hVk, hd⟩ := hdisp s r.1 r.2 hty hf (hfit r (List.mem_cons_self _ _))
    obtain ⟨s1, es1, h1, hs1, hl1, ht1, hf1⟩ :=
      insertEntryT_rootLeafOf_step kt V hk hc L N es s k r.2 hs hlt hVk
        (hrid r (List.mem_cons_self _ _))
    obtain ⟨s2, es2, h2, hs2, hl2, ht2, hf2⟩ := ih es1 s1 hs1 (ht1.trans hty) (hf1.trans hf)
      (by simp at hlen ⊢; omega) (fun x hx => hrid x (List.mem_cons_of_mem _ hx))
      (fun x hx => hfit x (List.mem_cons_of_mem _ hx))
    refine ⟨s2, es2, ?_, hs2, ?_, ht2, hf2⟩
    · show (insertEntry r.1 r.2 >>= fun _ => insertAll recs) s = _
      rw [M.bind_of_ok (hd ▸ h1)]
      exact h2
    · rw [hl2, hl1]; simp; omega

theorem rootLeafOf_fill_then_promote {K : Type} (kt : KeyType K) (V : K → Prop)
    (hk : kt.OrderedOn V) (hc : kt.Casts) (toArg : K → KeyArg)
    (hleaf : ∀ (n : LeafNode K) (i : Nat),
      (kt.ofLeaf n).leafEntry i = some (toArg (n.keyArray i), n.ridArray i))
    (hlevel : ∀ n : NonLeafNode K, (kt.ofNonLeaf n).nodeLevel = some n.level)
    (hptr : ∀ (n : NonLeafNode K) (i : Nat), (kt.ofNonLeaf n).nodePtr i = some (n.pageNoArray i))
    (hnkey : ∀ (n : NonLeafNode K) (i : Nat),
      (kt.ofNonLeaf n).nodeKey i = some (toArg (n.keyArray i)))
    (ty : Datatype) (f : List Nat → List Nat → Bool)
    (hdisp : ∀ (s : BTreeIndex) (key : KeyArg) (rid : RecordId), s.attributeType = ty →
      s.addrLess = f → key.Fits ty → ∃ k, V k ∧ insertEntry key rid s = insertEntryT kt k rid s)
    (L N : Nat) (hL : 3 ≤ L) (hN : 1 ≤ N) (s0 : BTreeIndex)
    (hs0 : RootLeafOf kt V L N [] s0) (hty : s0.attributeType = ty) (hf : s0.addrLess = f)
    (recs : List (KeyArg × RecordId)) (hlen : recs.length = L)
    (hrid : ∀ r ∈ recs, r.2.page_number ≠ 0) (hfit : ∀ r ∈ recs, r.1.Fits ty)
    (key : KeyArg) (hkey : key.Fits ty) (rid : RecordId) :
    ((insertAll recs s0).1 = .ok () ∧
      (insertAll recs s0).2.onlyRoot = true ∧
      (insertAll recs s0).2.rootPageNum = 2 ∧
      (insertAll recs s0).2.numPages = 2 ∧
      ∃ e, ((insertAll recs s0).2.pages 2).leafEntry (L - 1) = some e ∧ e.2.page_number ≠ 0) ∧
    ((insertEntry key rid (insertAll recs s0).2).1 = .ok () ∧
      (insertEntry key rid (insertAll recs s0).2).2.onlyRoot = false ∧
      (insertEntry key rid (insertAll recs s0).2).2.numPages = 4 ∧
      (insertEntry key rid (insertAll recs s0).2).2.rootPageNum = 4 ∧
      ((insertEntry key rid (insertAll recs s0).2).2.pages 4).nodeLevel = some 1 ∧
      ((insertEntry key rid (insertAll recs s0).2).2.pages 4).nodePtr 0 = some 2 ∧
      ((insertEntry key rid (insertAll recs s0).2).2.pages 4).nodePtr 1 = some 3 ∧
      (∃ e, ((insertEntry key rid (insertAll recs s0).2).2.pages 3).leafEntry 0 = some e ∧
        ((insertEntry key rid (insertAll recs s0).2).2.pages 4).nodeKey 0 = some e.1) ∧
      ∀ i, 2 ≤ i → ((insertEntry key rid (insertAll recs s0).2).2.pages 4).nodePtr i = some 0) := by
  obtain ⟨s1, es1, h1, hs1, hl1, ht1, hf1⟩ :=
    insertAll_rootLeafOf kt V hk hc ty f hdisp L N recs [] s0 hs0 hty hf
      (by simp; omega) hrid hfit
  simp only [List.length_nil, Nat.zero_add] at hl1
  obtain ⟨k, hVk, hd⟩ := hdisp s1 key rid ht1 hf1 hkey
  obtain ⟨root, newLeaf, m, a1, a2, a3, a4, a5, a6, -, -, a9, a10, a11, a12, a13⟩ :=
    insertEntryT_rootLeafOf_full kt V hk hc L N hL hN es1 s1 k rid hs1 (hl1.trans hlen) hVk
  rw [h1, hd]
  obtain ⟨-, -, honly, hroot, -, hnum, -, -, -, leaf, hpage, -, hdense⟩ := hs1
  refine ⟨⟨rfl, honly, hroot, hnum, (toArg (leaf.keyArray (L - 1)), leaf.ridArray (L - 1)),
      ?_, ?_⟩, a1, a2, a4, a3, ?_, ?_, ?_,
    ⟨(toArg (newLeaf.keyArray 0), newLeaf.ridArray 0), ?_, ?_⟩, ?_⟩
  · show (s1.pages 2).leafEntry (L - 1) = _
    rw [hpage, hleaf]
  · exact hdense.1 _ (by omega)
  · rw [a5, hlevel, a9]
  · rw [a5, hptr, a10]
  · rw [a5, hptr, a11]
  · rw [a6, hleaf]
  · rw [a5, hnkey, a13]
  · intro i hi
    rw [a5, hptr, a12 i hi]

theorem newIndex_double_eq (L N : Nat) :
    newIndex .DOUBLE L N = { BTreeIndex.initial .DOUBLE 0 L N with
      onlyRoot := true
      headerPageNum := 1
      rootPageNum := 2
      numPages := 2
      pages := Function.update (Function.update (fun _ => Page.blank) 1
        (Page.header ⟨[], 0, .DOUBLE, 2⟩)) 2 (Page.leafDouble (LeafNode.zero 0))
      pinCnt := fun _ => 0 } := by
  simp [newIndex, createIndex, M.run_bind, M.run_pure, setThis, allocPage, getThis,
      derefLeaf, storeLeaf, unPinPage, insertAll, BTreeIndex.initial, Function.update_apply,
      doubleKey]
  refine ⟨rfl, ?_⟩
  funext x
  simp only [Function.update_apply]
  split_ifs <;> rfl

theorem newIndex_string_eq (L N : Nat) :
    newIndex .STRING L N = { BTreeIndex.initial .STRING 0 L N with
      onlyRoot := true
      headerPageNum := 1
      rootPageNum := 2
      numPages := 2
      pages := Function.update (Function.update (fun _ => Page.blank) 1
        (Page.header ⟨[], 0, .STRING, 2⟩)) 2 (Page.leafString (LeafNode.zero []))
      pinCnt := fun _ => 0 } := by
  simp [newIndex, createIndex, M.run_bind, M.run_pure, setThis, allocPage, getThis,
      derefLeaf, storeLeaf, unPinPage, insertAll, BTreeIndex.initial, Function.update_apply,
      stringKey]
  refine ⟨rfl, ?_⟩
  funext x
  simp only [Function.update_apply]
  split_ifs <;> rfl

theorem zeroLeaf_holds {K : Type} (z : K) (L : Nat) : (LeafNode.zero z).Holds L [] := by
  refine ⟨Nat.zero_le _, ?_, ?_⟩
  · intro i hi
    exact absurd hi (Nat.not_lt_zero _)
  · intro i _ _
    rfl

theorem newIndex_int_rootLeafOf (f : List Nat → List Nat → Bool) (L N : Nat) :
    RootLeafOf intKey (fun _ => True) L N [] (withAddrLess f (newIndex .INTEGER L N)) := by
  rw [newIndex_int_eq]
  exact ⟨rfl, rfl, rfl, rfl, rfl, rfl, ⟨⟨[], 0, .INTEGER, 2⟩, rfl⟩, fun _ h => absurd h (List.not_mem_nil _),
    List.Pairwise.nil, LeafNode.zero 0, rfl, zeroLeaf_holds 0 L, zeroLeaf_dense 0⟩

theorem newIndex_double_rootLeafOf (f : List Nat → List Nat → Bool) (L N : Nat) :
    RootLeafOf doubleKey (fun a => a ≠ .nan) L N [] (withAddrLess f (newIndex .DOUBLE L N)) := by
  rw [newIndex_double_eq]
  exact ⟨rfl, rfl, rfl, rfl, rfl, rfl, ⟨⟨[], 0, .DOUBLE, 2⟩, rfl⟩, fun _ h => absurd h (List.not_mem_nil _),
    List.Pairwise.nil, LeafNode.zero 0, rfl, zeroLeaf_holds 0 L, zeroLeaf_dense 0⟩

theorem newIndex_string_rootLeafOf (f : List Nat → List Nat → Bool) (L N : Nat) :
    RootLeafOf (stringKey f) IsRow L N [] (withAddrLess f (newIndex .STRING L N)) := by
  rw [newIndex_string_eq]
  exact ⟨rfl, rfl, rfl, rfl, rfl, rfl, ⟨⟨[], 0, .STRING, 2⟩, rfl⟩, fun _ h => absurd h (List.not_mem_nil _),
    List.Pairwise.nil, LeafNode.zero [], rfl, zeroLeaf_holds [] L, zeroLeaf_dense []⟩

theorem newIndex_attributeType (ty : Datatype) (L N : Nat) :
    (newIndex ty L N).attributeType = ty := by
  cases ty
  · rw [newIndex_int_eq]; rfl
  · rw [newIndex_double_eq]; rfl
  · rw [newIndex_string_eq]; rfl

theorem insertEntry_int_dispatch (f : List Nat → List Nat → Bool) (s : BTreeIndex)
    (key : KeyArg) (rid : RecordId) (hty : s.attributeType = .INTEGER) (_hf : s.addrLess = f)
    (hkey : key.Fits .INTEGER) :
    ∃ k, (fun _ : Int => True) k ∧ insertEntry key rid s = insertEntryT intKey k rid s := by
  cases key with
  | int v =>
    refine ⟨v, trivial, ?_⟩
    simp [insertEntry, M.run_bind, getThis, hty]
  | double v => exact absurd (show Datatype.INTEGER = .DOUBLE from hkey.1) (by decide)
  | string b => exact absurd (show Datatype.INTEGER = .STRING from hkey) (by decide)

theorem insertEntry_double_dispatch (f : List Nat → List Nat → Bool) (s : BTreeIndex)
    (key : KeyArg) (rid : RecordId) (hty : s.attributeType = .DOUBLE) (_hf : s.addrLess = f)
    (hkey : key.Fits .DOUBLE) :
    ∃ k, (fun a : Double => a ≠ .nan) k ∧
      insertEntry key rid s = insertEntryT doubleKey k rid s := by
  cases key with
  | int v => exact absurd (show Datatype.DOUBLE = .INTEGER from hkey) (by decide)
  | double v =>
    refine ⟨v, hkey.2, ?_⟩
    simp [insertEntry, M.run_bind, getThis, hty]
  | string b => exact absurd (show Datatype.DOUBLE = .STRING from hkey) (by decide)

theorem insertEntry_string_dispatch (f : List Nat → List Nat → Bool) (s : BTreeIndex)
    (key : KeyArg) (rid : RecordId) (hty : s.attributeType = .STRING) (hf : s.addrLess = f)
    (hkey : key.Fits .STRING) :
    ∃ k, IsRow k ∧ insertEntry key rid s = insertEntryT (stringKey f) k rid s := by
  cases key with
  | int v => exact absurd (show Datatype.STRING = .INTEGER from hkey) (by decide)
  | double v => exact absurd (show Datatype.STRING = .DOUBLE from hkey.1) (by decide)
  | string b =>
    refine ⟨snprintfS b, snprintfS_isRow b, ?_⟩
    simp [insertEntry, M.run_bind, getThis, hty, hf]

/-- C10, amended: for every attribute type, every `leafOccupancy` `L >= 3` (and
`nodeOccupancy >= 1`) and every address order of the key buffers, on a freshly
created index (root leaf on page 2, two pages allocated), with keys of the
type of the index none of which is a NaN: after any `L` `insertEntry` calls
with record identifiers of nonzero page number the calls have returned
normally, `onlyRoot` is still true, `rootPageNum` and the number of allocated
pages are unchanged and the root leaf is full; after any further `insertEntry`,
`onlyRoot` is false, two pages have been allocated, and `rootPageNum` is the
second of them, an internal node of level 1 whose child 0 is the old root
leaf, whose child 1 is the other new page, a leaf whose first key is
`keyArray[0]` of the root, and whose other child pointers are 0. -/
theorem rootLeaf_fill_then_promote (ty : Datatype) (f : List Nat → List Nat → Bool)
    (L N : Nat) (hL : 3 ≤ L) (hN : 1 ≤ N)
    (recs : List (KeyArg × RecordId)) (hlen : recs.length = L)
    (hrid : ∀ r ∈ recs, r.2.page_number ≠ 0) (hfit : ∀ r ∈ recs, r.1.Fits ty)
    (key : KeyArg) (hkey : key.Fits ty) (rid : RecordId) :
    ((withAddrLess f (newIndex ty L N)).onlyRoot = true ∧
      (withAddrLess f (newIndex ty L N)).rootPageNum = 2 ∧
      (withAddrLess f (newIndex ty L N)).numPages = 2) ∧
    ((insertAll recs (withAddrLess f (newIndex ty L N))).1 = .ok () ∧
      (insertAll recs (withAddrLess f (newIndex ty L N))).2.onlyRoot = true ∧
      (insertAll recs (withAddrLess f (newIndex ty L N))).2.rootPageNum = 2 ∧
      (insertAll recs (withAddrLess f (newIndex ty L N))).2.numPages = 2 ∧
      ∃ e, ((insertAll recs (withAddrLess f (newIndex ty L N))).2.pages 2).leafEntry (L - 1)
          = some e ∧ e.2.page_number ≠ 0) ∧
    ((insertEntry key rid (insertAll recs (withAddrLess f (newIndex ty L N))).2).1 = .ok () ∧
      (insertEntry key rid
        (insertAll recs (withAddrLess f (newIndex ty L N))).2).2.onlyRoot = false ∧
      (insertEntry key rid
        (insertAll recs (withAddrLess f (newIndex ty L N))).2).2.numPages = 4 ∧
      (insertEntry key rid
        (insertAll recs (withAddrLess f (newIndex ty L N))).2).2.rootPageNum = 4 ∧
      ((insertEntry key rid
        (insertAll recs (withAddrLess f (newIndex ty L N))).2).2.pages 4).nodeLevel = some 1 ∧
      ((insertEntry key rid
        (insertAll recs (withAddrLess f (newIndex ty L N))).2).2.pages 4).nodePtr 0 = some 2 ∧
      ((insertEntry key rid
        (insertAll recs (withAddrLess f (newIndex ty L N))).2).2.pages 4).nodePtr 1 = some 3 ∧
      (∃ e, ((insertEntry key rid
          (insertAll recs (withAddrLess f (newIndex ty L N))).2).2.pages 3).leafEntry 0
            = some e ∧
        ((insertEntry key rid
          (insertAll recs (withAddrLess f (newIndex ty L N))).2).2.pages 4).nodeKey 0
            = some e.1) ∧
      ∀ i, 2 ≤ i → ((insertEntry key rid
        (insertAll recs (withAddrLess f (newIndex ty L N))).2).2.pages 4).nodePtr i = some 0) := by
  have hty : (withAddrLess f (newIndex ty L N)).attributeType = ty := newIndex_attributeType ty L N
  cases ty with
  | INTEGER =>
    have h0 := newIndex_int_rootLeafOf f L N
    exact ⟨⟨h0.2.2.1, h0.2.2.2.1, h0.2.2.2.2.2.1⟩,
      rootLeafOf_fill_then_promote intKey (fun _ => True) intKey_orderedOn intKey_casts KeyArg.int
        (fun _ _ => rfl) (fun _ => rfl) (fun _ _ => rfl) (fun _ _ => rfl) .INTEGER f
        (insertEntry_int_dispatch f) L N hL hN _ h0 hty rfl recs hlen hrid hfit key hkey rid⟩
  | DOUBLE =>
    have h0 := newIndex_double_rootLeafOf f L N
    exact ⟨⟨h0.2.2.1, h0.2.2.2.1, h0.2.2.2.2.2.1⟩,
      rootLeafOf_fill_then_promote doubleKey (fun a => a ≠ .nan) doubleKey_orderedOn
        doubleKey_casts KeyArg.double
        (fun _ _ => rfl) (fun _ => rfl) (fun _ _ => rfl) (fun _ _ => rfl) .DOUBLE f
        (insertEntry_double_dispatch f) L N hL hN _ h0 hty rfl recs hlen hrid hfit key hkey rid⟩
  | STRING =>
    have h0 := newIndex_string_rootLeafOf f L N
    exact ⟨⟨h0.2.2.1, h0.2.2.2.1, h0.2.2.2.2.2.1⟩,
      rootLeafOf_fill_then_promote (stringKey f) IsRow (stringKey_orderedOn f)
        (stringKey_casts f) KeyArg.string
        (fun _ _ => rfl) (fun _ => rfl) (fun _ _ => rfl) (fun _ _ => rfl) .STRING f
        (insertEntry_string_dispatch f) L N hL hN _ h0 hty rfl recs hlen hrid hfit key hkey rid⟩

/-- Instance of `rootLeaf_fill_then_promote` on a DOUBLE index: `L = N = 3`,
keys 1.0, 2.0, 3.0 and then key 4.0. -/
theorem rootLeaf_fill_then_promote_witness :
    ((3 ≤ 3 ∧ 1 ≤ 3) ∧
      ((numberedD [1, 2, 3]).length = 3 ∧
        (∀ r ∈ numberedD [1, 2, 3], r.2.page_number ≠ 0) ∧
        (∀ r ∈ numberedD [1, 2, 3], r.1.Fits .DOUBLE) ∧ (KeyArg.double 4).Fits .DOUBLE)) ∧
    (insertAll (numberedD [1, 2, 3])
      (withAddrLess (fun _ _ => false) (newIndex .DOUBLE 3 3))).2.onlyRoot = true ∧
    (insertEntry (.double 4) ⟨4, 0⟩ (insertAll (numberedD [1, 2, 3])
      (withAddrLess (fun _ _ => false) (newIndex .DOUBLE 3 3))).2).2.onlyRoot = false ∧
    nodeViewD (insertEntry (.double 4) ⟨4, 0⟩ (insertAll (numberedD [1, 2, 3])
      (withAddrLess (fun _ _ => false) (newIndex .DOUBLE 3 3))).2).2 4 1 = some ([3], [2, 3]) :=
  have hr : ∀ r ∈ numberedD [1, 2, 3], r.2.page_number ≠ 0 := by
    simp [numberedD, List.range, List.range.loop]
  have hf : ∀ r ∈ numberedD [1, 2, 3], r.1.Fits .DOUBLE := by
    simp [numberedD, List.range, List.range.loop, KeyArg.Fits]
  have hk : (KeyArg.double 4).Fits .DOUBLE := ⟨rfl, by decide⟩
  have h := rootLeaf_fill_then_promote .DOUBLE (fun _ _ => false) 3 3 (by decide) (by decide)
    (numberedD [1, 2, 3]) rfl hr hf (.double 4) hk ⟨4, 0⟩
  ⟨⟨by decide, rfl, hr, hf, hk⟩, h.2.1.2.1, h.2.2.2.1, by decide!⟩

end badgerdb
